import Mathlib

/-!
# bigint: the magnitude kernel of `src/bigint.cpp`

Limbs (`limb_t`, 32 bits) are naturals below `base`; a C `int` is an `Int`.
A buffer reached through a pointer is a `List Nat`: `rd p i` is the read `p[i]`
and `wr p i v` the write `p[i] = v`.  A function that writes through a pointer
takes the buffer as it is on entry and returns it as it is on exit.
-/

namespace bigint

/-! ## Definitions -/

/-- The constant `base` of the source: `1 << 32`, one more than the largest limb. -/
def base : Nat := 2 ^ 32

/-- The natural number a little-endian limb sequence stands for. -/
def value : List Nat → Nat
  | [] => 0
  | d :: ds => d + base * value ds

/-- Normal form of a magnitude: at least one limb, every limb a `limb_t`,
and the last limb non-zero unless the length is 1. -/
def normal_form (d : List Nat) : Prop :=
  0 < d.length ∧ (∀ x ∈ d, x < base) ∧ (d.length = 1 ∨ d.getD (d.length - 1) 0 ≠ 0)

instance (d : List Nat) : Decidable (normal_form d) := by
  unfold normal_form
  infer_instance

/-- The read `p[i]`. -/
def rd (p : List Nat) (i : Nat) : Nat := p.getD i 0

/-- The write `p[i] = v`. -/
def wr (p : List Nat) (i : Nat) (v : Nat) : List Nat := p.set i v

/-- The loop `for (i = lo; i < lo + n; ++i) s = body i s`. -/
def for_up {σ : Type} (body : Nat → σ → σ) : Nat → Nat → σ → σ
  | _, 0, s => s
  | lo, n + 1, s => for_up body (lo + 1) n (body lo s)

/-- The loop `for (i = n - 1; i >= 0; --i) s = body i s`. -/
def for_down {σ : Type} (body : Nat → σ → σ) : Nat → σ → σ
  | 0, s => s
  | i + 1, s => for_down body i (body i s)

/-- Subtraction of two `limb_t` values, wrapping modulo `base`. -/
def wrap_sub (a b : Nat) : Nat := (a + (base - b % base)) % base

/-- The loop of `compare` (bigint.cpp:448-454), entered with `i + 1` limbs left:
`i` runs from `lhs_size - 1` down to `0`. -/
def compare_loop (lhs rhs : List Nat) : Nat → Int
  | 0 => 0
  | i + 1 =>
    if rd lhs i > rd rhs i then 1
    else if rd lhs i < rd rhs i then -1
    else compare_loop lhs rhs i

/-- `compare` (bigint.cpp:442-456). -/
def compare (lhs rhs : List Nat) (lhs_size rhs_size : Int) : Int :=
  if lhs_size > rhs_size then 1
  else if lhs_size < rhs_size then -1
  else compare_loop lhs rhs lhs_size.toNat

/-- The body of the first loop of `add` (bigint.cpp:475-479) on the limbs
`l = lhs[size]`, `r = rhs[size]`: the digit written and the carry out. -/
def add_limb (l r carry : Nat) : Nat × Nat :=
  let digit := (l + carry) % base
  let carry := if digit < carry then 1 else 0
  let digit := (digit + r) % base
  let carry := if digit < r then 1 else carry
  (digit, carry)

/-- The body of the second loop of `add` (bigint.cpp:485-487). -/
def add_carry (l carry : Nat) : Nat × Nat :=
  let digit := (l + carry) % base
  let carry := if digit < carry then 1 else 0
  (digit, carry)

/-- The loops of `add` and its return (bigint.cpp:470-494), entered after the
swap with `lhs_size >= rhs_size`. -/
def add_loops (result lhs rhs : List Nat) (lhs_size rhs_size : Int) : List Nat × Int :=
  -- while (size < rhs_size): size = 0 .. rhs_size - 1
  let n1 := rhs_size.toNat
  let s1 := for_up (fun size (s : List Nat × Nat) =>
      let dc := add_limb (rd lhs size) (rd rhs size) s.2
      (wr s.1 size dc.1, dc.2)) 0 n1 (result, 0)
  -- while (size < lhs_size): size = rhs_size .. lhs_size - 1
  let n2 := lhs_size.toNat - n1
  let s2 := for_up (fun size (s : List Nat × Nat) =>
      let dc := add_carry (rd lhs size) s.2
      (wr s.1 size dc.1, dc.2)) n1 n2 s1
  let size := n1 + n2
  let carry := s2.2
  let result1 := if carry > 0 then wr s2.1 size carry else s2.1
  (result1, (size : Int) + carry)

/-- `add` (bigint.cpp:458-495): the result buffer on exit and the size returned. -/
def add (result lhs rhs : List Nat) (lhs_size rhs_size : Int) : List Nat × Int :=
  if lhs_size < rhs_size then add_loops result rhs lhs rhs_size lhs_size
  else add_loops result lhs rhs lhs_size rhs_size

/-- The body of the first loop of `sub` (bigint.cpp:505-510). -/
def sub_limb (l r carry : Nat) : Nat × Nat :=
  let digit := wrap_sub l carry
  let carry := if digit > l then 1 else 0
  let prev := digit
  let digit := wrap_sub digit r
  let carry := if digit > prev then 1 else carry
  (digit, carry)

/-- The body of the second loop of `sub` (bigint.cpp:516-518). -/
def sub_borrow (l carry : Nat) : Nat × Nat :=
  let digit := wrap_sub l carry
  let carry := if digit > l then 1 else 0
  (digit, carry)

/-- The loop `while (size > 1 && p[size - 1] == 0) --size` that trims a result
(bigint.cpp:523-526, 217-218). -/
def trim (p : List Nat) : Nat → Nat
  | 0 => 0
  | 1 => 1
  | size + 2 => if rd p (size + 1) = 0 then trim p (size + 1) else size + 2

/-- `sub` (bigint.cpp:497-528): `none` when one of its two assertions fails,
else the result buffer on exit and the size returned. -/
def sub (result lhs rhs : List Nat) (lhs_size rhs_size : Int) : Option (List Nat × Int) :=
  if ¬ (lhs_size ≥ rhs_size) then none
  else
    let n1 := rhs_size.toNat
    let s1 := for_up (fun size (s : List Nat × Nat) =>
        let dc := sub_limb (rd lhs size) (rd rhs size) s.2
        (wr s.1 size dc.1, dc.2)) 0 n1 (result, 0)
    let n2 := lhs_size.toNat - n1
    let s2 := for_up (fun size (s : List Nat × Nat) =>
        let dc := sub_borrow (rd lhs size) s.2
        (wr s.1 size dc.1, dc.2)) n1 n2 s1
    let size := n1 + n2
    if ¬ (s2.2 = 0) then none
    else some (s2.1, (trim s2.1 size : Nat))

/-! ### Characters and while loops

A `char` is the `Int` it promotes to; a character buffer is a `List Int`. -/

/-- The read `str[i]` of a character. -/
def rdc (str : List Int) (i : Nat) : Int := str.getD i 0

/-- The write `str[i] = c` of a character. -/
def wrc (str : List Int) (i : Nat) (c : Int) : List Int := str.set i c

/-- The loop `while (cond s) s = body s`, run for at most `fuel` iterations: `none`
when the fuel is used up and the condition still holds. -/
def while_loop {σ : Type} (cond : σ → Bool) (body : σ → σ) : Nat → σ → Option σ
  | 0, s => if cond s then none else some s
  | fuel + 1, s => if cond s then while_loop cond body fuel (body s) else some s

/-! ### Division by one limb -/

/-- One turn of the loop of `divide_by_one_digit` (bigint.cpp:241-249) on the limb
`l = lhs[i]`: the limb written to `quotient[i]` and the new `lhs_digit`. -/
def divide_limb (lhs_digit l rhs : Nat) : Nat × Nat :=
  let num := ((lhs_digit <<< 32) % 2 ^ 64) ||| l
  let q := (num / rhs) % base
  let lhs_digit := (num % rhs) % base
  if lhs_digit ≥ rhs then (lhs_digit / rhs, lhs_digit % rhs) else (q, lhs_digit)

/-- `divide_by_one_digit` (bigint.cpp:232-255): the quotient buffer on exit, the size
returned and the limb stored in `*remainder`.  With `in_place` the call is made with
`quotient == lhs` (as `to_base10` does), so `lhs[i]` is read from the buffer being
written. -/
def divide_by_one_digit (in_place : Bool) (quotient lhs : List Nat) (rhs : Nat)
    (lhs_size : Int) : List Nat × Int × Nat :=
  let top := (lhs_size - 1).toNat
  let lhs_digit := rd (if in_place then quotient else lhs) top
  let q0 := wr quotient top (lhs_digit / rhs)
  let s := for_down (fun i (s : List Nat × Nat) =>
      let dc := divide_limb s.2 (rd (if in_place then s.1 else lhs) i) rhs
      (wr s.1 i dc.1, dc.2)) top (q0, lhs_digit % rhs)
  if lhs_size > 1 ∧ rd s.1 top = 0 then (s.1, lhs_size - 1, s.2)
  else (s.1, lhs_size, s.2)

/-- One turn of the loop of `mod_by_one_digit` (bigint.cpp:265-271). -/
def mod_limb (lhs_digit l rhs : Nat) : Nat :=
  let num := ((lhs_digit <<< 32) % 2 ^ 64) ||| l
  let lhs_digit := (num % rhs) % base
  if lhs_digit ≥ rhs then lhs_digit % rhs else lhs_digit

/-- `mod_by_one_digit` (bigint.cpp:257-274). -/
def mod_by_one_digit (lhs : List Nat) (rhs : Nat) (lhs_size : Int) : Nat :=
  let top := (lhs_size - 1).toNat
  for_down (fun i lhs_digit => mod_limb lhs_digit (rd lhs i) rhs) top (rd lhs top % rhs)

/-- The loop shared by `largest_base10_numerator_fitting_in_limb` and
`largest_base10_numerator_fitting_in_limb_size` (bigint.cpp:280-283, 292-296):
`while (n < limit) { n *= 10; result++; }` on `(n, result)`. -/
def base10_numerator_loop : Nat → Nat × Nat → Nat × Nat
  | 0, s => s
  | fuel + 1, s =>
    if s.1 < 2 ^ 32 then base10_numerator_loop fuel ((s.1 * 10) % 2 ^ 64, s.2 + 1) else s

/-- `largest_base10_numerator_fitting_in_limb` (bigint.cpp:276-285). -/
def largest_base10_numerator_fitting_in_limb : Nat :=
  ((base10_numerator_loop 64 (1, 0)).1 / 10) % base

/-- `largest_base10_numerator_fitting_in_limb_size` (bigint.cpp:287-298). -/
def largest_base10_numerator_fitting_in_limb_size : Int :=
  ((base10_numerator_loop 64 (1, 0)).2 : Int) - 1

/-! ### Parsing -/

/-- The inner loop body of `from_base10` (bigint.cpp:320-322) on `d = digits[j]`:
the limb written and the carry out.  The product is below `2 ^ 64`. -/
def from_base10_limb (d carry : Nat) : Nat × Nat :=
  let product := carry + d * 10
  (product % base, (product / base) % base)

/-- The part of the outer loop body of `from_base10` after the digit test
(bigint.cpp:318-328), on `(digits, result_size)` with `carry` the digit read. -/
def from_base10_push (carry : Nat) (s : List Nat × Nat) : List Nat × Nat :=
  let t := for_up (fun j (t : List Nat × Nat) =>
      let dc := from_base10_limb (rd t.1 j) t.2
      (wr t.1 j dc.1, dc.2)) 0 s.2 (s.1, carry)
  if t.2 > 0 then (wr t.1 s.2 t.2, s.2 + 1) else (t.1, s.2)

/-- The outer loop of `from_base10` (bigint.cpp:311-329) from index `i` with `n`
characters left: the buffer and `result_size`, or `-1` on a character that is no digit. -/
def from_base10_loop (str : List Int) : Nat → Nat → List Nat × Nat → List Nat × Int
  | _, 0, s => (s.1, (s.2 : Int))
  | i, n + 1, s =>
    -- limb_t carry = str[i] - '0'
    let carry := ((rdc str i - 48) % 2 ^ 32).toNat
    if carry ≥ 10 then (s.1, -1)
    else from_base10_loop str (i + 1) n (from_base10_push carry s)

/-- `from_base10` (bigint.cpp:306-331): the digits buffer on exit and the value returned. -/
def from_base10 (digits : List Nat) (str : List Int) (length : Int) : List Nat × Int :=
  from_base10_loop str 0 length.toNat (wr digits 0 0, 1)

/-- The loop `while (length > 1 && *str == '0') { length--; str++; }` of `from_base16`
(bigint.cpp:338-342) on the offset of `str` and `length`. -/
def from_base16_skip (str : List Int) : Nat → Nat → Nat × Nat
  | off, 0 => (off, 0)
  | off, 1 => (off, 1)
  | off, length + 2 =>
    if rdc str off = 48 then from_base16_skip str (off + 1) (length + 1) else (off, length + 2)

/-- The value a hexadecimal character adds in `from_base16` (bigint.cpp:353-366):
`none` for a character the function rejects. -/
def hex_value (c : Int) : Option Nat :=
  if 97 ≤ c ∧ c ≤ 102 then some (c - 97 + 10).toNat
  else if 65 ≤ c ∧ c ≤ 70 then some (c - 65 + 10).toNat
  else if 48 ≤ c ∧ c ≤ 57 then some (c - 48).toNat
  else none

/-- The second loop of `from_base16` (bigint.cpp:344-368) with `length` characters
left, on `(digits, index, bitshift)`; `off` is where `str` points after the skip.
Returns the buffer and `index + 1`, or `-1`. -/
def from_base16_loop (str : List Int) (off : Nat) :
    Nat → List Nat × Int × Nat → List Nat × Int
  | 0, s => (s.1, s.2.1 + 1)
  | length + 1, s =>
    let fresh := decide (s.2.2 % 32 = 0)
    let bitshift := if fresh then 0 else s.2.2
    let index := if fresh then s.2.1 + 1 else s.2.1
    let digits := if fresh then wr s.1 index.toNat 0 else s.1
    match hex_value (rdc str (off + length)) with
    | none => (digits, -1)
    | some v =>
      from_base16_loop str off length
        (wr digits index.toNat (rd digits index.toNat ||| ((v <<< bitshift) % base)),
          index, (bitshift + 4) % base)

/-- `from_base16` (bigint.cpp:333-370): the digits buffer on exit and the value returned. -/
def from_base16 (digits : List Nat) (str : List Int) (length : Int) : List Nat × Int :=
  let ol := from_base16_skip str 0 length.toNat
  from_base16_loop str ol.1 ol.2 (digits, -1, 0)

/-! ### Rendering -/

/-- One digit of `to_base10` (bigint.cpp:387-390, 395-398) on `(str, len, remainder)`:
`if (len < capacity) str[len] = (remainder % 10) + '0'; ++len; remainder /= 10;`. -/
def to_base10_digit (capacity : Int) (s : List Int × Int × Nat) : List Int × Int × Nat :=
  ((if s.2.1 < capacity then wrc s.1 s.2.1.toNat (((s.2.2 % 10 : Nat) : Int) + 48) else s.1),
    s.2.1 + 1, s.2.2 / 10)

/-- The loop `for (i = 0; i < numerator_size; ++i)` of `to_base10` (bigint.cpp:385-391)
on `(str, len, remainder)`. -/
def to_base10_emit (capacity : Int) (s : List Int × Int × Nat) : List Int × Int × Nat :=
  for_up (fun _ s => to_base10_digit capacity s)
    0 largest_base10_numerator_fitting_in_limb_size.toNat s

/-- `to_base10` (bigint.cpp:372-411): the character buffer on exit and the length
returned; `none` when one of its `while` loops is still running after `fuel` turns.
The allocated `copy` holds `size` limbs, all of them overwritten by the first loop. -/
def to_base10 (fuel : Nat) (str : List Int) (capacity : Int) (digits : List Nat)
    (size : Int) : Option (List Int × Int) :=
  let numerator := largest_base10_numerator_fitting_in_limb
  let copy := for_up (fun i c => wr c i (rd digits i)) 0 size.toNat
    (List.replicate size.toNat 0)
  -- while (size > 1 || *copy >= numerator), on (copy, size, str, len)
  match while_loop
      (fun (s : List Nat × Int × List Int × Int) => decide (s.2.1 > 1 ∨ rd s.1 0 ≥ numerator))
      (fun s =>
        let d := divide_by_one_digit true s.1 s.1 numerator s.2.1
        let e := to_base10_emit capacity (s.2.2.1, s.2.2.2, d.2.2)
        (d.1, d.2.1, e.1, e.2.1))
      fuel (copy, size, str, 0) with
  | none => none
  | some s1 =>
    -- while (*copy > 0), on (copy, str, len)
    match while_loop
        (fun (s : List Nat × List Int × Int) => decide (rd s.1 0 > 0))
        (fun s =>
          let e := to_base10_digit capacity (s.2.1, s.2.2, rd s.1 0)
          (wr s.1 0 e.2.2, e.1, e.2.1))
        fuel (s1.1, s1.2.2.1, s1.2.2.2) with
    | none => none
    | some s2 =>
      let len := s2.2.2
      -- while (i < j), on (str, i, j)
      match while_loop
          (fun (s : List Int × Int × Int) => decide (s.2.1 < s.2.2))
          (fun s =>
            let tmp := rdc s.1 s.2.1.toNat
            let str1 := wrc s.1 s.2.1.toNat (rdc s.1 s.2.2.toNat)
            (wrc str1 s.2.2.toNat tmp, s.2.1 + 1, s.2.2 - 1))
          fuel (s2.2.1, 0, min capacity (len - 1)) with
      | none => none
      | some s3 => some (s3.1, len)

/-- The character `to_base16` writes for a nibble (bigint.cpp:430-433). -/
def hex_char (hexdigit : Nat) : Int :=
  if hexdigit < 10 then 48 + (hexdigit : Int) else 97 + ((hexdigit : Int) - 10)

/-- The first loop of `to_base16` (bigint.cpp:418-421) on `shift`, with `top` the
limb `digits[size - 1]`. -/
def to_base16_skip (top : Nat) : Nat → Nat
  | shift + 4 =>
    if ((top >>> shift) &&& 0xf) = 0 ∧ shift + 4 > 4 then to_base16_skip top shift
    else shift + 4
  | shift => shift

/-- The loop `while (shift > 0)` of `to_base16` (bigint.cpp:424-436) for one limb, on
`(str, len)`; `shift` is a multiple of 4. -/
def to_base16_limb (limb : Nat) (capacity : Int) : Nat → List Int × Int → List Int × Int
  | shift + 4, s =>
    to_base16_limb limb capacity shift
      ((if s.2 < capacity then wrc s.1 s.2.toNat (hex_char ((limb >>> shift) &&& 0xf))
        else s.1), s.2 + 1)
  | _, s => s

/-- `to_base16` (bigint.cpp:413-440): the character buffer on exit and the length returned. -/
def to_base16 (str : List Int) (capacity : Int) (digits : List Nat) (size : Int) :
    List Int × Int :=
  let shift := to_base16_skip (rd digits (size - 1).toNat) 32
  (for_down (fun i (s : (List Int × Int) × Nat) =>
      (to_base16_limb (rd digits i) capacity s.2 s.1, 32)) size.toNat ((str, 0), shift)).1

/-! ### Division (Algorithm D) -/

/-- The table `multiply_de_bruijn_bit_position` (bigint.cpp:12-16). -/
def multiply_de_bruijn_bit_position : List Nat :=
  [0, 9, 1, 10, 13, 21, 2, 29, 11, 14, 16, 18, 22, 25, 3, 30,
   8, 12, 20, 28, 15, 17, 24, 7, 19, 27, 23, 6, 26, 5, 4, 31]

/-- `de_bruijn` (bigint.cpp:10-23) on a 32-bit value. -/
def de_bruijn (n : Nat) : Nat :=
  let n := n ||| (n >>> 1)
  let n := n ||| (n >>> 2)
  let n := n ||| (n >>> 4)
  let n := n ||| (n >>> 8)
  let n := n ||| (n >>> 16)
  multiply_de_bruijn_bit_position.getD (((n * 0x07C4ACDD) % 2 ^ 32) >>> 27) 0

/-- Conversion of a two's complement 64-bit pattern to the signed value
(`std::make_signed<limb_double_t>::type`). -/
def wrap64 (x : Int) : Int := (x + 2 ^ 63) % 2 ^ 64 - 2 ^ 63

/-- The limb `(hi << shift) | (static_cast<limb_double_t>(lo) >> (limb_bits - shift))`
stored in a `limb_t` (bigint.cpp:158, 164). -/
def normalize_limb (hi lo shift : Nat) : Nat :=
  (((hi <<< shift) % base) ||| (lo >>> (32 - shift))) % base

/-- The loop `for (i = size - 1; i > 0; i--) dst[i] = ...` and the store to `dst[0]`
that shift `src` left by `shift` bits into `dst` (bigint.cpp:157-159, 163-165). -/
def normalize (dst src : List Nat) (size : Int) (shift : Nat) : List Nat :=
  let d := for_down (fun i d => wr d (i + 1) (normalize_limb (rd src (i + 1)) (rd src i) shift))
    (size - 1).toNat dst
  wr d 0 ((rd src 0 <<< shift) % base)

/-- The loop that corrects the estimate (bigint.cpp:172-180) on `quotient_digit`, with
`remainder_digit`; `v1 = rhs_normalized[rhs_size - 1]`, `v2 = rhs_normalized[rhs_size - 2]`
and `u = lhs_normalized[j + rhs_size - 2]`. -/
def correct_estimate (v1 v2 u : Nat) : Nat → Nat → Nat × Nat
  | 0, remainder_digit => (0, remainder_digit)
  | quotient_digit + 1, remainder_digit =>
    if quotient_digit + 1 ≥ base
        ∨ ((quotient_digit + 1) % base) * v2 > (base * remainder_digit + u) % 2 ^ 64 then
      if (remainder_digit + v1) % 2 ^ 64 ≥ base then
        (quotient_digit, (remainder_digit + v1) % 2 ^ 64)
      else correct_estimate v1 v2 u quotient_digit ((remainder_digit + v1) % 2 ^ 64)
    else (quotient_digit + 1, remainder_digit)

/-- The loop "multiply and subtract" (bigint.cpp:185-190) on `(lhs_normalized, diff)`. -/
def mul_sub (rhs_normalized : List Nat) (quotient_digit : Nat) (j : Nat) (rhs_size : Nat)
    (s : List Nat × Int) : List Nat × Int :=
  for_up (fun i (s : List Nat × Int) =>
      let product := (quotient_digit % base) * rd rhs_normalized i
      let sum := wrap64 ((rd s.1 (i + j) : Int) - s.2 - ((product % base : Nat) : Int))
      (wr s.1 (i + j) (sum % 2 ^ 32).toNat,
        wrap64 (((product / base : Nat) : Int) - sum / 2 ^ 32)))
    0 rhs_size s

/-- The loop "add back" (bigint.cpp:202-206) on `(lhs_normalized, diff)`. -/
def add_back (rhs_normalized : List Nat) (j : Nat) (rhs_size : Nat)
    (s : List Nat × Int) : List Nat × Int :=
  for_up (fun i (s : List Nat × Int) =>
      let sum := wrap64 ((rd s.1 (i + j) : Int) + (rd rhs_normalized i : Int) + s.2)
      (wr s.1 (i + j) (sum % 2 ^ 32).toNat, sum / 2 ^ 32))
    0 rhs_size s

/-- One turn of the main loop of `algorithm_d` (bigint.cpp:168-208) for the index `j`,
on `(lhs_normalized, quotient)`. -/
def algorithm_d_step (ignore_quotient : Bool) (rhs_normalized : List Nat) (rhs_size : Nat)
    (j : Nat) (s : List Nat × List Nat) : List Nat × List Nat :=
  let lhs_normalized := s.1
  let v1 := rd rhs_normalized (rhs_size - 1)
  let num := (rd lhs_normalized (j + rhs_size) * base + rd lhs_normalized (j + rhs_size - 1))
    % 2 ^ 64
  let qr := correct_estimate v1 (rd rhs_normalized (rhs_size - 2))
    (rd lhs_normalized (j + rhs_size - 2)) (num / v1) (num % v1)
  let quotient_digit := qr.1
  let ms := mul_sub rhs_normalized quotient_digit j rhs_size (lhs_normalized, 0)
  let sum := wrap64 ((rd ms.1 (j + rhs_size) : Int) - ms.2)
  let lhs_normalized := wr ms.1 (j + rhs_size) (sum % 2 ^ 32).toNat
  let quotient := if ignore_quotient then s.2 else wr s.2 j (quotient_digit % base)
  if sum < 0 then
    let quotient := if ignore_quotient then quotient else wr quotient j (wrap_sub (rd quotient j) 1)
    let ab := add_back rhs_normalized j rhs_size (lhs_normalized, 0)
    (wr ab.1 (j + rhs_size) ((rd ab.1 (j + rhs_size) + (ab.2 % 2 ^ 32).toNat) % base), quotient)
  else (lhs_normalized, quotient)

/-- `algorithm_d<ignore_quotient, ignore_remainder>` (bigint.cpp:145-230): the quotient
buffer, the remainder buffer, `*remainder_size` and the value returned.  The two
allocated buffers are written in full before they are read. -/
def algorithm_d (ignore_quotient ignore_remainder : Bool) (quotient lhs rhs : List Nat)
    (lhs_size rhs_size : Int) (remainder : List Nat) (remainder_size : Int) :
    List Nat × List Nat × Int × Int :=
  let limb_bits := 32
  let n := rhs_size.toNat
  let shift := wrap_sub (wrap_sub limb_bits (de_bruijn (rd rhs (rhs_size - 1).toNat))) 1
  let rhs_normalized := normalize (List.replicate n 0) rhs rhs_size shift
  let lhs_normalized := normalize
    (wr (List.replicate (lhs_size + 1).toNat 0) lhs_size.toNat
      (rd lhs (lhs_size - 1).toNat >>> (limb_bits - shift)))
    lhs lhs_size shift
  -- for (j = lhs_size - rhs_size; j >= 0; j--)
  let s := for_down (algorithm_d_step ignore_quotient rhs_normalized n)
    (lhs_size - rhs_size + 1).toNat (lhs_normalized, quotient)
  let lhs_normalized := s.1
  let quotient := s.2
  let rem :=
    if ignore_remainder then (remainder, remainder_size)
    else
      let r := for_up (fun i r =>
          wr r i (((rd lhs_normalized i >>> shift)
            ||| ((rd lhs_normalized (i + 1) <<< (limb_bits - shift)) % 2 ^ 64)) % base))
        0 (n - 1) remainder
      let r := wr r (n - 1) (rd lhs_normalized (n - 1) >>> shift)
      (r, ((trim r n : Nat) : Int))
  if ignore_quotient then (quotient, rem.1, rem.2, 0)
  else
    let quotient_size := lhs_size - rhs_size + 1
    if rd quotient (quotient_size - 1).toNat = 0 ∧ quotient_size > 1 then
      (quotient, rem.1, rem.2, quotient_size - 1)
    else (quotient, rem.1, rem.2, quotient_size)

/-- `div` (bigint.cpp:546-565): `none` when the assertion fails, else the result buffer
and the size returned. -/
def div (result lhs rhs : List Nat) (lhs_size rhs_size : Int) : Option (List Nat × Int) :=
  if rhs_size = 1 ∧ rd rhs 0 = 0 then none
  else if lhs_size < rhs_size then some (wr result 0 0, 1)
  else if rhs_size > 1 then
    let r := algorithm_d false true result lhs rhs lhs_size rhs_size [] 0
    some (r.1, r.2.2.2)
  else
    let r := divide_by_one_digit false result lhs (rd rhs 0) lhs_size
    some (r.1, r.2.1)

/-- `mod` (bigint.cpp:567-589): `none` when the assertion fails, else the result buffer
and the size returned. -/
def mod (result lhs rhs : List Nat) (lhs_size rhs_size : Int) : Option (List Nat × Int) :=
  if rhs_size = 1 ∧ rd rhs 0 = 0 then none
  else if lhs_size < rhs_size then
    some (for_up (fun i r => wr r i (rd lhs i)) 0 lhs_size.toNat result, lhs_size)
  else if rhs_size > 1 then
    let r := algorithm_d true false [] lhs rhs lhs_size rhs_size result 0
    some (r.2.1, r.2.2.1)
  else some (wr result 0 (mod_by_one_digit lhs (rd rhs 0) lhs_size), 1)

/-! ### Multiplication

The routines of the multiplication call one another on pointers into the same blocks
(`karatsuba` adds into `result + m2` in place), so here the memory is one `List Nat` and a
pointer is an index into it. -/

/-- The threshold `KARATSUBA_THRESHOLD` (bigint.cpp:7). -/
def KARATSUBA_THRESHOLD : Int := 30

/-- The address of the static `g_zero` (bigint.cpp:27) in the memory of the routines
below; the memory holds `0` there. -/
def g_zero : Nat := 0

/-- The loop `while (size > 1 && p[size - 1] == 0) size--` on a pointer `p` into the
memory `h` (bigint.cpp:71-74, 523-526). -/
def trim_at (h : List Nat) (p : Nat) : Nat → Nat
  | 0 => 0
  | 1 => 1
  | size + 2 => if rd h (p + (size + 1)) = 0 then trim_at h p (size + 1) else size + 2

/-- `add` (bigint.cpp:458-495) on pointers into one memory `h`, so that `result` may
alias an operand as in `karatsuba`: the memory on exit and the size returned. -/
def add_at (h : List Nat) (result lhs rhs : Nat) (lhs_size rhs_size : Int) : List Nat × Int :=
  let sw := lhs_size < rhs_size
  let lhs1 := if sw then rhs else lhs
  let rhs1 := if sw then lhs else rhs
  let lhs_size1 := if sw then rhs_size else lhs_size
  let rhs_size1 := if sw then lhs_size else rhs_size
  -- while (size < rhs_size)
  let n1 := rhs_size1.toNat
  let s1 := for_up (fun size (s : List Nat × Nat) =>
      let dc := add_limb (rd s.1 (lhs1 + size)) (rd s.1 (rhs1 + size)) s.2
      (wr s.1 (result + size) dc.1, dc.2)) 0 n1 (h, 0)
  -- while (size < lhs_size)
  let n2 := lhs_size1.toNat - n1
  let s2 := for_up (fun size (s : List Nat × Nat) =>
      let dc := add_carry (rd s.1 (lhs1 + size)) s.2
      (wr s.1 (result + size) dc.1, dc.2)) n1 n2 s1
  let size := n1 + n2
  let carry := s2.2
  let h1 := if carry > 0 then wr s2.1 (result + size) carry else s2.1
  (h1, (size : Int) + carry)

/-- `sub` (bigint.cpp:497-528) on pointers into one memory `h`: `none` when one of its
two assertions fails, else the memory on exit and the size returned. -/
def sub_at (h : List Nat) (result lhs rhs : Nat) (lhs_size rhs_size : Int) :
    Option (List Nat × Int) :=
  if ¬ (lhs_size ≥ rhs_size) then none
  else
    let n1 := rhs_size.toNat
    let s1 := for_up (fun size (s : List Nat × Nat) =>
        let dc := sub_limb (rd s.1 (lhs + size)) (rd s.1 (rhs + size)) s.2
        (wr s.1 (result + size) dc.1, dc.2)) 0 n1 (h, 0)
    let n2 := lhs_size.toNat - n1
    let s2 := for_up (fun size (s : List Nat × Nat) =>
        let dc := sub_borrow (rd s.1 (lhs + size)) s.2
        (wr s.1 (result + size) dc.1, dc.2)) n1 n2 s1
    let size := n1 + n2
    if ¬ (s2.2 = 0) then none
    else some (s2.1, (trim_at s2.1 result size : Nat))

/-- `long_multiplication` (bigint.cpp:33-54) on pointers into the memory `h`. -/
def long_multiplication (h : List Nat) (result lhs rhs : Nat) (lhs_size rhs_size : Int) :
    List Nat × Int :=
  let h0 := for_up (fun i h => wr h (result + i) 0) 0 (lhs_size + rhs_size).toNat h
  let h1 := for_up (fun i h =>
      let s := for_up (fun j (s : List Nat × Nat) =>
          let product := (rd s.1 (result + (i + j)) + s.2
            + rd s.1 (lhs + i) * rd s.1 (rhs + j)) % 2 ^ 64
          (wr s.1 (result + (i + j)) (product % base), (product / base) % base))
        0 rhs_size.toNat (h, 0)
      wr s.1 (result + (i + rhs_size.toNat)) s.2)
    0 lhs_size.toNat h0
  if rd h1 (result + (lhs_size + rhs_size - 1).toNat) = 0 then (h1, lhs_size + rhs_size - 1)
  else (h1, lhs_size + rhs_size)

/-- `karatsuba` (bigint.cpp:56-120) on pointers into the memory `h`; `recur` is
`mul_with_scratch_memory`.  The result is `none` when an assertion fails. -/
def karatsuba (recur : List Nat → Nat → Nat → Nat → Int → Int → Nat → Option (List Nat × Int))
    (h : List Nat) (result lhs rhs : Nat) (lhs_size rhs_size : Int) (memory : Nat) :
    Option (List Nat × Int) :=
  let m := max lhs_size rhs_size
  let m2 := Int.tdiv m 2
  let low1 := lhs
  let low2 := rhs
  let low1_size := min m2 lhs_size
  let low2_size := min m2 rhs_size
  let high1_size := min (m - m2) (lhs_size - m2)
  let high2_size := min (m - m2) (rhs_size - m2)
  let low1_size := if low1_size > 1 then ((trim_at h low1 low1_size.toNat : Nat) : Int)
    else low1_size
  let low2_size := if low2_size > 1 then ((trim_at h low2 low2_size.toNat : Nat) : Int)
    else low2_size
  let high1 := if high1_size ≤ 0 then g_zero else lhs + m2.toNat
  let high1_size := if high1_size ≤ 0 then 1 else high1_size
  let high2 := if high2_size ≤ 0 then g_zero else rhs + m2.toNat
  let high2_size := if high2_size ≤ 0 then 1 else high2_size
  let z1_lhs := result
  let z1_rhs := result + (m2 + 2).toNat
  let a1 := add_at h z1_lhs low1 high1 low1_size high1_size
  let z1_lhs_size := a1.2
  if ¬ (z1_lhs_size ≤ m2 + 2) then none
  else
    let a2 := add_at a1.1 z1_rhs low2 high2 low2_size high2_size
    let z1_rhs_size := a2.2
    if ¬ (m2 + 2 + z1_rhs_size ≤ lhs_size + rhs_size) then none
    else
      let z1 := memory
      (recur a2.1 z1 z1_lhs z1_rhs z1_lhs_size z1_rhs_size
          (memory + (z1_lhs_size + z1_rhs_size).toNat)).bind fun r1 =>
        let memory := memory + r1.2.toNat
        let z0 := result
        let z2 := result + (m2 * 2).toNat
        (recur r1.1 z0 low1 low2 low1_size low2_size memory).bind fun r0 =>
          let z0_size := r0.2
          if ¬ (z0_size ≤ m2 * 2) then none
          else
            (recur r0.1 z2 high1 high2 high1_size high2_size memory).bind fun r2 =>
              let z2_size := r2.2
              (sub_at r2.1 z1 z1 z2 r1.2 z2_size).bind fun s1 =>
                (sub_at s1.1 z1 z1 z0 s1.2 z0_size).bind fun s2 =>
                  let z1_size := s2.2
                  let hz :=
                    if ¬ (z2_size = 1 ∧ rd s2.1 z2 = 0) then
                      -- for (z = z0 + z0_size; z != z2; ++z) *z = 0
                      (for_up (fun z h => wr h z 0) (z0 + z0_size.toNat)
                        (z2 - (z0 + z0_size.toNat)) s2.1, m2 * 2 + z2_size)
                    else (s2.1, z0_size)
                  let result_size := hz.2
                  if ¬ (result_size ≤ lhs_size + rhs_size) then none
                  else if ¬ (z1_size = 1 ∧ rd hz.1 z1 = 0) then
                    let a3 := add_at hz.1 (result + m2.toNat) (result + m2.toNat) z1
                      (result_size - m2) z1_size
                    some (a3.1, a3.2 + m2)
                  else some (hz.1, result_size)

/-- `mul_with_scratch_memory` (bigint.cpp:122-142) on pointers into the memory `h`;
`fuel` bounds the depth of the recursion through `karatsuba`, and the result is `none`
when it runs out or an assertion fails. -/
def mul_with_scratch_memory : Nat → List Nat → Nat → Nat → Nat → Int → Int → Nat →
    Option (List Nat × Int)
  | 0, _, _, _, _, _, _, _ => none
  | fuel + 1, h, result, lhs, rhs, lhs_size, rhs_size, memory =>
    if (lhs_size = 1 ∧ rd h lhs = 0) ∨ (rhs_size = 1 ∧ rd h rhs = 0) then
      some (wr h result 0, 1)
    else if lhs_size = 1 ∧ rhs_size = 1 then
      let product := rd h lhs * rd h rhs
      let h1 := wr h result (product % base)
      let h2 := wr h1 (result + 1) ((product >>> 32) % base)
      some (h2, if rd h2 (result + 1) = 0 then 1 else 2)
    else if lhs_size > KARATSUBA_THRESHOLD ∧ rhs_size > KARATSUBA_THRESHOLD then
      karatsuba (mul_with_scratch_memory fuel) h result lhs rhs lhs_size rhs_size memory
    else some (long_multiplication h result lhs rhs lhs_size rhs_size)

/-- `mul` (bigint.cpp:530-544) on pointers into the memory `h`; `memory` is the pointer
that `g_allocate` returns, and `nullptr` is `0`. -/
def mul (fuel : Nat) (h : List Nat) (result lhs rhs : Nat) (lhs_size rhs_size : Int)
    (memory : Nat) : Option (List Nat × Int) :=
  if lhs_size > KARATSUBA_THRESHOLD ∧ rhs_size > KARATSUBA_THRESHOLD then
    mul_with_scratch_memory fuel h result lhs rhs lhs_size rhs_size memory
  else mul_with_scratch_memory fuel h result lhs rhs lhs_size rhs_size 0

/-! ### The signed wrapper

An object of the class `number` is the record of its four members, with `m_digits` the
block the pointer refers to.  `g_allocate n` stands for the block of `n` limbs that a
call of the allocator returns. -/

/-- The class `number` (bigint.h:55-88). -/
structure number where
  m_size : Int
  m_capacity : Int
  m_negative : Bool
  m_digits : List Nat
deriving DecidableEq

/-- `number::number()` (bigint.cpp:591-597): `m_digits` points to `g_zero`. -/
def number_default : number := ⟨1, 0, false, [0]⟩

/-- `number::from_base10` (bigint.cpp:674-698): the value returned and `*this` on exit. -/
def number.from_base10 (g_allocate : Int → List Nat) (self : number) (str : List Int)
    (length : Int) : Bool × number :=
  let numerator := largest_base10_numerator_fitting_in_limb_size
  let negative := decide (length > 0 ∧ rdc str 0 = 45)
  let str1 := if negative then str.drop 1 else str
  let length1 := if negative then length - 1 else length
  if length1 ≤ 0 then (false, self)
  else
    let capacity := Int.tdiv length1 numerator
      + (if Int.tmod length1 numerator > 0 then 1 else 0)
    let r := bigint.from_base10 (g_allocate capacity) str1 length1
    if r.2 > 0 then (true, ⟨r.2, capacity, negative, r.1⟩) else (false, self)

/-- `number::from_base16` (bigint.cpp:700-723): the value returned and `*this` on exit. -/
def number.from_base16 (g_allocate : Int → List Nat) (self : number) (str : List Int)
    (length : Int) : Bool × number :=
  let negative := decide (length > 0 ∧ rdc str 0 = 45)
  let str1 := if negative then str.drop 1 else str
  let length1 := if negative then length - 1 else length
  if length1 ≤ 0 then (false, self)
  else
    let capacity := Int.tdiv length1 8 + (if Int.tmod length1 8 > 0 then 1 else 0)
    let r := bigint.from_base16 (g_allocate capacity) str1 length1
    if r.2 > 0 then (true, ⟨r.2, capacity, negative, r.1⟩) else (false, self)

/-- `operator<` (bigint.cpp:747-750). -/
def operator_lt (lhs rhs : number) : Bool :=
  decide (compare lhs.m_digits rhs.m_digits lhs.m_size rhs.m_size < 0)

/-- `operator>` (bigint.cpp:752-755). -/
def operator_gt (lhs rhs : number) : Bool :=
  decide (compare lhs.m_digits rhs.m_digits lhs.m_size rhs.m_size > 0)

/-- `operator<=` (bigint.cpp:757-760). -/
def operator_le (lhs rhs : number) : Bool :=
  decide (compare lhs.m_digits rhs.m_digits lhs.m_size rhs.m_size ≤ 0)

/-- `operator>=` (bigint.cpp:762-765). -/
def operator_ge (lhs rhs : number) : Bool :=
  decide (compare lhs.m_digits rhs.m_digits lhs.m_size rhs.m_size ≥ 0)

/-- `operator==` (bigint.cpp:767-770). -/
def operator_eq (lhs rhs : number) : Bool :=
  decide (compare lhs.m_digits rhs.m_digits lhs.m_size rhs.m_size = 0)

/-- `operator!=` (bigint.cpp:772-775). -/
def operator_ne (lhs rhs : number) : Bool :=
  decide (compare lhs.m_digits rhs.m_digits lhs.m_size rhs.m_size ≠ 0)

/-- `operator+` (bigint.cpp:777-810): `none` when an assertion of `sub` fails. -/
def operator_add (g_allocate : Int → List Nat) (lhs rhs : number) : Option number :=
  if lhs.m_negative = rhs.m_negative then
    let capacity := max lhs.m_size rhs.m_size + 1
    let r := add (g_allocate capacity) lhs.m_digits rhs.m_digits lhs.m_size rhs.m_size
    some ⟨r.2, capacity, lhs.m_negative, r.1⟩
  else
    let c := compare lhs.m_digits rhs.m_digits lhs.m_size rhs.m_size
    if c = -1 then
      (sub (g_allocate rhs.m_size) rhs.m_digits lhs.m_digits rhs.m_size lhs.m_size).map
        fun r => ⟨r.2, rhs.m_size, rhs.m_negative, r.1⟩
    else if c = 1 then
      (sub (g_allocate lhs.m_size) lhs.m_digits rhs.m_digits lhs.m_size rhs.m_size).map
        fun r => ⟨r.2, lhs.m_size, lhs.m_negative, r.1⟩
    else some number_default

/-- `operator-` (bigint.cpp:812-845): `none` when an assertion of `sub` fails. -/
def operator_sub (g_allocate : Int → List Nat) (lhs rhs : number) : Option number :=
  if lhs.m_negative ≠ rhs.m_negative then
    let capacity := max lhs.m_size rhs.m_size + 1
    let r := add (g_allocate capacity) lhs.m_digits rhs.m_digits lhs.m_size rhs.m_size
    some ⟨r.2, capacity, lhs.m_negative, r.1⟩
  else
    let c := compare lhs.m_digits rhs.m_digits lhs.m_size rhs.m_size
    if c = -1 then
      (sub (g_allocate rhs.m_size) rhs.m_digits lhs.m_digits rhs.m_size lhs.m_size).map
        fun r => ⟨r.2, rhs.m_size, !rhs.m_negative, r.1⟩
    else if c = 1 then
      (sub (g_allocate lhs.m_size) lhs.m_digits rhs.m_digits lhs.m_size rhs.m_size).map
        fun r => ⟨r.2, lhs.m_size, lhs.m_negative, r.1⟩
    else some number_default

/-- `operator/` (bigint.cpp:858-867): `none` when the assertion of `div` fails. -/
def operator_div (g_allocate : Int → List Nat) (lhs rhs : number) : Option number :=
  (div (g_allocate lhs.m_size) lhs.m_digits rhs.m_digits lhs.m_size rhs.m_size).map
    fun r => ⟨r.2, lhs.m_size, lhs.m_negative != rhs.m_negative, r.1⟩

/-- `operator%` (bigint.cpp:869-878): `none` when the assertion of `mod` fails. -/
def operator_mod (g_allocate : Int → List Nat) (lhs rhs : number) : Option number :=
  (mod (g_allocate rhs.m_size) lhs.m_digits rhs.m_digits lhs.m_size rhs.m_size).map
    fun r => ⟨r.2, rhs.m_size, lhs.m_negative, r.1⟩

/-! ### Predicates used in the proofs -/

/-- The state of a carry loop after `i` limbs: `i` limbs written, all below `base`,
standing with the carry (at most `k`) for the number `v`, and the rest of the buffer
untouched. -/
def carry_inv (k : Nat) (result : List Nat) (i : Nat) (v : Nat) (s : List Nat × Nat) : Prop :=
  s.1.length = result.length ∧ s.2 ≤ k ∧ (∀ x ∈ s.1.take i, x < base)
    ∧ value (s.1.take i) + base ^ i * s.2 = v ∧ s.1.drop i = result.drop i

/-- The state of a borrow loop after `i` limbs: the `i` limbs written plus `r` equal
`l` plus the borrow, and the rest of the buffer is untouched. -/
def borrow_inv (result : List Nat) (i : Nat) (l r : Nat) (s : List Nat × Nat) : Prop :=
  s.1.length = result.length ∧ s.2 ≤ 1 ∧ (∀ x ∈ s.1.take i, x < base)
    ∧ value (s.1.take i) + r = l + base ^ i * s.2 ∧ s.1.drop i = result.drop i

/-- The natural number a string of decimal digit characters denotes. -/
def decimal_value (s : List Int) : Nat :=
  s.foldl (fun acc c => 10 * acc + (c - 48).toNat) 0

/-- Every character of `s` is one of `'0'..'9'`. -/
def decimal_string (s : List Int) : Prop := ∀ c ∈ s, 48 ≤ c ∧ c ≤ 57

instance (s : List Int) : Decidable (decimal_string s) := by
  unfold decimal_string
  infer_instance

/-- The state of the outer loop of `from_base10` once the characters before `i` are read:
`result_size` limbs in normal form standing for the number read so far. -/
def from_base10_inv (str : List Int) (cap : Nat) (i : Nat) (s : List Nat × Nat) : Prop :=
  s.1.length = cap ∧ s.2 ≤ cap ∧ normal_form (s.1.take s.2)
    ∧ value (s.1.take s.2) = decimal_value (str.take i)

/-- The number a string of hexadecimal characters denotes, continuing from `acc`:
each character counts for what `hex_value` gives it. -/
def hex_fold (acc : Nat) (s : List Int) : Nat :=
  s.foldl (fun acc c => 16 * acc + (hex_value c).getD 0) acc

/-- The number a string of hexadecimal characters denotes. -/
def hex_denote (s : List Int) : Nat := hex_fold 0 s

/-- The characters of the lowest `k` nibbles of a limb, most significant first. -/
def nibble_chars (limb : Nat) : Nat → List Int
  | 0 => []
  | k + 1 => hex_char ((limb / 16 ^ k) % 16) :: nibble_chars limb k

/-- Every character of `s` is one of `'0'..'9'`, `'a'..'f'`. -/
def lower_hex_string (s : List Int) : Prop := ∀ c ∈ s, (48 ≤ c ∧ c ≤ 57) ∨ (97 ≤ c ∧ c ≤ 102)

instance (s : List Int) : Decidable (lower_hex_string s) := by
  unfold lower_hex_string
  infer_instance

/-- Every character of `s` is one `from_base16` accepts: `0-9`, `a-f`, `A-F`. -/
def hex_string (s : List Int) : Prop := ∀ c ∈ s, (hex_value c).isSome = true

instance (s : List Int) : Decidable (hex_string s) := by
  unfold hex_string
  infer_instance

/-- The state of the second loop of `from_base16` once the last `p` characters of `str`
are read: `(p + 7) / 8` limbs standing for the number these characters denote. -/
def from_base16_inv (str : List Int) (cap : Nat) (p : Nat) (s : List Nat × Int × Nat) : Prop :=
  s.1.length = cap ∧ s.2.1 = (((p + 7) / 8 : Nat) : Int) - 1
    ∧ s.2.2 = (if p = 0 then 0 else 4 * ((p - 1) % 8 + 1))
    ∧ (∀ x ∈ s.1.take ((p + 7) / 8), x < base)
    ∧ value (s.1.take ((p + 7) / 8)) = hex_denote (str.drop (str.length - p))

/-- The state of the loop of `divide_by_one_digit` once the limbs `i .. n - 1` of `src`
are divided: the quotient limbs written so far times `rhs`, plus the running
remainder, are the limbs `i .. n - 1` of `src`; the limbs below `i` are untouched. -/
def divide_inv (quotient src : List Nat) (n rhs i : Nat) (s : List Nat × Nat) : Prop :=
  s.1.length = quotient.length ∧ s.2 < rhs ∧ s.1.take i = quotient.take i
    ∧ s.1.drop n = quotient.drop n ∧ (∀ x ∈ (s.1.take n).drop i, x < base)
    ∧ value ((s.1.take n).drop i) * rhs + s.2 = value ((src.take n).drop i)

/-- The character of the decimal digit of `v` with weight `10 ^ j`. -/
def decimal_char (v j : Nat) : Int := ((v / 10 ^ j % 10 : Nat) : Int) + 48

/-- The buffer `str` holds the `len` lowest decimal digits of `v`, lowest first, and is
otherwise as `str0`. -/
def emitted (v : Nat) (str0 str : List Int) (len : Nat) : Prop :=
  str.length = str0.length ∧ str.drop len = str0.drop len
    ∧ ∀ j, j < len → rdc str j = decimal_char v j

/-- The state `(copy, size, str, len)` of the first loop of `to_base10` for the value
`v`: `copy` holds `v / 10 ^ len` in normal form, fewer than `m` digits are out, and when
the capacity holds all the digits of `v` the digits written are in `str`. -/
def to_base10_inv (v m : Nat) (cap : Int) (str0 : List Int) (c : Nat)
    (s : List Nat × Int × List Int × Int) : Prop :=
  ∃ (n len : Nat), s.2.1 = (n : Int) ∧ s.2.2.2 = (len : Int) ∧ s.1.length = c ∧ n ≤ c
    ∧ normal_form (s.1.take n) ∧ value (s.1.take n) = v / 10 ^ len
    ∧ len ≤ m ∧ v / 10 ^ len < 10 ^ (m - len) ∧ (len = 0 ∨ 10 ^ (len - 1) ≤ v)
    ∧ s.2.2.1.length = str0.length
    ∧ ((0 ≤ cap ∧ v < 10 ^ cap.toNat) → emitted v str0 s.2.2.1 len)

/-- The state `(copy, str, len)` of the second loop of `to_base10` for the value `v`. -/
def to_base10_inv2 (v m : Nat) (cap : Int) (str0 : List Int)
    (s : List Nat × List Int × Int) : Prop :=
  ∃ (len : Nat), s.2.2 = (len : Int) ∧ 1 ≤ s.1.length ∧ rd s.1 0 = v / 10 ^ len
    ∧ len ≤ m ∧ v / 10 ^ len < 10 ^ (m - len) ∧ (len = 0 ∨ 10 ^ (len - 1) ≤ v)
    ∧ s.2.1.length = str0.length
    ∧ ((0 ≤ cap ∧ v < 10 ^ cap.toNat) → emitted v str0 s.2.1 len)

/-- The state `(str, i, j)` of the last loop of `to_base10` reversing the `len`
characters of `e`: the characters before `i` and after `j` are in their final place. -/
def reverse_inv (e : List Int) (len : Nat) (s : List Int × Int × Int) : Prop :=
  ∃ (i : Nat), s.2.1 = (i : Int) ∧ s.2.2 = (len : Int) - 1 - (i : Int)
    ∧ s.1.length = e.length ∧ s.1.drop len = e.drop len
    ∧ ∀ k, k < len → rdc s.1 k = if k < i ∨ len - 1 - i < k then rdc e (len - 1 - k)
        else rdc e k

/-- The buffer `s1` is `ln` with the `i` limbs from index `j` on rewritten, each below
`base`. -/
def window_inv (ln : List Nat) (j i : Nat) (s1 : List Nat) : Prop :=
  s1.length = ln.length ∧ s1.take j = ln.take j ∧ s1.drop (j + i) = ln.drop (j + i)
    ∧ ∀ x ∈ (s1.drop j).take i, x < base

/-- The state of the main loop of `algorithm_d` when the quotient digits from index `jj`
on are computed: `N` is the normalized dividend, `V` the normalized divisor of `n` limbs,
`cnt` the number of quotient digits. -/
def algorithm_d_inv (ignore_quotient : Bool) (quot : List Nat) (N V n cnt jj : Nat)
    (s : List Nat × List Nat) : Prop :=
  s.1.length = cnt + n ∧ (∀ x ∈ s.1, x < base) ∧ (∀ t, jj + n ≤ t → rd s.1 t = 0)
    ∧ value ((s.1.drop jj).take n) < V
    ∧ ∃ Q, N = Q * V * base ^ jj + value (s.1.take (jj + n))
      ∧ (ignore_quotient = false → s.2.length = quot.length ∧ s.2.drop cnt = quot.drop cnt
          ∧ (∀ x ∈ (s.2.drop jj).take (cnt - jj), x < base)
          ∧ value ((s.2.drop jj).take (cnt - jj)) = Q)

/-- A memory for `mul`: `g_zero` at address 0, then the scratch block of
`2 * (a.length + b.length)` limbs that `mul` allocates, then `result`
(`a.length + b.length` limbs), `lhs` and `rhs`; the two blocks hold `fill`. -/
def mul_memory (a b : List Nat) (fill : Nat) : List Nat :=
  [0] ++ List.replicate (2 * (a.length + b.length)) fill
    ++ List.replicate (a.length + b.length) fill ++ a ++ b

/-- `mul` run on `mul_memory a b fill`: the limbs of the result and the size returned. -/
def mul_run (fuel : Nat) (a b : List Nat) (fill : Nat) : Option (List Nat × Int) :=
  (mul fuel (mul_memory a b fill) (1 + 2 * (a.length + b.length))
      (1 + 3 * (a.length + b.length))
      (1 + 3 * (a.length + b.length) + a.length) a.length b.length
      1).map
    fun r => ((r.1.drop (1 + 2 * (a.length + b.length))).take r.2.toNat, r.2)

/-- The memory of `n` limbs that holds 1 at the addresses `ones` and 0 elsewhere. -/
def ones_at (n : Nat) (ones : List Nat) : List Nat :=
  (List.range n).map fun i => if i ∈ ones then 1 else 0

/-- The function `f` with its value at one call replaced by `v`. -/
def memo (f : List Nat → Nat → Nat → Nat → Int → Int → Nat → Option (List Nat × Int))
    (h : List Nat) (result lhs rhs : Nat) (lhs_size rhs_size : Int) (memory : Nat)
    (v : Option (List Nat × Int)) :
    List Nat → Nat → Nat → Nat → Int → Int → Nat → Option (List Nat × Int) :=
  fun h1 result1 lhs1 rhs1 lhs_size1 rhs_size1 memory1 =>
    if h1 = h ∧ result1 = result ∧ lhs1 = lhs ∧ rhs1 = rhs ∧ lhs_size1 = lhs_size
        ∧ rhs_size1 = rhs_size ∧ memory1 = memory then v
    else f h1 result1 lhs1 rhs1 lhs_size1 rhs_size1 memory1

/-- The character `c` is a `char`, whether `char` is signed or not. -/
def char_range (c : Int) : Prop := -128 ≤ c ∧ c ≤ 255

instance (c : Int) : Decidable (char_range c) := by
  unfold char_range
  infer_instance

/-- The character `c` is one of `0-9`, `a-f`, `A-F`. -/
def hex_alphabet (c : Int) : Prop :=
  (48 ≤ c ∧ c ≤ 57) ∨ (97 ≤ c ∧ c ≤ 102) ∨ (65 ≤ c ∧ c ≤ 70)

instance (c : Int) : Decidable (hex_alphabet c) := by
  unfold hex_alphabet
  infer_instance

/-- The lower-case letter of `A-F`; other characters are left as they are. -/
def hex_lower (c : Int) : Int := if 65 ≤ c ∧ c ≤ 70 then c + 32 else c

/-- The limbs of the magnitude of a `number`. -/
def magnitude (x : number) : List Nat := x.m_digits.take x.m_size.toNat

/-- The integer a `number` stands for. -/
def signed_value (x : number) : Int :=
  (if x.m_negative then -1 else 1) * (value (magnitude x) : Int)

/-- The members of a `number` fit together: the size is at least 1 and within the block,
every cell of the block is a `limb_t`, and the magnitude is in normal form. -/
def number_valid (x : number) : Prop :=
  1 ≤ x.m_size ∧ x.m_size.toNat ≤ x.m_digits.length ∧ (∀ d ∈ x.m_digits, d < base)
    ∧ normal_form (magnitude x)

instance (x : number) : Decidable (number_valid x) := by
  unfold number_valid
  infer_instance

/-- The zero-sign invariant: a magnitude of zero carries the sign flag `false`. -/
def zero_sign (x : number) : Prop := value (magnitude x) = 0 → x.m_negative = false

instance (x : number) : Decidable (zero_sign x) := by
  unfold zero_sign
  infer_instance

/-- The `number` with the sign flag of `x` flipped. -/
def negate (x : number) : number := ⟨x.m_size, x.m_capacity, !x.m_negative, x.m_digits⟩

/-- The allocator returns blocks of the length asked for whose cells are `limb_t`s. -/
def allocator_ok (g_allocate : Int → List Nat) : Prop :=
  ∀ n, (g_allocate n).length = n.toNat ∧ ∀ d ∈ g_allocate n, d < base

/-- The allocator that returns blocks of zeros. -/
def allocate_zeros (n : Int) : List Nat := List.replicate n.toNat 0

/-! ### Definitions for the later claims -/

/-- The test `lhs_digit >= rhs` of the inner branch of `divide_by_one_digit` and
`mod_by_one_digit` (bigint.cpp:245, 267), after `lhs_digit = num % rhs`. -/
def inner_branch_taken (lhs_digit l rhs : Nat) : Bool :=
  let num := ((lhs_digit <<< 32) % 2 ^ 64) ||| l
  let lhs_digit := (num % rhs) % base
  decide (lhs_digit ≥ rhs)

/-- The turn `divide_limb` with the branch `if (lhs_digit >= rhs)` (bigint.cpp:245-249)
deleted. -/
def divide_limb_unbranched (lhs_digit l rhs : Nat) : Nat × Nat :=
  let num := ((lhs_digit <<< 32) % 2 ^ 64) ||| l
  let q := (num / rhs) % base
  let lhs_digit := (num % rhs) % base
  (q, lhs_digit)

/-- The function `divide_by_one_digit` with the inner branch deleted. -/
def divide_by_one_digit_unbranched (in_place : Bool) (quotient lhs : List Nat) (rhs : Nat)
    (lhs_size : Int) : List Nat × Int × Nat :=
  let top := (lhs_size - 1).toNat
  let lhs_digit := rd (if in_place then quotient else lhs) top
  let q0 := wr quotient top (lhs_digit / rhs)
  let s := for_down (fun i (s : List Nat × Nat) =>
      let dc := divide_limb_unbranched s.2 (rd (if in_place then s.1 else lhs) i) rhs
      (wr s.1 i dc.1, dc.2)) top (q0, lhs_digit % rhs)
  if lhs_size > 1 ∧ rd s.1 top = 0 then (s.1, lhs_size - 1, s.2)
  else (s.1, lhs_size, s.2)

/-- The turn `mod_limb` with the branch `if (lhs_digit >= rhs)` (bigint.cpp:267-270)
deleted. -/
def mod_limb_unbranched (lhs_digit l rhs : Nat) : Nat :=
  let num := ((lhs_digit <<< 32) % 2 ^ 64) ||| l
  (num % rhs) % base

/-- The function `mod_by_one_digit` with the inner branch deleted. -/
def mod_by_one_digit_unbranched (lhs : List Nat) (rhs : Nat) (lhs_size : Int) : Nat :=
  let top := (lhs_size - 1).toNat
  for_down (fun i lhs_digit => mod_limb_unbranched lhs_digit (rd lhs i) rhs) top
    (rd lhs top % rhs)

/-- The text left when one leading `'-'`, if there is one, is taken off `str`. -/
def strip_sign (str : List Int) : List Int :=
  if 0 < str.length ∧ rdc str 0 = 45 then str.drop 1 else str

/-- The first estimate `quotient_digit` of a turn of the main loop of `algorithm_d`
(bigint.cpp:170), from the two top limbs of the window and the top limb of the divisor. -/
def first_estimate (rhs_normalized lhs_normalized : List Nat) (rhs_size j : Nat) : Nat :=
  let v1 := rd rhs_normalized (rhs_size - 1)
  let num := (rd lhs_normalized (j + rhs_size) * base + rd lhs_normalized (j + rhs_size - 1))
    % 2 ^ 64
  num / v1

/-- The estimate `quotient_digit` after the correction loop (bigint.cpp:172-180). -/
def corrected_estimate (rhs_normalized lhs_normalized : List Nat) (rhs_size j : Nat) : Nat :=
  let v1 := rd rhs_normalized (rhs_size - 1)
  let num := (rd lhs_normalized (j + rhs_size) * base + rd lhs_normalized (j + rhs_size - 1))
    % 2 ^ 64
  (correct_estimate v1 (rd rhs_normalized (rhs_size - 2))
    (rd lhs_normalized (j + rhs_size - 2)) (num / v1) (num % v1)).1

/-- The value of `sum` after the multiply-and-subtract (bigint.cpp:191), tested by
`if (sum < 0)`. -/
def multiply_subtract_sum (rhs_normalized lhs_normalized : List Nat) (rhs_size j : Nat) :
    Int :=
  let ms := mul_sub rhs_normalized (corrected_estimate rhs_normalized lhs_normalized rhs_size j)
    j rhs_size (lhs_normalized, 0)
  wrap64 ((rd ms.1 (j + rhs_size) : Int) - ms.2)

/-- The buffer `str` has a cell at every index that `to_base10` with capacity `c` reads or
writes on the magnitude `a`: the indices below the capacity and, when the digits of
`value a` do not all fit the capacity, the index `c` itself, where the last loop of
`to_base10` starts (`j = std::min(capacity, len - 1)`). -/
def to_base10_in_bounds (str : List Int) (c : Int) (a : List Nat) : Prop :=
  0 ≤ c ∧ c ≤ (str.length : Int) ∧ (c < (str.length : Int) ∨ value a < 10 ^ c.toNat)

/-- The buffer `str` has a cell at every index that `to_base16` with capacity `c` writes:
the indices below the capacity. -/
def to_base16_in_bounds (str : List Int) (c : Int) : Prop :=
  0 ≤ c ∧ c ≤ (str.length : Int)

/-! ### The memory model of the multiplication routines: blocks and frames -/

/-- The `n` cells of the memory `h` from the address `p` on. -/
def cells (h : List Nat) (p n : Nat) : List Nat := (h.drop p).take n

/-- The memory `h1` is `h` with at most the `n` cells from `p` on rewritten. -/
def frame (h h1 : List Nat) (p n : Nat) : Prop :=
  h1.length = h.length ∧ ∀ x, (x < p ∨ p + n ≤ x) → rd h1 x = rd h x

/-- The memory `h1` is `h` with at most the cells of two blocks rewritten. -/
def frame2 (h h1 : List Nat) (p n q m : Nat) : Prop :=
  h1.length = h.length ∧ ∀ x, (x < p ∨ p + n ≤ x) → (x < q ∨ q + m ≤ x) → rd h1 x = rd h x

/-- The block of `n` cells at `p` and the block of `m` cells at `q` do not overlap. -/
def apart (p n q m : Nat) : Prop := p + n ≤ q ∨ q + m ≤ p

/-! ## Theorems -/

/-! ### Values of limb sequences and loops -/

theorem base_pos : 0 < base := by unfold base; positivity

theorem value_nil : value [] = 0 := rfl

theorem value_cons (d : Nat) (ds : List Nat) : value (d :: ds) = d + base * value ds := rfl

theorem value_append (a b : List Nat) :
    value (a ++ b) = value a + base ^ a.length * value b := by
  induction a with
  | nil => simp [value]
  | cons x xs ih =>
    rw [List.cons_append, value_cons, value_cons, ih, List.length_cons, pow_succ]
    ring

theorem value_lt (d : List Nat) (h : ∀ x ∈ d, x < base) : value d < base ^ d.length := by
  induction d with
  | nil => simp [value]
  | cons x xs ih =>
    have hx : x < base := h x (List.mem_cons_self _ _)
    have hxs := ih (fun y hy => h y (List.mem_cons_of_mem _ hy))
    rw [value_cons, List.length_cons, pow_succ]
    nlinarith

theorem rd_lt (d : List Nat) (h : ∀ x ∈ d, x < base) (i : Nat) : rd d i < base := by
  unfold rd
  by_cases hi : i < d.length
  · rw [List.getD_eq_getElem _ _ hi]
    exact h _ (List.getElem_mem _)
  · rw [List.getD_eq_default _ _ (by omega)]
    exact base_pos

theorem take_succ_rd (d : List Nat) (i : Nat) (hi : i < d.length) :
    d.take (i + 1) = d.take i ++ [rd d i] := by
  unfold rd
  rw [List.take_succ, List.getD_eq_getElem _ _ hi]
  simp [List.getElem?_eq_getElem hi]

theorem value_take_succ (d : List Nat) (i : Nat) (hi : i < d.length) :
    value (d.take (i + 1)) = value (d.take i) + base ^ i * rd d i := by
  rw [take_succ_rd d i hi, value_append]
  simp [value, List.length_take, Nat.min_eq_left (Nat.le_of_lt hi)]

theorem for_up_inv {σ : Type} (P : Nat → σ → Prop) (body : Nat → σ → σ) :
    ∀ (n lo : Nat) (s : σ), P lo s →
      (∀ i t, lo ≤ i → i < lo + n → P i t → P (i + 1) (body i t)) →
      P (lo + n) (for_up body lo n s) := by
  intro n
  induction n with
  | zero => intro lo s h _; simpa [for_up] using h
  | succ k ih =>
    intro lo s h step
    have h1 := step lo s (le_refl _) (by omega) h
    have := ih (lo + 1) (body lo s) h1 (fun i t hi hlt => step i t (by omega) (by omega))
    simpa [for_up, Nat.add_assoc, Nat.add_comm 1 k] using this

theorem for_down_inv {σ : Type} (P : Nat → σ → Prop) (body : Nat → σ → σ) :
    ∀ (n : Nat) (s : σ), P n s →
      (∀ i t, i < n → P (i + 1) t → P i (body i t)) →
      P 0 (for_down body n s) := by
  intro n
  induction n with
  | zero => intro s h _; simpa [for_down] using h
  | succ k ih =>
    intro s h step
    exact ih (body k s) (step k s (by omega) h) (fun i t hi => step i t (by omega))

/-! ### compare -/

theorem limbs_take (d : List Nat) (h : ∀ x ∈ d, x < base) (n : Nat) :
    ∀ x ∈ d.take n, x < base :=
  fun x hx => h x (List.mem_of_mem_take hx)

theorem value_take_lt (d : List Nat) (h : ∀ x ∈ d, x < base) (n : Nat) :
    value (d.take n) < base ^ n := by
  have h1 := value_lt (d.take n) (limbs_take d h n)
  have h2 : (d.take n).length ≤ n := by simp
  exact lt_of_lt_of_le h1 (Nat.pow_le_pow_right base_pos h2)

/-- A magnitude in normal form with more than one limb is at least `base ^ (n - 1)`. -/
theorem normal_form_ge (d : List Nat) (h : normal_form d) (h1 : 1 < d.length) :
    base ^ (d.length - 1) ≤ value d := by
  obtain ⟨_, _, h3⟩ := h
  have hne : rd d (d.length - 1) ≠ 0 := by
    rcases h3 with h3 | h3
    · omega
    · exact h3
  have := value_take_succ d (d.length - 1) (by omega)
  rw [show d.length - 1 + 1 = d.length by omega, List.take_length] at this
  rw [this]
  have : 1 ≤ rd d (d.length - 1) := Nat.one_le_iff_ne_zero.mpr hne
  nlinarith [Nat.zero_le (value (List.take (d.length - 1) d)), pow_pos base_pos (d.length - 1)]

theorem compare_loop_spec (a b : List Nat) (ha : ∀ x ∈ a, x < base) (hb : ∀ x ∈ b, x < base) :
    ∀ n, n ≤ a.length → n ≤ b.length →
      compare_loop a b n =
        if value (a.take n) < value (b.take n) then -1
        else if value (a.take n) = value (b.take n) then 0 else 1 := by
  intro n
  induction n with
  | zero => intro _ _; simp [compare_loop, value]
  | succ k ih =>
    intro h1 h2
    have va := value_take_succ a k (by omega)
    have vb := value_take_succ b k (by omega)
    have la := value_take_lt a ha k
    have lb := value_take_lt b hb k
    have hp := pow_pos base_pos k
    unfold compare_loop
    by_cases hgt : rd a k > rd b k
    · have : value (b.take (k + 1)) < value (a.take (k + 1)) := by
        rw [va, vb]; nlinarith
      rw [if_pos hgt, if_neg (by omega), if_neg (by omega)]
    · rw [if_neg hgt]
      by_cases hlt : rd a k < rd b k
      · have : value (a.take (k + 1)) < value (b.take (k + 1)) := by
          rw [va, vb]; nlinarith
        rw [if_pos hlt, if_pos this]
      · have heq : rd a k = rd b k := by omega
        rw [if_neg hlt, ih (by omega) (by omega), va, vb, heq]
        simp

/-- The value `compare` returns on magnitudes in normal form. -/
theorem compare_full_spec (a b : List Nat) (ha : normal_form a) (hb : normal_form b) :
    (compare a b a.length b.length = -1 ∨ compare a b a.length b.length = 0
        ∨ compare a b a.length b.length = 1)
      ∧ (compare a b a.length b.length = -1 ↔ value a < value b)
      ∧ (compare a b a.length b.length = 0 ↔ value a = value b)
      ∧ (compare a b a.length b.length = 1 ↔ value a > value b) := by
  have key : compare a b a.length b.length =
      if value a < value b then -1 else if value a = value b then 0 else 1 := by
    unfold compare
    by_cases h1 : (a.length : Int) > b.length
    · have hl : b.length < a.length := by omega
      have hge := normal_form_ge a ha (by have := hb.1; omega)
      have hlt := value_lt b hb.2.1
      have : base ^ b.length ≤ base ^ (a.length - 1) :=
        Nat.pow_le_pow_right base_pos (by omega)
      rw [if_pos h1, if_neg (by omega), if_neg (by omega)]
    · rw [if_neg h1]
      by_cases h2 : (a.length : Int) < b.length
      · have hl : a.length < b.length := by omega
        have hge := normal_form_ge b hb (by have := ha.1; omega)
        have hlt := value_lt a ha.2.1
        have : base ^ a.length ≤ base ^ (b.length - 1) :=
          Nat.pow_le_pow_right base_pos (by omega)
        rw [if_pos h2, if_pos (by omega)]
      · have hl : a.length = b.length := by omega
        rw [if_neg h2, Int.toNat_ofNat,
          compare_loop_spec a b ha.2.1 hb.2.1 a.length (le_refl _) (by omega)]
        have e1 : a.take a.length = a := List.take_length a
        have e2 : b.take a.length = b := by rw [hl]; exact List.take_length b
        rw [e1, e2]
  rw [key]
  by_cases h1 : value a < value b
  · simp [h1]; omega
  · by_cases h2 : value a = value b
    · simp [h2]
    · simp [h1, h2]; omega

/-- C5: on magnitudes in normal form `compare` returns -1, 0 or 1, and it returns -1
exactly when `value a < value b`, 0 exactly when the values are equal and 1 exactly
when `value a > value b`. -/
theorem compare_correct (a b : List Nat) (ha : normal_form a) (hb : normal_form b) :
    (compare a b a.length b.length = -1 ∨ compare a b a.length b.length = 0
        ∨ compare a b a.length b.length = 1)
      ∧ (compare a b a.length b.length = -1 ↔ value a < value b)
      ∧ (compare a b a.length b.length = 0 ↔ value a = value b)
      ∧ (compare a b a.length b.length = 1 ↔ value a > value b) :=
  compare_full_spec a b ha hb

theorem compare_correct_witness :
    normal_form [5, 7] ∧ normal_form [9, 3] ∧ compare [5, 7] [9, 3] 2 2 = 1 ∧
      (compare [5, 7] [9, 3] ([5, 7] : List Nat).length ([9, 3] : List Nat).length = 1
        ↔ value [5, 7] > value [9, 3]) :=
  ⟨by decide, by decide, by decide,
    (compare_correct [5, 7] [9, 3] (by decide) (by decide)).2.2.2⟩

/-! ### add -/

theorem add_limb_spec (l r c : Nat) (hl : l < base) (hr : r < base) (hc : c ≤ 1) :
    (add_limb l r c).1 + base * (add_limb l r c).2 = l + r + c
      ∧ (add_limb l r c).1 < base ∧ (add_limb l r c).2 ≤ 1 := by
  unfold add_limb
  simp only [base] at *
  norm_num at *
  split_ifs <;> omega

theorem add_carry_spec (l c : Nat) (hl : l < base) (hc : c ≤ 1) :
    (add_carry l c).1 + base * (add_carry l c).2 = l + c
      ∧ (add_carry l c).1 < base ∧ (add_carry l c).2 ≤ 1 := by
  unfold add_carry
  simp only [base] at *
  norm_num at *
  split_ifs <;> omega

theorem length_wr (p : List Nat) (i v : Nat) : (wr p i v).length = p.length := by
  simp [wr]

theorem take_wr_of_le (p : List Nat) (i j v : Nat) (h : j ≤ i) :
    (wr p i v).take j = p.take j := by
  unfold wr
  induction p generalizing i j with
  | nil => simp
  | cons x xs ih =>
    cases j with
    | zero => simp
    | succ j =>
      cases i with
      | zero => omega
      | succ i => simp [ih i j (by omega)]

theorem rd_wr_same (p : List Nat) (i v : Nat) (hi : i < p.length) :
    rd (wr p i v) i = v := by
  unfold rd wr
  rw [List.getD_eq_getElem _ _ (by simpa using hi)]
  simp

theorem rd_wr_ne (p : List Nat) (i j v : Nat) (h : i ≠ j) :
    rd (wr p i v) j = rd p j := by
  unfold rd wr
  simp [List.getD_eq_getElem?_getD, List.getElem?_set_ne h]

theorem take_wr (p : List Nat) (i v : Nat) (hi : i < p.length) :
    (wr p i v).take (i + 1) = p.take i ++ [v] := by
  rw [take_succ_rd _ _ (by rw [length_wr]; exact hi), rd_wr_same p i v hi,
    take_wr_of_le p i i v (le_refl _)]

theorem drop_wr (p : List Nat) (i j v : Nat) (h : i < j) :
    (wr p i v).drop j = p.drop j := by
  unfold wr
  rw [List.drop_set, if_pos h]

theorem value_snoc (l : List Nat) (d : Nat) : value (l ++ [d]) = value l + base ^ l.length * d := by
  rw [value_append]; simp [value]

theorem length_take_le (l : List Nat) (i : Nat) (h : i ≤ l.length) : (l.take i).length = i := by
  simp [h]

theorem carry_inv_step (k : Nat) (result : List Nat) (i v d c : Nat) (s : List Nat × Nat)
    (h : carry_inv k result i v s) (hi : i < result.length) (hd : d < base) (hc : c ≤ k)
    (w : Nat) (hw : d + base * c = s.2 + w) :
    carry_inv k result (i + 1) (v + base ^ i * w) (wr s.1 i d, c) := by
  obtain ⟨h1, h2, h3, h4, h5⟩ := h
  have hi' : i < s.1.length := by omega
  refine ⟨by simp [length_wr, h1], hc, ?_, ?_, ?_⟩
  · intro x hx
    simp only [take_wr s.1 i d hi', List.mem_append, List.mem_singleton] at hx
    rcases hx with hx | hx
    · exact h3 x hx
    · omega
  · simp only [take_wr s.1 i d hi', value_snoc, length_take_le s.1 i (by omega)]
    rw [← h4, pow_succ]
    have : base ^ i * d + base ^ i * base * c = base ^ i * (d + base * c) := by ring
    rw [Nat.add_assoc, this, hw]
    ring
  · simp only [drop_wr s.1 i (i + 1) d (by omega)]
    have := congrArg (List.drop 1) h5
    simpa [List.drop_drop, Nat.add_comm] using this

theorem add_loops_spec (result lhs rhs : List Nat) (la lb : Nat) (hle : lb ≤ la)
    (h1 : la ≤ lhs.length) (h2 : lb ≤ rhs.length)
    (hl : ∀ i, i < la → rd lhs i < base) (hr : ∀ i, i < lb → rd rhs i < base)
    (hcap : la + 1 ≤ result.length) :
    ∃ c : Nat, c ≤ 1 ∧ (add_loops result lhs rhs la lb).2 = (la : Int) + (c : Int)
      ∧ (add_loops result lhs rhs la lb).1.length = result.length
      ∧ (∀ x ∈ (add_loops result lhs rhs la lb).1.take (la + c), x < base)
      ∧ value ((add_loops result lhs rhs la lb).1.take la) + base ^ la * c
          = value (lhs.take la) + value (rhs.take lb)
      ∧ value ((add_loops result lhs rhs la lb).1.take (la + c))
          = value (lhs.take la) + value (rhs.take lb)
      ∧ (add_loops result lhs rhs la lb).1.drop (la + c) = result.drop (la + c) := by
  -- first loop
  have L1 := for_up_inv
    (fun i s => carry_inv 1 result i (value (lhs.take i) + value (rhs.take i)) s)
    (fun size (s : List Nat × Nat) =>
      let dc := add_limb (rd lhs size) (rd rhs size) s.2
      (wr s.1 size dc.1, dc.2)) lb 0 (result, 0)
    (by simp [carry_inv, value])
    (by
      intro i t _ hi ht
      obtain ⟨e1, e2, e3⟩ := add_limb_spec (rd lhs i) (rd rhs i) t.2 (hl i (by omega)) (hr i (by omega)) ht.2.1
      have := carry_inv_step 1 result i _ _ _ t ht (by omega) e2 e3
        (rd lhs i + rd rhs i) (by rw [e1]; ring)
      rw [value_take_succ lhs i (by omega), value_take_succ rhs i (by omega)]
      have e : value (List.take i lhs) + base ^ i * rd lhs i
          + (value (List.take i rhs) + base ^ i * rd rhs i)
          = value (List.take i lhs) + value (List.take i rhs)
            + base ^ i * (rd lhs i + rd rhs i) := by ring
      rw [e]
      exact this)
  -- second loop
  have L2 := for_up_inv
    (fun i s => carry_inv 1 result i (value (lhs.take i) + value (rhs.take lb)) s)
    (fun size (s : List Nat × Nat) =>
      let dc := add_carry (rd lhs size) s.2
      (wr s.1 size dc.1, dc.2)) (la - lb) lb _ (by simpa using L1)
    (by
      intro i t _ hi ht
      obtain ⟨e1, e2, e3⟩ := add_carry_spec (rd lhs i) t.2 (hl i (by omega)) ht.2.1
      have := carry_inv_step 1 result i _ _ _ t ht (by omega) e2 e3
        (rd lhs i) (by rw [e1]; ring)
      rw [value_take_succ lhs i (by omega)]
      have e : value (List.take i lhs) + base ^ i * rd lhs i + value (List.take lb rhs)
          = value (List.take i lhs) + value (List.take lb rhs) + base ^ i * rd lhs i := by ring
      rw [e]
      exact this)
  rw [show lb + (la - lb) = la by omega] at L2
  simp only [add_loops, Int.toNat_ofNat]
  rw [show lb + (la - lb) = la by omega]
  generalize for_up (fun size (s : List Nat × Nat) =>
      let dc := add_carry (rd lhs size) s.2
      (wr s.1 size dc.1, dc.2)) lb (la - lb)
      (for_up (fun size (s : List Nat × Nat) =>
        let dc := add_limb (rd lhs size) (rd rhs size) s.2
        (wr s.1 size dc.1, dc.2)) 0 lb (result, 0)) = s2 at L2 ⊢
  obtain ⟨i1, i2, i3, i4, i5⟩ := L2
  refine ⟨s2.2, i2, rfl, ?_, ?_, ?_, ?_, ?_⟩
  · split_ifs <;> simp [length_wr, i1]
  · rcases Nat.eq_zero_or_pos s2.2 with hc | hc
    · simpa [hc] using i3
    · have hc1 : s2.2 = 1 := by omega
      rw [if_pos hc, hc1, take_wr s2.1 la 1 (by omega)]
      intro x hx
      simp only [List.mem_append, List.mem_singleton] at hx
      rcases hx with hx | hx
      · exact i3 x hx
      · rw [hx]; unfold base; norm_num
  · rcases Nat.eq_zero_or_pos s2.2 with hc | hc
    · simpa [hc] using i4
    · rw [if_pos hc, take_wr_of_le s2.1 la la _ (le_refl _)]
      exact i4
  · rcases Nat.eq_zero_or_pos s2.2 with hc | hc
    · simpa [hc] using i4
    · have hc1 : s2.2 = 1 := by omega
      rw [if_pos hc, hc1, take_wr s2.1 la 1 (by omega), value_snoc,
        length_take_le s2.1 la (by omega)]
      rw [hc1] at i4
      exact i4
  · rcases Nat.eq_zero_or_pos s2.2 with hc | hc
    · simpa [hc] using i5
    · have hc1 : s2.2 = 1 := by omega
      rw [if_pos hc, hc1, drop_wr s2.1 la (la + 1) 1 (by omega)]
      have := congrArg (List.drop 1) i5
      simpa [List.drop_drop, Nat.add_comm] using this


theorem normal_form_of_value_ge (t : List Nat) (h1 : ∀ x ∈ t, x < base) (h2 : 0 < t.length)
    (h3 : t.length = 1 ∨ base ^ (t.length - 1) ≤ value t) : normal_form t := by
  refine ⟨h2, h1, ?_⟩
  rcases h3 with h3 | h3
  · exact Or.inl h3
  · right
    intro h0
    have e := value_take_succ t (t.length - 1) (by omega)
    rw [show t.length - 1 + 1 = t.length by omega, List.take_length] at e
    have e0 : rd t (t.length - 1) = 0 := h0
    rw [e0, Nat.mul_zero, Nat.add_zero] at e
    have := value_take_lt t h1 (t.length - 1)
    omega

theorem add_loops_correct (result a b : List Nat) (ha : normal_form a) (hb : normal_form b)
    (hle : b.length ≤ a.length) (hcap : a.length + 1 ≤ result.length) :
    ((add_loops result a b a.length b.length).2 = (a.length : Int)
        ∨ (add_loops result a b a.length b.length).2 = (a.length : Int) + 1)
      ∧ normal_form ((add_loops result a b a.length b.length).1.take
          (add_loops result a b a.length b.length).2.toNat)
      ∧ value ((add_loops result a b a.length b.length).1.take
          (add_loops result a b a.length b.length).2.toNat) = value a + value b
      ∧ ((add_loops result a b a.length b.length).2 = (a.length : Int) + 1
          ↔ base ^ a.length ≤ value a + value b)
      ∧ (add_loops result a b a.length b.length).1.drop
          (add_loops result a b a.length b.length).2.toNat
          = result.drop (add_loops result a b a.length b.length).2.toNat := by
  obtain ⟨c, hc, e1, e2, e3, e4, e5, e6⟩ := add_loops_spec result a b a.length b.length hle
    (le_refl _) (le_refl _) (fun i _ => rd_lt a ha.2.1 i) (fun i _ => rd_lt b hb.2.1 i) hcap
  rw [List.take_length, List.take_length] at e4 e5
  have hn : (add_loops result a b a.length b.length).2.toNat = a.length + c := by
    rw [e1]; omega
  rw [hn]
  have hlt := value_take_lt (add_loops result a b a.length b.length).1
  have hpos := ha.1
  have hiff : c = 1 ↔ base ^ a.length ≤ value a + value b := by
    have hv : value (List.take a.length (add_loops result a b a.length b.length).1)
        < base ^ a.length := by
      have h3 := e3
      have := value_lt (List.take a.length (add_loops result a b a.length b.length).1)
        (fun x hx => e3 x (by
          have : List.take a.length (add_loops result a b a.length b.length).1
              = List.take a.length (List.take (a.length + c)
                  (add_loops result a b a.length b.length).1) := by
            rw [List.take_take, Nat.min_eq_left (by omega)]
          rw [this] at hx
          exact List.mem_of_mem_take hx))
      rwa [length_take_le _ _ (by omega)] at this
    constructor
    · intro h; rw [h] at e4; omega
    · intro h
      rcases Nat.eq_zero_or_pos c with h0 | h0
      · rw [h0] at e4; omega
      · omega
  refine ⟨?_, ?_, e5, ?_, e6⟩
  · rw [e1]; omega
  · apply normal_form_of_value_ge _ e3
    · rw [length_take_le _ _ (by omega)]; omega
    · rw [length_take_le _ _ (by omega), e5]
      rcases Nat.eq_zero_or_pos c with h0 | h0
      · rcases Nat.lt_or_ge 1 a.length with h1 | h1
        · right
          have := normal_form_ge a ha h1
          rw [h0]
          simp only [Nat.add_zero]
          omega
        · left; omega
      · right
        have hc1 : c = 1 := by omega
        rw [hc1]
        simp only [Nat.add_sub_cancel]
        exact hiff.mp hc1
  · rw [e1, ← hiff]
    omega

/-- The result of `add` on magnitudes in normal form: its size, its limbs and value, and
the cells it leaves alone. -/
theorem add_full_spec (result a b : List Nat) (ha : normal_form a) (hb : normal_form b)
    (hcap : max a.length b.length + 1 ≤ result.length) :
    ((add result a b a.length b.length).2 = ((max a.length b.length : Nat) : Int)
        ∨ (add result a b a.length b.length).2 = ((max a.length b.length : Nat) : Int) + 1)
      ∧ normal_form ((add result a b a.length b.length).1.take
          (add result a b a.length b.length).2.toNat)
      ∧ value ((add result a b a.length b.length).1.take
          (add result a b a.length b.length).2.toNat) = value a + value b
      ∧ ((add result a b a.length b.length).2 = ((max a.length b.length : Nat) : Int) + 1
          ↔ base ^ max a.length b.length ≤ value a + value b)
      ∧ (add result a b a.length b.length).1.drop
          (add result a b a.length b.length).2.toNat
          = result.drop (add result a b a.length b.length).2.toNat := by
  unfold add
  by_cases h : (a.length : Int) < (b.length : Int)
  · have hm : max a.length b.length = b.length := by omega
    rw [if_pos h, hm, Nat.add_comm (value a) (value b)]
    exact add_loops_correct result b a hb ha (by omega) (by omega)
  · have hm : max a.length b.length = a.length := by omega
    rw [if_neg h, hm]
    exact add_loops_correct result a b ha hb (by omega) (by omega)

/-- C3: for magnitudes `a`, `b` in normal form (lengths in either order) and a result
buffer of capacity `max + 1`, `add` returns `max` or `max + 1`, the limbs it wrote are
in normal form and stand for `value a + value b`, the size is `max + 1` exactly when
the sum reaches `base ^ max`, and no cell at or past the returned size is touched. -/
theorem add_correct (result a b : List Nat) (ha : normal_form a) (hb : normal_form b)
    (hcap : max a.length b.length + 1 ≤ result.length) :
    ((add result a b a.length b.length).2 = ((max a.length b.length : Nat) : Int)
        ∨ (add result a b a.length b.length).2 = ((max a.length b.length : Nat) : Int) + 1)
      ∧ normal_form ((add result a b a.length b.length).1.take
          (add result a b a.length b.length).2.toNat)
      ∧ value ((add result a b a.length b.length).1.take
          (add result a b a.length b.length).2.toNat) = value a + value b
      ∧ ((add result a b a.length b.length).2 = ((max a.length b.length : Nat) : Int) + 1
          ↔ base ^ max a.length b.length ≤ value a + value b)
      ∧ (add result a b a.length b.length).1.drop
          (add result a b a.length b.length).2.toNat
          = result.drop (add result a b a.length b.length).2.toNat :=
  add_full_spec result a b ha hb hcap

theorem add_correct_witness :
    normal_form [4294967295] ∧ normal_form [1] ∧
      add [7, 7] [4294967295] [1] 1 1 = ([0, 1], 2) ∧
      value ((add [7, 7] [4294967295] [1] ([4294967295] : List Nat).length
          ([1] : List Nat).length).1.take
          (add [7, 7] [4294967295] [1] ([4294967295] : List Nat).length
            ([1] : List Nat).length).2.toNat) = value [4294967295] + value [1] :=
  ⟨by decide, by decide, by decide,
    (add_correct [7, 7] [4294967295] [1] (by decide) (by decide) (by decide)).2.2.1⟩

theorem add_loops_length (result lhs rhs : List Nat) (ls rs : Int) :
    (add_loops result lhs rhs ls rs).1.length = result.length := by
  have L1 := for_up_inv (fun _ (s : List Nat × Nat) => s.1.length = result.length)
    (fun size (s : List Nat × Nat) =>
      let dc := add_limb (rd lhs size) (rd rhs size) s.2
      (wr s.1 size dc.1, dc.2)) rs.toNat 0 (result, 0) rfl
    (by intro i t _ _ ht; simpa [length_wr] using ht)
  have L2 := for_up_inv (fun _ (s : List Nat × Nat) => s.1.length = result.length)
    (fun size (s : List Nat × Nat) =>
      let dc := add_carry (rd lhs size) s.2
      (wr s.1 size dc.1, dc.2)) (ls.toNat - rs.toNat) rs.toNat _ L1
    (by intro i t _ _ ht; simpa [length_wr] using ht)
  simp only [add_loops]
  split_ifs
  · rw [length_wr]; exact L2
  · exact L2

theorem add_length (result lhs rhs : List Nat) (ls rs : Int) :
    (add result lhs rhs ls rs).1.length = result.length := by
  unfold add
  split_ifs <;> exact add_loops_length _ _ _ _ _

/-! ### sub -/

theorem sub_limb_spec (l r c : Nat) (hl : l < base) (hr : r < base) (hc : c ≤ 1) :
    (sub_limb l r c).1 + r + c = l + base * (sub_limb l r c).2
      ∧ (sub_limb l r c).1 < base ∧ (sub_limb l r c).2 ≤ 1 := by
  unfold sub_limb wrap_sub
  simp only [base] at *
  norm_num at *
  rw [Nat.mod_eq_of_lt hr, Nat.mod_eq_of_lt (show c < 4294967296 by omega)]
  split_ifs <;> omega

theorem sub_borrow_spec (l c : Nat) (hl : l < base) (hc : c ≤ 1) :
    (sub_borrow l c).1 + c = l + base * (sub_borrow l c).2
      ∧ (sub_borrow l c).1 < base ∧ (sub_borrow l c).2 ≤ 1 := by
  unfold sub_borrow wrap_sub
  simp only [base] at *
  norm_num at *
  rw [Nat.mod_eq_of_lt (show c < 4294967296 by omega)]
  split_ifs <;> omega

theorem borrow_inv_step (result : List Nat) (i vl vr d c : Nat) (s : List Nat × Nat)
    (h : borrow_inv result i vl vr s) (hi : i < result.length) (hd : d < base) (hc : c ≤ 1)
    (l r : Nat) (hw : d + r + s.2 = l + base * c) :
    borrow_inv result (i + 1) (vl + base ^ i * l) (vr + base ^ i * r) (wr s.1 i d, c) := by
  obtain ⟨h1, h2, h3, h4, h5⟩ := h
  have hi' : i < s.1.length := by omega
  refine ⟨by simp [length_wr, h1], hc, ?_, ?_, ?_⟩
  · intro x hx
    simp only [take_wr s.1 i d hi', List.mem_append, List.mem_singleton] at hx
    rcases hx with hx | hx
    · exact h3 x hx
    · omega
  · simp only [take_wr s.1 i d hi', value_snoc, length_take_le s.1 i (by omega)]
    have e : value (List.take i s.1) + base ^ i * d + (vr + base ^ i * r)
        = (value (List.take i s.1) + vr) + base ^ i * (d + r) := by ring
    rw [e, h4, pow_succ]
    have e2 : vl + base ^ i * s.2 + base ^ i * (d + r) = vl + base ^ i * (d + r + s.2) := by
      ring
    rw [e2, hw]
    ring
  · simp only [drop_wr s.1 i (i + 1) d (by omega)]
    have := congrArg (List.drop 1) h5
    simpa [List.drop_drop, Nat.add_comm] using this

theorem trim_spec (p : List Nat) : ∀ n, 1 ≤ n → n ≤ p.length →
    1 ≤ trim p n ∧ trim p n ≤ n ∧ value (p.take (trim p n)) = value (p.take n)
      ∧ (trim p n = 1 ∨ rd p (trim p n - 1) ≠ 0) := by
  intro n
  induction n with
  | zero => intro h; omega
  | succ k ih =>
    intro _ hk
    cases k with
    | zero => simp [trim]
    | succ m =>
      unfold trim
      by_cases h0 : rd p (m + 1) = 0
      · rw [if_pos h0]
        obtain ⟨a1, a2, a3, a4⟩ := ih (by omega) (by omega)
        refine ⟨a1, by omega, ?_, a4⟩
        rw [a3, value_take_succ p (m + 1) (by omega), h0]
        simp
      · rw [if_neg h0]
        exact ⟨by omega, le_refl _, rfl, Or.inr (by simpa using h0)⟩

theorem mem_take_of_le (p : List Nat) (i j : Nat) (hij : i ≤ j) (x : Nat)
    (hx : x ∈ p.take i) : x ∈ p.take j := by
  have : p.take i = (p.take j).take i := by
    rw [List.take_take, Nat.min_eq_left hij]
  rw [this] at hx
  exact List.mem_of_mem_take hx

theorem rd_take (p : List Nat) (n i : Nat) (h : i < n) : rd (p.take n) i = rd p i := by
  unfold rd
  simp [List.getD_eq_getElem?_getD, List.getElem?_take, h]

theorem limbs_take_of_rd (p : List Nat) (n : Nat) (hn : n ≤ p.length)
    (h : ∀ i, i < n → rd p i < base) : ∀ x ∈ p.take n, x < base := by
  intro x hx
  obtain ⟨i, hi, rfl⟩ := List.getElem_of_mem hx
  have hi' : i < n := by simpa [hn] using hi
  have := h i hi'
  rw [← rd_take p n i hi'] at this
  unfold rd at this
  rwa [List.getD_eq_getElem _ _ hi] at this

theorem sub_spec (result lhs rhs : List Nat) (la lb : Nat) (hla : 1 ≤ la) (hle : lb ≤ la)
    (h1 : la ≤ lhs.length) (h2 : lb ≤ rhs.length)
    (hl : ∀ i, i < la → rd lhs i < base) (hr : ∀ i, i < lb → rd rhs i < base)
    (hge : value (rhs.take lb) ≤ value (lhs.take la))
    (hcap : la ≤ result.length) :
    ∃ (r : List Nat) (n : Nat), sub result lhs rhs la lb = some (r, (n : Int))
      ∧ r.length = result.length ∧ 1 ≤ n ∧ n ≤ la
      ∧ (∀ x ∈ r.take la, x < base)
      ∧ value (r.take n) = value (lhs.take la) - value (rhs.take lb)
      ∧ (n = 1 ∨ rd r (n - 1) ≠ 0)
      ∧ r.drop la = result.drop la := by
  have L1 := for_up_inv
    (fun i s => borrow_inv result i (value (lhs.take i)) (value (rhs.take i)) s)
    (fun size (s : List Nat × Nat) =>
      let dc := sub_limb (rd lhs size) (rd rhs size) s.2
      (wr s.1 size dc.1, dc.2)) lb 0 (result, 0)
    (by simp [borrow_inv, value])
    (by
      intro i t _ hi ht
      obtain ⟨e1, e2, e3⟩ := sub_limb_spec (rd lhs i) (rd rhs i) t.2 (hl i (by omega))
        (hr i (by omega)) ht.2.1
      have := borrow_inv_step result i _ _ _ _ t ht (by omega) e2 e3
        (rd lhs i) (rd rhs i) e1
      rw [value_take_succ lhs i (by omega), value_take_succ rhs i (by omega)]
      exact this)
  have L2 := for_up_inv
    (fun i s => borrow_inv result i (value (lhs.take i)) (value (rhs.take lb)) s)
    (fun size (s : List Nat × Nat) =>
      let dc := sub_borrow (rd lhs size) s.2
      (wr s.1 size dc.1, dc.2)) (la - lb) lb _ (by simpa using L1)
    (by
      intro i t _ hi ht
      obtain ⟨e1, e2, e3⟩ := sub_borrow_spec (rd lhs i) t.2 (hl i (by omega)) ht.2.1
      have := borrow_inv_step result i _ _ _ _ t ht (by omega) e2 e3
        (rd lhs i) 0 (by simpa using e1)
      rw [value_take_succ lhs i (by omega)]
      simpa using this)
  rw [show lb + (la - lb) = la by omega] at L2
  unfold sub
  simp only [Int.toNat_ofNat]
  rw [show lb + (la - lb) = la by omega]
  generalize for_up (fun size (s : List Nat × Nat) =>
      let dc := sub_borrow (rd lhs size) s.2
      (wr s.1 size dc.1, dc.2)) lb (la - lb)
      (for_up (fun size (s : List Nat × Nat) =>
        let dc := sub_limb (rd lhs size) (rd rhs size) s.2
        (wr s.1 size dc.1, dc.2)) 0 lb (result, 0)) = s2 at L2 ⊢
  obtain ⟨i1, i2, i3, i4, i5⟩ := L2
  have hv := value_lt _ i3
  rw [length_take_le _ _ (by omega)] at hv
  have hva := value_lt _ (limbs_take_of_rd lhs la h1 hl)
  rw [length_take_le _ _ h1] at hva
  have hc0 : s2.2 = 0 := by
    rcases Nat.eq_zero_or_pos s2.2 with h | h
    · exact h
    · have : s2.2 = 1 := by omega
      rw [this] at i4
      omega
  rw [hc0] at i4
  obtain ⟨t1, t2, t3, t4⟩ := trim_spec s2.1 la hla (by omega)
  refine ⟨s2.1, trim s2.1 la, ?_, i1, t1, t2, i3, ?_, t4, i5⟩
  · rw [if_neg (by omega), if_neg (by simp [hc0])]
  · rw [t3]; omega

/-- Two magnitudes in normal form with the same value are the same limb sequence. -/
theorem value_inj_of_length (x y : List Nat) (hx : ∀ a ∈ x, a < base) (hy : ∀ a ∈ y, a < base)
    (hlen : x.length = y.length) (hv : value x = value y) : x = y := by
  induction x generalizing y with
  | nil =>
    cases y with
    | nil => rfl
    | cons b ys => simp at hlen
  | cons a xs ih =>
    cases y with
    | nil => simp at hlen
    | cons b ys =>
      have ha : a < base := hx a (List.mem_cons_self _ _)
      have hb : b < base := hy b (List.mem_cons_self _ _)
      rw [value_cons, value_cons] at hv
      have e1 : a = b := by
        have := congrArg (fun t => t % base) hv
        simpa [Nat.add_mul_mod_self_left, Nat.mod_eq_of_lt ha, Nat.mod_eq_of_lt hb] using this
      have e2 : value xs = value ys := by
        rw [e1] at hv
        have : base * value xs = base * value ys := by omega
        exact Nat.eq_of_mul_eq_mul_left base_pos this
      rw [e1, ih ys (fun t ht => hx t (List.mem_cons_of_mem _ ht))
        (fun t ht => hy t (List.mem_cons_of_mem _ ht)) (by simpa using hlen) e2]

theorem normal_form_length_le (x y : List Nat) (hx : normal_form x) (hy : normal_form y)
    (hv : value x ≤ value y) : x.length ≤ y.length := by
  by_contra h
  have h1 : 1 < x.length := by have := hy.1; omega
  have := normal_form_ge x hx h1
  have := value_lt y hy.2.1
  have : base ^ y.length ≤ base ^ (x.length - 1) := Nat.pow_le_pow_right base_pos (by omega)
  omega

theorem normal_form_unique (x y : List Nat) (hx : normal_form x) (hy : normal_form y)
    (hv : value x = value y) : x = y :=
  value_inj_of_length x y hx.2.1 hy.2.1
    (Nat.le_antisymm (normal_form_length_le x y hx hy (by omega))
      (normal_form_length_le y x hy hx (by omega))) hv

theorem sub_normal (result lhs rhs : List Nat) (la lb : Nat) (hla : 1 ≤ la) (hle : lb ≤ la)
    (h1 : la ≤ lhs.length) (h2 : lb ≤ rhs.length)
    (hl : ∀ i, i < la → rd lhs i < base) (hr : ∀ i, i < lb → rd rhs i < base)
    (hge : value (rhs.take lb) ≤ value (lhs.take la))
    (hcap : la ≤ result.length) :
    ∃ (r : List Nat) (n : Nat), sub result lhs rhs la lb = some (r, (n : Int))
      ∧ 1 ≤ n ∧ n ≤ la ∧ normal_form (r.take n)
      ∧ value (r.take n) = value (lhs.take la) - value (rhs.take lb)
      ∧ r.length = result.length ∧ r.drop la = result.drop la := by
  obtain ⟨r, n, e, e1, e2, e3, e4, e5, e6, e7⟩ :=
    sub_spec result lhs rhs la lb hla hle h1 h2 hl hr hge hcap
  refine ⟨r, n, e, e2, e3, ⟨?_, ?_, ?_⟩, e5, e1, e7⟩
  · rw [length_take_le _ _ (by omega)]; omega
  · exact fun x hx => e4 x (mem_take_of_le r n la e3 x hx)
  · rw [length_take_le _ _ (by omega)]
    rcases e6 with e6 | e6
    · exact Or.inl e6
    · right
      have := rd_take r n (n - 1) (by omega)
      unfold rd at this e6
      rw [this]
      exact e6

/-- C4: for magnitudes in normal form `sub` passes both assertions whenever
`value a >= value b`, and then returns the normal form of `value a - value b`, of
length at least 1, leaving the buffer past `lhs_size` untouched; and subtracting `b`
from what `add` wrote for `a` and `b` returns exactly the limbs and the length of `a`. -/
theorem sub_correct (result result1 result2 a b : List Nat) (ha : normal_form a)
    (hb : normal_form b) (hcap : a.length ≤ result.length)
    (hcap1 : max a.length b.length + 1 ≤ result1.length)
    (hcap2 : max a.length b.length + 1 ≤ result2.length) :
    (value b ≤ value a →
      ∃ (r : List Nat) (n : Nat), sub result a b a.length b.length = some (r, (n : Int))
        ∧ 1 ≤ n ∧ normal_form (r.take n) ∧ value (r.take n) = value a - value b
        ∧ r.drop a.length = result.drop a.length)
    ∧ ∃ r : List Nat,
        sub result2 (add result1 a b a.length b.length).1 b
          (add result1 a b a.length b.length).2 b.length = some (r, (a.length : Int))
        ∧ r.take a.length = a := by
  constructor
  · intro hge
    have hle := normal_form_length_le b a hb ha hge
    obtain ⟨r, n, e, e1, e2, e3, e4, e5, e6⟩ := sub_normal result a b a.length b.length ha.1 hle
      (le_refl _) (le_refl _) (fun i _ => rd_lt a ha.2.1 i) (fun i _ => rd_lt b hb.2.1 i)
      (by simpa using hge) hcap
    rw [List.take_length, List.take_length] at e4
    exact ⟨r, n, e, e1, e3, e4, e6⟩
  · obtain ⟨c1, c2, c3, c4, c5⟩ := add_full_spec result1 a b ha hb hcap1
    have hlen := add_length result1 a b a.length b.length
    generalize add result1 a b a.length b.length = s at c1 c2 c3 c4 c5 hlen
    obtain ⟨m, hm⟩ : ∃ m : Nat, s.2 = (m : Int) ∧ max a.length b.length ≤ m
        ∧ m ≤ max a.length b.length + 1 := by
      rcases c1 with c1 | c1
      · exact ⟨max a.length b.length, c1, le_refl _, by omega⟩
      · exact ⟨max a.length b.length + 1, by rw [c1]; simp, by omega, le_refl _⟩
    obtain ⟨hm1, hm2, hm3⟩ := hm
    rw [hm1] at c2 c3 ⊢
    simp only [Int.toNat_ofNat] at c2 c3
    have hpos := ha.1
    obtain ⟨r, n, e, e1, e2, e3, e4, e5, e6⟩ := sub_normal result2 s.1 b m b.length
      (by omega) (by omega) (by omega) (le_refl _)
      (fun i hi => by
        have := rd_lt _ c2.2.1 i
        rwa [rd_take _ _ _ hi] at this)
      (fun i _ => rd_lt b hb.2.1 i)
      (by rw [List.take_length, c3]; omega) (by omega)
    rw [List.take_length, c3, Nat.add_sub_cancel] at e4
    have heq := normal_form_unique _ _ e3 ha e4
    have hn : n = a.length := by
      have := congrArg List.length heq
      rwa [length_take_le _ _ (by omega)] at this
    rw [hn] at e heq
    exact ⟨r, e, heq⟩

theorem sub_correct_witness :
    normal_form [0, 1] ∧ normal_form [1] ∧
      sub [7, 7] [0, 1] [1] 2 1 = some ([4294967295, 0], 1) ∧
      ∃ r : List Nat,
        sub [9, 9, 9] (add [7, 7, 7] [0, 1] [1] ([0, 1] : List Nat).length
            ([1] : List Nat).length).1 [1]
          (add [7, 7, 7] [0, 1] [1] ([0, 1] : List Nat).length ([1] : List Nat).length).2
          ([1] : List Nat).length = some (r, (([0, 1] : List Nat).length : Int))
        ∧ r.take ([0, 1] : List Nat).length = [0, 1] :=
  ⟨by decide, by decide, by decide,
    (sub_correct [7, 7] [7, 7, 7] [9, 9, 9] [0, 1] [1] (by decide) (by decide) (by decide)
      (by decide) (by decide)).2⟩

/-! ### from_base10 -/

theorem rd_eq_of_drop_eq (a b : List Nat) (j : Nat) (h : a.drop j = b.drop j) :
    rd a j = rd b j := by
  have := congrArg (fun l => l.getD 0 0) h
  simpa [rd, List.getD_eq_getElem?_getD, List.getElem?_drop] using this

theorem from_base10_limb_spec (d c : Nat) (hd : d < base) (hc : c ≤ 9) :
    (from_base10_limb d c).1 + base * (from_base10_limb d c).2 = c + 10 * d
      ∧ (from_base10_limb d c).1 < base ∧ (from_base10_limb d c).2 ≤ 9 := by
  unfold from_base10_limb
  simp only [base] at *
  norm_num at *
  have h : (c + d * 10) / 4294967296 < 10 :=
    (Nat.div_lt_iff_lt_mul (by norm_num)).mpr (by omega)
  have h2 : (c + d * 10) / 4294967296 % 4294967296 = (c + d * 10) / 4294967296 :=
    Nat.mod_eq_of_lt (by omega)
  rw [h2]
  omega

theorem decimal_value_snoc (s : List Int) (c : Int) :
    decimal_value (s ++ [c]) = 10 * decimal_value s + (c - 48).toNat := by
  simp [decimal_value, List.foldl_append]

theorem decimal_value_lt (s : List Int) (hs : decimal_string s) :
    decimal_value s < 10 ^ s.length := by
  induction s using List.reverseRecOn with
  | nil => simp [decimal_value]
  | append_singleton xs c ih =>
    have hc := hs c (by simp)
    have := ih (fun x hx => hs x (by simp [hx]))
    rw [decimal_value_snoc, List.length_append, List.length_singleton, pow_succ]
    omega

theorem normal_form_rd_lt (p : List Nat) (n : Nat) (h : normal_form (p.take n)) (j : Nat)
    (hj : j < n) : rd p j < base := by
  have := rd_lt _ h.2.1 j
  rwa [rd_take _ _ _ hj] at this

theorem from_base10_push_spec (c : Nat) (hc : c ≤ 9) (s : List Nat × Nat)
    (hn : s.2 ≤ s.1.length) (hnf : normal_form (s.1.take s.2))
    (hcap : base ^ s.2 ≤ c + 10 * value (s.1.take s.2) → s.2 < s.1.length) :
    (from_base10_push c s).1.length = s.1.length
      ∧ (from_base10_push c s).2 ≤ s.1.length
      ∧ normal_form ((from_base10_push c s).1.take (from_base10_push c s).2)
      ∧ value ((from_base10_push c s).1.take (from_base10_push c s).2)
          = c + 10 * value (s.1.take s.2) := by
  have hpos : 1 ≤ s.2 := by
    have := hnf.1
    rw [length_take_le _ _ hn] at this
    exact this
  have L := for_up_inv
    (fun j t => carry_inv 9 s.1 j (c + 10 * value (s.1.take j)) t)
    (fun j (t : List Nat × Nat) =>
      let dc := from_base10_limb (rd t.1 j) t.2
      (wr t.1 j dc.1, dc.2)) s.2 0 (s.1, c)
    (by simp [carry_inv, value, hc])
    (by
      intro j t _ hj ht
      have hrd : rd t.1 j = rd s.1 j := rd_eq_of_drop_eq _ _ _ ht.2.2.2.2
      have hlt : rd s.1 j < base := normal_form_rd_lt s.1 s.2 hnf j (by omega)
      obtain ⟨e1, e2, e3⟩ := from_base10_limb_spec (rd s.1 j) t.2 hlt ht.2.1
      have := carry_inv_step 9 s.1 j _ _ _ t ht (by omega) e2 e3 (10 * rd s.1 j)
        (by rw [e1])
      rw [value_take_succ s.1 j (by omega)]
      have e : c + 10 * (value (List.take j s.1) + base ^ j * rd s.1 j)
          = c + 10 * value (List.take j s.1) + base ^ j * (10 * rd s.1 j) := by ring
      rw [e]
      simp only [hrd]
      exact this)
  simp only [Nat.zero_add] at L
  unfold from_base10_push
  generalize for_up (fun j (t : List Nat × Nat) =>
      let dc := from_base10_limb (rd t.1 j) t.2
      (wr t.1 j dc.1, dc.2)) 0 s.2 (s.1, c) = t at L ⊢
  obtain ⟨i1, i2, i3, i4, i5⟩ := L
  have hv := value_lt _ i3
  rw [length_take_le _ _ (by omega)] at hv
  by_cases h0 : t.2 > 0
  · have hlt : s.2 < s.1.length := by
      apply hcap
      rw [← i4]
      nlinarith [pow_pos base_pos s.2]
    simp only [if_pos h0]
    have htk : (wr t.1 s.2 t.2).take (s.2 + 1) = t.1.take s.2 ++ [t.2] :=
      take_wr t.1 s.2 t.2 (by omega)
    refine ⟨by rw [length_wr, i1], by omega, ?_, ?_⟩
    · rw [htk]
      apply normal_form_of_value_ge
      · intro x hx
        simp only [List.mem_append, List.mem_singleton] at hx
        rcases hx with hx | hx
        · exact i3 x hx
        · rw [hx]; unfold base; omega
      · simp
      · right
        rw [value_snoc, length_take_le _ _ (by omega)]
        simp only [List.length_append, List.length_singleton,
          length_take_le t.1 s.2 (by omega), Nat.add_sub_cancel]
        nlinarith [pow_pos base_pos s.2]
    · rw [htk, value_snoc, length_take_le _ _ (by omega)]
      exact i4
  · have h00 : t.2 = 0 := by omega
    simp only [if_neg h0]
    rw [h00] at i4
    simp only [Nat.mul_zero, Nat.add_zero] at i4
    refine ⟨i1, hn, ?_, i4⟩
    apply normal_form_of_value_ge _ i3
    · rw [length_take_le _ _ (by omega)]; exact hpos
    · rw [length_take_le _ _ (by omega), i4]
      rcases Nat.lt_or_ge 1 s.2 with h1 | h1
      · right
        have := normal_form_ge _ hnf (by rw [length_take_le _ _ hn]; exact h1)
        rw [length_take_le _ _ hn] at this
        omega
      · left; omega

theorem take_succ_rdc (s : List Int) (i : Nat) (hi : i < s.length) :
    s.take (i + 1) = s.take i ++ [rdc s i] := by
  unfold rdc
  rw [List.take_succ, List.getD_eq_getElem _ _ hi]
  simp [List.getElem?_eq_getElem hi]

theorem rdc_mem (s : List Int) (i : Nat) (hi : i < s.length) : rdc s i ∈ s := by
  unfold rdc
  rw [List.getD_eq_getElem _ _ hi]
  exact List.getElem_mem _

theorem pow_ten_lt_base_pow (cap : Nat) (hcap : 1 ≤ cap) : 10 ^ (9 * cap) < base ^ cap := by
  rw [pow_mul]
  exact Nat.pow_lt_pow_left (by unfold base; norm_num) (by omega)

theorem from_base10_loop_spec (str : List Int) (hs : decimal_string str) (cap : Nat)
    (hval : ∀ i, i ≤ str.length → decimal_value (str.take i) < base ^ cap) :
    ∀ (n i : Nat) (s : List Nat × Nat), i + n ≤ str.length → from_base10_inv str cap i s →
      ∃ (d : List Nat) (m : Nat), from_base10_loop str i n s = (d, (m : Int))
        ∧ from_base10_inv str cap (i + n) (d, m) := by
  intro n
  induction n with
  | zero =>
    intro i s _ h
    exact ⟨s.1, s.2, rfl, h⟩
  | succ k ih =>
    intro i s hi h
    obtain ⟨h1, h2, h3, h4⟩ := h
    have hc := hs _ (rdc_mem str i (by omega))
    have hcv : ((rdc str i - 48) % 2 ^ 32).toNat = (rdc str i - 48).toNat := by
      rw [Int.emod_eq_of_lt (by omega) (by omega)]
    have hc9 : (rdc str i - 48).toNat ≤ 9 := by omega
    have hdv : decimal_value (str.take (i + 1))
        = (rdc str i - 48).toNat + 10 * value (s.1.take s.2) := by
      rw [take_succ_rdc str i (by omega), decimal_value_snoc, h4]
      ring
    obtain ⟨p1, p2, p3, p4⟩ := from_base10_push_spec (rdc str i - 48).toNat hc9 s
      (by omega) h3 (by
        intro hge
        rw [← hdv] at hge
        have hlt2 : base ^ s.2 < base ^ cap := lt_of_le_of_lt hge (hval (i + 1) (by omega))
        have := (Nat.pow_lt_pow_iff_right (show 1 < base by unfold base; norm_num)).mp hlt2
        omega)
    unfold from_base10_loop
    simp only [hcv]
    rw [if_neg (by omega)]
    obtain ⟨d, m, e1, e2⟩ := ih (i + 1) (from_base10_push (rdc str i - 48).toNat s) (by omega)
      ⟨by rw [p1, h1], by rw [← h1]; exact p2, p3, by rw [p4, hdv]⟩
    exact ⟨d, m, e1, by rw [show i + (k + 1) = i + 1 + k by omega]; exact e2⟩

/-- What `from_base10` returns on a digit string whose prefixes all denote numbers
below `base ^ capacity`. -/
theorem from_base10_spec_of_value (digits : List Nat) (s : List Int) (hs : decimal_string s)
    (h1 : 1 ≤ digits.length)
    (hval : ∀ i, i ≤ s.length → decimal_value (s.take i) < base ^ digits.length) :
    ∃ (d : List Nat) (m : Nat), from_base10 digits s s.length = (d, (m : Int))
      ∧ 1 ≤ m ∧ m ≤ digits.length ∧ d.length = digits.length ∧ normal_form (d.take m)
      ∧ value (d.take m) = decimal_value s := by
  obtain ⟨d, m, e1, e2, e3, e4, e5⟩ := from_base10_loop_spec s hs digits.length hval
    s.length 0 (wr digits 0 0, 1) (by omega)
    ⟨length_wr _ _ _, h1, by
      rw [take_wr digits 0 0 (by omega)]
      simp only [List.take_zero, List.nil_append]
      decide, by
      rw [take_wr digits 0 0 (by omega)]
      simp [value, decimal_value]⟩
  simp only [Nat.zero_add, List.take_length] at e2 e3 e4 e5
  refine ⟨d, m, ?_, ?_, e3, e2, e4, e5⟩
  · unfold from_base10
    rw [Int.toNat_ofNat]
    exact e1
  · have := e4.1
    rw [length_take_le _ _ (by omega)] at this
    exact this

theorem from_base10_spec (digits : List Nat) (s : List Int) (hs : decimal_string s)
    (hcap : max 1 ((s.length + 8) / 9) ≤ digits.length) :
    ∃ (d : List Nat) (m : Nat), from_base10 digits s s.length = (d, (m : Int))
      ∧ 1 ≤ m ∧ m ≤ digits.length ∧ d.length = digits.length ∧ normal_form (d.take m)
      ∧ value (d.take m) = decimal_value s := by
  have h1 : 1 ≤ digits.length := by omega
  have h9 : s.length ≤ 9 * digits.length := by omega
  apply from_base10_spec_of_value digits s hs h1
  intro i hi
  have hlt := decimal_value_lt (s.take i) (fun c hc => hs c (List.mem_of_mem_take hc))
  rw [List.length_take, Nat.min_eq_left hi] at hlt
  have h10 : 10 ^ i ≤ 10 ^ (9 * digits.length) :=
    Nat.pow_le_pow_right (by norm_num) (by omega)
  have hb := pow_ten_lt_base_pow digits.length h1
  omega

theorem decimal_value_zeros (k : Nat) (s : List Int) :
    decimal_value (List.replicate k 48 ++ s) = decimal_value s := by
  induction k with
  | zero => simp
  | succ j ih =>
    rw [List.replicate_succ, List.cons_append]
    unfold decimal_value at ih ⊢
    rw [List.foldl_cons]
    simpa using ih

/-- C10: on a string of decimal digit characters (leading zeros allowed) `from_base10`
returns a size of at least 1 and limbs in normal form whose value is the number the
string denotes, and putting zeros in front changes neither the size nor the limbs. -/
theorem from_base10_correct (digits : List Nat) (s : List Int) (hs : decimal_string s)
    (hcap : max 1 ((s.length + 8) / 9) ≤ digits.length) :
    1 ≤ (from_base10 digits s s.length).2
      ∧ normal_form ((from_base10 digits s s.length).1.take
          (from_base10 digits s s.length).2.toNat)
      ∧ value ((from_base10 digits s s.length).1.take
          (from_base10 digits s s.length).2.toNat) = decimal_value s
      ∧ ∀ (digits2 : List Nat) (k : Nat),
          max 1 ((k + s.length + 8) / 9) ≤ digits2.length →
          (from_base10 digits2 (List.replicate k 48 ++ s) ((k + s.length : Nat) : Int)).2
              = (from_base10 digits s s.length).2
            ∧ (from_base10 digits2 (List.replicate k 48 ++ s)
                  ((k + s.length : Nat) : Int)).1.take
                (from_base10 digits s s.length).2.toNat
              = (from_base10 digits s s.length).1.take
                (from_base10 digits s s.length).2.toNat := by
  obtain ⟨d, m, e, e1, e2, e3, e4, e5⟩ := from_base10_spec digits s hs hcap
  rw [e]
  simp only [Int.toNat_ofNat]
  refine ⟨by omega, e4, e5, ?_⟩
  intro digits2 k hk
  have hs2 : decimal_string (List.replicate k 48 ++ s) := by
    intro c hc
    rcases List.mem_append.mp hc with h | h
    · rw [(List.mem_replicate.mp h).2]; omega
    · exact hs c h
  have hlen : (List.replicate k 48 ++ s).length = k + s.length := by simp
  obtain ⟨d2, m2, f, f1, f2, f3, f4, f5⟩ :=
    from_base10_spec digits2 (List.replicate k 48 ++ s) hs2 (by rw [hlen]; exact hk)
  rw [hlen] at f
  rw [f]
  rw [decimal_value_zeros] at f5
  have heq := normal_form_unique _ _ f4 e4 (by rw [f5, e5])
  have hm : m2 = m := by
    have := congrArg List.length heq
    rwa [length_take_le _ _ (by omega), length_take_le _ _ (by omega)] at this
  subst hm
  exact ⟨rfl, heq⟩

theorem from_base10_correct_witness :
    decimal_string [48, 52, 50] ∧ from_base10 [7] [48, 52, 50] 3 = ([42], 1) ∧
      value ((from_base10 [7] [48, 52, 50] ([48, 52, 50] : List Int).length).1.take
          (from_base10 [7] [48, 52, 50] ([48, 52, 50] : List Int).length).2.toNat)
        = decimal_value [48, 52, 50] :=
  ⟨by decide, by decide,
    (from_base10_correct [7] [48, 52, 50] (by decide) (by decide)).2.2.1⟩

/-! ### to_base16 and from_base16 -/

theorem nibble_eq (limb shift : Nat) : (limb >>> shift) &&& 0xf = (limb / 2 ^ shift) % 16 := by
  rw [Nat.shiftRight_eq_div_pow]
  exact Nat.and_pow_two_sub_one_eq_mod _ 4

theorem hex_value_hex_char (n : Nat) (h : n < 16) : hex_value (hex_char n) = some n := by
  interval_cases n <;> decide

theorem hex_char_lower (n : Nat) (h : n < 16) :
    (48 ≤ hex_char n ∧ hex_char n ≤ 57) ∨ (97 ≤ hex_char n ∧ hex_char n ≤ 102) := by
  interval_cases n <;> decide

theorem hex_char_eq_zero (n : Nat) (h : n < 16) : hex_char n = 48 ↔ n = 0 := by
  interval_cases n <;> decide

theorem length_nibble_chars (limb k : Nat) : (nibble_chars limb k).length = k := by
  induction k with
  | zero => rfl
  | succ j ih => simp [nibble_chars, ih]

theorem nibble_chars_lower (limb k : Nat) : lower_hex_string (nibble_chars limb k) := by
  induction k with
  | zero => intro c hc; simp [nibble_chars] at hc
  | succ j ih =>
    intro c hc
    simp only [nibble_chars, List.mem_cons] at hc
    rcases hc with hc | hc
    · rw [hc]; exact hex_char_lower _ (Nat.mod_lt _ (by norm_num))
    · exact ih c hc

theorem hex_fold_append (acc : Nat) (s t : List Int) :
    hex_fold acc (s ++ t) = hex_fold (hex_fold acc s) t := by
  simp [hex_fold, List.foldl_append]

theorem hex_fold_nibble_chars (limb : Nat) : ∀ (k acc : Nat),
    hex_fold acc (nibble_chars limb k) = acc * 16 ^ k + limb % 16 ^ k := by
  intro k
  induction k with
  | zero => intro acc; simp [nibble_chars, hex_fold, Nat.mod_one]
  | succ j ih =>
    intro acc
    have h1 : hex_fold acc (nibble_chars limb (j + 1))
        = hex_fold (16 * acc + (limb / 16 ^ j) % 16) (nibble_chars limb j) := by
      simp [nibble_chars, hex_fold, hex_value_hex_char _ (Nat.mod_lt (limb / 16 ^ j)
        (show 0 < 16 by norm_num))]
    rw [h1, ih, Nat.mod_pow_succ]
    ring

theorem to_base16_skip_succ (top s : Nat) :
    to_base16_skip top (s + 4) =
      if ((top >>> s) &&& 0xf) = 0 ∧ s + 4 > 4 then to_base16_skip top s else s + 4 := by
  rw [to_base16_skip]

theorem to_base16_limb_zero (limb : Nat) (cap : Int) (s : List Int × Int) :
    to_base16_limb limb cap 0 s = s := by
  simp [to_base16_limb]

theorem to_base16_limb_succ (limb : Nat) (cap : Int) (shift : Nat) (s : List Int × Int) :
    to_base16_limb limb cap (shift + 4) s =
      to_base16_limb limb cap shift
        ((if s.2 < cap then wrc s.1 s.2.toNat (hex_char ((limb >>> shift) &&& 0xf))
          else s.1), s.2 + 1) := by
  rw [to_base16_limb]

theorem to_base16_skip_spec (top : Nat) : ∀ k, 1 ≤ k → top < 16 ^ k →
    ∃ k0, to_base16_skip top (4 * k) = 4 * k0 ∧ 1 ≤ k0 ∧ k0 ≤ k ∧ top < 16 ^ k0
      ∧ (k0 = 1 ∨ (top / 16 ^ (k0 - 1)) % 16 ≠ 0) := by
  intro k
  induction k with
  | zero => intro h; omega
  | succ j ih =>
    intro _ htop
    rw [show 4 * (j + 1) = 4 * j + 4 by ring, to_base16_skip_succ, nibble_eq,
      show (2 : Nat) ^ (4 * j) = 16 ^ j by rw [pow_mul]; norm_num]
    by_cases hc : (top / 16 ^ j) % 16 = 0 ∧ 4 * j + 4 > 4
    · rw [if_pos hc]
      have hj : 1 ≤ j := by omega
      have hlt : top / 16 ^ j < 16 := by
        rw [Nat.div_lt_iff_lt_mul (by positivity)]
        rw [pow_succ] at htop
        linarith
      have h0 : top / 16 ^ j = 0 := by
        have := hc.1
        rwa [Nat.mod_eq_of_lt hlt] at this
      have hlt2 : top < 16 ^ j := by
        rcases Nat.lt_or_ge top (16 ^ j) with h | h
        · exact h
        · have := Nat.div_pos h (by positivity)
          omega
      obtain ⟨k0, e1, e2, e3, e4, e5⟩ := ih hj hlt2
      exact ⟨k0, e1, e2, by omega, e4, e5⟩
    · rw [if_neg hc]
      refine ⟨j + 1, by ring, by omega, le_refl _, htop, ?_⟩
      rcases Nat.eq_zero_or_pos j with h | h
      · left; omega
      · right
        simp only [Nat.add_sub_cancel]
        intro h0
        exact hc ⟨h0, by omega⟩

theorem length_wrc (p : List Int) (i : Nat) (v : Int) : (wrc p i v).length = p.length := by
  simp [wrc]

theorem take_wrc_of_le (p : List Int) (i j : Nat) (v : Int) (h : j ≤ i) :
    (wrc p i v).take j = p.take j := by
  unfold wrc
  induction p generalizing i j with
  | nil => simp
  | cons x xs ih =>
    cases j with
    | zero => simp
    | succ j =>
      cases i with
      | zero => omega
      | succ i => simp [ih i j (by omega)]

theorem rdc_wrc_same (p : List Int) (i : Nat) (v : Int) (hi : i < p.length) :
    rdc (wrc p i v) i = v := by
  unfold rdc wrc
  rw [List.getD_eq_getElem _ _ (by simpa using hi)]
  simp

theorem rdc_wrc_ne (p : List Int) (i j : Nat) (v : Int) (h : i ≠ j) :
    rdc (wrc p i v) j = rdc p j := by
  unfold rdc wrc
  simp [List.getD_eq_getElem?_getD, List.getElem?_set_ne h]

theorem take_wrc (p : List Int) (i : Nat) (v : Int) (hi : i < p.length) :
    (wrc p i v).take (i + 1) = p.take i ++ [v] := by
  rw [take_succ_rdc _ _ (by rw [length_wrc]; exact hi), rdc_wrc_same p i v hi,
    take_wrc_of_le p i i v (le_refl _)]

theorem drop_wrc (p : List Int) (i j : Nat) (v : Int) (h : i < j) :
    (wrc p i v).drop j = p.drop j := by
  unfold wrc
  rw [List.drop_set, if_pos h]

theorem drop_succ_of_drop_eq {α : Type} (a b : List α) (n : Nat) (h : a.drop n = b.drop n) :
    a.drop (n + 1) = b.drop (n + 1) := by
  have := congrArg (List.drop 1) h
  simpa [List.drop_drop, Nat.add_comm] using this

theorem to_base16_limb_spec (limb : Nat) (cap : Int) : ∀ (k : Nat) (str : List Int) (n : Nat),
    ((n + k : Nat) : Int) ≤ cap → cap ≤ (str.length : Int) →
    ∃ r, to_base16_limb limb cap (4 * k) (str, (n : Int)) = (r, ((n + k : Nat) : Int))
      ∧ r.length = str.length ∧ r.take (n + k) = str.take n ++ nibble_chars limb k
      ∧ r.drop (n + k) = str.drop (n + k) := by
  intro k
  induction k with
  | zero =>
    intro str n _ _
    exact ⟨str, by rw [Nat.mul_zero, to_base16_limb_zero]; rfl, rfl, by simp [nibble_chars], rfl⟩
  | succ j ih =>
    intro str n h1 h2
    rw [show 4 * (j + 1) = 4 * j + 4 by ring, to_base16_limb_succ, nibble_eq,
      show (2 : Nat) ^ (4 * j) = 16 ^ j by rw [pow_mul]; norm_num]
    have hlt : (n : Int) < cap := by push_cast at h1; omega
    simp only [if_pos hlt, Int.toNat_ofNat]
    have hn : n < str.length := by omega
    obtain ⟨r, e1, e2, e3, e4⟩ := ih (wrc str n (hex_char (limb / 16 ^ j % 16))) (n + 1)
      (by push_cast at h1 ⊢; omega) (by rw [length_wrc]; exact h2)
    refine ⟨r, ?_, by rw [e2, length_wrc], ?_, ?_⟩
    · rw [show ((n : Int) + 1) = ((n + 1 : Nat) : Int) by push_cast; rfl, e1]
      rw [show n + 1 + j = n + (j + 1) by omega]
    · rw [show n + (j + 1) = n + 1 + j by omega, e3, take_wrc _ _ _ hn]
      simp [nibble_chars]
    · rw [show n + (j + 1) = n + 1 + j by omega, e4, drop_wrc _ _ _ _ (by omega)]

theorem to_base16_limb_len (limb : Nat) (cap : Int) : ∀ (k : Nat) (s : List Int × Int),
    (to_base16_limb limb cap (4 * k) s).2 = s.2 + k := by
  intro k
  induction k with
  | zero => intro s; rw [Nat.mul_zero, to_base16_limb_zero]; simp
  | succ j ih =>
    intro s
    rw [show 4 * (j + 1) = 4 * j + 4 by ring, to_base16_limb_succ, ih]
    push_cast
    ring

theorem value_drop (a : List Nat) (i : Nat) (hi : i < a.length) :
    value (a.drop i) = rd a i + base * value (a.drop (i + 1)) := by
  have : a.drop i = rd a i :: a.drop (i + 1) := by
    unfold rd
    rw [List.getD_eq_getElem _ _ hi]
    exact List.drop_eq_getElem_cons hi
  rw [this, value_cons]

theorem sixteen_pow_eight : (16 : Nat) ^ 8 = base := by unfold base; norm_num

/-- What `to_base16` returns and writes when the capacity holds the whole text, in terms
of the number `k0` of characters of the top limb. -/
theorem to_base16_spec (str : List Int) (cap : Int) (a : List Nat) (m : Nat)
    (hm : a.length = m + 1) (ha : ∀ x ∈ a, x < base) (hstr : cap ≤ (str.length : Int)) :
    ∃ k0, to_base16_skip (rd a m) 32 = 4 * k0 ∧ 1 ≤ k0 ∧ k0 ≤ 8 ∧ rd a m < 16 ^ k0
      ∧ (k0 = 1 ∨ (rd a m / 16 ^ (k0 - 1)) % 16 ≠ 0)
      ∧ (to_base16 str cap a a.length).2 = ((k0 + 8 * m : Nat) : Int)
      ∧ (((k0 + 8 * m : Nat) : Int) ≤ cap →
          (to_base16 str cap a a.length).1.length = str.length
          ∧ lower_hex_string ((to_base16 str cap a a.length).1.take (k0 + 8 * m))
          ∧ hex_denote ((to_base16 str cap a a.length).1.take (k0 + 8 * m)) = value a
          ∧ (to_base16 str cap a a.length).1.take k0 = nibble_chars (rd a m) k0
          ∧ (to_base16 str cap a a.length).1.drop (k0 + 8 * m) = str.drop (k0 + 8 * m)) := by
  obtain ⟨k0, e1, e2, e3, e4, e5⟩ := to_base16_skip_spec (rd a m) 8 (by norm_num)
    (by rw [sixteen_pow_eight]; exact rd_lt a ha m)
  refine ⟨k0, e1, e2, e3, e4, e5, ?_, ?_⟩
  · unfold to_base16
    rw [hm]
    simp only [show ((m + 1 : Nat) : Int).toNat = m + 1 by simp,
      show (((m + 1 : Nat) : Int) - 1).toNat = m by simp, for_down, e1]
    have L := for_down_inv
      (fun i (t : (List Int × Int) × Nat) => t.2 = 32 ∧ t.1.2 = ((k0 + 8 * (m - i) : Nat) : Int))
      (fun i (s : (List Int × Int) × Nat) =>
        (to_base16_limb (rd a i) cap s.2 s.1, 32)) m
      (to_base16_limb (rd a m) cap (4 * k0) (str, 0), 32)
      ⟨rfl, by rw [to_base16_limb_len]; simp⟩
      (by
        intro i t hi ht
        refine ⟨rfl, ?_⟩
        show (to_base16_limb (rd a i) cap t.2 t.1).2 = _
        rw [ht.1, show (32 : Nat) = 4 * 8 by norm_num, to_base16_limb_len, ht.2]
        push_cast
        omega)
    simpa using L.2
  · intro hcap
    unfold to_base16
    rw [hm]
    simp only [show ((m + 1 : Nat) : Int).toNat = m + 1 by simp,
      show (((m + 1 : Nat) : Int) - 1).toNat = m by simp, for_down, e1]
    obtain ⟨r0, f1, f2, f3, f4⟩ := to_base16_limb_spec (rd a m) cap k0 str 0
      (by push_cast at hcap ⊢; omega) hstr
    simp only [Nat.zero_add, List.take_zero, List.nil_append, Nat.cast_zero] at f1 f3 f4
    have hval0 : hex_denote (nibble_chars (rd a m) k0) = value (a.drop m) := by
      unfold hex_denote
      rw [hex_fold_nibble_chars, Nat.zero_mul, Nat.zero_add, Nat.mod_eq_of_lt e4,
        value_drop a m (by omega), List.drop_of_length_le (by omega)]
      simp [value]
    have L := for_down_inv
      (fun i (t : (List Int × Int) × Nat) => t.2 = 32
        ∧ t.1.2 = ((k0 + 8 * (m - i) : Nat) : Int)
        ∧ t.1.1.length = str.length
        ∧ lower_hex_string (t.1.1.take (k0 + 8 * (m - i)))
        ∧ hex_denote (t.1.1.take (k0 + 8 * (m - i))) = value (a.drop i)
        ∧ t.1.1.take k0 = nibble_chars (rd a m) k0
        ∧ t.1.1.drop (k0 + 8 * (m - i)) = str.drop (k0 + 8 * (m - i)))
      (fun i (s : (List Int × Int) × Nat) =>
        (to_base16_limb (rd a i) cap s.2 s.1, 32)) m
      (to_base16_limb (rd a m) cap (4 * k0) (str, 0), 32)
      (by
        rw [f1]
        simp only [Nat.sub_self, Nat.mul_zero, Nat.add_zero]
        refine ⟨trivial, trivial, f2, ?_, ?_, f3, f4⟩
        · rw [f3]; exact nibble_chars_lower _ _
        · rw [f3]; exact hval0)
      (by
        intro i t hi ht
        obtain ⟨g1, g2, g3, g4, g5, g6, g7⟩ := ht
        have hsub : m - i = (m - (i + 1)) + 1 := by omega
        obtain ⟨r, q1, q2, q3, q4⟩ := to_base16_limb_spec (rd a i) cap 8 t.1.1
          (k0 + 8 * (m - (i + 1)))
          (by push_cast at hcap ⊢; omega) (by rw [g3]; exact hstr)
        have hst : t.1 = (t.1.1, ((k0 + 8 * (m - (i + 1)) : Nat) : Int)) := by
          rw [← g2]
        have hbody : to_base16_limb (rd a i) cap t.2 t.1
            = (r, ((k0 + 8 * (m - (i + 1)) + 8 : Nat) : Int)) := by
          rw [g1, hst]
          exact q1
        have hidx : k0 + 8 * (m - i) = k0 + 8 * (m - (i + 1)) + 8 := by omega
        simp only [hbody, hidx]
        refine ⟨trivial, trivial, by rw [q2, g3], ?_, ?_, ?_, ?_⟩
        · rw [q3]
          intro c hc
          rcases List.mem_append.mp hc with h | h
          · exact g4 c h
          · exact nibble_chars_lower _ _ c h
        · rw [q3]
          unfold hex_denote at g5 ⊢
          rw [hex_fold_append, g5, hex_fold_nibble_chars, sixteen_pow_eight,
            Nat.mod_eq_of_lt (rd_lt a ha i), value_drop a i (by omega)]
          ring
        · have : List.take k0 r = List.take k0 (List.take (k0 + 8 * (m - (i + 1)) + 8) r) := by
            rw [List.take_take, Nat.min_eq_left (by omega)]
          rw [this, q3, List.take_append_of_le_length (by
            rw [List.length_take, g3]
            have : k0 + 8 * (m - (i + 1)) ≤ str.length := by push_cast at hcap; omega
            omega), List.take_take, Nat.min_eq_left (by omega)]
          exact g6
        · rw [q4]
          have := congrArg (List.drop 8) g7
          simpa [List.drop_drop, Nat.add_comm, Nat.add_left_comm] using this)
    simp only [Nat.sub_zero, List.drop_zero] at L
    exact ⟨L.2.2.1, L.2.2.2.1, L.2.2.2.2.1, L.2.2.2.2.2.1, L.2.2.2.2.2.2⟩

theorem normal_form_value_zero (a : List Nat) (ha : normal_form a) :
    value a = 0 ↔ a = [0] := by
  constructor
  · intro h
    exact normal_form_unique a [0] ha (by decide) (by rw [h]; rfl)
  · intro h; rw [h]; rfl

theorem rdc_take (p : List Int) (n i : Nat) (h : i < n) : rdc (p.take n) i = rdc p i := by
  unfold rdc
  simp [List.getD_eq_getElem?_getD, List.getElem?_take, h]

theorem rdc_nibble_chars_zero (limb k : Nat) (hk : 1 ≤ k) :
    rdc (nibble_chars limb k) 0 = hex_char ((limb / 16 ^ (k - 1)) % 16) := by
  obtain ⟨j, rfl⟩ : ∃ j, k = j + 1 := ⟨k - 1, by omega⟩
  simp [nibble_chars, rdc]

/-- The text that `to_base16` writes for a magnitude in normal form. -/
theorem to_base16_full_spec (str : List Int) (capacity : Int) (a : List Nat)
    (ha : normal_form a) (hstr : capacity ≤ (str.length : Int))
    (hcap : (to_base16 str capacity a a.length).2 ≤ capacity) :
    1 ≤ (to_base16 str capacity a a.length).2
      ∧ lower_hex_string ((to_base16 str capacity a a.length).1.take
          (to_base16 str capacity a a.length).2.toNat)
      ∧ hex_denote ((to_base16 str capacity a a.length).1.take
          (to_base16 str capacity a a.length).2.toNat) = value a
      ∧ (rdc (to_base16 str capacity a a.length).1 0 = 48 → value a = 0)
      ∧ (value a = 0 → (to_base16 str capacity a a.length).1.take
          (to_base16 str capacity a a.length).2.toNat = [48])
      ∧ (∃ k0 : Nat, 1 ≤ k0 ∧ k0 ≤ 8
          ∧ (to_base16 str capacity a a.length).2 = ((8 * (a.length - 1) + k0 : Nat) : Int))
      ∧ (to_base16 str capacity a a.length).1.drop
          (to_base16 str capacity a a.length).2.toNat
          = str.drop (to_base16 str capacity a a.length).2.toNat := by
  obtain ⟨m, hm⟩ : ∃ m, a.length = m + 1 := ⟨a.length - 1, by have := ha.1; omega⟩
  obtain ⟨k0, e1, e2, e3, e4, e5, e6, e7⟩ := to_base16_spec str capacity a m hm ha.2.1 hstr
  rw [e6] at hcap
  obtain ⟨f1, f2, f3, f4, f5⟩ := e7 hcap
  rw [e6]
  simp only [Int.toNat_ofNat]
  have htop_zero : rd a m = 0 → a = [0] := by
    intro h0
    have h3 := ha.2.2
    rw [hm, Nat.add_sub_cancel] at h3
    have hm0 : m = 0 := by
      rcases h3 with h3 | h3
      · omega
      · exact absurd h0 h3
    subst hm0
    match a, hm, h0 with
    | [x], _, h0 => simpa [rd] using h0
  refine ⟨by push_cast; omega, f2, f3, ?_, ?_, ⟨k0, e2, e3, ?_⟩, f5⟩
  · intro h48
    have hhead : rdc (to_base16 str capacity a a.length).1 0
        = hex_char ((rd a m / 16 ^ (k0 - 1)) % 16) := by
      rw [← rdc_take _ k0 0 (by omega), f4, rdc_nibble_chars_zero _ _ e2]
    rw [hhead, hex_char_eq_zero _ (Nat.mod_lt _ (by norm_num))] at h48
    have hk : k0 = 1 := by
      rcases e5 with h | h
      · exact h
      · exact absurd h48 h
    subst hk
    simp only [Nat.sub_self, pow_zero, Nat.div_one] at h48
    have : rd a m = 0 := by omega
    rw [htop_zero this]
    rfl
  · intro hv
    have hz := (normal_form_value_zero a ha).mp hv
    have hm0 : m = 0 := by rw [hz] at hm; simpa using hm
    subst hm0
    have htop : rd a 0 = 0 := by rw [hz]; rfl
    have hk : k0 = 1 := by
      rcases e5 with h | h
      · exact h
      · rw [htop] at h; simp at h
    subst hk
    simp only [Nat.mul_zero, Nat.add_zero]
    rw [f4, htop]
    rfl
  · rw [hm]
    push_cast
    omega

/-- C9: for a magnitude in normal form and a capacity that holds the returned length,
`to_base16` writes a non-empty text over `0-9a-f` that denotes `value a` most significant
nibble first, whose first character is `'0'` only for the value zero (whose text is
"0"), with 8 characters for every limb below the top one and 1 to 8 for the top limb;
the buffer past the text is left as it was. -/
theorem to_base16_correct (str : List Int) (capacity : Int) (a : List Nat)
    (ha : normal_form a) (hstr : capacity ≤ (str.length : Int))
    (hcap : (to_base16 str capacity a a.length).2 ≤ capacity) :
    1 ≤ (to_base16 str capacity a a.length).2
      ∧ lower_hex_string ((to_base16 str capacity a a.length).1.take
          (to_base16 str capacity a a.length).2.toNat)
      ∧ hex_denote ((to_base16 str capacity a a.length).1.take
          (to_base16 str capacity a a.length).2.toNat) = value a
      ∧ (rdc (to_base16 str capacity a a.length).1 0 = 48 → value a = 0)
      ∧ (value a = 0 → (to_base16 str capacity a a.length).1.take
          (to_base16 str capacity a a.length).2.toNat = [48])
      ∧ (∃ k0 : Nat, 1 ≤ k0 ∧ k0 ≤ 8
          ∧ (to_base16 str capacity a a.length).2 = ((8 * (a.length - 1) + k0 : Nat) : Int))
      ∧ (to_base16 str capacity a a.length).1.drop
          (to_base16 str capacity a a.length).2.toNat
          = str.drop (to_base16 str capacity a a.length).2.toNat :=
  to_base16_full_spec str capacity a ha hstr hcap

theorem to_base16_correct_witness :
    normal_form [256] ∧ to_base16 [0, 0, 0, 0] 3 [256] 1 = ([49, 48, 48, 0], 3) ∧
      hex_denote ((to_base16 [0, 0, 0, 0] 3 [256] ([256] : List Nat).length).1.take
          (to_base16 [0, 0, 0, 0] 3 [256] ([256] : List Nat).length).2.toNat)
        = value [256] :=
  ⟨by decide, by decide,
    (to_base16_correct [0, 0, 0, 0] 3 [256] (by decide) (by decide) (by decide)).2.2.1⟩

theorem lor_shift (a v k : Nat) (h : a < 2 ^ k) : a ||| (v <<< k) = a + v * 2 ^ k := by
  rw [Nat.shiftLeft_eq, Nat.lor_comm, Nat.mul_comm v, ← Nat.mul_add_lt_is_or h, Nat.add_comm]

theorem hex_value_lt (c : Int) (v : Nat) (h : hex_value c = some v) : v < 16 := by
  unfold hex_value at h
  split_ifs at h <;> simp at h <;> omega

theorem hex_fold_acc (s : List Int) : ∀ acc, hex_fold acc s
    = acc * 16 ^ s.length + hex_fold 0 s := by
  induction s with
  | nil => intro acc; simp [hex_fold]
  | cons c cs ih =>
    intro acc
    have e1 : hex_fold acc (c :: cs) = hex_fold (16 * acc + (hex_value c).getD 0) cs := rfl
    have e2 : hex_fold 0 (c :: cs) = hex_fold (16 * 0 + (hex_value c).getD 0) cs := rfl
    rw [e1, e2, ih, ih (16 * 0 + _), List.length_cons, pow_succ]
    ring

theorem hex_denote_cons (c : Int) (cs : List Int) :
    hex_denote (c :: cs) = (hex_value c).getD 0 * 16 ^ cs.length + hex_denote cs := by
  unfold hex_denote
  have e1 : hex_fold 0 (c :: cs) = hex_fold (16 * 0 + (hex_value c).getD 0) cs := rfl
  rw [e1, hex_fold_acc]
  simp

theorem hex_denote_lt (s : List Int) (hs : hex_string s) : hex_denote s < 16 ^ s.length := by
  induction s with
  | nil => simp [hex_denote, hex_fold]
  | cons c cs ih =>
    have hc := hs c (List.mem_cons_self _ _)
    obtain ⟨v, hv⟩ := Option.isSome_iff_exists.mp hc
    have := hex_value_lt c v hv
    have := ih (fun x hx => hs x (List.mem_cons_of_mem _ hx))
    rw [hex_denote_cons, hv, List.length_cons, pow_succ]
    simp only [Option.getD_some]
    nlinarith [pow_pos (show 0 < 16 by norm_num) cs.length]

theorem from_base16_skip_spec (str : List Int) : ∀ (n off : Nat),
    (from_base16_skip str off n).1 + (from_base16_skip str off n).2 = off + n
      ∧ (1 ≤ n → 1 ≤ (from_base16_skip str off n).2)
      ∧ (∀ i, off ≤ i → i < (from_base16_skip str off n).1 → rdc str i = 48)
      ∧ ((from_base16_skip str off n).2 ≤ 1 ∨ rdc str (from_base16_skip str off n).1 ≠ 48) := by
  intro n
  induction n with
  | zero =>
    intro off
    exact ⟨rfl, fun h => by omega, fun i h1 h2 => by simp [from_base16_skip] at h2; omega,
      Or.inl (by simp [from_base16_skip])⟩
  | succ k ih =>
    intro off
    cases k with
    | zero =>
      exact ⟨rfl, fun _ => le_refl _, fun i h1 h2 => by simp [from_base16_skip] at h2; omega,
        Or.inl (by simp [from_base16_skip])⟩
    | succ j =>
      unfold from_base16_skip
      by_cases h : rdc str off = 48
      · rw [if_pos h]
        obtain ⟨a1, a2, a3, a4⟩ := ih (off + 1)
        refine ⟨by omega, fun _ => a2 (by omega), ?_, a4⟩
        intro i h1 h2
        rcases Nat.eq_or_lt_of_le h1 with e | e
        · rw [← e]; exact h
        · exact a3 i (by omega) h2
      · rw [if_neg h]
        exact ⟨rfl, fun _ => by omega, fun i h1 h2 => by simp at h2; omega, Or.inr h⟩

theorem hex_denote_zeros (s : List Int) (k : Nat) (h : ∀ i, i < k → rdc s i = 48) :
    hex_denote (s.drop k) = hex_denote s := by
  induction k with
  | zero => simp
  | succ j ih =>
    rw [← ih (fun i hi => h i (by omega))]
    by_cases hj : j < s.length
    · have e : s.drop j = rdc s j :: s.drop (j + 1) := by
        unfold rdc
        rw [List.getD_eq_getElem _ _ hj]
        exact List.drop_eq_getElem_cons hj
      rw [e, hex_denote_cons, h j (by omega)]
      simp [hex_value]
    · rw [List.drop_of_length_le (by omega), List.drop_of_length_le (by omega)]

theorem sixteen_pow_split (p : Nat) : (16 : Nat) ^ p = base ^ (p / 8) * 16 ^ (p % 8) := by
  conv_lhs => rw [← Nat.div_add_mod p 8]
  rw [pow_add, pow_mul, sixteen_pow_eight]

/-- One turn of the second loop of `from_base16`: reading one more character keeps the
invariant. -/
theorem from_base16_step (str : List Int) (cap p : Nat) (s : List Nat × Int × Nat)
    (h : from_base16_inv str cap p s) (hp : p < str.length) (hcap : p / 8 < cap)
    (hs : hex_string (str.drop (str.length - p)))
    (v : Nat) (hv : hex_value (rdc str (str.length - (p + 1))) = some v) :
    from_base16_inv str cap (p + 1)
      (wr (if decide (s.2.2 % 32 = 0) = true
              then wr s.1 (if decide (s.2.2 % 32 = 0) = true then s.2.1 + 1 else s.2.1).toNat 0
              else s.1)
          (if decide (s.2.2 % 32 = 0) = true then s.2.1 + 1 else s.2.1).toNat
          (rd (if decide (s.2.2 % 32 = 0) = true
                then wr s.1 (if decide (s.2.2 % 32 = 0) = true then s.2.1 + 1
                  else s.2.1).toNat 0
                else s.1)
              (if decide (s.2.2 % 32 = 0) = true then s.2.1 + 1 else s.2.1).toNat
            ||| ((v <<< (if decide (s.2.2 % 32 = 0) = true then 0 else s.2.2)) % base)),
        (if decide (s.2.2 % 32 = 0) = true then s.2.1 + 1 else s.2.1),
        ((if decide (s.2.2 % 32 = 0) = true then 0 else s.2.2) + 4) % base) := by
  obtain ⟨h1, h2, h3, h4, h5⟩ := h
  have hv16 := hex_value_lt _ v hv
  have hdrop : str.drop (str.length - (p + 1))
      = rdc str (str.length - (p + 1)) :: str.drop (str.length - p) := by
    have hi : str.length - (p + 1) < str.length := by omega
    unfold rdc
    rw [List.getD_eq_getElem _ _ hi, show str.length - p = str.length - (p + 1) + 1 by omega]
    exact List.drop_eq_getElem_cons hi
  have hden : hex_denote (str.drop (str.length - (p + 1)))
      = v * 16 ^ p + hex_denote (str.drop (str.length - p)) := by
    rw [hdrop, hex_denote_cons, hv]
    simp only [Option.getD_some, List.length_drop]
    rw [show str.length - (str.length - p) = p by omega]
  have hlt := hex_denote_lt _ hs
  rw [List.length_drop, show str.length - (str.length - p) = p by omega] at hlt
  have hsplit := sixteen_pow_split p
  by_cases hfresh : p % 8 = 0
  · -- a new limb is started
    have hb : s.2.2 % 32 = 0 := by rw [h3]; split_ifs <;> omega
    have hq : (p + 7) / 8 = p / 8 := by omega
    have hidx : (s.2.1 + 1).toNat = p / 8 := by rw [h2, hq]; omega
    simp only [hb, decide_True, if_true, hidx, Nat.shiftLeft_zero]
    have hrd : rd (wr s.1 (p / 8) 0) (p / 8) = 0 := rd_wr_same _ _ _ (by omega)
    rw [hrd, Nat.zero_or, Nat.mod_eq_of_lt (show v < base by unfold base; omega)]
    have hq1 : (p + 1 + 7) / 8 = p / 8 + 1 := by omega
    have htake : (wr (wr s.1 (p / 8) 0) (p / 8) v).take (p / 8 + 1) = s.1.take (p / 8) ++ [v] := by
      rw [take_wr _ _ _ (by rw [length_wr]; omega), take_wr_of_le _ _ _ _ (le_refl _)]
    refine ⟨by simp [length_wr, h1], by rw [h2, hq, hq1]; push_cast; ring, ?_, ?_, ?_⟩
    · dsimp only
      rw [if_neg (by omega)]
      unfold base
      omega
    · rw [hq1, htake]
      intro x hx
      rcases List.mem_append.mp hx with hx | hx
      · rw [hq] at h4; exact h4 x hx
      · rw [List.mem_singleton.mp hx]; unfold base; omega
    · rw [hq1, htake, value_snoc, length_take_le _ _ (by omega), hden, ← h5, hq, hsplit,
        hfresh]
      ring
  · -- the current limb is filled further
    have hb : ¬ s.2.2 % 32 = 0 := by rw [h3]; split_ifs <;> omega
    have hq : (p + 7) / 8 = p / 8 + 1 := by omega
    have hidx : s.2.1.toNat = p / 8 := by rw [h2, hq]; omega
    have hsh : s.2.2 = 4 * (p % 8) := by rw [h3]; split_ifs <;> omega
    simp only [hb, decide_False, Bool.false_eq_true, if_false, hidx]
    simp only [hsh]
    rw [hq] at h4 h5
    have hvt := value_take_succ s.1 (p / 8) (by omega)
    have hlimb : rd s.1 (p / 8) < 2 ^ (4 * (p % 8)) := by
      rw [pow_mul, show (2 : Nat) ^ 4 = 16 by norm_num]
      have hpos := pow_pos base_pos (p / 8)
      have : base ^ (p / 8) * rd s.1 (p / 8) < base ^ (p / 8) * 16 ^ (p % 8) := by
        rw [← hsplit]; omega
      exact Nat.lt_of_mul_lt_mul_left this
    have hpow : (2 : Nat) ^ (4 * (p % 8)) = 16 ^ (p % 8) := by
      rw [pow_mul]; norm_num
    have hvs : v <<< (4 * (p % 8)) < base := by
      rw [Nat.shiftLeft_eq, hpow, ← sixteen_pow_eight]
      have : (16 : Nat) ^ (p % 8) * 16 ≤ 16 ^ 8 := by
        rw [← pow_succ]
        exact Nat.pow_le_pow_right (by norm_num) (by omega)
      nlinarith [pow_pos (show 0 < 16 by norm_num) (p % 8)]
    rw [Nat.mod_eq_of_lt hvs, lor_shift _ _ _ hlimb, hpow]
    have hq1 : (p + 1 + 7) / 8 = p / 8 + 1 := by omega
    have hnew : rd s.1 (p / 8) + v * 16 ^ (p % 8) < base := by
      rw [hpow] at hlimb
      rw [← sixteen_pow_eight]
      have : (16 : Nat) ^ (p % 8) * 16 ≤ 16 ^ 8 := by
        rw [← pow_succ]
        exact Nat.pow_le_pow_right (by norm_num) (by omega)
      nlinarith
    refine ⟨by simp [length_wr, h1], by rw [h2, hq, hq1], ?_, ?_, ?_⟩
    · dsimp only
      rw [if_neg (by omega)]
      unfold base
      omega
    · rw [hq1, take_wr _ _ _ (by omega)]
      intro x hx
      rcases List.mem_append.mp hx with hx | hx
      · exact h4 x (mem_take_of_le _ _ _ (by omega) x hx)
      · rw [List.mem_singleton.mp hx]; exact hnew
    · rw [hq1, take_wr _ _ _ (by omega), value_snoc, length_take_le _ _ (by omega), hden,
        ← h5, hvt, hsplit]
      ring

theorem hex_string_drop (s : List Int) (hs : hex_string s) (k : Nat) :
    hex_string (s.drop k) :=
  fun c hc => hs c (List.mem_of_mem_drop hc)

theorem from_base16_loop_spec (str : List Int) (off cap : Nat) (hoff : off ≤ str.length)
    (hs : hex_string (str.drop off)) (hcap : (str.length - off + 7) / 8 ≤ cap) :
    ∀ (length : Nat) (s : List Nat × Int × Nat), off + length ≤ str.length →
      from_base16_inv str cap (str.length - off - length) s →
      ∃ d, from_base16_loop str off length s
            = (d, (((str.length - off + 7) / 8 : Nat) : Int))
        ∧ d.length = cap
        ∧ (∀ x ∈ d.take ((str.length - off + 7) / 8), x < base)
        ∧ value (d.take ((str.length - off + 7) / 8)) = hex_denote (str.drop off) := by
  intro length
  induction length with
  | zero =>
    intro s _ h
    simp only [Nat.sub_zero] at h
    obtain ⟨h1, h2, h3, h4, h5⟩ := h
    refine ⟨s.1, ?_, h1, h4, ?_⟩
    · unfold from_base16_loop
      rw [h2]
      simp
    · rw [h5, show str.length - (str.length - off) = off by omega]
  | succ k ih =>
    intro s hk h
    have hidx : off + k = str.length - (str.length - off - (k + 1) + 1) := by omega
    have hmem : rdc str (off + k) ∈ str.drop off := by
      have hi : k < (str.drop off).length := by rw [List.length_drop]; omega
      have : rdc str (off + k) = (str.drop off)[k] := by
        unfold rdc
        rw [List.getD_eq_getElem _ _ (by omega)]
        simp
      rw [this]
      exact List.getElem_mem _
    obtain ⟨v, hv⟩ := Option.isSome_iff_exists.mp (hs _ hmem)
    have hstep := from_base16_step str cap (str.length - off - (k + 1)) s h (by omega)
      (by omega)
      (by
        have := hex_string_drop _ hs (k + 1)
        rwa [List.drop_drop, show off + (k + 1)
          = str.length - (str.length - off - (k + 1)) by omega] at this)
      v (by rw [← hidx]; exact hv)
    rw [show str.length - off - (k + 1) + 1 = str.length - off - k by omega] at hstep
    obtain ⟨d, e1, e2⟩ := ih _ (by omega) hstep
    refine ⟨d, ?_, e2⟩
    rw [← e1]
    conv_lhs => unfold from_base16_loop
    simp only [hv]

/-- What `from_base16` returns on a non-empty string of hexadecimal characters: the limbs
in normal form of the number the string denotes. -/
theorem from_base16_spec (digits : List Nat) (str : List Int) (hne : 1 ≤ str.length)
    (hs : hex_string str) (hcap : (str.length + 7) / 8 ≤ digits.length) :
    ∃ (d : List Nat) (n : Nat), from_base16 digits str str.length = (d, (n : Int))
      ∧ 1 ≤ n ∧ n ≤ digits.length ∧ d.length = digits.length
      ∧ normal_form (d.take n) ∧ value (d.take n) = hex_denote str := by
  obtain ⟨k1, k2, k3, k4⟩ := from_base16_skip_spec str str.length 0
  unfold from_base16
  rw [Int.toNat_ofNat]
  generalize from_base16_skip str 0 str.length = ol at k1 k2 k3 k4
  have hlen : 1 ≤ ol.2 := k2 hne
  have hoff : ol.1 ≤ str.length := by omega
  have hl : str.length - ol.1 = ol.2 := by omega
  obtain ⟨d, e1, e2, e3, e4⟩ := from_base16_loop_spec str ol.1 digits.length hoff
    (hex_string_drop _ hs _) (by omega) ol.2 (digits, -1, 0) (by omega)
    (by
      rw [show str.length - ol.1 - ol.2 = 0 by omega]
      refine ⟨rfl, by simp, by simp, by simp, ?_⟩
      simp [value, hex_denote, hex_fold])
  rw [hl] at e1 e3 e4
  rw [hex_denote_zeros str ol.1 (fun i hi => k3 i (by omega) hi)] at e4
  refine ⟨d, (ol.2 + 7) / 8, e1, by omega, by omega, e2, ?_, e4⟩
  apply normal_form_of_value_ge _ e3
  · rw [length_take_le _ _ (by omega)]; omega
  · rw [length_take_le _ _ (by omega)]
    rcases Nat.lt_or_ge 8 ol.2 with h8 | h8
    · right
      rw [e4, ← hex_denote_zeros str ol.1 (fun i hi => k3 i (by omega) hi)]
      have hne48 : rdc str ol.1 ≠ 48 := by
        rcases k4 with h | h
        · omega
        · exact h
      have hdrop : str.drop ol.1 = rdc str ol.1 :: str.drop (ol.1 + 1) := by
        unfold rdc
        rw [List.getD_eq_getElem _ _ (by omega)]
        exact List.drop_eq_getElem_cons (by omega)
      rw [hdrop, hex_denote_cons, List.length_drop]
      obtain ⟨v, hv⟩ := Option.isSome_iff_exists.mp (hs _ (rdc_mem str ol.1 (by omega)))
      have hv1 : 1 ≤ v := by
        rcases Nat.eq_zero_or_pos v with h0 | h0
        · exfalso
          rw [h0] at hv
          unfold hex_value at hv
          split_ifs at hv <;> simp at hv <;> omega
        · exact h0
      rw [hv]
      simp only [Option.getD_some]
      have hpow : base ^ ((ol.2 + 7) / 8 - 1) ≤ 16 ^ (str.length - (ol.1 + 1)) := by
        rw [← sixteen_pow_eight, ← pow_mul]
        exact Nat.pow_le_pow_right (by norm_num) (by omega)
      nlinarith [pow_pos (show 0 < 16 by norm_num) (str.length - (ol.1 + 1))]
    · left; omega

theorem from_base16_skip_congr (s1 s2 : List Int) (len : Nat)
    (h : ∀ i, i < len → rdc s1 i = rdc s2 i) :
    ∀ n off, off + n ≤ len → from_base16_skip s1 off n = from_base16_skip s2 off n := by
  intro n
  induction n with
  | zero => intro off _; rfl
  | succ k ih =>
    intro off hk
    cases k with
    | zero => rfl
    | succ j =>
      unfold from_base16_skip
      rw [h off (by omega), ih (off + 1) (by omega)]

theorem from_base16_loop_congr (s1 s2 : List Int) (len off : Nat)
    (h : ∀ i, i < len → rdc s1 i = rdc s2 i) :
    ∀ n st, off + n ≤ len → from_base16_loop s1 off n st = from_base16_loop s2 off n st := by
  intro n
  induction n with
  | zero => intro st _; rfl
  | succ k ih =>
    intro st hk
    unfold from_base16_loop
    simp only [h (off + k) (by omega)]
    cases hex_value (rdc s2 (off + k)) with
    | none => rfl
    | some v => exact ih _ (by omega)

/-- `from_base16` reads only the first `length` characters of `str`. -/
theorem from_base16_take (digits : List Nat) (str : List Int) (n : Nat) :
    from_base16 digits str n = from_base16 digits (str.take n) n := by
  have h : ∀ i, i < n → rdc str i = rdc (str.take n) i :=
    fun i hi => (rdc_take str n i hi).symm
  unfold from_base16
  rw [Int.toNat_ofNat, from_base16_skip_congr str (str.take n) n h n 0 (by omega)]
  have hsk := from_base16_skip_spec (str.take n) n 0
  exact from_base16_loop_congr str (str.take n) n _ h _ _ (by omega)

theorem lower_hex_is_hex (s : List Int) (h : lower_hex_string s) : hex_string s := by
  intro c hc
  unfold hex_value
  rcases h c hc with h1 | h1
  · rw [if_neg (by omega), if_neg (by omega), if_pos h1]; rfl
  · rw [if_pos h1]; rfl

/-- C7: for a magnitude in normal form (zero included) and a capacity that holds the
returned length, `from_base16` applied to the characters `to_base16` wrote, with the
length it returned, returns the length of `a` and writes exactly the limbs of `a`. -/
theorem hex_round_trip (str : List Int) (capacity : Int) (a digits : List Nat)
    (ha : normal_form a) (hstr : capacity ≤ (str.length : Int))
    (hcap : (to_base16 str capacity a a.length).2 ≤ capacity)
    (hdig : a.length ≤ digits.length) :
    (from_base16 digits (to_base16 str capacity a a.length).1
        (to_base16 str capacity a a.length).2).2 = (a.length : Int)
      ∧ (from_base16 digits (to_base16 str capacity a a.length).1
          (to_base16 str capacity a a.length).2).1.take a.length = a := by
  obtain ⟨c1, c2, c3, _, _, ⟨k0, c4, c5, c6⟩, _⟩ := to_base16_full_spec str capacity a ha hstr hcap
  have hlen := (to_base16_spec str capacity a (a.length - 1)
    (by have := ha.1; omega) ha.2.1 hstr)
  obtain ⟨k1, _, _, _, _, _, l1, l2⟩ := hlen
  have hbuf : (to_base16 str capacity a a.length).1.length = str.length :=
    (l2 (by rw [← l1]; exact hcap)).1
  rw [c6] at c2 c3 hcap ⊢
  simp only [Int.toNat_ofNat] at c2 c3
  rw [from_base16_take]
  have hpos := ha.1
  have htl : ((to_base16 str capacity a a.length).1.take (8 * (a.length - 1) + k0)).length
      = 8 * (a.length - 1) + k0 := by
    rw [List.length_take, hbuf]
    omega
  obtain ⟨d, n, e, e1, e2, e3, e4, e5⟩ := from_base16_spec digits
    ((to_base16 str capacity a a.length).1.take (8 * (a.length - 1) + k0))
    (by rw [htl]; omega) (lower_hex_is_hex _ c2) (by rw [htl]; omega)
  rw [htl] at e
  rw [e]
  have heq := normal_form_unique _ _ e4 ha (by rw [e5, c3])
  have hn : n = a.length := by
    have := congrArg List.length heq
    rwa [length_take_le _ _ (by omega)] at this
  subst hn
  exact ⟨rfl, heq⟩

theorem hex_round_trip_witness :
    normal_form [0, 1] ∧
      (from_base16 [7, 7] (to_base16 [0, 0, 0, 0, 0, 0, 0, 0, 0] 9 [0, 1]
          ([0, 1] : List Nat).length).1
        (to_base16 [0, 0, 0, 0, 0, 0, 0, 0, 0] 9 [0, 1] ([0, 1] : List Nat).length).2).1.take
          ([0, 1] : List Nat).length = [0, 1] :=
  ⟨by decide,
    (hex_round_trip [0, 0, 0, 0, 0, 0, 0, 0, 0] 9 [0, 1] [7, 7] (by decide) (by decide)
      (by decide) (by decide)).2⟩

/-! ### Division by one limb -/

theorem shl_or (d l : Nat) (hd : d < base) (hl : l < base) :
    ((d <<< 32) % 2 ^ 64) ||| l = d * base + l := by
  have hb : base = 2 ^ 32 := rfl
  rw [hb] at hd hl ⊢
  have h := Nat.mul_add_lt_is_or hl d
  rw [Nat.shiftLeft_eq, Nat.mod_eq_of_lt (by nlinarith), Nat.mul_comm d, ← h]

theorem divide_limb_spec (lhs_digit l rhs : Nat) (h1 : lhs_digit < rhs) (h2 : l < base)
    (h3 : rhs < base) :
    (divide_limb lhs_digit l rhs).1 * rhs + (divide_limb lhs_digit l rhs).2
        = lhs_digit * base + l
      ∧ (divide_limb lhs_digit l rhs).1 < base ∧ (divide_limb lhs_digit l rhs).2 < rhs := by
  have hnum := shl_or lhs_digit l (by omega) h2
  have hlt : lhs_digit * base + l < rhs * base := by nlinarith
  have hq : (lhs_digit * base + l) / rhs < base :=
    (Nat.div_lt_iff_lt_mul (by omega)).mpr (by rw [Nat.mul_comm base rhs]; exact hlt)
  have hr : (lhs_digit * base + l) % rhs < rhs := Nat.mod_lt _ (by omega)
  unfold divide_limb
  simp only [hnum]
  rw [Nat.mod_eq_of_lt hq, Nat.mod_eq_of_lt (lt_trans hr h3), if_neg (by omega)]
  exact ⟨by rw [Nat.mul_comm]; exact Nat.div_add_mod _ _, hq, hr⟩

theorem mod_limb_spec (lhs_digit l rhs : Nat) (h1 : lhs_digit < rhs) (h2 : l < base)
    (h3 : rhs < base) :
    mod_limb lhs_digit l rhs = (lhs_digit * base + l) % rhs := by
  have hnum := shl_or lhs_digit l (by omega) h2
  have hr : (lhs_digit * base + l) % rhs < rhs := Nat.mod_lt _ (by omega)
  unfold mod_limb
  simp only [hnum]
  rw [Nat.mod_eq_of_lt (lt_trans hr h3), if_neg (by omega)]

theorem drop_take_wr (p : List Nat) (i n x : Nat) (hi : i < n) (hn : n ≤ p.length) :
    ((wr p i x).take n).drop i = x :: (p.take n).drop (i + 1) := by
  unfold wr
  rw [List.set_take, List.drop_set, if_neg (by omega), Nat.sub_self]
  have hlen : i < (p.take n).length := by rw [List.length_take]; omega
  rw [List.drop_eq_getElem_cons hlen]
  rfl

theorem drop_take_rd (p : List Nat) (i n : Nat) (hi : i < n) (hn : n ≤ p.length) :
    (p.take n).drop i = rd p i :: (p.take n).drop (i + 1) := by
  have hlen : i < (p.take n).length := by rw [List.length_take]; omega
  rw [List.drop_eq_getElem_cons hlen]
  congr 1
  unfold rd
  rw [List.getD_eq_getElem _ _ (by omega)]
  simp

theorem rd_eq_of_take_eq (a b : List Nat) (i n : Nat) (hi : i < n) (h : a.take n = b.take n) :
    rd a i = rd b i := by
  rw [← rd_take a n i hi, ← rd_take b n i hi, h]

theorem divide_by_one_digit_spec (in_place : Bool) (quotient lhs src : List Nat) (rhs n : Nat)
    (hsrc : src = if in_place then quotient else lhs)
    (hn : 1 ≤ n) (hq : n ≤ quotient.length) (hlen : n ≤ src.length)
    (hr0 : 0 < rhs) (hrb : rhs < base) (hl : ∀ i, i < n → rd src i < base) :
    (divide_by_one_digit in_place quotient lhs rhs n).1.length = quotient.length
      ∧ (divide_by_one_digit in_place quotient lhs rhs n).1.drop n = quotient.drop n
      ∧ (∀ x ∈ (divide_by_one_digit in_place quotient lhs rhs n).1.take n, x < base)
      ∧ value ((divide_by_one_digit in_place quotient lhs rhs n).1.take n) * rhs
          + (divide_by_one_digit in_place quotient lhs rhs n).2.2 = value (src.take n)
      ∧ (divide_by_one_digit in_place quotient lhs rhs n).2.2 < rhs
      ∧ (divide_by_one_digit in_place quotient lhs rhs n).2.1
          = (if 1 < n ∧ rd (divide_by_one_digit in_place quotient lhs rhs n).1 (n - 1) = 0
              then ((n - 1 : Nat) : Int) else (n : Int)) := by
  have htop : ((n : Int) - 1).toNat = n - 1 := by omega
  have hsrc0 : (if in_place = true then quotient else lhs) = src := hsrc.symm
  have L := for_down_inv (fun i s => divide_inv quotient src n rhs i s)
    (fun i (s : List Nat × Nat) =>
      let dc := divide_limb s.2 (rd (if in_place then s.1 else lhs) i) rhs
      (wr s.1 i dc.1, dc.2)) (n - 1)
    (wr quotient (n - 1) (rd src (n - 1) / rhs), rd src (n - 1) % rhs)
    (by
      refine ⟨length_wr _ _ _, Nat.mod_lt _ hr0, take_wr_of_le _ _ _ _ (le_refl _),
        drop_wr _ _ _ _ (by omega), ?_, ?_⟩
      · show ∀ x ∈ ((wr quotient (n - 1) (rd src (n - 1) / rhs)).take n).drop (n - 1), x < base
        rw [drop_take_wr _ _ _ _ (by omega) hq, show n - 1 + 1 = n by omega,
          List.drop_of_length_le (by simp)]
        intro x hx
        rw [List.mem_singleton.mp hx]
        exact lt_of_le_of_lt (Nat.div_le_self _ _) (hl _ (by omega))
      · show value (((wr quotient (n - 1) (rd src (n - 1) / rhs)).take n).drop (n - 1)) * rhs
          + rd src (n - 1) % rhs = value ((src.take n).drop (n - 1))
        rw [drop_take_wr _ _ _ _ (by omega) hq, drop_take_rd _ _ _ (by omega) hlen,
          show n - 1 + 1 = n by omega, List.drop_of_length_le (by simp),
          List.drop_of_length_le (by simp)]
        simp only [value, Nat.mul_zero, Nat.add_zero]
        exact Nat.div_add_mod' _ _)
    (by
      intro i t hi ht
      obtain ⟨g1, g2, g3, g4, g5, g6⟩ := ht
      have hrd : rd (if in_place = true then t.1 else lhs) i = rd src i := by
        cases in_place with
        | true =>
          simp only [if_true] at hsrc ⊢
          rw [hsrc]
          exact rd_eq_of_take_eq _ _ i (i + 1) (by omega) g3
        | false =>
          simp only [Bool.false_eq_true, if_false] at hsrc ⊢
          rw [hsrc]
      obtain ⟨d1, d2, d3⟩ := divide_limb_spec t.2 (rd src i) rhs g2 (hl i (by omega)) hrb
      simp only [hrd]
      refine ⟨by rw [length_wr, g1], d3, ?_, ?_, ?_, ?_⟩
      · rw [take_wr_of_le _ _ _ _ (le_refl _)]
        have := congrArg (List.take i) g3
        simpa [List.take_take] using this
      · rw [drop_wr _ _ _ _ (by omega)]; exact g4
      · show ∀ x ∈ ((wr t.1 i _).take n).drop i, x < base
        rw [drop_take_wr _ _ _ _ (by omega) (by omega)]
        intro x hx
        rcases List.mem_cons.mp hx with h | h
        · rw [h]; exact d2
        · exact g5 x h
      · show value (((wr t.1 i _).take n).drop i) * rhs + _ = _
        rw [drop_take_wr _ _ _ _ (by omega) (by omega), drop_take_rd _ _ _ (by omega) hlen,
          value_cons, value_cons, ← g6]
        have e : ((divide_limb t.2 (rd src i) rhs).1
              + base * value (List.drop (i + 1) (List.take n t.1))) * rhs
            + (divide_limb t.2 (rd src i) rhs).2
            = ((divide_limb t.2 (rd src i) rhs).1 * rhs + (divide_limb t.2 (rd src i) rhs).2)
              + base * (value (List.drop (i + 1) (List.take n t.1)) * rhs) := by ring
        rw [e, d1]
        ring)
  unfold divide_by_one_digit
  simp only [htop, hsrc0]
  generalize for_down (fun i (s : List Nat × Nat) =>
      let dc := divide_limb s.2 (rd (if in_place = true then s.1 else lhs) i) rhs
      (wr s.1 i dc.1, dc.2)) (n - 1)
      (wr quotient (n - 1) (rd src (n - 1) / rhs), rd src (n - 1) % rhs) = s at L ⊢
  obtain ⟨g1, g2, g3, g4, g5, g6⟩ := L
  simp only [List.drop_zero] at g5 g6
  have hcond : ((n : Int) > 1 ∧ rd s.1 (n - 1) = 0) ↔ (1 < n ∧ rd s.1 (n - 1) = 0) := by
    constructor
    · intro h; exact ⟨by omega, h.2⟩
    · intro h; exact ⟨by omega, h.2⟩
  by_cases hc : 1 < n ∧ rd s.1 (n - 1) = 0
  · rw [if_pos (hcond.mpr hc), if_pos hc]
    exact ⟨g1, g4, g5, g6, g2, by push_cast; omega⟩
  · rw [if_neg (fun h => hc (hcond.mp h)), if_neg hc]
    exact ⟨g1, g4, g5, g6, g2, rfl⟩

/-! ### to_base10 -/

theorem while_loop_spec {σ : Type} (cond : σ → Bool) (body : σ → σ) (I : σ → Prop)
    (μ : σ → Nat) (hstep : ∀ s, I s → cond s = true → I (body s) ∧ μ (body s) < μ s) :
    ∀ (fuel : Nat) (s : σ), I s → μ s ≤ fuel →
      ∃ s', while_loop cond body fuel s = some s' ∧ I s' ∧ cond s' = false := by
  intro fuel
  induction fuel with
  | zero =>
    intro s hI hμ
    by_cases hc : cond s = true
    · have := (hstep s hI hc).2
      omega
    · exact ⟨s, by simp [while_loop, hc], hI, by simpa using hc⟩
  | succ k ih =>
    intro s hI hμ
    by_cases hc : cond s = true
    · obtain ⟨h1, h2⟩ := hstep s hI hc
      obtain ⟨s', e1, e2, e3⟩ := ih (body s) h1 (by omega)
      exact ⟨s', by simp [while_loop, hc, e1], e2, e3⟩
    · exact ⟨s, by simp [while_loop, hc], hI, by simpa using hc⟩

theorem numerator_eq : largest_base10_numerator_fitting_in_limb = 10 ^ 9 := by decide

theorem numerator_size_eq : largest_base10_numerator_fitting_in_limb_size.toNat = 9 := by
  decide

theorem to_base10_digit_spec (cap : Int) (str : List Int) (len rem : Nat) :
    (to_base10_digit cap (str, (len : Int), rem)).2.1 = ((len + 1 : Nat) : Int)
      ∧ (to_base10_digit cap (str, (len : Int), rem)).2.2 = rem / 10
      ∧ (to_base10_digit cap (str, (len : Int), rem)).1.length = str.length := by
  unfold to_base10_digit
  refine ⟨by push_cast; rfl, rfl, ?_⟩
  dsimp only
  split_ifs <;> simp [length_wrc]

theorem to_base10_digit_emitted (cap : Int) (v : Nat) (str0 str : List Int) (len rem : Nat)
    (hrem : rem % 10 = v / 10 ^ len % 10) (hlt : (len : Int) < cap)
    (hcap : cap ≤ (str0.length : Int)) (h : emitted v str0 str len) :
    emitted v str0 (to_base10_digit cap (str, (len : Int), rem)).1 (len + 1) := by
  obtain ⟨h1, h2, h3⟩ := h
  unfold to_base10_digit
  simp only [if_pos hlt, Int.toNat_ofNat]
  refine ⟨by rw [length_wrc, h1], ?_, ?_⟩
  · rw [drop_wrc _ _ _ _ (by omega)]
    exact drop_succ_of_drop_eq _ _ _ h2
  · intro j hj
    rcases Nat.lt_or_ge j len with hl | hl
    · rw [rdc_wrc_ne _ _ _ _ (by omega)]
      exact h3 j hl
    · have : j = len := by omega
      subst this
      rw [rdc_wrc_same _ _ _ (by omega), hrem]
      rfl

/-- The loop of `to_base10` that writes `k` digits of `rem`. -/
theorem emit_spec (cap : Int) (v : Nat) (str0 : List Int) :
    ∀ (k lo : Nat) (str : List Int) (len rem : Nat),
    (∀ j, j < k → rem / 10 ^ j % 10 = v / 10 ^ (len + j) % 10) →
    (for_up (fun _ s => to_base10_digit cap s) lo k (str, (len : Int), rem)).2.1
        = ((len + k : Nat) : Int)
    ∧ (for_up (fun _ s => to_base10_digit cap s) lo k (str, (len : Int), rem)).2.2
        = rem / 10 ^ k
    ∧ (for_up (fun _ s => to_base10_digit cap s) lo k (str, (len : Int), rem)).1.length
        = str.length
    ∧ (((len + k : Nat) : Int) ≤ cap → cap ≤ (str0.length : Int) → emitted v str0 str len →
        emitted v str0
          (for_up (fun _ s => to_base10_digit cap s) lo k (str, (len : Int), rem)).1
          (len + k)) := by
  intro k
  induction k with
  | zero =>
    intro lo str len rem _
    simp [for_up]
  | succ i ih =>
    intro lo str len rem hrem
    obtain ⟨d1, d2, d3⟩ := to_base10_digit_spec cap str len rem
    have hst : to_base10_digit cap (str, (len : Int), rem)
        = ((to_base10_digit cap (str, (len : Int), rem)).1, ((len + 1 : Nat) : Int), rem / 10) := by
      rw [← d1, ← d2]
    simp only [for_up]
    rw [hst]
    obtain ⟨a1, a2, a3, a4⟩ := ih (lo + 1) (to_base10_digit cap (str, (len : Int), rem)).1
      (len + 1) (rem / 10) (by
        intro j hj
        have := hrem (j + 1) (by omega)
        rw [Nat.div_div_eq_div_mul, ← pow_succ', show len + 1 + j = len + (j + 1) by omega]
        exact this)
    refine ⟨by rw [a1]; push_cast; ring, by rw [a2, Nat.div_div_eq_div_mul, ← pow_succ'],
      by rw [a3, d3], ?_⟩
    intro h1 h2 h3
    rw [show len + (i + 1) = len + 1 + i by omega]
    apply a4 (by push_cast at h1 ⊢; omega) h2
    exact to_base10_digit_emitted cap v str0 str len rem (by simpa using hrem 0 (by omega))
      (by push_cast at h1; omega) h2 h3

theorem mod_pow_div_mod (x : Nat) (j : Nat) (hj : j < 9) :
    x % 10 ^ 9 / 10 ^ j % 10 = x / 10 ^ j % 10 := by
  have h9 : (10 : Nat) ^ 9 = 10 ^ j * 10 ^ (9 - j) := by rw [← pow_add]; congr 1; omega
  rw [h9, Nat.mod_mul, Nat.add_comm, Nat.mul_add_div (by positivity),
    Nat.div_eq_of_lt (Nat.mod_lt _ (by positivity)), Nat.add_zero]
  have h10 : (10 : Nat) ∣ 10 ^ (9 - j) := dvd_pow_self 10 (by omega)
  exact Nat.mod_mod_of_dvd _ h10

theorem base_gt_numerator : 10 ^ 9 < base := by unfold base; norm_num

theorem normal_form_one (p : List Nat) (_h : normal_form (p.take 1)) (hl : 1 ≤ p.length) :
    value (p.take 1) = rd p 0 := by
  have := value_take_succ p 0 (by omega)
  simpa [value] using this

/-- The first loop of `to_base10` goes on exactly while the value left is at least `10 ^ 9`. -/
theorem to_base10_cond (p : List Nat) (n : Nat) (hn : n ≤ p.length)
    (h : normal_form (p.take n)) :
    ((n : Int) > 1 ∨ rd p 0 ≥ 10 ^ 9) ↔ 10 ^ 9 ≤ value (p.take n) := by
  have hpos : 1 ≤ n := by have := h.1; rwa [length_take_le _ _ hn] at this
  rcases Nat.lt_or_ge 1 n with h1 | h1
  · have hge := normal_form_ge _ h (by rw [length_take_le _ _ hn]; exact h1)
    rw [length_take_le _ _ hn] at hge
    have : base ^ 1 ≤ base ^ (n - 1) := Nat.pow_le_pow_right base_pos (by omega)
    have := base_gt_numerator
    constructor
    · intro _; rw [pow_one] at *; omega
    · intro _; left; omega
  · have h1' : n = 1 := by omega
    subst h1'
    rw [normal_form_one p h hn]
    constructor
    · intro hc
      rcases hc with hc | hc
      · omega
      · exact hc
    · intro hc; right; exact hc

/-- Dividing a normal form by a limb gives a normal form of the size
`divide_by_one_digit` returns. -/
theorem divide_normal (q : List Nat) (n rhs v rem : Nat) (hn : 1 ≤ n) (hq : n ≤ q.length)
    (hl : ∀ x ∈ q.take n, x < base) (hv : value (q.take n) * rhs + rem = v)
    (hrem : rem < rhs) (hrb : rhs < base) (hge : n = 1 ∨ base ^ (n - 1) ≤ v) :
    normal_form (q.take (if 1 < n ∧ rd q (n - 1) = 0 then n - 1 else n))
      ∧ value (q.take (if 1 < n ∧ rd q (n - 1) = 0 then n - 1 else n)) = v / rhs := by
  have hQ : value (q.take n) = v / rhs := by
    rw [← hv, Nat.mul_comm, Nat.mul_add_div (by omega), Nat.div_eq_of_lt hrem, Nat.add_zero]
  by_cases hc : 1 < n ∧ rd q (n - 1) = 0
  · rw [if_pos hc]
    obtain ⟨hc1, hc2⟩ := hc
    have hvs := value_take_succ q (n - 1) (by omega)
    rw [show n - 1 + 1 = n by omega, hc2, Nat.mul_zero, Nat.add_zero] at hvs
    refine ⟨?_, by rw [← hvs, hQ]⟩
    apply normal_form_of_value_ge
    · exact fun x hx => hl x (mem_take_of_le _ _ _ (by omega) x hx)
    · rw [length_take_le _ _ (by omega)]; omega
    · rw [length_take_le _ _ (by omega)]
      rcases Nat.lt_or_ge 2 n with h2 | h2
      · right
        rw [← hvs]
        have hge' : base ^ (n - 1) ≤ v := by
          rcases hge with h | h
          · omega
          · exact h
        by_contra hlt
        push_neg at hlt
        have hp : base ^ (n - 1) = base ^ (n - 1 - 1) * base := by
          rw [← pow_succ]; congr 1; omega
        have : value (q.take n) * rhs + rem < base ^ (n - 1 - 1) * base := by
          have h1 : value (q.take n) + 1 ≤ base ^ (n - 1 - 1) := hlt
          have h2 : (value (q.take n) + 1) * rhs ≤ base ^ (n - 1 - 1) * rhs :=
            Nat.mul_le_mul_right _ h1
          have h3 : base ^ (n - 1 - 1) * rhs ≤ base ^ (n - 1 - 1) * base :=
            Nat.mul_le_mul_left _ (by omega)
          nlinarith
        omega
      · left; omega
  · rw [if_neg hc]
    refine ⟨⟨by rw [length_take_le _ _ hq]; omega, hl, ?_⟩, hQ⟩
    rw [length_take_le _ _ hq]
    rcases Nat.lt_or_ge 1 n with h1 | h1
    · right
      have : rd q (n - 1) ≠ 0 := fun h => hc ⟨h1, h⟩
      have e := rd_take q n (n - 1) (by omega)
      unfold rd at e this
      rw [e]
      exact this
    · left; omega

theorem pow_le_of_div_ge (v len k : Nat) (h : 10 ^ k ≤ v / 10 ^ len) : 10 ^ (len + k) ≤ v := by
  rw [pow_add]
  have := Nat.mul_le_of_le_div _ _ _ h
  linarith [Nat.mul_comm (10 ^ k) (10 ^ len)]

theorem lt_of_pow_le_lt (v a b : Nat) (h1 : 10 ^ a ≤ v) (h2 : v < 10 ^ b) : a < b := by
  by_contra h
  have : 10 ^ b ≤ 10 ^ a := Nat.pow_le_pow_right (by norm_num) (by omega)
  omega

/-- One turn of the first loop of `to_base10` keeps the invariant and brings the
number of digits still to come down. -/
theorem to_base10_step (v m : Nat) (cap : Int) (str0 : List Int) (c : Nat)
    (hcap : cap ≤ (str0.length : Int)) (s : List Nat × Int × List Int × Int)
    (hI : to_base10_inv v m cap str0 c s)
    (hc : decide (s.2.1 > 1 ∨ rd s.1 0 ≥ largest_base10_numerator_fitting_in_limb) = true) :
    to_base10_inv v m cap str0 c
        ((divide_by_one_digit true s.1 s.1 largest_base10_numerator_fitting_in_limb s.2.1).1,
          (divide_by_one_digit true s.1 s.1 largest_base10_numerator_fitting_in_limb s.2.1).2.1,
          (to_base10_emit cap (s.2.2.1, s.2.2.2, (divide_by_one_digit true s.1 s.1
            largest_base10_numerator_fitting_in_limb s.2.1).2.2)).1,
          (to_base10_emit cap (s.2.2.1, s.2.2.2, (divide_by_one_digit true s.1 s.1
            largest_base10_numerator_fitting_in_limb s.2.1).2.2)).2.1)
      ∧ m - (to_base10_emit cap (s.2.2.1, s.2.2.2, (divide_by_one_digit true s.1 s.1
            largest_base10_numerator_fitting_in_limb s.2.1).2.2)).2.1.toNat
          < m - s.2.2.2.toNat := by
  obtain ⟨n, len, h1, h2, h3, h4, h5, h6, h7, h8, h9, h10, h11⟩ := hI
  rw [numerator_eq] at hc ⊢
  rw [h1] at hc ⊢
  rw [h2]
  have hV : 10 ^ 9 ≤ v / 10 ^ len := by
    rw [← h6]
    exact (to_base10_cond s.1 n (by omega) h5).mp (by simpa using hc)
  have hpos : 1 ≤ n := by have := h5.1; rwa [length_take_le _ _ (by omega)] at this
  obtain ⟨d1, d2, d3, d4, d5, d6⟩ := divide_by_one_digit_spec true s.1 s.1 s.1 (10 ^ 9) n rfl
    hpos (by omega) (by omega) (by norm_num) base_gt_numerator
    (fun i hi => normal_form_rd_lt s.1 n h5 i hi)
  generalize divide_by_one_digit true s.1 s.1 (10 ^ 9) (n : Int) = d at d1 d2 d3 d4 d5 d6 ⊢
  rw [h6] at d4
  have hge : n = 1 ∨ base ^ (n - 1) ≤ v / 10 ^ len := by
    rcases Nat.lt_or_ge 1 n with hn | hn
    · right
      have := normal_form_ge _ h5 (by rw [length_take_le _ _ (by omega)]; exact hn)
      rwa [length_take_le _ _ (by omega), h6] at this
    · left; omega
  obtain ⟨q1, q2⟩ := divide_normal d.1 n (10 ^ 9) (v / 10 ^ len) d.2.2 hpos (by omega) d3 d4 d5
    base_gt_numerator hge
  have hrem : d.2.2 = v / 10 ^ len % 10 ^ 9 := by
    rw [← d4, Nat.mul_comm, Nat.mul_add_mod, Nat.mod_eq_of_lt d5]
  obtain ⟨e1, e2, e3, e4⟩ := emit_spec cap v str0 9 0 s.2.2.1 len d.2.2 (by
    intro j hj
    rw [hrem, mod_pow_div_mod _ _ hj, Nat.div_div_eq_div_mul, ← pow_add])
  have hemit : to_base10_emit cap (s.2.2.1, (len : Int), d.2.2)
      = for_up (fun _ s => to_base10_digit cap s) 0 9 (s.2.2.1, (len : Int), d.2.2) := by
    unfold to_base10_emit
    rw [numerator_size_eq]
  rw [hemit]
  generalize for_up (fun _ s => to_base10_digit cap s) 0 9 (s.2.2.1, (len : Int), d.2.2) = e
    at e1 e2 e3 e4 ⊢
  have hlen9 : len + 9 < m := by
    have := lt_of_pow_le_lt _ 9 (m - len) hV h8
    omega
  have hv9 := pow_le_of_div_ge v len 9 hV
  refine ⟨⟨(if 1 < n ∧ rd d.1 (n - 1) = 0 then n - 1 else n), len + 9, ?_, e1, ?_, ?_, q1, ?_,
    by omega, ?_, ?_, ?_, ?_⟩, ?_⟩
  · rw [d6]; split_ifs <;> rfl
  · rw [d1, h3]
  · split_ifs <;> omega
  · rw [q2, Nat.div_div_eq_div_mul, ← pow_add]
  · rw [pow_add, ← Nat.div_div_eq_div_mul]
    have h8' : v / 10 ^ len < 10 ^ (m - (len + 9)) * 10 ^ 9 := by
      rw [← pow_add, show m - (len + 9) + 9 = m - len by omega]
      exact h8
    exact (Nat.div_lt_iff_lt_mul (by positivity)).mpr h8' 
  · right
    exact le_trans (Nat.pow_le_pow_right (by norm_num) (by omega)) hv9
  · rw [e3, h10]
  · intro hH
    have hlc := lt_of_pow_le_lt v (len + 9) cap.toNat hv9 hH.2
    exact e4 (by push_cast; omega) hcap (h11 hH)
  · rw [e1]
    simp only [Int.toNat_ofNat]
    omega

/-- One turn of the second loop of `to_base10`. -/
theorem to_base10_step2 (v m : Nat) (cap : Int) (str0 : List Int)
    (hcap : cap ≤ (str0.length : Int)) (s : List Nat × List Int × Int)
    (hI : to_base10_inv2 v m cap str0 s) (hc : decide (rd s.1 0 > 0) = true) :
    to_base10_inv2 v m cap str0
        (wr s.1 0 (to_base10_digit cap (s.2.1, s.2.2, rd s.1 0)).2.2,
          (to_base10_digit cap (s.2.1, s.2.2, rd s.1 0)).1,
          (to_base10_digit cap (s.2.1, s.2.2, rd s.1 0)).2.1)
      ∧ m - (to_base10_digit cap (s.2.1, s.2.2, rd s.1 0)).2.1.toNat < m - s.2.2.toNat := by
  obtain ⟨len, h1, h2, h3, h4, h5, h6, h7, h8⟩ := hI
  have hpos : 0 < v / 10 ^ len := by rw [← h3]; simpa using hc
  have hv : 10 ^ len ≤ v := by
    have := pow_le_of_div_ge v len 0 (by simpa using hpos)
    simpa using this
  have hlt : len < m := by
    by_contra h
    rw [show m - len = 0 by omega] at h5
    simp at h5
    omega
  rw [h1]
  obtain ⟨d1, d2, d3⟩ := to_base10_digit_spec cap s.2.1 len (rd s.1 0)
  refine ⟨⟨len + 1, d1, by rw [length_wr]; exact h2, ?_, by omega, ?_, ?_, by rw [d3, h7], ?_⟩,
    ?_⟩
  · rw [rd_wr_same _ _ _ (by omega), d2, h3, Nat.div_div_eq_div_mul, ← pow_succ]
  · rw [pow_succ, ← Nat.div_div_eq_div_mul]
    have h5' : v / 10 ^ len < 10 ^ (m - (len + 1)) * 10 := by
      rw [← pow_succ, show m - (len + 1) + 1 = m - len by omega]
      exact h5
    exact (Nat.div_lt_iff_lt_mul (by norm_num)).mpr h5'
  · right; simpa using hv
  · intro hH
    have hlc := lt_of_pow_le_lt v len cap.toNat hv hH.2
    exact to_base10_digit_emitted cap v str0 s.2.1 len (rd s.1 0) (by rw [h3])
      (by omega) hcap (h8 hH)
  · rw [d1]
    simp only [Int.toNat_ofNat]
    omega

/-- One turn of the last loop of `to_base10`. -/
theorem reverse_step (e : List Int) (len : Nat) (hlen : len ≤ e.length)
    (s : List Int × Int × Int) (hI : reverse_inv e len s)
    (hc : decide (s.2.1 < s.2.2) = true) :
    reverse_inv e len
      (wrc (wrc s.1 s.2.1.toNat (rdc s.1 s.2.2.toNat)) s.2.2.toNat (rdc s.1 s.2.1.toNat),
        s.2.1 + 1, s.2.2 - 1) := by
  obtain ⟨i, h1, h2, h3, h4, h5⟩ := hI
  have hij : (i : Int) < (len : Int) - 1 - (i : Int) := by
    rw [h1, h2] at hc; simpa using hc
  have hi : s.2.1.toNat = i := by rw [h1]; simp
  have hj : s.2.2.toNat = len - 1 - i := by rw [h2]; omega
  rw [hi, hj]
  refine ⟨i + 1, by rw [h1]; push_cast; rfl, by rw [h2]; push_cast; ring, ?_, ?_, ?_⟩
  · simp [length_wrc, h3]
  · rw [drop_wrc _ _ _ _ (by omega), drop_wrc _ _ _ _ (by omega)]
    exact h4
  · intro k hk
    have hri := h5 i (by omega)
    have hrj := h5 (len - 1 - i) (by omega)
    rw [if_neg (by omega)] at hri hrj
    by_cases hkj : k = len - 1 - i
    · subst hkj
      rw [rdc_wrc_same _ _ _ (by rw [length_wrc]; omega), hri, if_pos (by omega)]
      congr 1
      omega
    · rw [rdc_wrc_ne _ _ _ _ (fun h => hkj h.symm)]
      by_cases hki : k = i
      · subst hki
        rw [rdc_wrc_same _ _ _ (by omega), hrj, if_pos (by omega)]
      · rw [rdc_wrc_ne _ _ _ _ (fun h => hki h.symm), h5 k hk]
        by_cases hcond : k < i ∨ len - 1 - i < k
        · rw [if_pos hcond, if_pos (by omega)]
        · rw [if_neg hcond, if_neg (by omega)]

/-- The copy loop of `to_base10` fills the allocated buffer with the limbs of `a`. -/
theorem copy_spec (a : List Nat) :
    for_up (fun i c => wr c i (rd a i)) 0 a.length (List.replicate a.length 0) = a := by
  have L := for_up_inv (fun i (c : List Nat) => c.length = a.length ∧ c.take i = a.take i)
    (fun i c => wr c i (rd a i)) a.length 0 (List.replicate a.length 0)
    ⟨by simp, by simp⟩
    (by
      intro i t _ hi ht
      refine ⟨by rw [length_wr]; exact ht.1, ?_⟩
      rw [take_wr _ _ _ (by omega), take_succ_rd a i (by omega), ht.2])
  simp only [Nat.zero_add] at L
  obtain ⟨h1, h2⟩ := L
  generalize for_up (fun i c => wr c i (rd a i)) 0 a.length (List.replicate a.length 0) = c
    at h1 h2
  rw [List.take_length, ← h1, List.take_length] at h2
  exact h2

theorem value_lt_ten_pow (a : List Nat) (ha : ∀ x ∈ a, x < base) :
    value a < 10 ^ (10 * a.length) := by
  have h1 := value_lt a ha
  have h2 : base ^ a.length ≤ (10 ^ 10) ^ a.length :=
    Nat.pow_le_pow_left (by unfold base; norm_num) _
  rw [← pow_mul] at h2
  omega

/-- What `to_base10` returns and writes: with fuel for its loops it returns the number
`len` of decimal digits of `value a` (0 for zero), and when the capacity holds them the
buffer starts with these digits, most significant first, and is otherwise untouched. -/
theorem to_base10_spec (fuel : Nat) (str : List Int) (cap : Int) (a : List Nat)
    (ha : normal_form a) (hfuel : 10 * a.length ≤ fuel) (hstr : cap ≤ (str.length : Int)) :
    ∃ (r : List Int) (len : Nat), to_base10 fuel str cap a a.length = some (r, (len : Int))
      ∧ value a < 10 ^ len ∧ (len = 0 ∨ 10 ^ (len - 1) ≤ value a)
      ∧ r.length = str.length
      ∧ ((len : Int) ≤ cap →
          r.drop len = str.drop len
          ∧ ∀ k, k < len → rdc r k = decimal_char (value a) (len - 1 - k)) := by
  have hpos := ha.1
  -- first loop
  obtain ⟨s1, e1, ⟨n1, len1, a1, a2, a3, a4, a5, a6, a7, a8, a9, a10, a11⟩, c1⟩ :=
    while_loop_spec
      (fun (s : List Nat × Int × List Int × Int) =>
        decide (s.2.1 > 1 ∨ rd s.1 0 ≥ largest_base10_numerator_fitting_in_limb))
      (fun s =>
        ((divide_by_one_digit true s.1 s.1 largest_base10_numerator_fitting_in_limb s.2.1).1,
          (divide_by_one_digit true s.1 s.1 largest_base10_numerator_fitting_in_limb s.2.1).2.1,
          (to_base10_emit cap (s.2.2.1, s.2.2.2, (divide_by_one_digit true s.1 s.1
            largest_base10_numerator_fitting_in_limb s.2.1).2.2)).1,
          (to_base10_emit cap (s.2.2.1, s.2.2.2, (divide_by_one_digit true s.1 s.1
            largest_base10_numerator_fitting_in_limb s.2.1).2.2)).2.1))
      (to_base10_inv (value a) (10 * a.length) cap str a.length)
      (fun s => 10 * a.length - s.2.2.2.toNat)
      (fun s hI hc => to_base10_step (value a) (10 * a.length) cap str a.length hstr s hI hc)
      fuel (a, (a.length : Int), str, 0)
      ⟨a.length, 0, rfl, rfl, rfl, le_refl _, by rw [List.take_length]; exact ha,
        by rw [List.take_length]; simp, by omega,
        by simpa using value_lt_ten_pow a ha.2.1, Or.inl rfl, rfl,
        fun _ => ⟨rfl, rfl, fun j hj => by omega⟩⟩
      (by
        show 10 * a.length - (0 : Int).toNat ≤ fuel
        omega)
  have hn1 : 1 ≤ n1 := by have := a5.1; rwa [length_take_le _ _ (by omega)] at this
  have hV1 : value (s1.1.take n1) < 10 ^ 9 := by
    have hiff := to_base10_cond s1.1 n1 (by omega) a5
    rw [numerator_eq, a1] at c1
    by_contra h
    exact of_decide_eq_false c1 (hiff.mpr (by omega))
  have hn1' : n1 = 1 := by
    by_contra h
    have := normal_form_ge _ a5 (by rw [length_take_le _ _ (by omega)]; omega)
    rw [length_take_le _ _ (by omega)] at this
    have h2 : base ^ 1 ≤ base ^ (n1 - 1) := Nat.pow_le_pow_right base_pos (by omega)
    have := base_gt_numerator
    rw [pow_one] at h2
    omega
  subst hn1'
  have hrd1 : rd s1.1 0 = value a / 10 ^ len1 := by
    rw [← a6, normal_form_one s1.1 a5 (by omega)]
  -- second loop
  obtain ⟨s2, e2, ⟨len2, b1, b2, b3, b4, b5, b6, b7, b8⟩, c2⟩ :=
    while_loop_spec
      (fun (s : List Nat × List Int × Int) => decide (rd s.1 0 > 0))
      (fun s =>
        (wr s.1 0 (to_base10_digit cap (s.2.1, s.2.2, rd s.1 0)).2.2,
          (to_base10_digit cap (s.2.1, s.2.2, rd s.1 0)).1,
          (to_base10_digit cap (s.2.1, s.2.2, rd s.1 0)).2.1))
      (to_base10_inv2 (value a) (10 * a.length) cap str)
      (fun s => 10 * a.length - s.2.2.toNat)
      (fun s hI hc => to_base10_step2 (value a) (10 * a.length) cap str hstr s hI hc)
      fuel (s1.1, s1.2.2.1, s1.2.2.2)
      ⟨len1, a2, by show 1 ≤ s1.1.length; omega, hrd1, a7, a8, a9, a10, a11⟩
      (by
        show 10 * a.length - s1.2.2.2.toNat ≤ fuel
        omega)
  have hv2 : value a < 10 ^ len2 := by
    have h0 : value a / 10 ^ len2 = 0 := by
      rw [← b3]
      simpa using c2
    rcases Nat.lt_or_ge (value a) (10 ^ len2) with h | h
    · exact h
    · have := Nat.div_pos h (by positivity)
      omega
  -- last loop
  obtain ⟨s3, e3, ⟨r1, r2⟩, c3⟩ :=
    while_loop_spec
      (fun (s : List Int × Int × Int) => decide (s.2.1 < s.2.2))
      (fun s =>
        (wrc (wrc s.1 s.2.1.toNat (rdc s.1 s.2.2.toNat)) s.2.2.toNat (rdc s.1 s.2.1.toNat),
          s.2.1 + 1, s.2.2 - 1))
      (fun s => s.1.length = str.length
        ∧ ((len2 : Int) ≤ cap → reverse_inv s2.2.1 len2 s))
      (fun s => (s.2.2 - s.2.1).toNat)
      (fun s hI hc => by
        refine ⟨⟨by simp [length_wrc, hI.1], fun hH => ?_⟩, ?_⟩
        · exact reverse_step s2.2.1 len2 (by rw [b7]; omega) s (hI.2 hH) hc
        · have : s.2.1 < s.2.2 := by simpa using hc
          show (s.2.2 - 1 - (s.2.1 + 1)).toNat < (s.2.2 - s.2.1).toNat
          omega)
      fuel (s2.2.1, 0, min cap ((len2 : Int) - 1))
      ⟨b7, fun hH => ⟨0, rfl, by
        show min cap ((len2 : Int) - 1) = (len2 : Int) - 1 - ((0 : Nat) : Int)
        rw [min_eq_right (by omega)]
        simp, rfl, rfl, fun k hk => by rw [if_neg (by omega)]⟩⟩
      (by
        show (min cap ((len2 : Int) - 1) - 0).toNat ≤ fuel
        have : min cap ((len2 : Int) - 1) ≤ (len2 : Int) - 1 := min_le_right _ _
        omega)
  refine ⟨s3.1, len2, ?_, hv2, b6, r1, ?_⟩
  · unfold to_base10
    simp only [Int.toNat_ofNat, copy_spec]
    rw [e1]
    dsimp only
    rw [e2]
    dsimp only
    rw [b1, e3]
  · intro hH
    obtain ⟨i, i1, i2, i3, i4, i5⟩ := r2 hH
    have hcap2 : 0 ≤ cap ∧ value a < 10 ^ cap.toNat :=
      ⟨by omega, lt_of_lt_of_le hv2 (Nat.pow_le_pow_right (by norm_num) (by omega))⟩
    obtain ⟨m1, m2, m3⟩ := b8 hcap2
    have hexit : ¬ ((i : Int) < (len2 : Int) - 1 - (i : Int)) := by
      rw [i1, i2] at c3
      simpa using c3
    refine ⟨by rw [i4, m2], ?_⟩
    intro k hk
    rw [i5 k hk]
    by_cases hcond : k < i ∨ len2 - 1 - i < k
    · rw [if_pos hcond]
      exact m3 _ (by omega)
    · rw [if_neg hcond]
      have : len2 - 1 - k = k := by omega
      rw [this]
      exact m3 _ hk

theorem while_loop_false {σ : Type} (cond : σ → Bool) (body : σ → σ) (fuel : Nat) (s : σ)
    (h : cond s = false) : while_loop cond body fuel s = some s := by
  cases fuel <;> simp [while_loop, h]

/-- C8 at the value zero: whatever the buffer and the capacity, `to_base10` of the
magnitude zero (the single limb 0) writes no character and returns length 0, where the
claim asks for the text "0" and a length of at least 1. -/
theorem to_base10_zero (fuel : Nat) (str : List Int) (capacity : Int) :
    to_base10 fuel str capacity [0] 1 = some (str, 0) := by
  unfold to_base10
  have hcopy : for_up (fun i c => wr c i (rd [0] i)) 0 (1 : Int).toNat
      (List.replicate (1 : Int).toNat 0) = [0] := by decide
  simp only [hcopy]
  rw [while_loop_false _ _ fuel ([0], (1 : Int), str, (0 : Int)) (by
    show decide ((1 : Int) > 1 ∨ rd [0] 0 ≥ largest_base10_numerator_fitting_in_limb) = false
    decide)]
  dsimp only
  rw [while_loop_false _ _ fuel ([0], str, (0 : Int)) (by
    show decide (rd [0] 0 > 0) = false
    decide)]
  dsimp only
  rw [while_loop_false _ _ fuel (str, (0 : Int), min capacity ((0 : Int) - 1)) (by
    have : min capacity ((0 : Int) - 1) ≤ (0 : Int) - 1 := min_le_right _ _
    simp only [decide_eq_false_iff_not]
    omega)]

theorem decimal_value_fold_ge (y : List Int) : ∀ acc,
    acc ≤ y.foldl (fun acc c => 10 * acc + (c - 48).toNat) acc := by
  induction y with
  | nil => intro acc; exact le_refl _
  | cons c cs ih =>
    intro acc
    rw [List.foldl_cons]
    exact le_trans (by omega) (ih _)

theorem decimal_value_take_le (s : List Int) (i : Nat) :
    decimal_value (s.take i) ≤ decimal_value s := by
  have h : decimal_value s = decimal_value (s.take i ++ s.drop i) := by
    rw [List.take_append_drop]
  rw [h]
  unfold decimal_value
  rw [List.foldl_append]
  exact decimal_value_fold_ge _ _

theorem rdc_append_left (l : List Int) (b : Int) (k : Nat) (hk : k < l.length) :
    rdc (l ++ [b]) k = rdc l k := by
  unfold rdc
  simp [List.getD_eq_getElem?_getD, List.getElem?_append_left hk]

theorem rdc_append_length (l : List Int) (b : Int) : rdc (l ++ [b]) l.length = b := by
  unfold rdc
  simp [List.getD_eq_getElem?_getD]

theorem decimal_char_succ (v j : Nat) : decimal_char v (j + 1) = decimal_char (v / 10) j := by
  unfold decimal_char
  rw [Nat.div_div_eq_div_mul, ← pow_succ']

/-- A text whose characters are the digits of `v`, most significant first, denotes
`v` modulo `10 ^ len`. -/
theorem decimal_value_of_chars : ∀ (len : Nat) (t : List Int) (v : Nat), t.length = len →
    (∀ k, k < len → rdc t k = decimal_char v (len - 1 - k)) →
    decimal_value t = v % 10 ^ len := by
  intro len
  induction len with
  | zero =>
    intro t v ht _
    rw [List.length_eq_zero.mp ht]
    simp [decimal_value, Nat.mod_one]
  | succ n ih =>
    intro t v ht h
    rcases List.eq_nil_or_concat t with h0 | ⟨l, b, hlb⟩
    · rw [h0] at ht; simp at ht
    · rw [List.concat_eq_append] at hlb
      subst hlb
      have hl : l.length = n := by simpa using ht
      have hb : b = decimal_char v 0 := by
        have := h n (by omega)
        rw [← hl, rdc_append_length] at this
        rw [this]
        congr 1
        omega
      have hinit := ih l (v / 10) hl (by
        intro k hk
        have := h k (by omega)
        rw [rdc_append_left _ _ _ (by omega),
          show n + 1 - 1 - k = (n - 1 - k) + 1 by omega, decimal_char_succ] at this
        exact this)
      rw [decimal_value_snoc, hinit, hb, pow_succ', Nat.mod_mul]
      unfold decimal_char
      have e : (((v / 10 ^ 0 % 10 : Nat) : Int) + 48 - 48).toNat = v % 10 := by
        simp
        omega
      rw [e]
      ring

theorem decimal_char_digit (v j : Nat) : 48 ≤ decimal_char v j ∧ decimal_char v j ≤ 57 := by
  unfold decimal_char
  have := Nat.mod_lt (v / 10 ^ j) (show 0 < 10 by norm_num)
  omega

theorem from_base10_loop_congr (s1 s2 : List Int) (len : Nat)
    (h : ∀ i, i < len → rdc s1 i = rdc s2 i) :
    ∀ n i st, i + n ≤ len → from_base10_loop s1 i n st = from_base10_loop s2 i n st := by
  intro n
  induction n with
  | zero => intro i st _; rfl
  | succ k ih =>
    intro i st hk
    unfold from_base10_loop
    simp only [h i (by omega)]
    split_ifs
    · rfl
    · exact ih _ _ (by omega)

/-- `from_base10` reads only the first `length` characters of `str`. -/
theorem from_base10_take (digits : List Nat) (str : List Int) (n : Nat) :
    from_base10 digits str n = from_base10 digits (str.take n) n := by
  unfold from_base10
  rw [Int.toNat_ofNat]
  exact from_base10_loop_congr str (str.take n) n
    (fun i hi => (rdc_take str n i hi).symm) _ _ _ (by omega)

/-- C6: for a magnitude in normal form (zero included), with fuel for the loops of
`to_base10` and a capacity at least the length it returns, `from_base10` applied to
the characters written, with that length, returns the length of `a` and writes exactly
the limbs of `a`. -/
theorem decimal_round_trip (fuel : Nat) (str : List Int) (capacity : Int)
    (a digits : List Nat) (ha : normal_form a) (hfuel : 10 * a.length ≤ fuel)
    (hstr : capacity ≤ (str.length : Int))
    (hcap : ∀ r, to_base10 fuel str capacity a a.length = some r → r.2 ≤ capacity)
    (hdig : a.length ≤ digits.length) :
    ∃ r, to_base10 fuel str capacity a a.length = some r
      ∧ (from_base10 digits r.1 r.2).2 = (a.length : Int)
      ∧ (from_base10 digits r.1 r.2).1.take a.length = a := by
  obtain ⟨r, len, e, h1, h2, h3, h4⟩ := to_base10_spec fuel str capacity a ha hfuel hstr
  have hlen : (len : Int) ≤ capacity := hcap _ e
  obtain ⟨_, h5⟩ := h4 hlen
  refine ⟨(r, (len : Int)), e, ?_⟩
  show (from_base10 digits r (len : Int)).2 = (a.length : Int)
    ∧ (from_base10 digits r (len : Int)).1.take a.length = a
  rw [from_base10_take]
  have htl : (r.take len).length = len := by
    rw [List.length_take, h3]
    omega
  have hchar : ∀ k, k < len → rdc (r.take len) k = decimal_char (value a) (len - 1 - k) :=
    fun k hk => by rw [rdc_take _ _ _ hk]; exact h5 k hk
  have hds : decimal_string (r.take len) := by
    intro c hc
    obtain ⟨k, hk, rfl⟩ := List.getElem_of_mem hc
    have hk' : k < len := by rw [htl] at hk; exact hk
    have := hchar k hk'
    unfold rdc at this
    rw [List.getD_eq_getElem _ _ hk] at this
    rw [this]
    exact decimal_char_digit _ _
  have hdv : decimal_value (r.take len) = value a := by
    rw [decimal_value_of_chars len _ (value a) htl hchar, Nat.mod_eq_of_lt h1]
  have hpos := ha.1
  have hva := value_lt a ha.2.1
  obtain ⟨d, m, f, f1, f2, f3, f4, f5⟩ := from_base10_spec_of_value digits (r.take len) hds
    (by omega) (by
      intro i _
      have h6 := decimal_value_take_le (r.take len) i
      have h7 : base ^ a.length ≤ base ^ digits.length := Nat.pow_le_pow_right base_pos hdig
      omega)
  rw [htl] at f
  rw [f]
  have heq := normal_form_unique _ _ f4 ha (by rw [f5, hdv])
  have hm : m = a.length := by
    have := congrArg List.length heq
    rwa [length_take_le _ _ (by omega)] at this
  subst hm
  exact ⟨rfl, heq⟩

theorem decimal_round_trip_witness :
    normal_form [0, 1] ∧
      to_base10 20 [0, 0, 0, 0, 0, 0, 0, 0, 0, 0] 10 [0, 1] 2
        = some ([52, 50, 57, 52, 57, 54, 55, 50, 57, 54], 10) ∧
      ∃ r, to_base10 20 [0, 0, 0, 0, 0, 0, 0, 0, 0, 0] 10 [0, 1] ([0, 1] : List Nat).length
          = some r
        ∧ (from_base10 [7, 7] r.1 r.2).2 = (([0, 1] : List Nat).length : Int)
        ∧ (from_base10 [7, 7] r.1 r.2).1.take ([0, 1] : List Nat).length = [0, 1] :=
  ⟨by decide, by decide,
    decimal_round_trip 20 [0, 0, 0, 0, 0, 0, 0, 0, 0, 0] 10 [0, 1] [7, 7] (by decide)
      (by decide) (by decide) (by decide) (by decide)⟩

/-! ### Algorithm D -/

/-- One smearing step `n |= n >> s`: the bits `k - t + 1 .. k` being set, afterwards the
bits `k - t - s + 1 .. k` are set, and no bit above `k` appears. -/
theorem smear_step (n k t s : Nat) (hs : s ≤ t) (hlt : n < 2 ^ (k + 1))
    (hbits : ∀ i, i ≤ k → k < i + t → n.testBit i = true) :
    (n ||| (n >>> s)) < 2 ^ (k + 1)
      ∧ ∀ i, i ≤ k → k < i + (t + s) → (n ||| (n >>> s)).testBit i = true := by
  constructor
  · apply Nat.or_lt_two_pow hlt
    rw [Nat.shiftRight_eq_div_pow]
    exact lt_of_le_of_lt (Nat.div_le_self _ _) hlt
  · intro i hi hk
    rw [Nat.testBit_or, Nat.testBit_shiftRight]
    by_cases h : k < i + t
    · rw [hbits i hi h]; rfl
    · rw [hbits (s + i) (by omega) (by omega)]
      simp

theorem all_bits_set (n k : Nat) (hlt : n < 2 ^ (k + 1))
    (hbits : ∀ i, i ≤ k → n.testBit i = true) : n = 2 ^ (k + 1) - 1 := by
  apply Nat.eq_of_testBit_eq
  intro i
  rw [Nat.testBit_two_pow_sub_one]
  by_cases h : i < k + 1
  · rw [hbits i (by omega)]; simp [h]
  · rw [Nat.testBit_lt_two_pow (lt_of_lt_of_le hlt (Nat.pow_le_pow_right (by norm_num)
      (by omega)))]
    simp [h]

theorem de_bruijn_table (k : Nat) (hk : k < 32) :
    multiply_de_bruijn_bit_position.getD ((((2 ^ (k + 1) - 1) * 0x07C4ACDD) % 2 ^ 32) >>> 27) 0
      = k := by
  interval_cases k <;> decide

/-- `de_bruijn` returns the position of the highest set bit of a non-zero 32-bit value. -/
theorem de_bruijn_spec (x k : Nat) (hk : k < 32) (h1 : 2 ^ k ≤ x) (h2 : x < 2 ^ (k + 1)) :
    de_bruijn x = k := by
  have hb0 : ∀ i, i ≤ k → k < i + 1 → x.testBit i = true := by
    intro i hi hik
    have : i = k := by omega
    subst this
    have hdiv : x / 2 ^ i = 1 :=
      Nat.div_eq_of_lt_le (by omega) (by rw [pow_succ] at h2; omega)
    rw [Nat.testBit_to_div_mod, hdiv]
    rfl
  obtain ⟨l1, b1⟩ := smear_step x k 1 1 (le_refl _) h2 hb0
  obtain ⟨l2, b2⟩ := smear_step _ k 2 2 (le_refl _) l1 b1
  obtain ⟨l3, b3⟩ := smear_step _ k 4 4 (le_refl _) l2 b2
  obtain ⟨l4, b4⟩ := smear_step _ k 8 8 (le_refl _) l3 b3
  obtain ⟨l5, b5⟩ := smear_step _ k 16 16 (le_refl _) l4 b4
  have hall := all_bits_set _ k l5 (fun i hi => b5 i hi (by omega))
  unfold de_bruijn
  simp only [hall]
  exact de_bruijn_table k hk

theorem two_pow_split (s : Nat) (hs : s ≤ 31) : 2 ^ s * 2 ^ (32 - s) = base := by
  rw [← pow_add, show s + (32 - s) = 32 by omega]
  rfl

theorem normalize_limb_eq (hi lo s : Nat) (hs : s ≤ 31) (hlo : lo < base) :
    normalize_limb hi lo s = 2 ^ s * (hi % 2 ^ (32 - s)) + lo / 2 ^ (32 - s)
      ∧ normalize_limb hi lo s < base := by
  have hsp := two_pow_split s hs
  have h1 : (hi <<< s) % base = 2 ^ s * (hi % 2 ^ (32 - s)) := by
    rw [Nat.shiftLeft_eq, ← hsp, Nat.mul_comm hi, Nat.mul_mod_mul_left]
  have h2 : lo >>> (32 - s) = lo / 2 ^ (32 - s) := Nat.shiftRight_eq_div_pow _ _
  have h3 : lo / 2 ^ (32 - s) < 2 ^ s := by
    rw [Nat.div_lt_iff_lt_mul (by positivity), hsp]
    exact hlo
  have h4 : hi % 2 ^ (32 - s) < 2 ^ (32 - s) := Nat.mod_lt _ (by positivity)
  have hlt : 2 ^ s * (hi % 2 ^ (32 - s)) + lo / 2 ^ (32 - s) < base := by
    rw [← hsp]
    have : 2 ^ s * (hi % 2 ^ (32 - s) + 1) ≤ 2 ^ s * 2 ^ (32 - s) :=
      Nat.mul_le_mul_left _ h4
    nlinarith
  unfold normalize_limb
  rw [h1, h2, ← Nat.mul_add_lt_is_or h3, Nat.mod_eq_of_lt hlt]
  exact ⟨rfl, hlt⟩

theorem limb_shift_split (hi s : Nat) (hs : s ≤ 31) :
    hi * 2 ^ s = 2 ^ s * (hi % 2 ^ (32 - s)) + base * (hi / 2 ^ (32 - s)) := by
  have hsp := two_pow_split s hs
  have := Nat.div_add_mod hi (2 ^ (32 - s))
  calc hi * 2 ^ s = (2 ^ (32 - s) * (hi / 2 ^ (32 - s)) + hi % 2 ^ (32 - s)) * 2 ^ s := by
        rw [this]
    _ = 2 ^ s * (hi % 2 ^ (32 - s)) + (2 ^ s * 2 ^ (32 - s)) * (hi / 2 ^ (32 - s)) := by ring
    _ = _ := by rw [hsp]

/-- The limbs `normalize` writes. -/
theorem normalize_rd (dst src : List Nat) (k s : Nat) (hk : 1 ≤ k) (hd : k ≤ dst.length) :
    (normalize dst src k s).length = dst.length
      ∧ (∀ t, k ≤ t → rd (normalize dst src k s) t = rd dst t)
      ∧ (∀ t, t < k → rd (normalize dst src k s) t
          = normalize_limb (rd src t) (if t = 0 then 0 else rd src (t - 1)) s) := by
  have L := for_down_inv
    (fun i (d : List Nat) => d.length = dst.length
      ∧ (∀ t, t ≤ i ∨ k ≤ t → rd d t = rd dst t)
      ∧ (∀ t, i < t → t < k → rd d t = normalize_limb (rd src t) (rd src (t - 1)) s))
    (fun i d => wr d (i + 1) (normalize_limb (rd src (i + 1)) (rd src i) s)) (k - 1) dst
    ⟨rfl, fun _ _ => rfl, fun t h1 h2 => by omega⟩
    (by
      intro i d hi hd'
      obtain ⟨g1, g2, g3⟩ := hd'
      refine ⟨by rw [length_wr, g1], ?_, ?_⟩
      · intro t ht
        rw [rd_wr_ne _ _ _ _ (by omega)]
        exact g2 t (by omega)
      · intro t h1 h2
        by_cases h : t = i + 1
        · subst h
          rw [rd_wr_same _ _ _ (by omega)]
          rfl
        · rw [rd_wr_ne _ _ _ _ (fun e => h e.symm)]
          exact g3 t (by omega) h2)
  unfold normalize
  rw [show ((k : Int) - 1).toNat = k - 1 by omega]
  generalize for_down (fun i d => wr d (i + 1) (normalize_limb (rd src (i + 1)) (rd src i) s))
    (k - 1) dst = d at L ⊢
  obtain ⟨g1, g2, g3⟩ := L
  refine ⟨by rw [length_wr, g1], ?_, ?_⟩
  · intro t ht
    rw [rd_wr_ne _ _ _ _ (by omega)]
    exact g2 t (Or.inr ht)
  · intro t ht
    by_cases h : t = 0
    · subst h
      rw [rd_wr_same _ _ _ (by omega), if_pos rfl]
      unfold normalize_limb
      simp
    · rw [rd_wr_ne _ _ _ _ (fun e => h e.symm), if_neg h]
      exact g3 t (by omega) ht

/-- A buffer whose limbs are `src` shifted left by `s` bits holds `value src * 2 ^ s`, up
to the bits shifted out of the top limb. -/
theorem normalize_value (d src : List Nat) (s : Nat) (hs : s ≤ 31)
    (hsrc : ∀ t, rd src t < base)
    (hrd : ∀ t, t < d.length → rd d t
      = normalize_limb (rd src t) (if t = 0 then 0 else rd src (t - 1)) s) :
    ∀ i, i ≤ d.length → i ≤ src.length →
      value (d.take i) + base ^ i * ((if i = 0 then 0 else rd src (i - 1)) / 2 ^ (32 - s))
        = value (src.take i) * 2 ^ s := by
  intro i
  induction i with
  | zero => intro _ _; simp [value]
  | succ k ih =>
    intro h1 h2
    have e := ih (by omega) (by omega)
    have hlo : (if k = 0 then 0 else rd src (k - 1)) < base := by
      split_ifs
      · exact base_pos
      · exact hsrc _
    obtain ⟨n1, _⟩ := normalize_limb_eq (rd src k) (if k = 0 then 0 else rd src (k - 1)) s hs hlo
    have hsplit := limb_shift_split (rd src k) s hs
    have h2 : base ^ k * (rd src k * 2 ^ s)
        = base ^ k * (2 ^ s * (rd src k % 2 ^ (32 - s)) + base * (rd src k / 2 ^ (32 - s))) := by
      rw [hsplit]
    have hg : (if k + 1 = 0 then 0 else rd src (k + 1 - 1)) = rd src k := by
      rw [if_neg (by omega), Nat.add_sub_cancel]
    rw [hg, value_take_succ d k (by omega), value_take_succ src k (by omega), hrd k (by omega),
      n1, pow_succ]
    generalize value (List.take k d) = vd at e ⊢
    generalize value (List.take k src) = vs at e ⊢
    generalize (if k = 0 then 0 else rd src (k - 1)) / 2 ^ (32 - s) = c0 at e ⊢
    generalize rd src k / 2 ^ (32 - s) = c1 at h2 ⊢
    generalize 2 ^ s * (rd src k % 2 ^ (32 - s)) = y at h2 ⊢
    nlinarith [e, h2]

/-- The test of the correction loop holds only for an estimate above the true digit. -/
theorem estimate_too_big (v1 v2 u t2 p vl wl qhat rhat : Nat)
    (hinv : qhat * v1 + rhat = t2) (hwl : wl < p)
    (hc : base * rhat + u < qhat * v2) :
    ((t2 * base + u) * p + wl) / ((v1 * base + v2) * p + vl) < qhat := by
  have hp : 0 < p := by omega
  have hq : 0 < qhat := by
    rcases Nat.eq_zero_or_pos qhat with h | h
    · rw [h] at hc; simp at hc
    · exact h
  have hV : 0 < (v1 * base + v2) * p + vl := by
    have : 0 < v2 := by
      rcases Nat.eq_zero_or_pos v2 with h | h
      · rw [h] at hc; simp at hc
      · exact h
    have : 0 < (v1 * base + v2) * p := Nat.mul_pos (by omega) hp
    omega
  rw [Nat.div_lt_iff_lt_mul hV]
  have h1 : (t2 * base + u + 1) * p ≤ (qhat * (v1 * base + v2)) * p := by
    apply Nat.mul_le_mul_right
    have : qhat * (v1 * base + v2) = (qhat * v1) * base + qhat * v2 := by ring
    rw [this, ← hinv]
    have : (qhat * v1 + rhat) * base = (qhat * v1) * base + base * rhat := by ring
    rw [this]
    omega
  have h2 : (t2 * base + u) * p + wl < (t2 * base + u + 1) * p := by
    have : (t2 * base + u + 1) * p = (t2 * base + u) * p + p := by ring
    omega
  have h3 : (qhat * (v1 * base + v2)) * p ≤ qhat * ((v1 * base + v2) * p + vl) := by
    have : qhat * ((v1 * base + v2) * p + vl) = (qhat * (v1 * base + v2)) * p + qhat * vl := by
      ring
    omega
  omega

/-- An estimate below `base` that fails the test of the correction loop is at most one
above the true digit. -/
theorem estimate_close (v1 v2 u t2 p vl wl qhat rhat : Nat)
    (hinv : qhat * v1 + rhat = t2) (hvl : vl < p) (hv1 : 1 ≤ v1) (hq : qhat < base)
    (hc : qhat * v2 ≤ base * rhat + u) :
    qhat ≤ ((t2 * base + u) * p + wl) / ((v1 * base + v2) * p + vl) + 1 := by
  have hp : 0 < p := by omega
  have hV : 0 < (v1 * base + v2) * p + vl := by
    have : 0 < (v1 * base + v2) * p := Nat.mul_pos (by nlinarith [base_pos]) hp
    omega
  rcases Nat.eq_zero_or_pos qhat with h0 | h0
  · rw [h0]; exact Nat.zero_le _
  · obtain ⟨k, hk⟩ : ∃ k, qhat = k + 1 := ⟨qhat - 1, by omega⟩
    subst hk
    have hgoal : k ≤ ((t2 * base + u) * p + wl) / ((v1 * base + v2) * p + vl) := by
      rw [Nat.le_div_iff_mul_le hV]
      -- k * V ≤ k * (V2 + 1) * p ≤ U3 * p ≤ W
      have h1 : k * ((v1 * base + v2) * p + vl) ≤ (k * (v1 * base + v2 + 1)) * p := by
        have : (k * (v1 * base + v2 + 1)) * p = k * ((v1 * base + v2) * p + p) := by ring
        rw [this]
        exact Nat.mul_le_mul_left _ (by omega)
      have h2 : k * (v1 * base + v2 + 1) ≤ t2 * base + u := by
        have e1 : (k + 1) * (v1 * base + v2) ≤ t2 * base + u := by
          have : (k + 1) * (v1 * base + v2) = ((k + 1) * v1) * base + (k + 1) * v2 := by ring
          rw [this, ← hinv]
          have : ((k + 1) * v1 + rhat) * base = ((k + 1) * v1) * base + base * rhat := by ring
          rw [this]
          omega
        have e2 : (k + 1) * (v1 * base + v2) = k * (v1 * base + v2) + (v1 * base + v2) := by
          ring
        have e3 : k * (v1 * base + v2 + 1) = k * (v1 * base + v2) + k := by ring
        have e4 : base ≤ v1 * base := Nat.le_mul_of_pos_left _ hv1
        omega
      have h3 : (k * (v1 * base + v2 + 1)) * p ≤ (t2 * base + u) * p :=
        Nat.mul_le_mul_right _ h2
      omega
    exact Nat.succ_le_succ hgoal

theorem base_sq : base * base = 2 ^ 64 := by unfold base; norm_num

/-- The estimate the correction loop leaves is below `base` and is the true digit of
the window or one more. -/
theorem correct_estimate_spec (v1 v2 u t2 p vl wl : Nat) (hv1 : 1 ≤ v1) (hv1b : v1 < base)
    (hv2 : v2 < base) (hu : u < base) (hvl : vl < p) (hwl : wl < p)
    (hW : (t2 * base + u) * p + wl < ((v1 * base + v2) * p + vl) * base) :
    ∀ qhat rhat, qhat * v1 + rhat = t2 →
      ((t2 * base + u) * p + wl) / ((v1 * base + v2) * p + vl) ≤ qhat → rhat < base →
      ((t2 * base + u) * p + wl) / ((v1 * base + v2) * p + vl)
          ≤ (correct_estimate v1 v2 u qhat rhat).1
        ∧ (correct_estimate v1 v2 u qhat rhat).1
          ≤ ((t2 * base + u) * p + wl) / ((v1 * base + v2) * p + vl) + 1
        ∧ (correct_estimate v1 v2 u qhat rhat).1 < base := by
  have hp : 0 < p := by omega
  have hV : 0 < (v1 * base + v2) * p + vl := by
    have : 0 < (v1 * base + v2) * p := Nat.mul_pos (by nlinarith [base_pos]) hp
    omega
  have hqB : ((t2 * base + u) * p + wl) / ((v1 * base + v2) * p + vl) < base :=
    (Nat.div_lt_iff_lt_mul hV).mpr (by rw [Nat.mul_comm base]; exact hW)
  have ht2 : t2 < v1 * base + base := by
    have h1 : (t2 * base) * p ≤ (t2 * base + u) * p + wl := by
      have : (t2 * base + u) * p = (t2 * base) * p + u * p := by ring
      omega
    have h2 : ((v1 * base + v2) * p + vl) * base < ((v1 * base + base) * base) * p := by
      have : ((v1 * base + base) * base) * p = ((v1 * base + base) * p) * base := by ring
      rw [this]
      apply Nat.mul_lt_mul_of_pos_right _ base_pos
      have : (v1 * base + base) * p = (v1 * base + v2) * p + (base - v2) * p := by
        have e : v1 * base + base = (v1 * base + v2) + (base - v2) := by omega
        rw [e, Nat.add_mul]
      rw [this]
      have : p ≤ (base - v2) * p := Nat.le_mul_of_pos_left _ (by omega)
      omega
    have h3 : (t2 * base) * p < ((v1 * base + base) * base) * p := by omega
    have h4 : t2 * base < (v1 * base + base) * base := Nat.lt_of_mul_lt_mul_right h3
    exact Nat.lt_of_mul_lt_mul_right h4
  intro qhat
  induction qhat with
  | zero =>
    intro rhat _ hq _
    simp only [correct_estimate]
    exact ⟨hq, Nat.zero_le _, base_pos⟩
  | succ k ih =>
    intro rhat hinv hq hr
    have hm1 : (rhat + v1) % 2 ^ 64 = rhat + v1 :=
      Nat.mod_eq_of_lt (by rw [← base_sq]; nlinarith [base_pos])
    have hm2 : (base * rhat + u) % 2 ^ 64 = base * rhat + u :=
      Nat.mod_eq_of_lt (by rw [← base_sq]; nlinarith [base_pos])
    unfold correct_estimate
    rw [hm1, hm2]
    by_cases hc : k + 1 ≥ base ∨ (k + 1) % base * v2 > base * rhat + u
    · rw [if_pos hc]
      have hlt : ((t2 * base + u) * p + wl) / ((v1 * base + v2) * p + vl) < k + 1 := by
        rcases Nat.lt_or_ge (k + 1) base with hb | hb
        · rcases hc with hc | hc
          · omega
          · rw [Nat.mod_eq_of_lt hb] at hc
            exact estimate_too_big v1 v2 u t2 p vl wl (k + 1) rhat hinv hwl hc
        · omega
      have hinv' : k * v1 + (rhat + v1) = t2 := by rw [← hinv]; ring
      by_cases hbr : rhat + v1 ≥ base
      · rw [if_pos hbr]
        have hkb : k < base := by
          have h1 : k * v1 < v1 * base := by omega
          rw [Nat.mul_comm v1 base] at h1
          by_contra hcon
          have : base * v1 ≤ k * v1 := Nat.mul_le_mul_right _ (by omega)
          omega
        refine ⟨by omega, ?_, hkb⟩
        apply estimate_close v1 v2 u t2 p vl wl k (rhat + v1) hinv' hvl hv1 hkb
        have h1 : k * v2 ≤ base * base := Nat.mul_le_mul (by omega) (by omega)
        have h2 : base * base ≤ base * (rhat + v1) := Nat.mul_le_mul_left _ hbr
        omega
      · rw [if_neg hbr]
        exact ih (rhat + v1) hinv' (by omega) (by omega)
    · rw [if_neg hc]
      push_neg at hc
      obtain ⟨hc1, hc2⟩ := hc
      rw [Nat.mod_eq_of_lt hc1] at hc2
      exact ⟨hq, estimate_close v1 v2 u t2 p vl wl (k + 1) rhat hinv hvl hv1 hc1 hc2, hc1⟩

theorem rd_drop (p : List Nat) (j i : Nat) : rd (p.drop j) i = rd p (j + i) := by
  unfold rd
  simp [List.getD_eq_getElem?_getD, List.getElem?_drop]

theorem drop_wr_ge (p : List Nat) (i j x : Nat) :
    (wr p (i + j) x).drop j = wr (p.drop j) i x := by
  unfold wr
  rw [List.drop_set, if_neg (by omega), Nat.add_sub_cancel]

theorem window_inv_wr (ln : List Nat) (j i : Nat) (s1 : List Nat) (x : Nat)
    (h : window_inv ln j i s1) (hlen : j + i < ln.length) (hx : x < base) :
    window_inv ln j (i + 1) (wr s1 (i + j) x)
      ∧ value (((wr s1 (i + j) x).drop j).take (i + 1))
          = value ((s1.drop j).take i) + base ^ i * x
      ∧ rd s1 (i + j) = rd ln (i + j)
      ∧ value ((ln.drop j).take (i + 1))
          = value ((ln.drop j).take i) + base ^ i * rd ln (i + j) := by
  obtain ⟨h1, h2, h3, h4⟩ := h
  have hi : i < (s1.drop j).length := by rw [List.length_drop]; omega
  have htk : ((wr s1 (i + j) x).drop j).take (i + 1) = (s1.drop j).take i ++ [x] := by
    rw [drop_wr_ge, take_wr _ _ _ hi]
  refine ⟨⟨by rw [length_wr, h1], ?_, ?_, ?_⟩, ?_, ?_, ?_⟩
  · rw [take_wr_of_le _ _ _ _ (by omega)]; exact h2
  · rw [drop_wr _ _ _ _ (by omega), show j + (i + 1) = j + i + 1 by omega]
    exact drop_succ_of_drop_eq _ _ _ h3
  · rw [htk]
    intro y hy
    rcases List.mem_append.mp hy with hy | hy
    · exact h4 y hy
    · rw [List.mem_singleton.mp hy]; exact hx
  · rw [htk, value_snoc, length_take_le _ _ (by omega)]
  · rw [Nat.add_comm i j]
    exact rd_eq_of_drop_eq _ _ _ h3
  · rw [value_take_succ _ _ (by rw [List.length_drop]; omega), rd_drop, Nat.add_comm j i]

theorem mul_sub_limb (u r qh : Nat) (diff : Int) (hu : u < base) (hr : r < base)
    (hq : qh < base) (hd0 : 0 ≤ diff) (hd1 : diff ≤ base) :
    (wrap64 ((u : Int) - diff - (((qh % base * r) % base : Nat) : Int)) % 2 ^ 32).toNat < base
      ∧ 0 ≤ wrap64 ((((qh % base * r) / base : Nat) : Int)
          - wrap64 ((u : Int) - diff - (((qh % base * r) % base : Nat) : Int)) / 2 ^ 32)
      ∧ wrap64 ((((qh % base * r) / base : Nat) : Int)
          - wrap64 ((u : Int) - diff - (((qh % base * r) % base : Nat) : Int)) / 2 ^ 32) ≤ base
      ∧ (((wrap64 ((u : Int) - diff - (((qh % base * r) % base : Nat) : Int)) % 2 ^ 32).toNat
            : Nat) : Int)
          - wrap64 ((((qh % base * r) / base : Nat) : Int)
              - wrap64 ((u : Int) - diff - (((qh % base * r) % base : Nat) : Int)) / 2 ^ 32)
            * base
          = (u : Int) - diff - (qh : Int) * r := by
  rw [Nat.mod_eq_of_lt hq]
  have hprod : qh * r ≤ (base - 1) * (base - 1) := Nat.mul_le_mul (by omega) (by omega)
  have hdm := Nat.div_add_mod (qh * r) base
  have hml := Nat.mod_lt (qh * r) base_pos
  have hhigh : qh * r / base < base - 1 := by
    rw [Nat.div_lt_iff_lt_mul base_pos]
    have : (base - 1) * (base - 1) < (base - 1) * base := by
      apply Nat.mul_lt_mul_of_pos_left (by omega)
      unfold base; norm_num
    omega
  have hcast : ((qh : Int) * (r : Int)) = ((qh * r : Nat) : Int) := by push_cast; rfl
  rw [hcast]
  generalize qh * r / base = ph at hdm hhigh ⊢
  generalize qh * r % base = pl at hdm hml ⊢
  generalize qh * r = pr at hdm ⊢
  unfold wrap64
  simp only [base] at *
  norm_num at *
  omega

theorem mul_sub_spec (rn ln : List Nat) (qh j n : Nat) (hq : qh < base)
    (hrn : ∀ i, rd rn i < base) (hln : ∀ i, rd ln i < base)
    (hn : n ≤ rn.length) (hlen : j + n ≤ ln.length) :
    window_inv ln j n (mul_sub rn qh j n (ln, 0)).1
      ∧ 0 ≤ (mul_sub rn qh j n (ln, 0)).2 ∧ (mul_sub rn qh j n (ln, 0)).2 ≤ base
      ∧ ((value (((mul_sub rn qh j n (ln, 0)).1.drop j).take n) : Nat) : Int)
          - (mul_sub rn qh j n (ln, 0)).2 * (base : Int) ^ n
        = ((value ((ln.drop j).take n) : Nat) : Int) - (qh : Int) * (value (rn.take n) : Nat) := by
  have L := for_up_inv
    (fun i (s : List Nat × Int) => window_inv ln j i s.1 ∧ 0 ≤ s.2 ∧ s.2 ≤ base
      ∧ ((value ((s.1.drop j).take i) : Nat) : Int) - s.2 * (base : Int) ^ i
        = ((value ((ln.drop j).take i) : Nat) : Int) - (qh : Int) * (value (rn.take i) : Nat))
    (fun i (s : List Nat × Int) =>
      let product := (qh % base) * rd rn i
      let sum := wrap64 ((rd s.1 (i + j) : Int) - s.2 - ((product % base : Nat) : Int))
      (wr s.1 (i + j) (sum % 2 ^ 32).toNat,
        wrap64 (((product / base : Nat) : Int) - sum / 2 ^ 32)))
    n 0 (ln, 0)
    ⟨⟨rfl, rfl, rfl, by simp⟩, le_refl _, by unfold base; norm_num, by simp [value]⟩
    (by
      intro i t _ hi ⟨hw, hd0, hd1, heq⟩
      have hi2 : i < n := by omega
      have hu : rd t.1 (i + j) < base := by
        have := (window_inv_wr ln j i t.1 0 hw (by omega) base_pos).2.2.1
        rw [this]; exact hln _
      obtain ⟨m1, m2, m3, m4⟩ := mul_sub_limb (rd t.1 (i + j)) (rd rn i) qh t.2 hu (hrn i) hq hd0 hd1
      obtain ⟨w1, w2, w3, w4⟩ := window_inv_wr ln j i t.1
        ((wrap64 ((rd t.1 (i + j) : Int) - t.2 - (((qh % base * rd rn i) % base : Nat) : Int))
          % 2 ^ 32).toNat) hw (by omega) m1
      refine ⟨w1, m2, m3, ?_⟩
      dsimp only
      rw [w2, w4, value_take_succ rn i (by omega), ← w3]
      push_cast
      rw [pow_succ]
      push_cast at m4 heq
      linear_combination heq + (base : Int) ^ i * m4)
  simp only [Nat.zero_add] at L
  exact L

theorem add_back_limb (u r : Nat) (c : Int) (hu : u < base) (hr : r < base)
    (hc : c = 0 ∨ c = 1) :
    (wrap64 ((u : Int) + (r : Int) + c) % 2 ^ 32).toNat < base
      ∧ (wrap64 ((u : Int) + (r : Int) + c) / 2 ^ 32 = 0
          ∨ wrap64 ((u : Int) + (r : Int) + c) / 2 ^ 32 = 1)
      ∧ (((wrap64 ((u : Int) + (r : Int) + c) % 2 ^ 32).toNat : Nat) : Int)
          + wrap64 ((u : Int) + (r : Int) + c) / 2 ^ 32 * base
        = (u : Int) + r + c := by
  unfold wrap64
  simp only [base] at *
  norm_num at *
  omega

theorem add_back_spec (rn ln : List Nat) (j n : Nat)
    (hrn : ∀ i, rd rn i < base) (hln : ∀ i, rd ln i < base)
    (hn : n ≤ rn.length) (hlen : j + n ≤ ln.length) :
    window_inv ln j n (add_back rn j n (ln, 0)).1
      ∧ ((add_back rn j n (ln, 0)).2 = 0 ∨ (add_back rn j n (ln, 0)).2 = 1)
      ∧ ((value (((add_back rn j n (ln, 0)).1.drop j).take n) : Nat) : Int)
          + (add_back rn j n (ln, 0)).2 * (base : Int) ^ n
        = ((value ((ln.drop j).take n) : Nat) : Int) + (value (rn.take n) : Nat) := by
  have L := for_up_inv
    (fun i (s : List Nat × Int) => window_inv ln j i s.1 ∧ (s.2 = 0 ∨ s.2 = 1)
      ∧ ((value ((s.1.drop j).take i) : Nat) : Int) + s.2 * (base : Int) ^ i
        = ((value ((ln.drop j).take i) : Nat) : Int) + (value (rn.take i) : Nat))
    (fun i (s : List Nat × Int) =>
      let sum := wrap64 ((rd s.1 (i + j) : Int) + (rd rn i : Int) + s.2)
      (wr s.1 (i + j) (sum % 2 ^ 32).toNat, sum / 2 ^ 32))
    n 0 (ln, 0)
    ⟨⟨rfl, rfl, rfl, by simp⟩, Or.inl rfl, by simp [value]⟩
    (by
      intro i t _ hi ⟨hw, hc, heq⟩
      have hi2 : i < n := by omega
      have hu : rd t.1 (i + j) < base := by
        have := (window_inv_wr ln j i t.1 0 hw (by omega) base_pos).2.2.1
        rw [this]; exact hln _
      obtain ⟨m1, m2, m4⟩ := add_back_limb (rd t.1 (i + j)) (rd rn i) t.2 hu (hrn i) hc
      obtain ⟨w1, w2, w3, w4⟩ := window_inv_wr ln j i t.1
        ((wrap64 ((rd t.1 (i + j) : Int) + (rd rn i : Int) + t.2) % 2 ^ 32).toNat)
        hw (by omega) m1
      refine ⟨w1, m2, ?_⟩
      dsimp only
      rw [w2, w4, value_take_succ rn i (by omega), ← w3]
      push_cast
      rw [pow_succ]
      push_cast at m4 heq
      linear_combination heq + (base : Int) ^ i * m4)
  simp only [Nat.zero_add] at L
  exact L

theorem window_inv_trans (ln a b : List Nat) (j i : Nat) (h1 : window_inv ln j i a)
    (h2 : window_inv a j i b) : window_inv ln j i b :=
  ⟨h2.1.trans h1.1, h2.2.1.trans h1.2.1, h2.2.2.1.trans h1.2.2.1, h2.2.2.2⟩

theorem window_inv_mem (ln s : List Nat) (j i : Nat) (h : window_inv ln j i s)
    (hln : ∀ x ∈ ln, x < base) : ∀ x ∈ s, x < base := by
  obtain ⟨_, h2, h3, h4⟩ := h
  intro x hx
  rw [← List.take_append_drop j s, List.mem_append] at hx
  rcases hx with hx | hx
  · rw [h2] at hx; exact hln x (List.mem_of_mem_take hx)
  · rw [← List.take_append_drop i (s.drop j), List.mem_append] at hx
    rcases hx with hx | hx
    · exact h4 x hx
    · rw [List.drop_drop, h3] at hx
      exact hln x (List.mem_of_mem_drop hx)

theorem divide_step_arith (V r m Bn sum : Int) (hV : 0 < V) (hVB : V < Bn) (hr0 : 0 ≤ r)
    (hrV : r < V) (hm0 : 0 ≤ m) (hmB : m < Bn) :
    (m + Bn * sum = r → sum = 0 ∧ m = r)
      ∧ (m + Bn * sum = r - V → sum = -1 ∧ m + V = r + Bn) := by
  constructor
  · intro h
    have hs : sum = 0 := by
      rcases lt_trichotomy sum 0 with hlt | heq | hgt
      · have : Bn * sum ≤ Bn * (-1) := by
          apply mul_le_mul_of_nonneg_left (by omega) (by omega)
        omega
      · exact heq
      · have : Bn * 1 ≤ Bn * sum := by
          apply mul_le_mul_of_nonneg_left (by omega) (by omega)
        omega
    subst hs
    simp at h
    exact ⟨rfl, h⟩
  · intro h
    have hs : sum = -1 := by
      rcases lt_trichotomy sum (-1) with hlt | heq | hgt
      · have : Bn * sum ≤ Bn * (-2) := by
          apply mul_le_mul_of_nonneg_left (by omega) (by omega)
        omega
      · exact heq
      · have : Bn * 0 ≤ Bn * sum := by
          apply mul_le_mul_of_nonneg_left (by omega) (by omega)
        omega
    subst hs
    constructor
    · rfl
    · linarith

/-- The first estimate of a quotient digit is never below the digit. -/
theorem estimate_init (v1 v2 u t2 p vl wl : Nat) (hv1 : 1 ≤ v1) (hu : u < base)
    (hwl : wl < p) :
    ((t2 * base + u) * p + wl) / ((v1 * base + v2) * p + vl) ≤ t2 / v1 := by
  have hp : 0 < p := by omega
  have hV : 0 < (v1 * base + v2) * p + vl := by
    have : 0 < (v1 * base + v2) * p := Nat.mul_pos (by nlinarith [base_pos]) hp
    omega
  rw [Nat.le_div_iff_mul_le (by omega)]
  set q := ((t2 * base + u) * p + wl) / ((v1 * base + v2) * p + vl) with hqdef
  have h1 : q * ((v1 * base + v2) * p + vl) ≤ (t2 * base + u) * p + wl :=
    Nat.div_mul_le_self _ _
  have h2 : (t2 * base + u) * p + wl < (t2 + 1) * (base * p) := by
    have : (t2 * base + u) * p + p ≤ (t2 * base + u + 1) * p := by
      rw [Nat.add_mul (t2 * base + u) 1 p, Nat.one_mul]
    have h3 : (t2 * base + u + 1) * p ≤ ((t2 + 1) * base) * p :=
      Nat.mul_le_mul_right p (by rw [Nat.add_mul, Nat.one_mul]; omega)
    rw [Nat.mul_assoc] at h3
    omega
  have h4 : q * v1 * (base * p) ≤ q * ((v1 * base + v2) * p + vl) := by
    have : q * v1 * (base * p) = q * (v1 * base * p) := by ring
    rw [this]
    apply Nat.mul_le_mul_left
    have : v1 * base * p ≤ (v1 * base + v2) * p := Nat.mul_le_mul_right p (by omega)
    omega
  have h5 : q * v1 * (base * p) < (t2 + 1) * (base * p) := by omega
  have h6 := Nat.lt_of_mul_lt_mul_right h5
  omega

theorem wrap_sub_succ (q : Nat) (h : q + 1 < base) : wrap_sub (q + 1) 1 = q := by
  unfold wrap_sub base at *
  omega

theorem algorithm_d_step_spec (iq : Bool) (rn ln quot : List Nat) (n j : Nat)
    (hn : 2 ≤ n) (hrl : rn.length = n) (hrn : ∀ x ∈ rn, x < base)
    (hv1 : 1 ≤ rd rn (n - 1)) (hln : ∀ x ∈ ln, x < base) (hlen : j + n < ln.length)
    (hq : iq = false → j < quot.length)
    (hW : value ((ln.drop j).take (n + 1)) < value rn * base) :
    window_inv ln j (n + 1) (algorithm_d_step iq rn n j (ln, quot)).1
      ∧ value (((algorithm_d_step iq rn n j (ln, quot)).1.drop j).take (n + 1))
          = value ((ln.drop j).take (n + 1)) % value rn
      ∧ (algorithm_d_step iq rn n j (ln, quot)).2
          = if iq then quot else wr quot j (value ((ln.drop j).take (n + 1)) / value rn) := by
  obtain ⟨k, rfl⟩ : ∃ k, n = k + 2 := ⟨n - 2, by omega⟩
  have hrd_ln : ∀ i, rd ln i < base := rd_lt ln hln
  have hrd_rn : ∀ i, rd rn i < base := rd_lt rn hrn
  have hdl : ∀ x ∈ ln.drop j, x < base := fun x hx => hln x (List.mem_of_mem_drop hx)
  have hdlen : (ln.drop j).length = ln.length - j := List.length_drop j ln
  -- the divisor and the window, split at their two and three leading limbs
  have hV : value rn = (rd rn (k + 1) * base + rd rn k) * base ^ k + value (rn.take k) := by
    conv_lhs => rw [← List.take_length rn, hrl]
    rw [value_take_succ rn (k + 1) (by omega), value_take_succ rn k (by omega), pow_succ]
    ring
  have hWs : value ((ln.drop j).take (k + 2 + 1))
      = ((rd ln (j + (k + 2)) * base + rd ln (j + (k + 1))) * base + rd ln (j + k)) * base ^ k
        + value ((ln.drop j).take k) := by
    rw [value_take_succ _ (k + 2) (by omega), value_take_succ _ (k + 1) (by omega),
      value_take_succ _ k (by omega), rd_drop, rd_drop, rd_drop, pow_succ, pow_succ]
    ring
  have hvl : value (rn.take k) < base ^ k := value_take_lt rn hrn k
  have hwl : value ((ln.drop j).take k) < base ^ k := value_take_lt _ hdl k
  have hv1k : 1 ≤ rd rn (k + 1) := hv1
  have hpk : 0 < base ^ k := pow_pos base_pos k
  have hVpos : 0 < value rn := by
    rw [hV]
    have : 0 < (rd rn (k + 1) * base + rd rn k) * base ^ k :=
      Nat.mul_pos (by have := base_pos; nlinarith) hpk
    omega
  have hVB : value rn < base ^ (k + 2) := by
    have := value_lt rn hrn
    rwa [hrl] at this
  -- the estimate of the quotient digit
  have ht2 : (rd ln (j + (k + 2)) * base + rd ln (j + (k + 2) - 1)) % 2 ^ 64
      = rd ln (j + (k + 2)) * base + rd ln (j + (k + 1)) := by
    rw [show j + (k + 2) - 1 = j + (k + 1) by omega]
    apply Nat.mod_eq_of_lt
    have h1 := hrd_ln (j + (k + 2))
    have h2 := hrd_ln (j + (k + 1))
    have : rd ln (j + (k + 2)) * base ≤ (base - 1) * base := Nat.mul_le_mul_right _ (by omega)
    simp only [base] at *
    omega
  have hW2 : ((rd ln (j + (k + 2)) * base + rd ln (j + (k + 1))) * base + rd ln (j + k))
      * base ^ k + value ((ln.drop j).take k)
      < ((rd rn (k + 1) * base + rd rn k) * base ^ k + value (rn.take k)) * base := by
    rw [← hWs, ← hV]; exact hW
  obtain ⟨e1, e2, e3⟩ := correct_estimate_spec (rd rn (k + 1)) (rd rn k) (rd ln (j + k))
    (rd ln (j + (k + 2)) * base + rd ln (j + (k + 1))) (base ^ k) (value (rn.take k))
    (value ((ln.drop j).take k)) hv1k (hrd_rn _) (hrd_rn _) (hrd_ln _) hvl hwl hW2
    ((rd ln (j + (k + 2)) * base + rd ln (j + (k + 1))) / rd rn (k + 1))
    ((rd ln (j + (k + 2)) * base + rd ln (j + (k + 1))) % rd rn (k + 1))
    (Nat.div_add_mod' _ _)
    (estimate_init _ _ _ _ _ _ _ hv1k (hrd_ln _) hwl)
    (lt_trans (Nat.mod_lt _ (by omega)) (hrd_rn _))
  rw [← hWs, ← hV] at e1 e2
  have hqcase : (correct_estimate (rd rn (k + 1)) (rd rn k) (rd ln (j + k))
        ((rd ln (j + (k + 2)) * base + rd ln (j + (k + 1))) / rd rn (k + 1))
        ((rd ln (j + (k + 2)) * base + rd ln (j + (k + 1))) % rd rn (k + 1))).1
        = value ((ln.drop j).take (k + 2 + 1)) / value rn
      ∨ (correct_estimate (rd rn (k + 1)) (rd rn k) (rd ln (j + k))
        ((rd ln (j + (k + 2)) * base + rd ln (j + (k + 1))) / rd rn (k + 1))
        ((rd ln (j + (k + 2)) * base + rd ln (j + (k + 1))) % rd rn (k + 1))).1
        = value ((ln.drop j).take (k + 2 + 1)) / value rn + 1 := by omega
  unfold algorithm_d_step
  dsimp only
  rw [ht2]
  simp only [show k + 2 - 1 = k + 1 from rfl, show k + 2 - 2 = k from rfl,
    show j + (k + 2) - 2 = j + k by omega]
  generalize (correct_estimate (rd rn (k + 1)) (rd rn k) (rd ln (j + k))
        ((rd ln (j + (k + 2)) * base + rd ln (j + (k + 1))) / rd rn (k + 1))
        ((rd ln (j + (k + 2)) * base + rd ln (j + (k + 1))) % rd rn (k + 1))).1 = qh
    at e1 e2 e3 hqcase ⊢
  obtain ⟨m1, m2, m3, m4⟩ := mul_sub_spec rn ln qh j (k + 2) e3 hrd_rn hrd_ln (by omega)
    (by omega)
  have htop : rd (mul_sub rn qh j (k + 2) (ln, 0)).1 (j + (k + 2)) = rd ln (j + (k + 2)) :=
    rd_eq_of_drop_eq _ _ _ m1.2.2.1
  have hmB : value (((mul_sub rn qh j (k + 2) (ln, 0)).1.drop j).take (k + 2))
      < base ^ (k + 2) := by
    have h := value_lt _ m1.2.2.2
    rwa [List.length_take, List.length_drop, m1.1, Nat.min_eq_left (by omega)] at h
  generalize mul_sub rn qh j (k + 2) (ln, 0) = ms at m1 m2 m3 m4 htop hmB ⊢
  rw [htop]
  have hsum : wrap64 ((rd ln (j + (k + 2)) : Int) - ms.2) = (rd ln (j + (k + 2)) : Int) - ms.2 := by
    have := hrd_ln (j + (k + 2))
    unfold wrap64
    simp only [base] at *
    norm_num at *
    omega
  rw [hsum]
  have hWtop : value ((ln.drop j).take (k + 2 + 1))
      = value ((ln.drop j).take (k + 2)) + base ^ (k + 2) * rd ln (j + (k + 2)) := by
    rw [value_take_succ _ (k + 2) (by omega), rd_drop]
  have hdm := Nat.div_add_mod (value ((ln.drop j).take (k + 2 + 1))) (value rn)
  have hrV := Nat.mod_lt (value ((ln.drop j).take (k + 2 + 1))) hVpos
  rw [List.take_of_length_le (by omega : rn.length ≤ k + 2)] at m4
  obtain ⟨A1, A2⟩ := divide_step_arith (value rn)
    ((value ((ln.drop j).take (k + 2 + 1)) % value rn : Nat) : Int)
    (value ((ms.1.drop j).take (k + 2)) : Nat) ((base : Int) ^ (k + 2))
    ((rd ln (j + (k + 2)) : Int) - ms.2) (by exact_mod_cast hVpos) (by exact_mod_cast hVB)
    (by positivity) (by exact_mod_cast hrV) (by positivity) (by exact_mod_cast hmB)
  have hqB : qh % base = qh := Nat.mod_eq_of_lt e3
  rw [hqB]
  have hWi : ((value ((ln.drop j).take (k + 2 + 1)) : Nat) : Int)
      = (value rn : Int) * ((value ((ln.drop j).take (k + 2 + 1)) / value rn : Nat) : Int)
        + ((value ((ln.drop j).take (k + 2 + 1)) % value rn : Nat) : Int) := by
    exact_mod_cast hdm.symm
  have hWti : ((value ((ln.drop j).take (k + 2 + 1)) : Nat) : Int)
      = (value ((ln.drop j).take (k + 2)) : Nat) + (base : Int) ^ (k + 2) * rd ln (j + (k + 2)) := by
    exact_mod_cast hWtop
  rcases hqcase with hq0 | hq1
  · -- the estimate is the digit
    have hs := A1 (by rw [hq0] at m4; linear_combination m4 - hWti + hWi)
    rw [hs.1, if_neg (by decide)]
    obtain ⟨w1, w2, _, _⟩ := window_inv_wr ln j (k + 2) ms.1 0 m1 (by omega) base_pos
    rw [Nat.add_comm (k + 2) j] at w1 w2
    refine ⟨w1, ?_, ?_⟩
    · show value ((List.drop j (wr ms.1 (j + (k + 2)) 0)).take (k + 2 + 1)) = _
      rw [w2, Nat.mul_zero, Nat.add_zero]
      exact_mod_cast hs.2
    · show (if iq = true then quot else wr quot j qh) = _
      rw [hq0]
  · -- the estimate is one too big: the borrow comes out and the divisor is added back
    have hs := A2 (by
      rw [hq1, Nat.cast_add, Nat.cast_one] at m4
      linear_combination m4 - hWti + hWi)
    rw [hs.1, if_pos (by decide)]
    have hB1 : ((-1 : Int) % 2 ^ 32).toNat = base - 1 := by
      unfold base; norm_num
      exact Int.toNat_ofNat 4294967295
    rw [hB1]
    obtain ⟨w1, _, _, _⟩ := window_inv_wr ln j (k + 2) ms.1 (base - 1) m1 (by omega)
      (by unfold base; norm_num)
    rw [Nat.add_comm (k + 2) j] at w1
    have hl1 : ∀ x ∈ wr ms.1 (j + (k + 2)) (base - 1), x < base := window_inv_mem _ _ _ _ w1 hln
    have hlen1 : (wr ms.1 (j + (k + 2)) (base - 1)).length = ln.length := w1.1
    have hwin : ((wr ms.1 (j + (k + 2)) (base - 1)).drop j).take (k + 2)
        = (ms.1.drop j).take (k + 2) := by
      rw [Nat.add_comm j (k + 2), drop_wr_ge, take_wr_of_le _ _ _ _ (le_refl _)]
    obtain ⟨a1, a2, a3⟩ := add_back_spec rn (wr ms.1 (j + (k + 2)) (base - 1)) j (k + 2)
      hrd_rn (rd_lt _ hl1) (by omega) (by omega)
    have hatop : rd (add_back rn j (k + 2) (wr ms.1 (j + (k + 2)) (base - 1), 0)).1 (j + (k + 2))
        = base - 1 := by
      rw [rd_eq_of_drop_eq _ _ _ a1.2.2.1, rd_wr_same _ _ _ (by rw [m1.1]; omega)]
    have haB : value (((add_back rn j (k + 2) (wr ms.1 (j + (k + 2)) (base - 1), 0)).1.drop j).take
        (k + 2)) < base ^ (k + 2) := by
      have h := value_lt _ a1.2.2.2
      rwa [List.length_take, List.length_drop, a1.1, hlen1, Nat.min_eq_left (by omega)] at h
    rw [hwin, List.take_of_length_le (by omega : rn.length ≤ k + 2)] at a3
    generalize add_back rn j (k + 2) (wr ms.1 (j + (k + 2)) (base - 1), 0) = ab
      at a1 a2 a3 hatop haB ⊢
    rw [hatop]
    have hc : ab.2 = 1 := by
      rcases a2 with h0 | h1
      · exfalso
        rw [h0] at a3
        have h5 : ((value ((ab.1.drop j).take (k + 2)) : Nat) : Int) < (base : Int) ^ (k + 2) := by
          exact_mod_cast haB
        have h6 : (0 : Int) ≤ ((value ((ln.drop j).take (k + 2 + 1)) % value rn : Nat) : Int) := by
          positivity
        linarith [hs.2]
      · exact h1
    rw [hc] at a3 ⊢
    have hz : (base - 1 + ((1 : Int) % 2 ^ 32).toNat) % base = 0 := by
      unfold base; norm_num
    rw [hz]
    obtain ⟨b1, b2, _, _⟩ := window_inv_wr (wr ms.1 (j + (k + 2)) (base - 1)) j (k + 2) ab.1 0 a1
      (by omega) base_pos
    rw [Nat.add_comm (k + 2) j] at b1 b2
    refine ⟨window_inv_trans _ _ _ _ _ w1 b1, ?_, ?_⟩
    · show value ((List.drop j (wr ab.1 (j + (k + 2)) 0)).take (k + 2 + 1)) = _
      rw [b2, Nat.mul_zero, Nat.add_zero]
      have : ((value ((ab.1.drop j).take (k + 2)) : Nat) : Int)
          = ((value ((ln.drop j).take (k + 2 + 1)) % value rn : Nat) : Int) := by
        linarith [hs.2]
      exact_mod_cast this
    · cases iq with
      | true => simp only [if_true]
      | false =>
        have hj := hq rfl
        simp only [Bool.false_eq_true, if_false]
        rw [rd_wr_same _ _ _ hj, hq1]
        have hws : wrap_sub (value ((ln.drop j).take (k + 2 + 1)) / value rn + 1) 1
            = value ((ln.drop j).take (k + 2 + 1)) / value rn := by
          rw [hq1] at e3
          exact wrap_sub_succ _ e3
        rw [hws]
        unfold wr
        rw [List.set_set]

theorem rd_eq_of_drop_eq_le (a b : List Nat) (k t : Nat) (h : a.drop k = b.drop k)
    (hkt : k ≤ t) : rd a t = rd b t := by
  have : a.drop t = b.drop t := by
    rw [show t = k + (t - k) by omega, ← List.drop_drop, ← List.drop_drop, h]
  exact rd_eq_of_drop_eq a b t this

theorem value_take_add (l : List Nat) (j k : Nat) (hj : j ≤ l.length) :
    value (l.take (j + k)) = value (l.take j) + base ^ j * value ((l.drop j).take k) := by
  rw [List.take_add, value_append, length_take_le _ _ hj]

theorem drop_wr_same (p : List Nat) (j x : Nat) (hj : j < p.length) :
    (wr p j x).drop j = x :: p.drop (j + 1) := by
  have h := drop_wr_ge p 0 j x
  rw [Nat.zero_add] at h
  rw [h]
  unfold wr
  rw [List.drop_eq_getElem_cons hj, List.set_cons_zero]

theorem value_window_succ (l : List Nat) (j n : Nat) (hj : j < l.length) :
    value ((l.drop j).take (n + 1)) = rd l j + base * value ((l.drop (j + 1)).take n) := by
  rw [List.drop_eq_getElem_cons hj, List.take_succ_cons, value_cons]
  congr 1
  unfold rd
  rw [List.getD_eq_getElem _ _ hj]

theorem algorithm_d_inv_step (iq : Bool) (rn quot : List Nat) (N n cnt : Nat)
    (hn : 2 ≤ n) (hrl : rn.length = n) (hrn : ∀ x ∈ rn, x < base)
    (hv1 : 1 ≤ rd rn (n - 1)) (hq : iq = false → cnt ≤ quot.length)
    (j : Nat) (t : List Nat × List Nat) (hj : j < cnt)
    (h : algorithm_d_inv iq quot N (value rn) n cnt (j + 1) t) :
    algorithm_d_inv iq quot N (value rn) n cnt j (algorithm_d_step iq rn n j t) := by
  obtain ⟨h1, h2, h3, h4, Q, h5, h6⟩ := h
  have hVB : value rn < base ^ n := by
    have := value_lt rn hrn
    rwa [hrl] at this
  have hVpos : 0 < value rn := by omega
  have hW : value ((t.1.drop j).take (n + 1)) < value rn * base := by
    rw [value_window_succ _ _ _ (by omega)]
    have := rd_lt t.1 h2 j
    have h7 : base * (value ((t.1.drop (j + 1)).take n) + 1) ≤ base * value rn :=
      Nat.mul_le_mul_left _ h4
    rw [Nat.mul_add, Nat.mul_one, Nat.mul_comm base (value rn)] at h7
    omega
  obtain ⟨s1, s2, s3⟩ := algorithm_d_step_spec iq rn t.1 t.2 n j hn hrl hrn hv1 h2
    (by omega) (fun hf => by have := (h6 hf).1; have := hq hf; omega) hW
  have hqd : value ((t.1.drop j).take (n + 1)) / value rn < base :=
    (Nat.div_lt_iff_lt_mul hVpos).mpr (by rw [Nat.mul_comm]; exact hW)
  have hdm := Nat.div_add_mod (value ((t.1.drop j).take (n + 1))) (value rn)
  have hrV := Nat.mod_lt (value ((t.1.drop j).take (n + 1))) hVpos
  rw [show (t.1, t.2) = t from rfl] at s1 s2 s3
  generalize algorithm_d_step iq rn n j t = s at s1 s2 s3 ⊢
  have hslen : s.1.length = cnt + n := s1.1.trans h1
  have hsl : ∀ x ∈ s.1, x < base := window_inv_mem _ _ _ _ s1 h2
  have hwt : value ((s.1.drop j).take (n + 1))
      = value ((s.1.drop j).take n) + base ^ n * rd s.1 (j + n) := by
    rw [value_take_succ _ n (by rw [List.length_drop]; omega), rd_drop]
  have htop : rd s.1 (j + n) = 0 := by
    rcases Nat.eq_zero_or_pos (rd s.1 (j + n)) with h0 | h0
    · exact h0
    · exfalso
      have : base ^ n * 1 ≤ base ^ n * rd s.1 (j + n) := Nat.mul_le_mul_left _ h0
      omega
  simp only [htop, Nat.mul_zero, Nat.add_zero] at hwt
  refine ⟨hslen, hsl, ?_, by omega, Q * base + value ((t.1.drop j).take (n + 1)) / value rn,
    ?_, ?_⟩
  · intro u hu
    rcases Nat.eq_or_lt_of_le hu with he | hlt
    · rw [← he]; exact htop
    · rw [rd_eq_of_drop_eq_le _ _ _ u s1.2.2.1 (by omega)]
      exact h3 u (by omega)
  · have e1 : value (t.1.take (j + 1 + n)) = value (t.1.take j)
        + base ^ j * value ((t.1.drop j).take (n + 1)) := by
      rw [show j + 1 + n = j + (n + 1) by omega, value_take_add _ _ _ (by omega)]
    have e2 : value (s.1.take (j + n)) = value (t.1.take j)
        + base ^ j * (value ((t.1.drop j).take (n + 1)) % value rn) := by
      rw [value_take_add _ _ _ (by omega), s1.2.1, ← hwt, s2]
    rw [h5, e1, e2, pow_succ]
    generalize value ((t.1.drop j).take (n + 1)) / value rn = q at hdm ⊢
    generalize value ((t.1.drop j).take (n + 1)) % value rn = r at hdm ⊢
    rw [← hdm]
    ring
  · intro hf
    obtain ⟨q1, q2, q3, q4⟩ := h6 hf
    have hjq : j < t.2.length := by have := hq hf; omega
    rw [hf] at s3
    simp only [Bool.false_eq_true, if_false] at s3
    have hd : (s.2.drop j).take (cnt - j)
        = value ((t.1.drop j).take (n + 1)) / value rn
          :: (t.2.drop (j + 1)).take (cnt - (j + 1)) := by
      rw [s3, drop_wr_same _ _ _ hjq, show cnt - j = cnt - (j + 1) + 1 by omega,
        List.take_succ_cons]
    refine ⟨by rw [s3, length_wr]; exact q1, by rw [s3, drop_wr _ _ _ _ hj]; exact q2, ?_, ?_⟩
    · rw [hd]
      intro x hx
      rcases List.mem_cons.mp hx with hx | hx
      · rw [hx]; exact hqd
      · exact q3 x hx
    · rw [hd, value_cons, q4]
      ring

theorem algorithm_d_loop_spec (iq : Bool) (rn ln0 quot : List Nat) (n cnt : Nat)
    (hn : 2 ≤ n) (hrl : rn.length = n) (hrn : ∀ x ∈ rn, x < base)
    (hv1 : 1 ≤ rd rn (n - 1)) (hq : iq = false → cnt ≤ quot.length)
    (hln : ∀ x ∈ ln0, x < base) (hlen : ln0.length = cnt + n)
    (hH : value ((ln0.drop cnt).take n) < value rn) :
    (for_down (algorithm_d_step iq rn n) cnt (ln0, quot)).1.length = cnt + n
      ∧ (∀ x ∈ (for_down (algorithm_d_step iq rn n) cnt (ln0, quot)).1, x < base)
      ∧ value ((for_down (algorithm_d_step iq rn n) cnt (ln0, quot)).1.take n)
          = value ln0 % value rn
      ∧ (iq = false →
          (for_down (algorithm_d_step iq rn n) cnt (ln0, quot)).2.length = quot.length
          ∧ (for_down (algorithm_d_step iq rn n) cnt (ln0, quot)).2.drop cnt = quot.drop cnt
          ∧ (∀ x ∈ (for_down (algorithm_d_step iq rn n) cnt (ln0, quot)).2.take cnt, x < base)
          ∧ value ((for_down (algorithm_d_step iq rn n) cnt (ln0, quot)).2.take cnt)
              = value ln0 / value rn) := by
  have L := for_down_inv (algorithm_d_inv iq quot (value ln0) (value rn) n cnt)
    (algorithm_d_step iq rn n) cnt (ln0, quot)
    ⟨hlen, hln, fun t ht => by
        unfold rd
        rw [List.getD_eq_default _ _ (by show ln0.length ≤ t; omega)],
      hH, 0, by
        rw [Nat.zero_mul, Nat.zero_mul, Nat.zero_add,
          List.take_of_length_le (by show ln0.length ≤ cnt + n; omega)],
      fun _ => ⟨rfl, rfl, by simp, by simp [value]⟩⟩
    (fun j t hj h => algorithm_d_inv_step iq rn quot (value ln0) n cnt hn hrl hrn hv1 hq j t hj h)
  generalize for_down (algorithm_d_step iq rn n) cnt (ln0, quot) = s at L ⊢
  obtain ⟨h1, h2, _, h4, Q, h5, h6⟩ := L
  simp only [List.drop_zero, Nat.zero_add, pow_zero, Nat.mul_one, Nat.sub_zero] at h4 h5 h6
  have hVpos : 0 < value rn := by omega
  have hQ : value ln0 / value rn = Q := by
    rw [h5, Nat.mul_comm Q, Nat.mul_add_div hVpos, Nat.div_eq_of_lt h4, Nat.add_zero]
  refine ⟨h1, h2, ?_, ?_⟩
  · rw [h5, Nat.mul_comm Q, Nat.mul_add_mod, Nat.mod_eq_of_lt h4]
  · intro hf
    obtain ⟨q1, q2, q3, q4⟩ := h6 hf
    exact ⟨q1, q2, q3, by rw [hQ]; exact q4⟩

/-- The shift of the normalization brings the top bit of the top limb to bit 31. -/
theorem shift_spec (x : Nat) (h0 : 1 ≤ x) (hx : x < base) :
    wrap_sub (wrap_sub 32 (de_bruijn x)) 1 ≤ 31
      ∧ x < 2 ^ (32 - wrap_sub (wrap_sub 32 (de_bruijn x)) 1)
      ∧ 2 ^ 31 ≤ x * 2 ^ wrap_sub (wrap_sub 32 (de_bruijn x)) 1 := by
  have h1 : 2 ^ Nat.log 2 x ≤ x := Nat.pow_log_le_self 2 (by omega)
  have h2 : x < 2 ^ (Nat.log 2 x + 1) := Nat.lt_pow_succ_log_self (by decide) x
  have hk : Nat.log 2 x < 32 := by
    have : 2 ^ Nat.log 2 x < 2 ^ 32 := lt_of_le_of_lt h1 hx
    exact (Nat.pow_lt_pow_iff_right (by decide)).mp this
  rw [de_bruijn_spec x (Nat.log 2 x) hk h1 h2]
  generalize Nat.log 2 x = k at h1 h2 hk
  have hs : wrap_sub (wrap_sub 32 k) 1 = 31 - k := by
    unfold wrap_sub base
    omega
  rw [hs]
  refine ⟨by omega, by rw [show 32 - (31 - k) = k + 1 by omega]; exact h2, ?_⟩
  have e : 2 ^ k * 2 ^ (31 - k) = 2 ^ 31 := by
    rw [← pow_add, show k + (31 - k) = 31 by omega]
  rw [← e]
  exact Nat.mul_le_mul_right _ h1

theorem normalize_spec (dst src : List Nat) (k s : Nat) (hk : 1 ≤ k) (hd : k ≤ dst.length)
    (hks : k ≤ src.length) (hs : s ≤ 31) (hsrc : ∀ x ∈ src, x < base) :
    (normalize dst src k s).length = dst.length
      ∧ (∀ t, k ≤ t → rd (normalize dst src k s) t = rd dst t)
      ∧ (∀ x ∈ (normalize dst src k s).take k, x < base)
      ∧ value ((normalize dst src k s).take k) + base ^ k * (rd src (k - 1) / 2 ^ (32 - s))
          = value (src.take k) * 2 ^ s
      ∧ 2 ^ s * (rd src (k - 1) % 2 ^ (32 - s)) ≤ rd (normalize dst src k s) (k - 1) := by
  obtain ⟨h1, h2, h3⟩ := normalize_rd dst src k s hk hd
  have hrs : ∀ t, rd src t < base := rd_lt src hsrc
  have hlo : ∀ t, (if t = 0 then 0 else rd src (t - 1)) < base := by
    intro t
    split
    · exact base_pos
    · exact hrs _
  refine ⟨h1, h2, ?_, ?_, ?_⟩
  · apply limbs_take_of_rd _ _ (by omega)
    intro i hi
    rw [h3 i hi]
    exact (normalize_limb_eq _ _ s hs (hlo i)).2
  · have hv := normalize_value ((normalize dst src k s).take k) src s hs hrs
      (fun t ht => by
        rw [List.length_take, Nat.min_eq_left (by omega)] at ht
        rw [rd_take _ _ _ ht, h3 t ht])
      k (by rw [List.length_take, Nat.min_eq_left (by omega)]) hks
    rw [List.take_take, Nat.min_self, if_neg (by omega)] at hv
    exact hv
  · rw [h3 (k - 1) (by omega), (normalize_limb_eq _ _ s hs (hlo (k - 1))).1]
    exact Nat.le_add_right _ _

theorem denormalize_limb_eq (lo hi s : Nat) (hs : s ≤ 31) (hlo : lo < base) (hhi : hi < base) :
    2 ^ s * (((lo >>> s) ||| ((hi <<< (32 - s)) % 2 ^ 64)) % base) + lo % 2 ^ s
        = lo + base * (hi % 2 ^ s)
      ∧ ((lo >>> s) ||| ((hi <<< (32 - s)) % 2 ^ 64)) % base < base := by
  refine ⟨?_, Nat.mod_lt _ base_pos⟩
  have hsp := two_pow_split s hs
  have hp1 : 0 < 2 ^ s := by positivity
  have hp2 : 0 < 2 ^ (32 - s) := by positivity
  have h64 : hi * 2 ^ (32 - s) < 2 ^ 64 := by
    have h1 : 2 ^ (32 - s) ≤ 2 ^ 32 := Nat.pow_le_pow_right (by decide) (by omega)
    have h2 : hi * 2 ^ (32 - s) ≤ hi * 2 ^ 32 := Nat.mul_le_mul_left _ h1
    simp only [base] at hhi
    omega
  have hq : lo / 2 ^ s < 2 ^ (32 - s) := by
    rw [Nat.div_lt_iff_lt_mul hp1, Nat.mul_comm, hsp]
    exact hlo
  have hor : (lo >>> s) ||| ((hi <<< (32 - s)) % 2 ^ 64) = 2 ^ (32 - s) * hi + lo / 2 ^ s := by
    rw [Nat.shiftRight_eq_div_pow, Nat.shiftLeft_eq, Nat.mod_eq_of_lt h64, Nat.lor_comm,
      Nat.mul_comm hi, ← Nat.mul_add_lt_is_or hq]
  have hsplit : 2 ^ (32 - s) * hi + lo / 2 ^ s
      = base * (hi / 2 ^ s) + (2 ^ (32 - s) * (hi % 2 ^ s) + lo / 2 ^ s) := by
    have := Nat.div_add_mod hi (2 ^ s)
    conv_lhs => rw [← this]
    rw [Nat.mul_add, ← Nat.mul_assoc, Nat.mul_comm (2 ^ (32 - s)) (2 ^ s), hsp]
    ring
  have hm : hi % 2 ^ s < 2 ^ s := Nat.mod_lt _ hp1
  have hlt : 2 ^ (32 - s) * (hi % 2 ^ s) + lo / 2 ^ s < base := by
    have : 2 ^ (32 - s) * (hi % 2 ^ s + 1) ≤ 2 ^ (32 - s) * 2 ^ s := Nat.mul_le_mul_left _ hm
    rw [Nat.mul_comm (2 ^ (32 - s)) (2 ^ s), hsp, Nat.mul_add, Nat.mul_one] at this
    omega
  rw [hor, hsplit, Nat.mul_add_mod, Nat.mod_eq_of_lt hlt, Nat.mul_add, ← Nat.mul_assoc, hsp,
    Nat.add_assoc, Nat.div_add_mod, Nat.add_comm]

theorem denormalize_spec (ln r : List Nat) (n s : Nat) (hn : 1 ≤ n) (hr : n ≤ r.length)
    (hnl : n ≤ ln.length) (hs : s ≤ 31) (hln : ∀ t, rd ln t < base) :
    (wr (for_up (fun i r => wr r i (((rd ln i >>> s)
        ||| ((rd ln (i + 1) <<< (32 - s)) % 2 ^ 64)) % base)) 0 (n - 1) r) (n - 1)
        (rd ln (n - 1) >>> s)).length = r.length
      ∧ (∀ x ∈ (wr (for_up (fun i r => wr r i (((rd ln i >>> s)
        ||| ((rd ln (i + 1) <<< (32 - s)) % 2 ^ 64)) % base)) 0 (n - 1) r) (n - 1)
        (rd ln (n - 1) >>> s)).take n, x < base)
      ∧ 2 ^ s * value ((wr (for_up (fun i r => wr r i (((rd ln i >>> s)
        ||| ((rd ln (i + 1) <<< (32 - s)) % 2 ^ 64)) % base)) 0 (n - 1) r) (n - 1)
        (rd ln (n - 1) >>> s)).take n) + rd ln 0 % 2 ^ s = value (ln.take n) := by
  have L := for_up_inv
    (fun i (d : List Nat) => d.length = r.length ∧ (∀ x ∈ d.take i, x < base)
      ∧ 2 ^ s * value (d.take i) + rd ln 0 % 2 ^ s
          = value (ln.take i) + base ^ i * (rd ln i % 2 ^ s))
    (fun i r => wr r i (((rd ln i >>> s) ||| ((rd ln (i + 1) <<< (32 - s)) % 2 ^ 64)) % base))
    (n - 1) 0 r ⟨rfl, by simp, by simp [value]⟩
    (by
      intro i d _ hi ⟨d1, d2, d3⟩
      obtain ⟨x1, x2⟩ := denormalize_limb_eq (rd ln i) (rd ln (i + 1)) s hs (hln _) (hln _)
      refine ⟨by rw [length_wr]; exact d1, ?_, ?_⟩
      · rw [take_wr _ _ _ (by omega)]
        intro x hx
        rcases List.mem_append.mp hx with hx | hx
        · exact d2 x hx
        · rw [List.mem_singleton.mp hx]; exact x2
      · rw [take_wr _ _ _ (by omega), value_snoc, length_take_le _ _ (by omega),
          value_take_succ ln i (by omega)]
        generalize ((rd ln i >>> s) ||| ((rd ln (i + 1) <<< (32 - s)) % 2 ^ 64)) % base = x
          at x1 ⊢
        have key : base ^ i * (2 ^ s * x + rd ln i % 2 ^ s)
            = base ^ i * (rd ln i + base * (rd ln (i + 1) % 2 ^ s)) := by rw [x1]
        rw [Nat.mul_add, Nat.mul_add] at key
        rw [Nat.mul_add, Nat.mul_left_comm (2 ^ s) (base ^ i) x, pow_succ,
          Nat.mul_assoc (base ^ i) base]
        omega)
  simp only [Nat.zero_add] at L
  generalize for_up (fun i r => wr r i (((rd ln i >>> s)
    ||| ((rd ln (i + 1) <<< (32 - s)) % 2 ^ 64)) % base)) 0 (n - 1) r = d at L ⊢
  obtain ⟨d1, d2, d3⟩ := L
  have hx : rd ln (n - 1) >>> s < base := by
    rw [Nat.shiftRight_eq_div_pow]
    exact lt_of_le_of_lt (Nat.div_le_self _ _) (hln _)
  have ht : (wr d (n - 1) (rd ln (n - 1) >>> s)).take n
      = d.take (n - 1) ++ [rd ln (n - 1) >>> s] := by
    have := take_wr d (n - 1) (rd ln (n - 1) >>> s) (by omega)
    rwa [show n - 1 + 1 = n by omega] at this
  refine ⟨by rw [length_wr]; exact d1, ?_, ?_⟩
  · rw [ht]
    intro x hx2
    rcases List.mem_append.mp hx2 with hx2 | hx2
    · exact d2 x hx2
    · rw [List.mem_singleton.mp hx2]; exact hx
  · rw [ht, value_snoc, length_take_le _ _ (by omega)]
    have hv := value_take_succ ln (n - 1) (by omega)
    rw [show n - 1 + 1 = n by omega] at hv
    rw [hv, Nat.shiftRight_eq_div_pow]
    have hdm := Nat.div_add_mod (rd ln (n - 1)) (2 ^ s)
    have key : base ^ (n - 1) * (2 ^ s * (rd ln (n - 1) / 2 ^ s) + rd ln (n - 1) % 2 ^ s)
        = base ^ (n - 1) * rd ln (n - 1) := by rw [hdm]
    rw [Nat.mul_add] at key
    rw [Nat.mul_add, Nat.mul_left_comm (2 ^ s) (base ^ (n - 1))]
    omega

theorem algorithm_d_setup (a b : List Nat) (m n : Nat) (ha : normal_form a)
    (hb : normal_form b) (hm : a.length = m) (hnb : b.length = n) (hn : 2 ≤ n) (hnm : n ≤ m)
    (s : Nat) (hsd : s = wrap_sub (wrap_sub 32 (de_bruijn (rd b (n - 1)))) 1)
    (rn : List Nat) (hrd : rn = normalize (List.replicate n 0) b n s)
    (ln0 : List Nat) (hld : ln0 = normalize
      (wr (List.replicate (m + 1) 0) m (rd a (m - 1) >>> (32 - s))) a m s) :
    s ≤ 31 ∧ rn.length = n ∧ (∀ x ∈ rn, x < base) ∧ 1 ≤ rd rn (n - 1)
      ∧ value rn = value b * 2 ^ s
      ∧ ln0.length = m + 1 ∧ (∀ x ∈ ln0, x < base) ∧ value ln0 = value a * 2 ^ s
      ∧ value ((ln0.drop (m - n + 1)).take n) < value rn := by
  obtain ⟨_, hbl, hbt⟩ := hb
  obtain ⟨_, hal, _⟩ := ha
  have hx0 : 1 ≤ rd b (n - 1) := by
    rcases hbt with h | h
    · omega
    · rw [hnb] at h
      exact Nat.one_le_iff_ne_zero.mpr h
  obtain ⟨s1, s2, s3⟩ := shift_spec (rd b (n - 1)) hx0 (rd_lt b hbl _)
  rw [← hsd] at s1 s2 s3
  have hsp := two_pow_split s s1
  -- the divisor
  obtain ⟨r1, _, r3, r4, r5⟩ := normalize_spec (List.replicate n 0) b n s (by omega)
    (by simp) (by omega) s1 hbl
  rw [← hrd] at r1 r3 r4 r5
  rw [List.length_replicate] at r1
  rw [List.take_of_length_le (by omega)] at r3
  rw [List.take_of_length_le (by omega : rn.length ≤ n),
    List.take_of_length_le (by omega : b.length ≤ n), Nat.div_eq_of_lt s2, Nat.mul_zero,
    Nat.add_zero] at r4
  rw [Nat.mod_eq_of_lt s2, Nat.mul_comm] at r5
  have hv1 : 2 ^ 31 ≤ rd rn (n - 1) := le_trans s3 r5
  -- the dividend
  have hdl : (wr (List.replicate (m + 1) 0) m (rd a (m - 1) >>> (32 - s))).length = m + 1 := by
    rw [length_wr, List.length_replicate]
  obtain ⟨l1, l2, l3, l4, _⟩ := normalize_spec
    (wr (List.replicate (m + 1) 0) m (rd a (m - 1) >>> (32 - s))) a m s (by omega)
    (by omega) (by omega) s1 hal
  rw [← hld] at l1 l2 l3 l4
  rw [hdl] at l1
  have htop : rd ln0 m = rd a (m - 1) / 2 ^ (32 - s) := by
    rw [l2 m (le_refl _), rd_wr_same _ _ _ (by rw [List.length_replicate]; omega),
      Nat.shiftRight_eq_div_pow]
  have htl : rd a (m - 1) / 2 ^ (32 - s) < 2 ^ s := by
    rw [Nat.div_lt_iff_lt_mul (by positivity), hsp]
    exact rd_lt a hal _
  have hs31 : 2 ^ s ≤ 2 ^ 31 := Nat.pow_le_pow_right (by decide) s1
  have hll : ∀ x ∈ ln0, x < base := by
    have h := limbs_take_of_rd ln0 (m + 1) (by omega) (fun i hi => by
      rcases Nat.lt_or_ge i m with h1 | h1
      · have := rd_lt _ l3 i
        rwa [rd_take _ _ _ h1] at this
      · rw [show i = m by omega, htop]
        simp only [base]
        omega)
    rwa [List.take_of_length_le (by omega)] at h
  have hlv : value ln0 = value a * 2 ^ s := by
    have h := value_take_succ ln0 m (by omega)
    rw [List.take_of_length_le (by omega : ln0.length ≤ m + 1), htop] at h
    rw [h, l4, List.take_of_length_le (by omega : a.length ≤ m)]
  refine ⟨s1, r1, r3, by omega, r4, l1, hll, hlv, ?_⟩
  obtain ⟨k, rfl⟩ : ∃ k, n = k + 1 := ⟨n - 1, by omega⟩
  have hw := value_take_succ (ln0.drop (m - (k + 1) + 1)) k (by rw [List.length_drop]; omega)
  rw [rd_drop, show m - (k + 1) + 1 + k = m by omega, htop] at hw
  have hwl : value ((ln0.drop (m - (k + 1) + 1)).take k) < base ^ k :=
    value_take_lt _ (fun x hx => hll x (List.mem_of_mem_drop hx)) k
  have hv := value_take_succ rn k (by omega)
  rw [List.take_of_length_le (by omega : rn.length ≤ k + 1)] at hv
  rw [hw, hv]
  have e1 : base ^ k * (rd a (m - 1) / 2 ^ (32 - s) + 1) ≤ base ^ k * rd rn (k + 1 - 1) :=
    Nat.mul_le_mul_left _ (by omega)
  rw [Nat.mul_add, Nat.mul_one] at e1
  rw [show k + 1 - 1 = k from rfl] at e1
  omega

theorem algorithm_d_spec (iq ir : Bool) (quot rem a b : List Nat) (rs : Int) (m n : Nat)
    (ha : normal_form a) (hb : normal_form b) (hm : a.length = m) (hnb : b.length = n)
    (hn : 2 ≤ n) (hnm : n ≤ m) (hq : iq = false → m - n + 1 ≤ quot.length)
    (hr : ir = false → n ≤ rem.length) :
    (iq = false → 1 ≤ (algorithm_d iq ir quot a b m n rem rs).2.2.2
        ∧ value ((algorithm_d iq ir quot a b m n rem rs).1.take
            (algorithm_d iq ir quot a b m n rem rs).2.2.2.toNat) = value a / value b)
      ∧ (ir = false → 1 ≤ (algorithm_d iq ir quot a b m n rem rs).2.2.1
        ∧ value ((algorithm_d iq ir quot a b m n rem rs).2.1.take
            (algorithm_d iq ir quot a b m n rem rs).2.2.1.toNat) = value a % value b) := by
  have e1 : ((n : Int)).toNat = n := Int.toNat_ofNat n
  have e2 : ((n : Int) - 1).toNat = n - 1 := by omega
  have e3 : ((m : Int) + 1).toNat = m + 1 := by omega
  have e4 : ((m : Int) - 1).toNat = m - 1 := by omega
  have e5 : ((m : Int) - n + 1).toNat = m - n + 1 := by omega
  have e6 : ((m : Int) - n + 1 - 1).toNat = m - n := by omega
  have e7 : ((m : Int)).toNat = m := Int.toNat_ofNat m
  have hvb : 0 < value b := by
    rcases Nat.eq_zero_or_pos (value b) with h0 | h0
    · have := (normal_form_value_zero b hb).mp h0
      rw [this] at hnb
      simp at hnb
      omega
    · exact h0
  obtain ⟨s1, r1, r2, r3, r4, l1, l2, l3, l4⟩ := algorithm_d_setup a b m n ha hb hm hnb hn hnm
    _ rfl _ rfl _ rfl
  obtain ⟨p1, p2, p3, p4⟩ := algorithm_d_loop_spec iq _ _ quot n (m - n + 1) hn r1 r2 r3 hq l2
    (by rw [l1]; omega) l4
  unfold algorithm_d
  simp only [e1, e2, e3, e4, e5, e6, e7]
  generalize wrap_sub (wrap_sub 32 (de_bruijn (rd b (n - 1)))) 1 = s at *
  generalize normalize (List.replicate n 0) b n s = rn at *
  generalize normalize (wr (List.replicate (m + 1) 0) m (rd a (m - 1) >>> (32 - s))) a m s
    = ln0 at *
  generalize for_down (algorithm_d_step iq rn n) (m - n + 1) (ln0, quot) = st at *
  rw [l3, r4, Nat.mul_mod_mul_right] at p3
  rw [l3, r4, Nat.mul_div_mul_right _ _ (by positivity)] at p4
  constructor
  · intro hf
    obtain ⟨q1, _, _, q4⟩ := p4 hf
    subst hf
    simp only [Bool.false_eq_true, if_false]
    split
    · next hc =>
      refine ⟨by show (1 : Int) ≤ (m : Int) - n + 1 - 1; have := hc.2; omega, ?_⟩
      show value (st.2.take ((m : Int) - n + 1 - 1).toNat) = _
      have hv := value_take_succ st.2 (m - n) (by have := hq rfl; omega)
      simp only [hc.1, Nat.mul_zero, Nat.add_zero] at hv
      rw [e6, ← hv, q4]
    · refine ⟨by show (1 : Int) ≤ (m : Int) - n + 1; omega, ?_⟩
      show value (st.2.take ((m : Int) - n + 1).toNat) = _
      rw [e5, q4]
  · intro hf
    subst hf
    have hrl := hr rfl
    obtain ⟨d1, d2, d3⟩ := denormalize_spec st.1 rem n s (by omega) hrl (by rw [p1]; omega) s1
      (rd_lt _ p2)
    rw [p3] at d3
    generalize wr (for_up (fun i r => wr r i (((rd st.1 i >>> s)
        ||| ((rd st.1 (i + 1) <<< (32 - s)) % 2 ^ 64)) % base)) 0 (n - 1) rem) (n - 1)
        (rd st.1 (n - 1) >>> s) = rem1 at d1 d2 d3 ⊢
    obtain ⟨t1, _, t3, _⟩ := trim_spec rem1 n (by omega) (by omega)
    have hval : value (rem1.take n) = value a % value b := by
      have hlt : rd st.1 0 % 2 ^ s < 2 ^ s := Nat.mod_lt _ (by positivity)
      have h1 : (2 ^ s * value (rem1.take n) + rd st.1 0 % 2 ^ s) / 2 ^ s
          = value (rem1.take n) := by
        rw [Nat.mul_add_div (by positivity), Nat.div_eq_of_lt hlt, Nat.add_zero]
      rw [d3, Nat.mul_div_cancel _ (by positivity)] at h1
      exact h1.symm
    have hres : ∀ (x : List Nat × List Nat × Int × Int),
        x.2.1 = rem1 → x.2.2.1 = ((trim rem1 n : Nat) : Int) →
        1 ≤ x.2.2.1 ∧ value (x.2.1.take x.2.2.1.toNat) = value a % value b := by
      intro x hx1 hx2
      rw [hx1, hx2, Int.toNat_ofNat, t3, hval]
      exact ⟨by omega, rfl⟩
    simp only [Bool.false_eq_true, if_false]
    cases iq with
    | true => exact hres _ rfl rfl
    | false =>
      simp only [Bool.false_eq_true, if_false]
      split
      · exact hres _ rfl rfl
      · exact hres _ rfl rfl

theorem mod_by_one_digit_spec (lhs : List Nat) (rhs n : Nat) (hn : 1 ≤ n) (hlen : n ≤ lhs.length)
    (hr0 : 0 < rhs) (hrb : rhs < base) (hl : ∀ i, rd lhs i < base) :
    mod_by_one_digit lhs rhs n = value (lhs.take n) % rhs := by
  have htop : ((n : Int) - 1).toNat = n - 1 := by omega
  have L := for_down_inv
    (fun i (d : Nat) => d = value ((lhs.take n).drop i) % rhs)
    (fun i lhs_digit => mod_limb lhs_digit (rd lhs i) rhs) (n - 1) (rd lhs (n - 1) % rhs)
    (by
      show rd lhs (n - 1) % rhs = value ((lhs.take n).drop (n - 1)) % rhs
      rw [drop_take_rd lhs (n - 1) n (by omega) hlen, show n - 1 + 1 = n by omega,
        List.drop_of_length_le (by rw [List.length_take]; omega), value_cons, value_nil,
        Nat.mul_zero, Nat.add_zero])
    (by
      intro i d hi hd
      show mod_limb d (rd lhs i) rhs = value ((lhs.take n).drop i) % rhs
      have hdl : d < rhs := by rw [hd]; exact Nat.mod_lt _ hr0
      rw [mod_limb_spec d (rd lhs i) rhs hdl (hl i) hrb,
        drop_take_rd lhs i n (by omega) hlen, value_cons, hd, Nat.add_comm,
        Nat.add_mod, Nat.mul_mod, Nat.mod_mod, Nat.mul_comm base,
        ← Nat.mul_mod, ← Nat.add_mod])
  unfold mod_by_one_digit
  simp only [htop]
  rw [L, List.drop_zero]

theorem normal_form_single (b : List Nat) (hb : normal_form b) (h1 : b.length = 1) :
    value b = rd b 0 ∧ rd b 0 < base := by
  obtain ⟨x, rfl⟩ := List.length_eq_one.mp h1
  exact ⟨by simp [value, rd], hb.2.1 x (by simp)⟩

theorem value_lt_of_length_lt (a b : List Nat) (ha : normal_form a) (hb : normal_form b)
    (h : a.length < b.length) : value a < value b := by
  have h1 := value_lt a ha.2.1
  have h2 := normal_form_ge b hb (by have := ha.1; omega)
  have h3 : base ^ a.length ≤ base ^ (b.length - 1) :=
    Nat.pow_le_pow_right base_pos (by omega)
  omega

theorem div_spec (result a b : List Nat) (ha : normal_form a) (hb : normal_form b)
    (hb0 : value b ≠ 0) (hcap : a.length ≤ result.length) :
    ∃ q qn, div result a b a.length b.length = some (q, qn) ∧ 1 ≤ qn
      ∧ value (q.take qn.toNat) = value a / value b := by
  have ha1 := ha.1
  have hb1 := hb.1
  unfold div
  rcases Nat.lt_or_ge a.length b.length with hlt | hge
  · -- fewer limbs than the divisor
    have hv := value_lt_of_length_lt a b ha hb hlt
    rw [if_neg (by
      intro h
      have := h.1
      omega), if_pos (by exact_mod_cast hlt)]
    refine ⟨_, _, rfl, le_refl _, ?_⟩
    rw [Nat.div_eq_of_lt hv]
    show value ((wr result 0 0).take 1) = 0
    have := take_wr result 0 0 (by omega)
    rw [this]
    simp [value]
  · rcases Nat.lt_or_ge 1 b.length with hn | hn
    · -- Algorithm D
      rw [if_neg (by
        intro h
        have := h.1
        omega), if_neg (by
        intro h
        have : a.length < b.length := by exact_mod_cast h
        omega), if_pos (by
        show (1 : Int) < (b.length : Int)
        exact_mod_cast hn)]
      obtain ⟨h1, _⟩ := algorithm_d_spec false true result [] a b 0 a.length b.length ha hb rfl
        rfl (by omega) hge (fun _ => by omega) (fun h => by simp at h)
      obtain ⟨h2, h3⟩ := h1 rfl
      exact ⟨_, _, rfl, h2, h3⟩
    · -- a divisor of one limb
      have hbl : b.length = 1 := by omega
      obtain ⟨hvb, hbb⟩ := normal_form_single b hb hbl
      rw [if_neg (by
        intro h
        rw [← hvb] at h
        exact hb0 h.2), if_neg (by
        intro h
        have : a.length < b.length := by exact_mod_cast h
        omega), if_neg (by
        intro h
        have : (1 : Int) < (b.length : Int) := h
        have : 1 < b.length := by exact_mod_cast this
        omega)]
      obtain ⟨d1, _, d3, d4, d5, d6⟩ := divide_by_one_digit_spec false result a a (rd b 0)
        a.length rfl (by omega) hcap (le_refl _) (by omega) hbb (fun i _ => rd_lt a ha.2.1 i)
      rw [List.take_of_length_le (le_refl _)] at d4
      have hge2 : a.length = 1 ∨ base ^ (a.length - 1) ≤ value a := by
        rcases Nat.lt_or_ge 1 a.length with h | h
        · exact Or.inr (normal_form_ge a ha h)
        · exact Or.inl (by omega)
      obtain ⟨n1, n2⟩ := divide_normal (divide_by_one_digit false result a (rd b 0) a.length).1
        a.length (rd b 0) (value a) _ (by omega) (by rw [d1]; exact hcap) d3 d4 d5 hbb hge2
      refine ⟨_, _, rfl, ?_, ?_⟩
      · rw [d6]
        split <;> omega
      · rw [d6, hvb, ← n2]
        congr 2
        split <;> simp

theorem copy_limbs_spec (a result : List Nat) (n : Nat) (hn : n ≤ a.length)
    (hcap : n ≤ result.length) :
    (for_up (fun i r => wr r i (rd a i)) 0 n result).take n = a.take n := by
  have L := for_up_inv
    (fun i (r : List Nat) => r.length = result.length ∧ r.take i = a.take i)
    (fun i r => wr r i (rd a i)) n 0 result ⟨rfl, by simp⟩
    (by
      intro i r _ hi ⟨h1, h2⟩
      exact ⟨by rw [length_wr]; exact h1, by
        rw [take_wr _ _ _ (by omega), h2, take_succ_rd a i (by omega)]⟩)
  simp only [Nat.zero_add] at L
  exact L.2

theorem mod_spec (result a b : List Nat) (ha : normal_form a) (hb : normal_form b)
    (hb0 : value b ≠ 0) (hcap : b.length ≤ result.length) :
    ∃ r rn, mod result a b a.length b.length = some (r, rn) ∧ 1 ≤ rn
      ∧ value (r.take rn.toNat) = value a % value b := by
  have ha1 := ha.1
  have hb1 := hb.1
  unfold mod
  rcases Nat.lt_or_ge a.length b.length with hlt | hge
  · -- fewer limbs than the divisor
    have hv := value_lt_of_length_lt a b ha hb hlt
    rw [if_neg (by
      intro h
      have := h.1
      omega), if_pos (by exact_mod_cast hlt)]
    refine ⟨_, _, rfl, by omega, ?_⟩
    rw [Nat.mod_eq_of_lt hv]
    show value ((for_up (fun i r => wr r i (rd a i)) 0 (a.length : Int).toNat result).take
      (a.length : Int).toNat) = value a
    rw [Int.toNat_ofNat, copy_limbs_spec a result a.length (le_refl _) (by omega),
      List.take_of_length_le (le_refl _)]
  · rcases Nat.lt_or_ge 1 b.length with hn | hn
    · -- Algorithm D
      rw [if_neg (by
        intro h
        have := h.1
        omega), if_neg (by
        intro h
        have : a.length < b.length := by exact_mod_cast h
        omega), if_pos (by
        show (1 : Int) < (b.length : Int)
        exact_mod_cast hn)]
      obtain ⟨_, h1⟩ := algorithm_d_spec true false [] result a b 0 a.length b.length ha hb rfl
        rfl (by omega) hge (fun h => by simp at h) (fun _ => hcap)
      obtain ⟨h2, h3⟩ := h1 rfl
      exact ⟨_, _, rfl, h2, h3⟩
    · -- a divisor of one limb
      have hbl : b.length = 1 := by omega
      obtain ⟨hvb, hbb⟩ := normal_form_single b hb hbl
      rw [if_neg (by
        intro h
        rw [← hvb] at h
        exact hb0 h.2), if_neg (by
        intro h
        have : a.length < b.length := by exact_mod_cast h
        omega), if_neg (by
        intro h
        have : (1 : Int) < (b.length : Int) := h
        have : 1 < b.length := by exact_mod_cast this
        omega)]
      refine ⟨_, _, rfl, le_refl _, ?_⟩
      rw [mod_by_one_digit_spec a (rd b 0) a.length (by omega) (le_refl _) (by omega) hbb
        (rd_lt a ha.2.1), List.take_of_length_le (le_refl _), hvb]
      show value ((wr result 0 (value a % rd b 0)).take 1) = _
      have := take_wr result 0 (value a % rd b 0) (by omega)
      rw [this]
      simp [value]

/-- C1: for magnitudes `a` and `b` in normal form with `b` not zero, whatever their
lengths, `div` and `mod` both return, and the quotient `q` written by `div` and the
remainder `r` written by `mod` satisfy `value a = value q * value b + value r` and
`value r < value b`. -/
theorem div_mod_correct (result_q result_r a b : List Nat) (ha : normal_form a)
    (hb : normal_form b) (hb0 : value b ≠ 0) (hq : a.length ≤ result_q.length)
    (hr : b.length ≤ result_r.length) :
    ∃ q qn r rn, div result_q a b a.length b.length = some (q, qn)
      ∧ mod result_r a b a.length b.length = some (r, rn)
      ∧ value a = value (q.take qn.toNat) * value b + value (r.take rn.toNat)
      ∧ value (r.take rn.toNat) < value b := by
  obtain ⟨q, qn, h1, _, h2⟩ := div_spec result_q a b ha hb hb0 hq
  obtain ⟨r, rn, h3, _, h4⟩ := mod_spec result_r a b ha hb hb0 hr
  refine ⟨q, qn, r, rn, h1, h3, ?_, ?_⟩
  · rw [h2, h4]
    exact (Nat.div_add_mod' _ _).symm
  · rw [h4]
    exact Nat.mod_lt _ (Nat.pos_of_ne_zero hb0)

theorem div_mod_correct_witness :
    normal_form [0, 0, 1] ∧ normal_form [1, 1] ∧ value [1, 1] ≠ 0
      ∧ ∃ q qn r rn,
        div [0, 0, 0] [0, 0, 1] [1, 1] ([0, 0, 1] : List Nat).length ([1, 1] : List Nat).length
          = some (q, qn)
        ∧ mod [0, 0] [0, 0, 1] [1, 1] ([0, 0, 1] : List Nat).length ([1, 1] : List Nat).length
          = some (r, rn)
        ∧ value [0, 0, 1] = value (q.take qn.toNat) * value [1, 1] + value (r.take rn.toNat)
        ∧ value (r.take rn.toNat) < value [1, 1] :=
  ⟨by decide, by decide, by decide,
    div_mod_correct [0, 0, 0] [0, 0] [0, 0, 1] [1, 1] (by decide) (by decide) (by decide)
      (by decide) (by decide)⟩

/-! ### mul -/

/-- Replacing a value of `f` by itself changes nothing. -/
theorem memo_eq (f : List Nat → Nat → Nat → Nat → Int → Int → Nat → Option (List Nat × Int))
    (h : List Nat) (result lhs rhs : Nat) (lhs_size rhs_size : Int) (memory : Nat)
    (v : Option (List Nat × Int)) (hv : f h result lhs rhs lhs_size rhs_size memory = v) :
    memo f h result lhs rhs lhs_size rhs_size memory v = f := by
  funext h1 result1 lhs1 rhs1 lhs_size1 rhs_size1 memory1
  unfold memo
  split
  · next hc =>
    obtain ⟨c1, c2, c3, c4, c5, c6, c7⟩ := hc
    rw [c1, c2, c3, c4, c5, c6, c7, hv]
  · rfl

/-- Above the threshold `mul_with_scratch_memory` is `karatsuba`. -/
theorem mul_with_scratch_memory_karatsuba (fuel : Nat) (h : List Nat) (result lhs rhs : Nat)
    (lhs_size rhs_size : Int) (memory : Nat) (hl : 30 < lhs_size) (hr : 30 < rhs_size) :
    mul_with_scratch_memory (fuel + 1) h result lhs rhs lhs_size rhs_size memory
      = karatsuba (mul_with_scratch_memory fuel) h result lhs rhs lhs_size rhs_size memory := by
  rw [mul_with_scratch_memory, if_neg (by omega), if_neg (by omega),
    if_pos (by unfold KARATSUBA_THRESHOLD; exact ⟨hl, hr⟩)]

set_option maxRecDepth 1000000 in
/-- The product `z1` of the inner call of `karatsuba`, by `long_multiplication`. -/
theorem long_multiplication_z1 :
    mul_with_scratch_memory 2 (ones_at 373 [16, 33, 217, 250, 341, 372]) 63 1 18 16 16 95
      = some (ones_at 373 [16, 33, 93, 217, 250, 341, 372], 31) := by
  decide!

set_option maxRecDepth 1000000 in
/-- The product `z2` of the inner call of `karatsuba`, by `long_multiplication`. -/
theorem long_multiplication_z2 :
    mul_with_scratch_memory 2 (ones_at 373 [16, 33, 93, 217, 250, 341, 372]) 31 202 235 16 16 94
      = some (ones_at 373 [16, 61, 93, 217, 250, 341, 372], 31) := by
  decide!

set_option maxRecDepth 1000000 in
/-- The inner call of `karatsuba` (31 by 31 limbs), given its two products. -/
theorem karatsuba_inner_memo :
    karatsuba
      (memo (memo (mul_with_scratch_memory 2)
          (ones_at 373 [16, 33, 217, 250, 341, 372]) 63 1 18 16 16 95
          (some (ones_at 373 [16, 33, 93, 217, 250, 341, 372], 31)))
        (ones_at 373 [16, 33, 93, 217, 250, 341, 372]) 31 202 235 16 16 94
        (some (ones_at 373 [16, 61, 93, 217, 250, 341, 372], 31)))
      (ones_at 373 [217, 250, 341, 372]) 1 187 220 31 31 63
      = some (ones_at 373 [61, 217, 250, 341, 372], 61) := by
  decide!

theorem karatsuba_inner :
    mul_with_scratch_memory 3 (ones_at 373 [217, 250, 341, 372]) 1 187 220 31 31 63
      = some (ones_at 373 [61, 217, 250, 341, 372], 61) := by
  rw [mul_with_scratch_memory_karatsuba 2 _ _ _ _ _ _ _ (by decide) (by decide),
    ← karatsuba_inner_memo, memo_eq _ _ _ _ _ _ _ _ _ long_multiplication_z1,
    memo_eq _ _ _ _ _ _ _ _ _ long_multiplication_z2]

set_option maxRecDepth 1000000 in
/-- The outer call of `karatsuba` (62 by 31 limbs), given the inner one. -/
theorem karatsuba_outer_memo :
    karatsuba
      (memo (mul_with_scratch_memory 3) (ones_at 373 [217, 250, 341, 372]) 1 187 220 31 31 63
        (some (ones_at 373 [61, 217, 250, 341, 372], 61)))
      (ones_at 373 [341, 372]) 187 280 342 62 31 1
      = some (ones_at 373 [61, 217, 278, 341, 372], 92) := by
  decide!

theorem karatsuba_outer :
    mul 4 (ones_at 373 [341, 372]) 187 280 342 62 31 1
      = some (ones_at 373 [61, 217, 278, 341, 372], 92) := by
  rw [mul, if_pos (by decide),
    mul_with_scratch_memory_karatsuba 3 _ _ _ _ _ _ _ (by decide) (by decide),
    ← karatsuba_outer_memo, memo_eq _ _ _ _ _ _ _ _ _ karatsuba_inner]

set_option maxRecDepth 1000000 in
theorem mul_memory_unequal :
    mul_memory (List.replicate 61 0 ++ [1]) (List.replicate 30 0 ++ [1]) 0
      = ones_at 373 [341, 372] := by
  decide!

set_option maxRecDepth 1000000 in
theorem mul_result_unequal :
    ((ones_at 373 [61, 217, 278, 341, 372]).drop 187).take 92
      = List.replicate 30 0 ++ [1] ++ List.replicate 60 0 ++ [1] := by
  decide!

/-- The run of `mul` on `base ^ 61` (62 limbs) and `base ^ 30` (31 limbs). -/
theorem mul_run_unequal :
    mul_run 4 (List.replicate 61 0 ++ [1]) (List.replicate 30 0 ++ [1]) 0
      = some (List.replicate 30 0 ++ [1] ++ List.replicate 60 0 ++ [1], 92) := by
  have hla : (List.replicate 61 0 ++ [1] : List Nat).length = 62 := rfl
  have hlb : (List.replicate 30 0 ++ [1] : List Nat).length = 31 := rfl
  unfold mul_run
  rw [mul_memory_unequal, hla, hlb]
  show Option.map _ (mul 4 (ones_at 373 [341, 372]) 187 280 342 62 31 1) = _
  rw [karatsuba_outer]
  show some (((ones_at 373 [61, 217, 278, 341, 372]).drop 187).take 92, (92 : Int)) = _
  rw [mul_result_unequal]

set_option maxRecDepth 1000000 in
theorem value_unequal :
    value (List.replicate 30 0 ++ [1] ++ List.replicate 60 0 ++ [1])
        = base ^ 30 + base ^ 91
      ∧ value (List.replicate 61 0 ++ [1]) * value (List.replicate 30 0 ++ [1]) = base ^ 91 := by
  decide!

set_option maxRecDepth 1000000 in
theorem normal_form_unequal :
    normal_form (List.replicate 61 0 ++ [1]) ∧ normal_form (List.replicate 30 0 ++ [1]) := by
  decide!

/-- C2 (refuted for unequal lengths): `base ^ 61` on 62 limbs and `base ^ 30` on 31 limbs
are in normal form and both longer than the Karatsuba threshold, and on them `mul`, with
a result of capacity 93, returns 92 and writes the limbs of `base ^ 30 + base ^ 91`,
which is not their product `base ^ 91`. -/
theorem mul_karatsuba_unequal_lengths :
    normal_form (List.replicate 61 0 ++ [1]) ∧ normal_form (List.replicate 30 0 ++ [1])
      ∧ ∃ r n, mul_run 4 (List.replicate 61 0 ++ [1]) (List.replicate 30 0 ++ [1]) 0
            = some (r, n)
          ∧ n = 92 ∧ value r = base ^ 30 + base ^ 91
          ∧ value (List.replicate 61 0 ++ [1]) * value (List.replicate 30 0 ++ [1])
              = base ^ 91
          ∧ value r
              ≠ value (List.replicate 61 0 ++ [1]) * value (List.replicate 30 0 ++ [1]) := by
  refine ⟨normal_form_unequal.1, normal_form_unequal.2,
    _, _, mul_run_unequal, rfl, value_unequal.1, value_unequal.2, ?_⟩
  rw [value_unequal.1, value_unequal.2]
  have : 0 < base ^ 30 := pow_pos base_pos 30
  omega

/-! ### Parsers: rejection and the hexadecimal value -/

theorem hex_value_none (c : Int) : hex_value c = none ↔ ¬ hex_alphabet c := by
  unfold hex_value hex_alphabet
  split
  · simp; omega
  · split
    · simp; omega
    · split
      · simp; omega
      · simp; omega

theorem hex_string_alphabet (s : List Int) : hex_string s ↔ ∀ c ∈ s, hex_alphabet c := by
  unfold hex_string
  constructor
  · intro h c hc
    by_contra hn
    have := (hex_value_none c).mpr hn
    have h2 := h c hc
    rw [this] at h2
    simp at h2
  · intro h c hc
    have h1 := h c hc
    cases hv : hex_value c with
    | none => exact absurd h1 ((hex_value_none c).mp hv)
    | some v => rfl

theorem from_base10_carry (c : Int) (hc : char_range c) :
    ((c - 48) % 2 ^ 32).toNat ≥ 10 ↔ ¬ (48 ≤ c ∧ c ≤ 57) := by
  unfold char_range at hc
  omega

theorem exists_mem_iff_rdc (s : List Int) (P : Int → Prop) :
    (∃ c ∈ s, P c) ↔ ∃ k, k < s.length ∧ P (rdc s k) := by
  constructor
  · rintro ⟨c, hc, hp⟩
    obtain ⟨k, hk, rfl⟩ := List.getElem_of_mem hc
    refine ⟨k, hk, ?_⟩
    unfold rdc
    rw [List.getD_eq_getElem _ _ hk]
    exact hp
  · rintro ⟨k, hk, hp⟩
    exact ⟨rdc s k, rdc_mem s k hk, hp⟩

theorem from_base10_loop_reject (str : List Int) (hr : ∀ c ∈ str, char_range c) :
    ∀ (n i : Nat) (s : List Nat × Nat), i + n ≤ str.length →
      ((from_base10_loop str i n s).2 = -1
        ↔ ∃ k, k < n ∧ ¬ (48 ≤ rdc str (i + k) ∧ rdc str (i + k) ≤ 57)) := by
  intro n
  induction n with
  | zero =>
    intro i s _
    simp only [from_base10_loop]
    constructor
    · intro h; omega
    · rintro ⟨k, hk, _⟩; omega
  | succ m ih =>
    intro i s hi
    have hc := from_base10_carry (rdc str i) (hr _ (rdc_mem str i (by omega)))
    rw [from_base10_loop]
    by_cases hbad : ((rdc str i - 48) % 2 ^ 32).toNat ≥ 10
    · simp only [hbad, if_true]
      constructor
      · intro _
        exact ⟨0, by omega, hc.mp hbad⟩
      · intro _; trivial
    · simp only [hbad, if_false]
      rw [ih (i + 1) _ (by omega)]
      have hgood : 48 ≤ rdc str i ∧ rdc str i ≤ 57 := by
        by_contra h
        exact hbad (hc.mpr h)
      constructor
      · rintro ⟨k, hk, hp⟩
        exact ⟨k + 1, by omega, by rw [show i + (k + 1) = i + 1 + k by omega]; exact hp⟩
      · rintro ⟨k, hk, hp⟩
        rcases Nat.eq_zero_or_pos k with h0 | h0
        · subst h0; exact absurd hgood hp
        · exact ⟨k - 1, by omega, by rw [show i + 1 + (k - 1) = i + k by omega]; exact hp⟩

theorem from_base10_reject (digits : List Nat) (str : List Int)
    (hr : ∀ c ∈ str, char_range c) :
    (from_base10 digits str str.length).2 = -1 ↔ ∃ c ∈ str, ¬ (48 ≤ c ∧ c ≤ 57) := by
  unfold from_base10
  rw [Int.toNat_ofNat, from_base10_loop_reject str hr str.length 0 _ (by omega),
    exists_mem_iff_rdc]
  simp only [Nat.zero_add]

theorem from_base16_loop_reject (str : List Int) (off : Nat) :
    ∀ (n : Nat) (s : List Nat × Int × Nat), -1 ≤ s.2.1 →
      ((from_base16_loop str off n s).2 = -1
        ↔ ∃ k, k < n ∧ ¬ hex_alphabet (rdc str (off + k))) := by
  intro n
  induction n with
  | zero =>
    intro s hs
    simp only [from_base16_loop]
    constructor
    · intro h; omega
    · rintro ⟨k, hk, _⟩; omega
  | succ m ih =>
    intro s hs
    rw [from_base16_loop]
    cases hv : hex_value (rdc str (off + m)) with
    | none =>
      simp only
      constructor
      · intro _
        exact ⟨m, by omega, (hex_value_none _).mp hv⟩
      · intro _; trivial
    | some v =>
      simp only
      rw [ih _ (by dsimp only; split <;> omega)]
      have hgood : hex_alphabet (rdc str (off + m)) := by
        by_contra h
        rw [(hex_value_none _).mpr h] at hv
        cases hv
      constructor
      · rintro ⟨k, hk, hp⟩
        exact ⟨k, by omega, hp⟩
      · rintro ⟨k, hk, hp⟩
        rcases Nat.lt_or_ge k m with h1 | h1
        · exact ⟨k, h1, hp⟩
        · have : k = m := by omega
          subst this
          exact absurd hgood hp

theorem from_base16_reject (digits : List Nat) (str : List Int) :
    (from_base16 digits str str.length).2 = -1 ↔ ∃ c ∈ str, ¬ hex_alphabet c := by
  unfold from_base16
  rw [Int.toNat_ofNat]
  obtain ⟨k1, _, k3, _⟩ := from_base16_skip_spec str str.length 0
  simp only [Nat.zero_add] at k1
  rw [from_base16_loop_reject str _ _ _ (le_refl (-1 : Int)), exists_mem_iff_rdc]
  constructor
  · rintro ⟨k, hk, hp⟩
    exact ⟨(from_base16_skip str 0 str.length).1 + k, by omega, hp⟩
  · rintro ⟨k, hk, hp⟩
    rcases Nat.lt_or_ge k (from_base16_skip str 0 str.length).1 with h1 | h1
    · exfalso
      apply hp
      rw [k3 k (Nat.zero_le _) h1]
      unfold hex_alphabet
      omega
    · exact ⟨k - (from_base16_skip str 0 str.length).1, by omega, by
        rw [show (from_base16_skip str 0 str.length).1
          + (k - (from_base16_skip str 0 str.length).1) = k by omega]
        exact hp⟩

/-- C12: on a string of `char`s, `from_base10` returns -1 exactly when some character is
outside `'0'..'9'`, and `from_base16` returns -1 exactly when some character is outside
`0-9`, `a-f`, `A-F`; characters with negative codes are among those rejected. -/
theorem parser_rejection (digits : List Nat) (str : List Int)
    (hr : ∀ c ∈ str, char_range c) :
    ((from_base10 digits str str.length).2 = -1 ↔ ∃ c ∈ str, ¬ (48 ≤ c ∧ c ≤ 57))
      ∧ ((from_base16 digits str str.length).2 = -1 ↔ ∃ c ∈ str, ¬ hex_alphabet c) :=
  ⟨from_base10_reject digits str hr, from_base16_reject digits str⟩

theorem parser_rejection_witness :
    (∀ c ∈ ([49, -3, 50] : List Int), char_range c)
      ∧ (from_base10 [0] [49, -3, 50] ([49, -3, 50] : List Int).length).2 = -1
      ∧ (from_base16 [0] [49, -3, 50] ([49, -3, 50] : List Int).length).2 = -1 :=
  ⟨by decide,
    (parser_rejection [0] [49, -3, 50] (by decide)).1.mpr ⟨-3, by decide, by decide⟩,
    (parser_rejection [0] [49, -3, 50] (by decide)).2.mpr ⟨-3, by decide, by decide⟩⟩

theorem hex_value_lower (c : Int) : hex_value (hex_lower c) = hex_value c := by
  unfold hex_lower
  split
  · next h =>
    unfold hex_value
    rw [if_pos (by omega), if_neg (by omega), if_pos h]
    congr 1
    omega
  · rfl

theorem hex_fold_lower (s : List Int) : ∀ acc, hex_fold acc (s.map hex_lower) = hex_fold acc s := by
  induction s with
  | nil => intro acc; rfl
  | cons c cs ih =>
    intro acc
    have e1 : hex_fold acc (c :: cs) = hex_fold (16 * acc + (hex_value c).getD 0) cs := rfl
    have e2 : hex_fold acc ((c :: cs).map hex_lower)
        = hex_fold (16 * acc + (hex_value (hex_lower c)).getD 0) (cs.map hex_lower) := rfl
    rw [e1, e2, hex_value_lower, ih]

theorem hex_string_lower (s : List Int) (h : hex_string s) : hex_string (s.map hex_lower) := by
  intro c hc
  obtain ⟨d, hd, rfl⟩ := List.mem_map.mp hc
  rw [hex_value_lower]
  exact h d hd

theorem rd_value_div (t : List Nat) (ht : ∀ x ∈ t, x < base) :
    ∀ i, rd t i = value t / base ^ i % base := by
  induction t with
  | nil => intro i; simp [rd, value]
  | cons x xs ih =>
    intro i
    have hx : x < base := ht x (by simp)
    rw [value_cons]
    cases i with
    | zero =>
      rw [pow_zero, Nat.div_one, Nat.add_mul_mod_self_left, Nat.mod_eq_of_lt hx]
      rfl
    | succ j =>
      have e : rd (x :: xs) (j + 1) = rd xs j := rfl
      rw [e, ih (fun y hy => ht y (by simp [hy])) j, pow_succ', ← Nat.div_div_eq_div_mul,
        Nat.add_mul_div_left _ _ base_pos, Nat.div_eq_of_lt hx, Nat.zero_add]

theorem base_pow_sixteen (i : Nat) : base ^ i = 16 ^ (8 * i) := by
  rw [pow_mul]
  rfl

/-- C11: for a non-empty string over `0-9`, `a-f`, `A-F` and a buffer of one limb for
every 8 characters, `from_base16` returns a size of at least 1 and limbs in normal form
that stand for the number the string denotes in base 16; limb `i` holds the 8 characters
that end `8 * i` characters before the end of the string, and the string with its
letters in lower case gives the same size and limbs. -/
theorem from_base16_correct (digits : List Nat) (str : List Int) (hne : 1 ≤ str.length)
    (hs : ∀ c ∈ str, hex_alphabet c) (hcap : (str.length + 7) / 8 ≤ digits.length) :
    1 ≤ (from_base16 digits str str.length).2
      ∧ normal_form ((from_base16 digits str str.length).1.take
          (from_base16 digits str str.length).2.toNat)
      ∧ value ((from_base16 digits str str.length).1.take
          (from_base16 digits str str.length).2.toNat) = hex_denote str
      ∧ (∀ i : Nat, (i : Int) < (from_base16 digits str str.length).2 →
          rd (from_base16 digits str str.length).1 i = hex_denote str / 16 ^ (8 * i) % 16 ^ 8)
      ∧ (from_base16 digits (str.map hex_lower) str.length).2
          = (from_base16 digits str str.length).2
      ∧ (from_base16 digits (str.map hex_lower) str.length).1.take
            (from_base16 digits str str.length).2.toNat
          = (from_base16 digits str str.length).1.take
            (from_base16 digits str str.length).2.toNat := by
  have hs1 : hex_string str := (hex_string_alphabet str).mpr hs
  obtain ⟨d, n, e, h1, h2, h3, h4, h5⟩ := from_base16_spec digits str hne hs1 hcap
  obtain ⟨d2, n2, e2, g1, g2, g3, g4, g5⟩ := from_base16_spec digits (str.map hex_lower)
    (by rw [List.length_map]; exact hne) (hex_string_lower str hs1)
    (by rw [List.length_map]; exact hcap)
  rw [List.length_map] at e2
  have hv : hex_denote (str.map hex_lower) = hex_denote str := hex_fold_lower str 0
  have hu := normal_form_unique (d2.take n2) (d.take n) g4 h4 (by rw [g5, h5, hv])
  have hn : n2 = n := by
    have := congrArg List.length hu
    rwa [length_take_le _ _ (by omega), length_take_le _ _ (by omega)] at this
  rw [e, e2]
  simp only [Int.toNat_ofNat]
  subst hn
  refine ⟨by exact_mod_cast h1, h4, h5, ?_, rfl, hu⟩
  intro i hi
  have hi2 : i < n2 := by exact_mod_cast hi
  have := rd_value_div (d.take n2) h4.2.1 i
  rw [rd_take _ _ _ hi2, h5, base_pow_sixteen] at this
  exact this

theorem from_base16_correct_witness :
    1 ≤ ([65, 102] : List Int).length ∧ (∀ c ∈ ([65, 102] : List Int), hex_alphabet c)
      ∧ value ((from_base16 [0] [65, 102] ([65, 102] : List Int).length).1.take
          (from_base16 [0] [65, 102] ([65, 102] : List Int).length).2.toNat)
        = hex_denote [65, 102] :=
  ⟨by decide, by decide,
    (from_base16_correct [0] [65, 102] (by decide) (by decide) (by decide)).2.2.1⟩

/-! ### Renderers: the count returned and the clipped output -/

theorem decimal_length_unique (v l1 l2 : Nat) (h1 : v < 10 ^ l1)
    (h1' : l1 = 0 ∨ 10 ^ (l1 - 1) ≤ v) (h2 : v < 10 ^ l2) (h2' : l2 = 0 ∨ 10 ^ (l2 - 1) ≤ v) :
    l1 = l2 := by
  rcases Nat.lt_trichotomy l1 l2 with h | h | h
  · exfalso
    rcases h2' with h0 | h0
    · omega
    · have : 10 ^ l1 ≤ 10 ^ (l2 - 1) := Nat.pow_le_pow_right (by decide) (by omega)
      omega
  · exact h
  · exfalso
    rcases h1' with h0 | h0
    · omega
    · have : 10 ^ l2 ≤ 10 ^ (l1 - 1) := Nat.pow_le_pow_right (by decide) (by omega)
      omega

/-- The count `k0 + 8 * m` of `to_base16` is the number of hexadecimal digits of the
value. -/
theorem hex_count_bounds (a : List Nat) (m k0 : Nat) (ha : normal_form a)
    (hm : a.length = m + 1) (e4 : rd a m < 16 ^ k0)
    (e5 : k0 = 1 ∨ (rd a m / 16 ^ (k0 - 1)) % 16 ≠ 0) :
    value a < 16 ^ (k0 + 8 * m)
      ∧ (k0 + 8 * m = 1 ∨ 16 ^ (k0 + 8 * m - 1) ≤ value a) := by
  have hv : value a = value (a.take m) + base ^ m * rd a m := by
    have := value_take_succ a m (by omega)
    rwa [← hm, List.take_length] at this
  have hlow := value_take_lt a ha.2.1 m
  rw [base_pow_sixteen] at hv hlow
  have hpos : 0 < 16 ^ (8 * m) := pow_pos (by norm_num) _
  constructor
  · have h1 : 16 ^ (8 * m) * (rd a m + 1) ≤ 16 ^ (8 * m) * 16 ^ k0 :=
      Nat.mul_le_mul_left _ (by omega)
    rw [Nat.mul_add, Nat.mul_one] at h1
    rw [pow_add, Nat.mul_comm (16 ^ k0)]
    omega
  · by_cases hz : rd a m = 0
    · left
      have hk : k0 = 1 := by
        rcases e5 with h | h
        · exact h
        · rw [hz] at h
          simp at h
      have hm0 : m = 0 := by
        have h3 := ha.2.2
        rw [hm, Nat.add_sub_cancel] at h3
        rcases h3 with h3 | h3
        · omega
        · exact absurd hz h3
      omega
    · right
      have hge : 16 ^ (k0 - 1) ≤ rd a m := by
        rcases e5 with h | h
        · rw [h]
          simp only [Nat.sub_self, pow_zero]
          omega
        · by_contra hlt
          rw [Nat.div_eq_of_lt (by omega)] at h
          simp at h
      have hk1 : 1 ≤ k0 := by
        by_contra h0
        have : k0 = 0 := by omega
        rw [this] at e4
        simp at e4
        exact hz e4
      have h1 : 16 ^ (8 * m) * 16 ^ (k0 - 1) ≤ 16 ^ (8 * m) * rd a m :=
        Nat.mul_le_mul_left _ hge
      rw [show k0 + 8 * m - 1 = 8 * m + (k0 - 1) by omega, pow_add]
      omega

/-- The counts of the two renderers: one number for every buffer and capacity, the number
of decimal, resp. hexadecimal, digits of the value (no decimal digit for zero), and the
length of the text written when the capacity holds it. -/
theorem render_count_spec (fuel : Nat) (a : List Nat) (ha : normal_form a)
    (hfuel : 10 * a.length ≤ fuel) :
    (∃ len : Nat, value a < 10 ^ len ∧ (len = 0 ∨ 10 ^ (len - 1) ≤ value a)
        ∧ ∀ (str : List Int) (c : Int), c ≤ (str.length : Int) →
          ∃ r, to_base10 fuel str c a a.length = some (r, (len : Int))
            ∧ r.length = str.length
            ∧ ((len : Int) ≤ c → r.drop len = str.drop len
                ∧ ∀ k, k < len → rdc r k = decimal_char (value a) (len - 1 - k)))
      ∧ (∃ k : Nat, 1 ≤ k ∧ value a < 16 ^ k ∧ (k = 1 ∨ 16 ^ (k - 1) ≤ value a)
        ∧ ∀ (str : List Int) (c : Int), c ≤ (str.length : Int) →
          (to_base16 str c a a.length).2 = (k : Int)
            ∧ ((k : Int) ≤ c →
                (to_base16 str c a a.length).1.length = str.length
                ∧ lower_hex_string ((to_base16 str c a a.length).1.take k)
                ∧ hex_denote ((to_base16 str c a a.length).1.take k) = value a
                ∧ (to_base16 str c a a.length).1.drop k = str.drop k)) := by
  constructor
  · obtain ⟨r0, len, e0, a1, a2, _⟩ := to_base10_spec fuel [] 0 a ha hfuel (by simp)
    refine ⟨len, a1, a2, ?_⟩
    intro str c hc
    obtain ⟨r, l, e, b1, b2, b3, b4⟩ := to_base10_spec fuel str c a ha hfuel hc
    have hl := decimal_length_unique (value a) l len b1 b2 a1 a2
    subst hl
    exact ⟨r, e, b3, b4⟩
  · obtain ⟨m, hm⟩ : ∃ m, a.length = m + 1 := ⟨a.length - 1, by have := ha.1; omega⟩
    obtain ⟨k0, f1, f2, f3, f4, f5, _, _⟩ := to_base16_spec [] 0 a m hm ha.2.1 (by simp)
    obtain ⟨u1, u2⟩ := hex_count_bounds a m k0 ha hm f4 f5
    refine ⟨k0 + 8 * m, by omega, u1, u2, ?_⟩
    intro str c hc
    obtain ⟨k1, g1, _, _, _, _, g6, g7⟩ := to_base16_spec str c a m hm ha.2.1 hc
    have hk : k1 = k0 := by omega
    subst hk
    refine ⟨g6, ?_⟩
    intro hcap
    obtain ⟨t1, t2, t3, _, t5⟩ := g7 hcap
    exact ⟨t1, t2, t3, t5⟩

/-- C13: for a magnitude `a` in normal form there is one count `len` that `to_base10`
(with fuel for its loops) returns for every two capacities `c1`, `c2 >= 0` and buffers
whose cells cover the accesses of the call, and one count `k` that `to_base16` returns
for every two capacities `d1`, `d2 >= 0` and buffers of at least that many cells.
`len` is the number of decimal digits of `value a` (none for zero) and `k >= 1` the
number of its hexadecimal digits, and each is the length of the full rendering: with any
capacity that holds the count, the buffer starts with exactly that many characters, the
digits of `value a` most significant first, and is unchanged after them. -/
theorem render_length_capacity (fuel : Nat) (str1 str2 hex1 hex2 : List Int)
    (c1 c2 d1 d2 : Int) (a : List Nat) (ha : normal_form a) (hfuel : 10 * a.length ≤ fuel)
    (hd1 : to_base10_in_bounds str1 c1 a) (hd2 : to_base10_in_bounds str2 c2 a)
    (hx1 : to_base16_in_bounds hex1 d1) (hx2 : to_base16_in_bounds hex2 d2) :
    (∃ (r1 r2 : List Int) (len : Nat),
        to_base10 fuel str1 c1 a a.length = some (r1, (len : Int))
        ∧ to_base10 fuel str2 c2 a a.length = some (r2, (len : Int))
        ∧ value a < 10 ^ len ∧ (len = 0 ∨ 10 ^ (len - 1) ≤ value a)
        ∧ ∀ (str : List Int) (c : Int), (len : Int) ≤ c → c ≤ (str.length : Int) →
          ∃ r, to_base10 fuel str c a a.length = some (r, (len : Int))
            ∧ r.length = str.length ∧ r.drop len = str.drop len
            ∧ ∀ k, k < len → rdc r k = decimal_char (value a) (len - 1 - k))
      ∧ (∃ k : Nat, (to_base16 hex1 d1 a a.length).2 = (k : Int)
        ∧ (to_base16 hex2 d2 a a.length).2 = (k : Int)
        ∧ 1 ≤ k ∧ value a < 16 ^ k ∧ (k = 1 ∨ 16 ^ (k - 1) ≤ value a)
        ∧ ∀ (str : List Int) (c : Int), (k : Int) ≤ c → c ≤ (str.length : Int) →
          (to_base16 str c a a.length).2 = (k : Int)
            ∧ (to_base16 str c a a.length).1.length = str.length
            ∧ lower_hex_string ((to_base16 str c a a.length).1.take k)
            ∧ hex_denote ((to_base16 str c a a.length).1.take k) = value a
            ∧ (to_base16 str c a a.length).1.drop k = str.drop k) := by
  obtain ⟨⟨len, a1, a2, a3⟩, ⟨k, b1, b2, b3, b4⟩⟩ := render_count_spec fuel a ha hfuel
  constructor
  · obtain ⟨r1, e1, _⟩ := a3 str1 c1 hd1.2.1
    obtain ⟨r2, e2, _⟩ := a3 str2 c2 hd2.2.1
    refine ⟨r1, r2, len, e1, e2, a1, a2, ?_⟩
    intro str c hlen hc
    obtain ⟨r, e, l, t⟩ := a3 str c hc
    exact ⟨r, e, l, (t hlen).1, (t hlen).2⟩
  · refine ⟨k, (b4 hex1 d1 hx1.2).1, (b4 hex2 d2 hx2.2).1, b1, b2, b3, ?_⟩
    intro str c hk hc
    obtain ⟨e, t⟩ := b4 str c hc
    exact ⟨e, t hk⟩

theorem render_length_capacity_witness :
    normal_form [123456]
      ∧ to_base10_in_bounds [0, 0, 0, 0, 0, 0] 6 [123456]
      ∧ to_base10_in_bounds [0, 0] 1 [123456]
      ∧ (∃ (r1 r2 : List Int) (len : Nat),
          to_base10 10 [0, 0, 0, 0, 0, 0] 6 [123456] ([123456] : List Nat).length
            = some (r1, (len : Int))
          ∧ to_base10 10 [0, 0] 1 [123456] ([123456] : List Nat).length
            = some (r2, (len : Int))
          ∧ value [123456] < 10 ^ len ∧ (len = 0 ∨ 10 ^ (len - 1) ≤ value [123456]))
      ∧ ∃ k : Nat,
          (to_base16 [0, 0, 0, 0, 0, 0] 6 [123456] ([123456] : List Nat).length).2 = (k : Int)
          ∧ (to_base16 [0] 1 [123456] ([123456] : List Nat).length).2 = (k : Int)
          ∧ value [123456] < 16 ^ k ∧ (k = 1 ∨ 16 ^ (k - 1) ≤ value [123456]) :=
  ⟨by decide, ⟨by decide, by decide, Or.inr (by decide)⟩,
    ⟨by decide, by decide, Or.inl (by decide)⟩,
    (render_length_capacity 10 [0, 0, 0, 0, 0, 0] [0, 0] [0, 0, 0, 0, 0, 0] [0] 6 1 6 1
      [123456] (by decide)
      (by decide) ⟨by decide, by decide, Or.inr (by decide)⟩
      ⟨by decide, by decide, Or.inl (by decide)⟩ ⟨by decide, by decide⟩
      ⟨by decide, by decide⟩).1.imp fun _ h => h.imp fun _ h => h.imp fun _ h =>
        ⟨h.1, h.2.1, h.2.2.1, h.2.2.2.1⟩,
    (render_length_capacity 10 [0, 0, 0, 0, 0, 0] [0, 0] [0, 0, 0, 0, 0, 0] [0] 6 1 6 1
      [123456] (by decide)
      (by decide) ⟨by decide, by decide, Or.inr (by decide)⟩
      ⟨by decide, by decide, Or.inl (by decide)⟩ ⟨by decide, by decide⟩
      ⟨by decide, by decide⟩).2.imp fun _ h => ⟨h.1, h.2.1, h.2.2.2.1, h.2.2.2.2.1⟩⟩

/-- C14 (refuted for `to_base10`): on the magnitude 123 with capacity 2 and a buffer of 4
characters `xyzw`, `to_base10` returns 3 and leaves `z23w`: the cell at index 2, which is
not below the capacity, is read and overwritten by the last loop, whose upper index is
`min(capacity, len - 1)`.  `to_base16` on `0x12345` with capacity 3 leaves the cells from
index 3 on as they were. -/
theorem to_base10_writes_at_capacity :
    normal_form [123]
      ∧ to_base10 4 [120, 121, 122, 119] 2 [123] ([123] : List Nat).length
          = some ([122, 50, 51, 119], 3)
      ∧ rdc [122, 50, 51, 119] 2 ≠ rdc [120, 121, 122, 119] 2
      ∧ to_base16 [120, 121, 122, 119, 118] 3 [74565] ([74565] : List Nat).length
          = ([49, 50, 51, 119, 118], 5) := by
  decide

/-- C15 (refuted): on the magnitude 12345 and a buffer `xyzwv`, `to_base10` with capacity
5 writes `12345`, and with capacity 3 it returns 5 and leaves `w345v`: the cells below the
capacity hold the old character of index 3 and the digits `34`, not the first three
characters `123` of the full text. -/
theorem to_base10_truncation :
    normal_form [12345]
      ∧ to_base10 6 [120, 121, 122, 119, 118] 5 [12345] ([12345] : List Nat).length
          = some ([49, 50, 51, 52, 53], 5)
      ∧ to_base10 6 [120, 121, 122, 119, 118] 3 [12345] ([12345] : List Nat).length
          = some ([119, 51, 52, 53, 118], 5)
      ∧ List.take 3 [119, 51, 52, 53, 118] ≠ List.take 3 [49, 50, 51, 52, 53] := by
  decide

/-! ### The signed wrapper -/

theorem for_up_congr {σ : Type} (b1 b2 : Nat → σ → σ) :
    ∀ (n lo : Nat) (s : σ), (∀ i t, lo ≤ i → i < lo + n → b1 i t = b2 i t) →
      for_up b1 lo n s = for_up b2 lo n s := by
  intro n
  induction n with
  | zero => intro lo s _; rfl
  | succ k ih =>
    intro lo s h
    simp only [for_up]
    rw [h lo s (le_refl _) (by omega)]
    exact ih (lo + 1) _ (fun i t h1 h2 => h i t (by omega) (by omega))

theorem for_down_congr {σ : Type} (b1 b2 : Nat → σ → σ) :
    ∀ (n : Nat) (s : σ), (∀ i t, i < n → b1 i t = b2 i t) →
      for_down b1 n s = for_down b2 n s := by
  intro n
  induction n with
  | zero => intro s _; rfl
  | succ k ih =>
    intro s h
    simp only [for_down]
    rw [h k s (by omega)]
    exact ih _ (fun i t h1 => h i t (by omega))

theorem compare_loop_congr (a b a2 b2 : List Nat) :
    ∀ n, (∀ i, i < n → rd a i = rd a2 i) → (∀ i, i < n → rd b i = rd b2 i) →
      compare_loop a b n = compare_loop a2 b2 n := by
  intro n
  induction n with
  | zero => intro _ _; rfl
  | succ k ih =>
    intro h1 h2
    simp only [compare_loop]
    rw [h1 k (by omega), h2 k (by omega), ih (fun i hi => h1 i (by omega))
      (fun i hi => h2 i (by omega))]

theorem compare_take (a b : List Nat) (la lb : Nat) :
    compare a b la lb = compare (a.take la) (b.take lb) la lb := by
  unfold compare
  split
  · rfl
  · split
    · rfl
    · next h1 h2 =>
      have : la = lb := by omega
      subst this
      rw [Int.toNat_ofNat]
      exact compare_loop_congr _ _ _ _ _ (fun i hi => (rd_take a la i hi).symm)
        (fun i hi => (rd_take b la i hi).symm)

theorem add_loops_take (result lhs rhs : List Nat) (la lb : Nat) (hle : lb ≤ la) :
    add_loops result lhs rhs la lb = add_loops result (lhs.take la) (rhs.take lb) la lb := by
  unfold add_loops
  simp only [Int.toNat_ofNat]
  have e1 : for_up (fun size (s : List Nat × Nat) =>
        (wr s.1 size (add_limb (rd lhs size) (rd rhs size) s.2).1,
          (add_limb (rd lhs size) (rd rhs size) s.2).2)) 0 lb (result, 0)
      = for_up (fun size (s : List Nat × Nat) =>
        (wr s.1 size (add_limb (rd (lhs.take la) size) (rd (rhs.take lb) size) s.2).1,
          (add_limb (rd (lhs.take la) size) (rd (rhs.take lb) size) s.2).2)) 0 lb (result, 0) :=
    for_up_congr _ _ lb 0 _ (fun i t _ hi => by
      rw [rd_take lhs la i (by omega), rd_take rhs lb i (by omega)])
  rw [e1]
  have e2 : ∀ s0, for_up (fun size (s : List Nat × Nat) =>
        (wr s.1 size (add_carry (rd lhs size) s.2).1, (add_carry (rd lhs size) s.2).2))
        lb (la - lb) s0
      = for_up (fun size (s : List Nat × Nat) =>
        (wr s.1 size (add_carry (rd (lhs.take la) size) s.2).1,
          (add_carry (rd (lhs.take la) size) s.2).2)) lb (la - lb) s0 :=
    fun s0 => for_up_congr _ _ (la - lb) lb _ (fun i t _ hi => by
      rw [rd_take lhs la i (by omega)])
  rw [e2]

theorem add_take (result lhs rhs : List Nat) (la lb : Nat) :
    add result lhs rhs la lb = add result (lhs.take la) (rhs.take lb) la lb := by
  unfold add
  split
  · exact add_loops_take result rhs lhs lb la (by omega)
  · exact add_loops_take result lhs rhs la lb (by omega)

theorem normalize_take (dst src : List Nat) (k s : Nat) (hk : 1 ≤ k) :
    normalize dst src k s = normalize dst (src.take k) k s := by
  unfold normalize
  have e : ((k : Int) - 1).toNat = k - 1 := by omega
  simp only [e]
  rw [rd_take src k 0 (by omega)]
  congr 1
  exact for_down_congr _ _ (k - 1) dst (fun i t hi => by
    rw [rd_take src k (i + 1) (by omega), rd_take src k i (by omega)])

theorem algorithm_d_take (iq ir : Bool) (quot lhs rhs rem : List Nat) (rs : Int) (m n : Nat)
    (hm : 1 ≤ m) (hn : 1 ≤ n) :
    algorithm_d iq ir quot lhs rhs m n rem rs
      = algorithm_d iq ir quot (lhs.take m) (rhs.take n) m n rem rs := by
  have e2 : ((n : Int) - 1).toNat = n - 1 := by omega
  have e4 : ((m : Int) - 1).toNat = m - 1 := by omega
  unfold algorithm_d
  simp only [e2, e4]
  rw [rd_take rhs n (n - 1) (by omega), rd_take lhs m (m - 1) (by omega),
    ← normalize_take _ rhs n _ hn, ← normalize_take _ lhs m _ hm]

theorem divide_by_one_digit_take (quotient lhs : List Nat) (rhs m : Nat) (hm : 1 ≤ m) :
    divide_by_one_digit false quotient lhs rhs m
      = divide_by_one_digit false quotient (lhs.take m) rhs m := by
  have e4 : ((m : Int) - 1).toNat = m - 1 := by omega
  unfold divide_by_one_digit
  simp only [e4, Bool.false_eq_true, if_false]
  rw [rd_take lhs m (m - 1) (by omega)]
  have e : for_down (fun i (s : List Nat × Nat) =>
        (wr s.1 i (divide_limb s.2 (rd lhs i) rhs).1, (divide_limb s.2 (rd lhs i) rhs).2))
        (m - 1)
        (wr quotient (m - 1) (rd lhs (m - 1) / rhs), rd lhs (m - 1) % rhs)
      = for_down (fun i (s : List Nat × Nat) =>
        (wr s.1 i (divide_limb s.2 (rd (lhs.take m) i) rhs).1,
          (divide_limb s.2 (rd (lhs.take m) i) rhs).2)) (m - 1)
        (wr quotient (m - 1) (rd lhs (m - 1) / rhs), rd lhs (m - 1) % rhs) :=
    for_down_congr _ _ (m - 1) _ (fun i t hi => by rw [rd_take lhs m i (by omega)])
  rw [e]

theorem mod_by_one_digit_take (lhs : List Nat) (rhs m : Nat) (hm : 1 ≤ m) :
    mod_by_one_digit lhs rhs m = mod_by_one_digit (lhs.take m) rhs m := by
  have e4 : ((m : Int) - 1).toNat = m - 1 := by omega
  unfold mod_by_one_digit
  simp only [e4]
  rw [rd_take lhs m (m - 1) (by omega)]
  exact for_down_congr _ _ (m - 1) _ (fun i t hi => by rw [rd_take lhs m i (by omega)])

theorem div_take (result lhs rhs : List Nat) (m n : Nat) (hm : 1 ≤ m) (hn : 1 ≤ n) :
    div result lhs rhs m n = div result (lhs.take m) (rhs.take n) m n := by
  unfold div
  rw [rd_take rhs n 0 (by omega), ← algorithm_d_take false true result lhs rhs [] 0 m n hm hn,
    ← divide_by_one_digit_take result lhs _ m hm]

theorem mod_take (result lhs rhs : List Nat) (m n : Nat) (hm : 1 ≤ m) (hn : 1 ≤ n) :
    mod result lhs rhs m n = mod result (lhs.take m) (rhs.take n) m n := by
  unfold mod
  rw [rd_take rhs n 0 (by omega), ← algorithm_d_take true false [] lhs rhs result 0 m n hm hn,
    ← mod_by_one_digit_take lhs _ m hm]
  simp only [Int.toNat_ofNat]
  have e : for_up (fun i r => wr r i (rd lhs i)) 0 m result
      = for_up (fun i r => wr r i (rd (lhs.take m) i)) 0 m result :=
    for_up_congr _ _ m 0 _ (fun i t _ hi => by rw [rd_take lhs m i (by omega)])
  rw [e]

theorem magnitude_length (x : number) (hx : number_valid x) :
    (magnitude x).length = x.m_size.toNat ∧ x.m_size = ((magnitude x).length : Int)
      ∧ x.m_digits.take (magnitude x).length = magnitude x := by
  obtain ⟨h1, h2, _, _⟩ := hx
  have e : (magnitude x).length = x.m_size.toNat := by
    unfold magnitude
    rw [List.length_take, Nat.min_eq_left h2]
  refine ⟨e, by omega, ?_⟩
  rw [e]
  rfl

theorem limbs_of_take_drop (r : List Nat) (n : Nat) (h1 : ∀ x ∈ r.take n, x < base)
    (h2 : ∀ x ∈ r.drop n, x < base) : ∀ x ∈ r, x < base := by
  intro x hx
  rw [← List.take_append_drop n r, List.mem_append] at hx
  rcases hx with h | h
  · exact h1 x h
  · exact h2 x h

/-- The magnitude that `sub` leaves for two valid numbers, the first at least the second. -/
theorem sub_number (g_allocate : Int → List Nat) (hg : allocator_ok g_allocate)
    (x y : number) (hx : number_valid x) (hy : number_valid y)
    (hge : value (magnitude y) ≤ value (magnitude x)) (neg : Bool) :
    ∃ (r : List Nat) (n : Int),
      sub (g_allocate x.m_size) x.m_digits y.m_digits x.m_size y.m_size = some (r, n)
      ∧ number_valid ⟨n, x.m_size, neg, r⟩
      ∧ value (magnitude ⟨n, x.m_size, neg, r⟩) = value (magnitude x) - value (magnitude y) := by
  obtain ⟨lx, ex, _⟩ := magnitude_length x hx
  obtain ⟨ly, ey, _⟩ := magnitude_length y hy
  have hle : (magnitude y).length ≤ (magnitude x).length :=
    normal_form_length_le _ _ hy.2.2.2 hx.2.2.2 hge
  have hgl := (hg x.m_size).1
  have hx1 : 1 ≤ (magnitude x).length := hx.2.2.2.1
  have hsx : x.m_size = ((x.m_size.toNat : Nat) : Int) := by have := hx.1; omega
  have hsy : y.m_size = ((y.m_size.toNat : Nat) : Int) := by have := hy.1; omega
  have key : sub (g_allocate x.m_size) x.m_digits y.m_digits x.m_size y.m_size
      = sub (g_allocate x.m_size) x.m_digits y.m_digits (x.m_size.toNat : Nat)
        (y.m_size.toNat : Nat) := by rw [← hsx, ← hsy]
  rw [key]
  obtain ⟨r, n, e1, a1, a2, a3, a4, a5, _, _⟩ := sub_spec (g_allocate x.m_size) x.m_digits
    y.m_digits x.m_size.toNat y.m_size.toNat (by omega) (by omega) hx.2.1 hy.2.1
    (fun i _ => rd_lt _ hx.2.2.1 i) (fun i _ => rd_lt _ hy.2.2.1 i) hge (by omega)
  obtain ⟨r2, n2, e2, _, _, b3, _, _, _⟩ := sub_normal (g_allocate x.m_size) x.m_digits
    y.m_digits x.m_size.toNat y.m_size.toNat (by omega) (by omega) hx.2.1 hy.2.1
    (fun i _ => rd_lt _ hx.2.2.1 i) (fun i _ => rd_lt _ hy.2.2.1 i) hge (by omega)
  rw [e1] at e2
  have hrn : r = r2 ∧ (n : Int) = (n2 : Int) := by
    have := Option.some.inj e2
    exact ⟨congrArg Prod.fst this, congrArg Prod.snd this⟩
  have hn : n = n2 := by exact_mod_cast hrn.2
  rw [← hrn.1, ← hn] at b3
  have hrl : r.length = x.m_size.toNat := by rw [a1, hgl]
  refine ⟨r, (n : Int), e1, ⟨?_, ?_, ?_, ?_⟩, ?_⟩
  · show (1 : Int) ≤ (n : Int)
    omega
  · show (n : Int).toNat ≤ r.length
    rw [Int.toNat_ofNat]; omega
  · show ∀ d ∈ r, d < base
    have := a4
    rw [← hrl, List.take_length] at this
    exact this
  · show normal_form (r.take (n : Int).toNat)
    rw [Int.toNat_ofNat]; exact b3
  · show value (r.take (n : Int).toNat) = _
    rw [Int.toNat_ofNat]; exact a5

/-- The magnitude that `add` leaves for two valid numbers. -/
theorem add_number (g_allocate : Int → List Nat) (hg : allocator_ok g_allocate)
    (x y : number) (hx : number_valid x) (hy : number_valid y) (neg : Bool) :
    number_valid ⟨(add (g_allocate (max x.m_size y.m_size + 1)) x.m_digits y.m_digits
        x.m_size y.m_size).2, max x.m_size y.m_size + 1, neg,
        (add (g_allocate (max x.m_size y.m_size + 1)) x.m_digits y.m_digits
          x.m_size y.m_size).1⟩
      ∧ value (magnitude ⟨(add (g_allocate (max x.m_size y.m_size + 1)) x.m_digits y.m_digits
        x.m_size y.m_size).2, max x.m_size y.m_size + 1, neg,
        (add (g_allocate (max x.m_size y.m_size + 1)) x.m_digits y.m_digits
          x.m_size y.m_size).1⟩) = value (magnitude x) + value (magnitude y) := by
  obtain ⟨lx, _, _⟩ := magnitude_length x hx
  obtain ⟨ly, _, _⟩ := magnitude_length y hy
  obtain ⟨hgl, hgb⟩ := hg (max x.m_size y.m_size + 1)
  have hsx : x.m_size = ((x.m_size.toNat : Nat) : Int) := by have := hx.1; omega
  have hsy : y.m_size = ((y.m_size.toNat : Nat) : Int) := by have := hy.1; omega
  have key : add (g_allocate (max x.m_size y.m_size + 1)) x.m_digits y.m_digits
        x.m_size y.m_size
      = add (g_allocate (max x.m_size y.m_size + 1)) (magnitude x) (magnitude y)
        ((magnitude x).length : Nat) ((magnitude y).length : Nat) := by
    rw [lx, ly]
    unfold magnitude
    rw [← add_take, ← hsx, ← hsy]
  rw [key]
  have hcap : max (magnitude x).length (magnitude y).length + 1
      ≤ (g_allocate (max x.m_size y.m_size + 1)).length := by
    rw [hgl, lx, ly]
    have := hx.1
    have := hy.1
    omega
  obtain ⟨c1, c2, c3, _, c5⟩ := add_full_spec (g_allocate (max x.m_size y.m_size + 1))
    (magnitude x) (magnitude y) hx.2.2.2 hy.2.2.2 hcap
  have hlen := add_length (g_allocate (max x.m_size y.m_size + 1)) (magnitude x) (magnitude y)
    ((magnitude x).length : Nat) ((magnitude y).length : Nat)
  generalize add (g_allocate (max x.m_size y.m_size + 1)) (magnitude x) (magnitude y)
    ((magnitude x).length : Nat) ((magnitude y).length : Nat) = r at c1 c2 c3 c5 hlen ⊢
  refine ⟨⟨?_, ?_, ?_, c2⟩, c3⟩
  · show 1 ≤ r.2
    have := hx.2.2.2.1
    omega
  · show r.2.toNat ≤ r.1.length
    omega
  · show ∀ d ∈ r.1, d < base
    apply limbs_of_take_drop r.1 r.2.toNat c2.2.1
    rw [c5]
    exact fun d hd => hgb d (List.mem_of_mem_drop hd)

/-- The value `compare` returns for two valid numbers. -/
theorem compare_number (x y : number) (hx : number_valid x) (hy : number_valid y) :
    (compare x.m_digits y.m_digits x.m_size y.m_size = -1
        ↔ value (magnitude x) < value (magnitude y))
      ∧ (compare x.m_digits y.m_digits x.m_size y.m_size = 0
        ↔ value (magnitude x) = value (magnitude y))
      ∧ (compare x.m_digits y.m_digits x.m_size y.m_size = 1
        ↔ value (magnitude x) > value (magnitude y)) := by
  obtain ⟨lx, _, _⟩ := magnitude_length x hx
  obtain ⟨ly, _, _⟩ := magnitude_length y hy
  have hsx : x.m_size = ((x.m_size.toNat : Nat) : Int) := by have := hx.1; omega
  have hsy : y.m_size = ((y.m_size.toNat : Nat) : Int) := by have := hy.1; omega
  have key : compare x.m_digits y.m_digits x.m_size y.m_size
      = compare (magnitude x) (magnitude y) ((magnitude x).length : Nat)
        ((magnitude y).length : Nat) := by
    rw [lx, ly]
    unfold magnitude
    rw [← compare_take, ← hsx, ← hsy]
  rw [key]
  exact (compare_full_spec (magnitude x) (magnitude y) hx.2.2.2 hy.2.2.2).2

/-- The sign and the magnitude of the result of `operator+` on two valid numbers. -/
theorem operator_add_spec (g_allocate : Int → List Nat) (hg : allocator_ok g_allocate)
    (a b : number) (ha : number_valid a) (hb : number_valid b) :
    ∃ r, operator_add g_allocate a b = some r ∧ number_valid r
      ∧ (a.m_negative = b.m_negative → r.m_negative = a.m_negative
          ∧ value (magnitude r) = value (magnitude a) + value (magnitude b))
      ∧ (a.m_negative ≠ b.m_negative → value (magnitude b) < value (magnitude a) →
          r.m_negative = a.m_negative
          ∧ value (magnitude r) = value (magnitude a) - value (magnitude b))
      ∧ (a.m_negative ≠ b.m_negative → value (magnitude a) < value (magnitude b) →
          r.m_negative = b.m_negative
          ∧ value (magnitude r) = value (magnitude b) - value (magnitude a))
      ∧ (a.m_negative ≠ b.m_negative → value (magnitude a) = value (magnitude b) →
          r = number_default) := by
  unfold operator_add
  by_cases hs : a.m_negative = b.m_negative
  · rw [if_pos hs]
    obtain ⟨v1, v2⟩ := add_number g_allocate hg a b ha hb a.m_negative
    exact ⟨_, rfl, v1, fun _ => ⟨rfl, v2⟩, fun h => absurd hs h, fun h => absurd hs h,
      fun h => absurd hs h⟩
  · rw [if_neg hs]
    obtain ⟨c1, c2, c3⟩ := compare_number a b ha hb
    rcases Nat.lt_trichotomy (value (magnitude a)) (value (magnitude b)) with hlt | heq | hgt
    · have hc := c1.mpr hlt
      simp only [hc, if_true]
      obtain ⟨r, n, e, v1, v2⟩ := sub_number g_allocate hg b a hb ha (Nat.le_of_lt hlt)
        b.m_negative
      rw [e]
      exact ⟨_, rfl, v1, fun h => absurd h hs, fun _ h => absurd hlt (by omega),
        fun _ _ => ⟨rfl, v2⟩, fun _ h => absurd hlt (by omega)⟩
    · have hc := c2.mpr heq
      simp only [hc]
      rw [if_neg (by decide), if_neg (by decide)]
      exact ⟨_, rfl, by decide, fun h => absurd h hs, fun _ h => absurd heq (by omega),
        fun _ h => absurd heq (by omega), fun _ _ => rfl⟩
    · have hc := c3.mpr hgt
      simp only [hc]
      rw [if_neg (by decide), if_pos trivial]
      obtain ⟨r, n, e, v1, v2⟩ := sub_number g_allocate hg a b ha hb (Nat.le_of_lt hgt)
        a.m_negative
      rw [e]
      exact ⟨_, rfl, v1, fun h => absurd h hs, fun _ _ => ⟨rfl, v2⟩,
        fun _ h => absurd hgt (by omega), fun _ h => absurd hgt (by omega)⟩

theorem allocate_zeros_ok : allocator_ok allocate_zeros := by
  intro n
  unfold allocate_zeros
  refine ⟨List.length_replicate _ _, ?_⟩
  intro d hd
  rw [List.eq_of_mem_replicate hd]
  exact base_pos

theorem signed_value_eq (x : number) :
    signed_value x
      = if x.m_negative then -((value (magnitude x) : Nat) : Int) else (value (magnitude x) : Nat) := by
  unfold signed_value
  split <;> simp

theorem signed_sum (na nb nr : Bool) (A B R : Nat)
    (h1 : na = nb → nr = na ∧ R = A + B)
    (h2 : na ≠ nb → B < A → nr = na ∧ R = A - B)
    (h3 : na ≠ nb → A < B → nr = nb ∧ R = B - A)
    (h4 : na ≠ nb → A = B → nr = false ∧ R = 0) :
    (if nr then -(R : Int) else (R : Int))
      = (if na then -(A : Int) else (A : Int)) + (if nb then -(B : Int) else (B : Int)) := by
  by_cases hs : na = nb
  · obtain ⟨e1, e2⟩ := h1 hs
    subst e1 e2 hs
    cases nr
    · simp
    · simp
      omega
  · rcases Nat.lt_trichotomy A B with h | h | h
    · obtain ⟨e1, e2⟩ := h3 hs h
      subst e1 e2
      cases na <;> cases nr <;> simp at hs ⊢ <;> omega
    · obtain ⟨e1, e2⟩ := h4 hs h
      subst e1 e2 h
      cases na <;> cases nb <;> simp at hs ⊢
    · obtain ⟨e1, e2⟩ := h2 hs h
      subst e1 e2
      cases nr <;> cases nb <;> simp at hs ⊢ <;> omega

theorem number_default_facts :
    number_default.m_negative = false ∧ value (magnitude number_default) = 0 := by
  decide

/-- C18: for valid numbers `a` and `b`, `a` with the zero-sign invariant, `operator+`
returns a valid number with the zero-sign invariant whose signed value is
`signed_value a + signed_value b`: for equal signs the sum of the magnitudes with the
common sign, for different signs the difference of the magnitudes with the sign of the
operand of larger magnitude, and for equal magnitudes of different signs the number of
the default constructor. -/
theorem operator_add_correct (g_allocate : Int → List Nat) (hg : allocator_ok g_allocate)
    (a b : number) (ha : number_valid a) (hb : number_valid b) (za : zero_sign a) :
    ∃ r, operator_add g_allocate a b = some r ∧ number_valid r ∧ zero_sign r
      ∧ signed_value r = signed_value a + signed_value b
      ∧ (a.m_negative = b.m_negative → r.m_negative = a.m_negative
          ∧ value (magnitude r) = value (magnitude a) + value (magnitude b))
      ∧ (a.m_negative ≠ b.m_negative → value (magnitude b) < value (magnitude a) →
          r.m_negative = a.m_negative
          ∧ value (magnitude r) = value (magnitude a) - value (magnitude b))
      ∧ (a.m_negative ≠ b.m_negative → value (magnitude a) < value (magnitude b) →
          r.m_negative = b.m_negative
          ∧ value (magnitude r) = value (magnitude b) - value (magnitude a))
      ∧ (a.m_negative ≠ b.m_negative → value (magnitude a) = value (magnitude b) →
          r = number_default) := by
  obtain ⟨r, e, v, d1, d2, d3, d4⟩ := operator_add_spec g_allocate hg a b ha hb
  refine ⟨r, e, v, ?_, ?_, d1, d2, d3, d4⟩
  · intro hz
    by_cases hs : a.m_negative = b.m_negative
    · obtain ⟨e1, e2⟩ := d1 hs
      rw [e1]
      exact za (by omega)
    · rcases Nat.lt_trichotomy (value (magnitude a)) (value (magnitude b)) with h | h | h
      · have := (d3 hs h).2; omega
      · rw [d4 hs h]; rfl
      · have := (d2 hs h).2; omega
  · rw [signed_value_eq, signed_value_eq, signed_value_eq]
    exact signed_sum _ _ _ _ _ _ d1 d2 d3 (fun hs h => by
      rw [d4 hs h]; exact number_default_facts)

theorem operator_add_correct_witness :
    number_valid ⟨1, 1, true, [5]⟩ ∧ number_valid ⟨1, 1, false, [3]⟩
      ∧ zero_sign ⟨1, 1, true, [5]⟩
      ∧ operator_add allocate_zeros ⟨1, 1, true, [5]⟩ ⟨1, 1, false, [3]⟩
          = some ⟨1, 1, true, [2]⟩
      ∧ ∃ r, operator_add allocate_zeros ⟨1, 1, true, [5]⟩ ⟨1, 1, false, [3]⟩ = some r
        ∧ signed_value r = signed_value ⟨1, 1, true, [5]⟩ + signed_value ⟨1, 1, false, [3]⟩ :=
  ⟨by decide, by decide, by decide, by decide,
    (operator_add_correct allocate_zeros allocate_zeros_ok ⟨1, 1, true, [5]⟩
      ⟨1, 1, false, [3]⟩ (by decide) (by decide) (by decide)).imp
      fun _ h => ⟨h.1, h.2.2.2.1⟩⟩

theorem negate_facts (x : number) :
    magnitude (negate x) = magnitude x ∧ (negate x).m_negative = !x.m_negative
      ∧ (number_valid (negate x) ↔ number_valid x)
      ∧ signed_value (negate x) = -signed_value x := by
  refine ⟨rfl, rfl, Iff.rfl, ?_⟩
  rw [signed_value_eq, signed_value_eq]
  show (if (!x.m_negative) = true then -((value (magnitude x) : Nat) : Int)
    else ((value (magnitude x) : Nat) : Int)) = _
  cases x.m_negative <;> simp

theorem operator_sub_eq_add (g_allocate : Int → List Nat) (a b : number) :
    operator_sub g_allocate a b = operator_add g_allocate a (negate b) := by
  unfold operator_sub operator_add negate
  cases h1 : a.m_negative <;> cases h2 : b.m_negative <;> simp

/-- C19: for valid numbers `a` and `b`, `a` with the zero-sign invariant, `operator-` is
`operator+` on `a` and `b` with its sign flag flipped, and it returns a valid number with
the zero-sign invariant whose signed value is `signed_value a - signed_value b`. -/
theorem operator_sub_correct (g_allocate : Int → List Nat) (hg : allocator_ok g_allocate)
    (a b : number) (ha : number_valid a) (hb : number_valid b) (za : zero_sign a) :
    operator_sub g_allocate a b = operator_add g_allocate a (negate b)
      ∧ ∃ r, operator_sub g_allocate a b = some r ∧ number_valid r ∧ zero_sign r
        ∧ signed_value r = signed_value a - signed_value b := by
  refine ⟨operator_sub_eq_add g_allocate a b, ?_⟩
  rw [operator_sub_eq_add]
  obtain ⟨n1, n2, n3, n4⟩ := negate_facts b
  obtain ⟨r, e, v, d1, d2, d3, d4⟩ := operator_add_spec g_allocate hg a (negate b) ha
    (n3.mpr hb)
  rw [n1] at d1 d2 d3 d4
  refine ⟨r, e, v, ?_, ?_⟩
  · intro hz
    by_cases hs : a.m_negative = (negate b).m_negative
    · obtain ⟨e1, e2⟩ := d1 hs
      rw [e1]
      exact za (by omega)
    · rcases Nat.lt_trichotomy (value (magnitude a)) (value (magnitude b)) with h | h | h
      · have := (d3 hs h).2; omega
      · rw [d4 hs h]; rfl
      · have := (d2 hs h).2; omega
  · have hsum : signed_value r = signed_value a + signed_value (negate b) := by
      rw [signed_value_eq, signed_value_eq, signed_value_eq, n1]
      exact signed_sum _ _ _ _ _ _ d1 d2 d3 (fun hs h => by
        rw [d4 hs h]; exact number_default_facts)
    rw [hsum, n4]
    ring

theorem operator_sub_correct_witness :
    number_valid ⟨2, 2, false, [0, 1]⟩ ∧ number_valid ⟨1, 1, false, [4294967295]⟩
      ∧ zero_sign ⟨2, 2, false, [0, 1]⟩
      ∧ operator_sub allocate_zeros ⟨2, 2, false, [0, 1]⟩ ⟨1, 1, false, [4294967295]⟩
          = some ⟨1, 2, false, [1, 0]⟩
      ∧ ∃ r, operator_sub allocate_zeros ⟨2, 2, false, [0, 1]⟩ ⟨1, 1, false, [4294967295]⟩
          = some r
        ∧ signed_value r
          = signed_value ⟨2, 2, false, [0, 1]⟩ - signed_value ⟨1, 1, false, [4294967295]⟩ :=
  ⟨by decide, by decide, by decide, by decide,
    (operator_sub_correct allocate_zeros allocate_zeros_ok ⟨2, 2, false, [0, 1]⟩
      ⟨1, 1, false, [4294967295]⟩ (by decide) (by decide) (by decide)).2.imp
      fun _ h => ⟨h.1, h.2.2.2⟩⟩

/-- The magnitudes that `div` and `mod` leave for two valid numbers. -/
theorem div_mod_number (g_allocate : Int → List Nat) (hg : allocator_ok g_allocate)
    (x y : number) (hx : number_valid x) (hy : number_valid y)
    (hy0 : value (magnitude y) ≠ 0) :
    ∃ (q : List Nat) (qn : Int) (r : List Nat) (rn : Int),
      div (g_allocate x.m_size) x.m_digits y.m_digits x.m_size y.m_size = some (q, qn)
      ∧ mod (g_allocate y.m_size) x.m_digits y.m_digits x.m_size y.m_size = some (r, rn)
      ∧ value (q.take qn.toNat) = value (magnitude x) / value (magnitude y)
      ∧ value (r.take rn.toNat) = value (magnitude x) % value (magnitude y) := by
  obtain ⟨lx, _, _⟩ := magnitude_length x hx
  obtain ⟨ly, _, _⟩ := magnitude_length y hy
  have hsx : x.m_size = ((x.m_size.toNat : Nat) : Int) := by have := hx.1; omega
  have hsy : y.m_size = ((y.m_size.toNat : Nat) : Int) := by have := hy.1; omega
  have h1x : 1 ≤ x.m_size.toNat := by have := hx.1; omega
  have h1y : 1 ≤ y.m_size.toNat := by have := hy.1; omega
  have kd : div (g_allocate x.m_size) x.m_digits y.m_digits x.m_size y.m_size
      = div (g_allocate x.m_size) (magnitude x) (magnitude y) ((magnitude x).length : Nat)
        ((magnitude y).length : Nat) := by
    rw [lx, ly]
    unfold magnitude
    rw [← div_take _ _ _ _ _ h1x h1y, ← hsx, ← hsy]
  have km : mod (g_allocate y.m_size) x.m_digits y.m_digits x.m_size y.m_size
      = mod (g_allocate y.m_size) (magnitude x) (magnitude y) ((magnitude x).length : Nat)
        ((magnitude y).length : Nat) := by
    rw [lx, ly]
    unfold magnitude
    rw [← mod_take _ _ _ _ _ h1x h1y, ← hsx, ← hsy]
  rw [kd, km]
  obtain ⟨q, qn, e1, _, v1⟩ := div_spec (g_allocate x.m_size) (magnitude x) (magnitude y)
    hx.2.2.2 hy.2.2.2 hy0 (by rw [(hg x.m_size).1, lx])
  obtain ⟨r, rn, e2, _, v2⟩ := mod_spec (g_allocate y.m_size) (magnitude x) (magnitude y)
    hx.2.2.2 hy.2.2.2 hy0 (by rw [(hg y.m_size).1, ly])
  exact ⟨q, qn, r, rn, e1, e2, v1, v2⟩

theorem signed_quotient (na nb : Bool) (A B : Nat) :
    (if (na != nb) = true then -((A / B : Nat) : Int) else ((A / B : Nat) : Int))
      = Int.tdiv (if na then -(A : Int) else (A : Int)) (if nb then -(B : Int) else (B : Int)) := by
  rw [Int.ofNat_tdiv]
  cases na <;> cases nb <;> simp [Int.neg_tdiv, Int.tdiv_neg]

theorem signed_remainder (na : Bool) (A B : Nat) (q : Int) (nb : Bool)
    (hq : q = if (na != nb) = true then -((A / B : Nat) : Int) else ((A / B : Nat) : Int)) :
    (if na then -((A % B : Nat) : Int) else ((A % B : Nat) : Int))
      = (if na then -(A : Int) else (A : Int)) - (if nb then -(B : Int) else (B : Int)) * q := by
  have h : ((A % B : Nat) : Int) = (A : Int) - (B : Int) * ((A / B : Nat) : Int) := by
    have := Nat.mod_add_div A B
    have h2 : ((A % B : Nat) : Int) + (B : Int) * ((A / B : Nat) : Int) = (A : Int) := by
      exact_mod_cast this
    linarith
  subst hq
  cases na <;> cases nb <;> simp [h] <;> ring

/-- C16: for valid numbers `a` and `b` with `b` not zero, `operator/` and `operator%`
return; the signed value of `a / b` is the quotient of the signed values truncated
toward zero, and the signed value of `a % b` is the matching remainder, which is zero or
has the sign of `a`. -/
theorem operator_div_mod_correct (g_allocate : Int → List Nat)
    (hg : allocator_ok g_allocate) (a b : number) (ha : number_valid a)
    (hb : number_valid b) (hb0 : signed_value b ≠ 0) :
    ∃ q r, operator_div g_allocate a b = some q ∧ operator_mod g_allocate a b = some r
      ∧ signed_value q = Int.tdiv (signed_value a) (signed_value b)
      ∧ signed_value r = signed_value a - signed_value b * signed_value q
      ∧ signed_value r = Int.tmod (signed_value a) (signed_value b)
      ∧ (signed_value r = 0 ∨ (0 < signed_value r ∧ 0 < signed_value a)
          ∨ (signed_value r < 0 ∧ signed_value a < 0)) := by
  have hy0 : value (magnitude b) ≠ 0 := by
    intro h
    apply hb0
    rw [signed_value_eq, h]
    simp
  obtain ⟨q, qn, r, rn, e1, e2, v1, v2⟩ := div_mod_number g_allocate hg a b ha hb hy0
  unfold operator_div operator_mod
  rw [e1, e2]
  have sq : signed_value ⟨qn, a.m_size, a.m_negative != b.m_negative, q⟩
      = Int.tdiv (signed_value a) (signed_value b) := by
    rw [signed_value_eq, signed_value_eq, signed_value_eq]
    show (if (a.m_negative != b.m_negative) = true then -((value (q.take qn.toNat) : Nat) : Int)
      else ((value (q.take qn.toNat) : Nat) : Int)) = _
    rw [v1]
    exact signed_quotient _ _ _ _
  have sr : signed_value ⟨rn, b.m_size, a.m_negative, r⟩
      = signed_value a - signed_value b
        * signed_value ⟨qn, a.m_size, a.m_negative != b.m_negative, q⟩ := by
    rw [sq, signed_value_eq ⟨rn, b.m_size, a.m_negative, r⟩]
    show (if a.m_negative = true then -((value (r.take rn.toNat) : Nat) : Int)
      else ((value (r.take rn.toNat) : Nat) : Int)) = _
    rw [v2, signed_value_eq a, signed_value_eq b]
    exact signed_remainder _ _ _ _ _ (signed_quotient _ _ _ _).symm
  refine ⟨_, _, rfl, rfl, sq, sr, ?_, ?_⟩
  · rw [sr, sq, Int.tmod_def]
  · have hm : value (magnitude ⟨rn, b.m_size, a.m_negative, r⟩)
        = value (magnitude a) % value (magnitude b) := v2
    rw [signed_value_eq ⟨rn, b.m_size, a.m_negative, r⟩, signed_value_eq a, hm]
    show (if a.m_negative = true then _ else _) = 0 ∨ _
    have hle : value (magnitude a) % value (magnitude b) ≤ value (magnitude a) :=
      Nat.mod_le _ _
    generalize value (magnitude a) % value (magnitude b) = M at hle ⊢
    generalize value (magnitude a) = A at hle ⊢
    cases a.m_negative
    · simp only [Bool.false_eq_true, if_false]
      omega
    · simp only [if_true]
      omega

theorem operator_div_mod_correct_witness :
    number_valid ⟨1, 1, true, [100]⟩ ∧ number_valid ⟨1, 1, false, [7]⟩
      ∧ signed_value ⟨1, 1, false, [7]⟩ ≠ 0
      ∧ operator_div allocate_zeros ⟨1, 1, true, [100]⟩ ⟨1, 1, false, [7]⟩
          = some ⟨1, 1, true, [14]⟩
      ∧ operator_mod allocate_zeros ⟨1, 1, true, [100]⟩ ⟨1, 1, false, [7]⟩
          = some ⟨1, 1, true, [2]⟩
      ∧ ∃ q r, operator_div allocate_zeros ⟨1, 1, true, [100]⟩ ⟨1, 1, false, [7]⟩ = some q
        ∧ operator_mod allocate_zeros ⟨1, 1, true, [100]⟩ ⟨1, 1, false, [7]⟩ = some r
        ∧ signed_value q
          = Int.tdiv (signed_value ⟨1, 1, true, [100]⟩) (signed_value ⟨1, 1, false, [7]⟩)
        ∧ signed_value r = signed_value ⟨1, 1, true, [100]⟩
          - signed_value ⟨1, 1, false, [7]⟩ * signed_value q :=
  ⟨by decide, by decide, by decide, by decide, by decide,
    (operator_div_mod_correct allocate_zeros allocate_zeros_ok ⟨1, 1, true, [100]⟩
      ⟨1, 1, false, [7]⟩ (by decide) (by decide) (by decide)).imp
      fun _ h => h.imp fun _ h2 => ⟨h2.1, h2.2.1, h2.2.2.1, h2.2.2.2.1⟩⟩

/-- C17 (refuted): `operator/` on -1 and 2, `operator%` on -4 and 2, and the parsers
`number::from_base10` and `number::from_base16` on the text `-0` all give a number of
magnitude zero whose sign flag is `true`; the operands are valid and have the zero-sign
invariant. -/
theorem negative_zero_results :
    (number_valid ⟨1, 1, true, [1]⟩ ∧ zero_sign ⟨1, 1, true, [1]⟩
        ∧ number_valid ⟨1, 1, false, [2]⟩ ∧ zero_sign ⟨1, 1, false, [2]⟩
        ∧ number_valid ⟨1, 1, true, [4]⟩ ∧ zero_sign ⟨1, 1, true, [4]⟩)
      ∧ (∃ q, operator_div allocate_zeros ⟨1, 1, true, [1]⟩ ⟨1, 1, false, [2]⟩ = some q
          ∧ value (magnitude q) = 0 ∧ q.m_negative = true ∧ ¬ zero_sign q)
      ∧ (∃ r, operator_mod allocate_zeros ⟨1, 1, true, [4]⟩ ⟨1, 1, false, [2]⟩ = some r
          ∧ value (magnitude r) = 0 ∧ r.m_negative = true ∧ ¬ zero_sign r)
      ∧ (∃ x, number.from_base10 allocate_zeros number_default [45, 48] 2 = (true, x)
          ∧ value (magnitude x) = 0 ∧ x.m_negative = true ∧ ¬ zero_sign x)
      ∧ (∃ x, number.from_base16 allocate_zeros number_default [45, 48] 2 = (true, x)
          ∧ value (magnitude x) = 0 ∧ x.m_negative = true ∧ ¬ zero_sign x) :=
  ⟨by decide,
    ⟨⟨1, 1, true, [0]⟩, by decide, by decide, by decide, by decide⟩,
    ⟨⟨1, 1, true, [0]⟩, by decide, by decide, by decide, by decide⟩,
    ⟨⟨1, 1, true, [0]⟩, by decide, by decide, by decide, by decide⟩,
    ⟨⟨1, 1, true, [0]⟩, by decide, by decide, by decide, by decide⟩⟩

/-- The comparison operators of the wrapper compare the magnitudes of valid numbers. -/
theorem comparison_magnitude (a b : number) (ha : number_valid a) (hb : number_valid b) :
    (operator_lt a b = true ↔ value (magnitude a) < value (magnitude b))
      ∧ (operator_eq a b = true ↔ value (magnitude a) = value (magnitude b))
      ∧ (operator_gt a b = true ↔ value (magnitude a) > value (magnitude b)) := by
  obtain ⟨c1, c2, c3⟩ := compare_number a b ha hb
  unfold operator_lt operator_eq operator_gt
  rcases Nat.lt_trichotomy (value (magnitude a)) (value (magnitude b)) with h | h | h
  · rw [c1.mpr h]
    simp only [decide_eq_true_eq]
    omega
  · rw [c2.mpr h]
    simp only [decide_eq_true_eq]
    exact ⟨by omega, ⟨fun _ => h, fun _ => trivial⟩, by omega⟩
  · rw [c3.mpr h]
    simp only [decide_eq_true_eq]
    omega

/-- C20 (refuted): the numbers -5 and 5 are valid and have the zero-sign invariant, and
`operator==` holds of them while `operator<` and `operator!=` do not, although
`signed_value` of the first is less; `operator>` holds of -5 and 3. -/
theorem comparison_ignores_sign :
    number_valid ⟨1, 1, true, [5]⟩ ∧ zero_sign ⟨1, 1, true, [5]⟩
      ∧ number_valid ⟨1, 1, false, [5]⟩ ∧ zero_sign ⟨1, 1, false, [5]⟩
      ∧ number_valid ⟨1, 1, false, [3]⟩ ∧ zero_sign ⟨1, 1, false, [3]⟩
      ∧ signed_value ⟨1, 1, true, [5]⟩ < signed_value ⟨1, 1, false, [5]⟩
      ∧ operator_eq ⟨1, 1, true, [5]⟩ ⟨1, 1, false, [5]⟩ = true
      ∧ operator_lt ⟨1, 1, true, [5]⟩ ⟨1, 1, false, [5]⟩ = false
      ∧ operator_ne ⟨1, 1, true, [5]⟩ ⟨1, 1, false, [5]⟩ = false
      ∧ signed_value ⟨1, 1, true, [5]⟩ < signed_value ⟨1, 1, false, [3]⟩
      ∧ operator_gt ⟨1, 1, true, [5]⟩ ⟨1, 1, false, [3]⟩ = true
      ∧ operator_le ⟨1, 1, true, [5]⟩ ⟨1, 1, false, [3]⟩ = false := by
  decide

/-! ### Normalization shift, dead branches, parse failures, capacities -/

/-- C24: for every non-zero limb `x`, `de_bruijn x` is the floor of the binary logarithm
of `x`; the shift `32 - de_bruijn x - 1` that `algorithm_d` computes in `limb_t`
arithmetic is `31 - log2 x`, at most 31, and `x` shifted left by it has bit 31 set within
32 bits; and for every divisor `b` whose top limb is `x`, the top limb of the normalized
divisor is at least `2 ^ 31`. -/
theorem normalization_shift (x : Nat) (h0 : 1 ≤ x) (hx : x < base) :
    de_bruijn x = Nat.log 2 x
      ∧ wrap_sub (wrap_sub 32 (de_bruijn x)) 1 = 31 - Nat.log 2 x
      ∧ wrap_sub (wrap_sub 32 (de_bruijn x)) 1 ≤ 31
      ∧ ((x <<< wrap_sub (wrap_sub 32 (de_bruijn x)) 1) % base).testBit 31 = true
      ∧ ∀ b : List Nat, (∀ y ∈ b, y < base) → 1 ≤ b.length → rd b (b.length - 1) = x →
          2 ^ 31 ≤ rd (normalize (List.replicate b.length 0) b b.length
            (wrap_sub (wrap_sub 32 (de_bruijn x)) 1)) (b.length - 1)
          ∧ rd (normalize (List.replicate b.length 0) b b.length
            (wrap_sub (wrap_sub 32 (de_bruijn x)) 1)) (b.length - 1) < base := by
  have h1 : 2 ^ Nat.log 2 x ≤ x := Nat.pow_log_le_self 2 (by omega)
  have h2 : x < 2 ^ (Nat.log 2 x + 1) := Nat.lt_pow_succ_log_self (by decide) x
  have hk : Nat.log 2 x < 32 := by
    have : 2 ^ Nat.log 2 x < 2 ^ 32 := lt_of_le_of_lt h1 hx
    exact (Nat.pow_lt_pow_iff_right (by decide)).mp this
  have hd : de_bruijn x = Nat.log 2 x := de_bruijn_spec x (Nat.log 2 x) hk h1 h2
  obtain ⟨s1, s2, s3⟩ := shift_spec x h0 hx
  have hs : wrap_sub (wrap_sub 32 (de_bruijn x)) 1 = 31 - Nat.log 2 x := by
    rw [hd]
    unfold wrap_sub base
    omega
  refine ⟨hd, hs, s1, ?_, ?_⟩
  · generalize wrap_sub (wrap_sub 32 (de_bruijn x)) 1 = s at s1 s2 s3
    have hlt : x * 2 ^ s < base := by
      have := two_pow_split s s1
      calc x * 2 ^ s < 2 ^ (32 - s) * 2 ^ s :=
            Nat.mul_lt_mul_of_pos_right s2 (Nat.two_pow_pos s)
        _ = base := by rw [Nat.mul_comm]; exact this
    rw [Nat.shiftLeft_eq, Nat.mod_eq_of_lt hlt, Nat.testBit_to_div_mod]
    have : x * 2 ^ s / 2 ^ 31 = 1 := by
      apply Nat.div_eq_of_lt_le
      · omega
      · unfold base at hlt; omega
    rw [this]
    rfl
  · intro b hb hlen htop
    obtain ⟨_, _, n3, _, n5⟩ := normalize_spec (List.replicate b.length 0) b b.length
      (wrap_sub (wrap_sub 32 (de_bruijn x)) 1) hlen (by rw [List.length_replicate])
      (le_refl _) s1 hb
    rw [htop, Nat.mod_eq_of_lt s2] at n5
    refine ⟨le_trans s3 (by rw [Nat.mul_comm]; exact n5), ?_⟩
    have hl : (normalize (List.replicate b.length 0) b b.length
        (wrap_sub (wrap_sub 32 (de_bruijn x)) 1)).length = b.length := by
      obtain ⟨l1, _⟩ := normalize_spec (List.replicate b.length 0) b b.length
        (wrap_sub (wrap_sub 32 (de_bruijn x)) 1) hlen (by rw [List.length_replicate])
        (le_refl _) s1 hb
      rw [l1, List.length_replicate]
    apply rd_lt
    intro y hy
    apply n3
    rw [List.take_of_length_le (by rw [hl])]
    exact hy

theorem normalization_shift_witness :
    1 < base ∧ de_bruijn 1 = Nat.log 2 1 ∧ wrap_sub (wrap_sub 32 (de_bruijn 1)) 1 ≤ 31 :=
  ⟨by unfold base; norm_num,
    (normalization_shift 1 (by decide) (by unfold base; norm_num)).1,
    (normalization_shift 1 (by decide) (by unfold base; norm_num)).2.2.1⟩

theorem inner_branch_dead (lhs_digit l rhs : Nat) (hr : rhs ≠ 0) :
    ¬ ((((lhs_digit <<< 32) % 2 ^ 64) ||| l) % rhs % base ≥ rhs) := by
  have h1 := Nat.mod_lt ((((lhs_digit <<< 32) % 2 ^ 64) ||| l)) (Nat.pos_of_ne_zero hr)
  have h2 := Nat.mod_le ((((lhs_digit <<< 32) % 2 ^ 64) ||| l) % rhs) base
  omega

theorem divide_limb_unbranched_eq (lhs_digit l rhs : Nat) (hr : rhs ≠ 0) :
    divide_limb lhs_digit l rhs = divide_limb_unbranched lhs_digit l rhs := by
  unfold divide_limb divide_limb_unbranched
  exact if_neg (inner_branch_dead lhs_digit l rhs hr)

theorem mod_limb_unbranched_eq (lhs_digit l rhs : Nat) (hr : rhs ≠ 0) :
    mod_limb lhs_digit l rhs = mod_limb_unbranched lhs_digit l rhs := by
  unfold mod_limb mod_limb_unbranched
  exact if_neg (inner_branch_dead lhs_digit l rhs hr)

/-- C26: for a divisor limb `rhs` that is not zero, the test of the inner branch
`if (lhs_digit >= rhs)` of `divide_by_one_digit` and `mod_by_one_digit` is false at every
turn, whatever the running remainder and the limb read; and the two functions with that
branch deleted give the same quotient buffer, returned length and remainder on every
input. -/
theorem one_digit_branch_dead (rhs : Nat) (hr : rhs ≠ 0) :
    (∀ lhs_digit l, inner_branch_taken lhs_digit l rhs = false)
      ∧ (∀ (in_place : Bool) (quotient lhs : List Nat) (lhs_size : Int),
          divide_by_one_digit in_place quotient lhs rhs lhs_size
            = divide_by_one_digit_unbranched in_place quotient lhs rhs lhs_size)
      ∧ (∀ (lhs : List Nat) (lhs_size : Int),
          mod_by_one_digit lhs rhs lhs_size = mod_by_one_digit_unbranched lhs rhs lhs_size) := by
  refine ⟨?_, ?_, ?_⟩
  · intro lhs_digit l
    unfold inner_branch_taken
    exact decide_eq_false (inner_branch_dead lhs_digit l rhs hr)
  · intro in_place quotient lhs lhs_size
    unfold divide_by_one_digit divide_by_one_digit_unbranched
    simp only [divide_limb_unbranched_eq _ _ _ hr]
  · intro lhs lhs_size
    unfold mod_by_one_digit mod_by_one_digit_unbranched
    simp only [mod_limb_unbranched_eq _ _ _ hr]

theorem one_digit_branch_dead_witness :
    (7 : Nat) ≠ 0
      ∧ inner_branch_taken 6 4294967295 7 = false
      ∧ divide_by_one_digit false [0, 0] [5, 9] 7 2
          = divide_by_one_digit_unbranched false [0, 0] [5, 9] 7 2
      ∧ mod_by_one_digit [5, 9] 7 2 = mod_by_one_digit_unbranched [5, 9] 7 2 :=
  ⟨by decide, (one_digit_branch_dead 7 (by decide)).1 6 4294967295,
    (one_digit_branch_dead 7 (by decide)).2.1 false [0, 0] [5, 9] 2,
    (one_digit_branch_dead 7 (by decide)).2.2 [5, 9] 2⟩

theorem from_base10_push_size (c : Nat) (s : List Nat × Nat) :
    s.2 ≤ (from_base10_push c s).2 := by
  unfold from_base10_push
  dsimp only
  split
  · exact Nat.le_succ _
  · exact le_refl _

theorem from_base10_loop_pos (str : List Int) :
    ∀ (n i : Nat) (s : List Nat × Nat), 1 ≤ s.2 →
      (from_base10_loop str i n s).2 = -1 ∨ 1 ≤ (from_base10_loop str i n s).2 := by
  intro n
  induction n with
  | zero =>
    intro i s hs
    right
    simp only [from_base10_loop]
    omega
  | succ m ih =>
    intro i s hs
    rw [from_base10_loop]
    by_cases hbad : ((rdc str i - 48) % 2 ^ 32).toNat ≥ 10
    · simp only [hbad, if_true]
      left
      trivial
    · simp only [hbad, if_false]
      exact ih (i + 1) _ (le_trans hs (from_base10_push_size _ s))

theorem from_base16_loop_pos (str : List Int) (off : Nat) :
    ∀ (n : Nat) (s : List Nat × Int × Nat),
      (0 ≤ s.2.1 ∨ (s.2.1 = -1 ∧ s.2.2 % 32 = 0 ∧ 1 ≤ n)) →
      (from_base16_loop str off n s).2 = -1 ∨ 1 ≤ (from_base16_loop str off n s).2 := by
  intro n
  induction n with
  | zero =>
    intro s hs
    right
    simp only [from_base16_loop]
    omega
  | succ m ih =>
    intro s hs
    rw [from_base16_loop]
    cases hv : hex_value (rdc str (off + m)) with
    | none => left; rfl
    | some v =>
      dsimp only
      apply ih
      left
      dsimp only
      rcases hs with h | ⟨h1, h2, _⟩
      · split <;> omega
      · rw [if_pos (by simpa using h2)]
        omega

theorem from_base10_result (digits : List Nat) (str : List Int) (n : Nat) :
    (from_base10 digits str n).2 = -1 ∨ 1 ≤ (from_base10 digits str n).2 := by
  unfold from_base10
  exact from_base10_loop_pos str _ _ _ (le_refl 1)

theorem from_base16_result (digits : List Nat) (str : List Int) (n : Nat) (hn : 1 ≤ n) :
    (from_base16 digits str n).2 = -1 ∨ 1 ≤ (from_base16 digits str n).2 := by
  unfold from_base16
  rw [Int.toNat_ofNat]
  obtain ⟨_, k2, _, _⟩ := from_base16_skip_spec str n 0
  exact from_base16_loop_pos str _ _ _ (Or.inr ⟨rfl, rfl, k2 hn⟩)

theorem strip_sign_facts (str : List Int) :
    (if decide ((str.length : Int) > 0 ∧ rdc str 0 = 45) then str.drop 1 else str)
        = strip_sign str
      ∧ (if decide ((str.length : Int) > 0 ∧ rdc str 0 = 45) then (str.length : Int) - 1
          else (str.length : Int)) = ((strip_sign str).length : Int) := by
  unfold strip_sign
  by_cases h : 0 < str.length ∧ rdc str 0 = 45
  · have h2 : (str.length : Int) > 0 ∧ rdc str 0 = 45 := ⟨by omega, h.2⟩
    rw [if_pos h, if_pos (decide_eq_true h2), if_pos (decide_eq_true h2), List.length_drop]
    exact ⟨rfl, by omega⟩
  · have h2 : ¬ ((str.length : Int) > 0 ∧ rdc str 0 = 45) := by
      intro h3
      exact h ⟨by omega, h3.2⟩
    rw [if_neg h, if_neg (by simpa using h2), if_neg (by simpa using h2)]
    exact ⟨rfl, rfl⟩

theorem strip_sign_range (str : List Int) (hr : ∀ c ∈ str, char_range c) :
    ∀ c ∈ strip_sign str, char_range c := by
  intro c hc
  unfold strip_sign at hc
  split at hc
  · exact hr c (List.mem_of_mem_drop hc)
  · exact hr c hc

theorem number_from_base10_spec (g_allocate : Int → List Nat) (self : number)
    (str : List Int) (hr : ∀ c ∈ str, char_range c) :
    ((number.from_base10 g_allocate self str str.length).1 = false
        ↔ (strip_sign str = [] ∨ ∃ c ∈ strip_sign str, ¬ (48 ≤ c ∧ c ≤ 57)))
      ∧ ((number.from_base10 g_allocate self str str.length).1 = false →
          (number.from_base10 g_allocate self str str.length).2 = self) := by
  obtain ⟨e1, e2⟩ := strip_sign_facts str
  unfold number.from_base10
  simp only [e1, e2]
  by_cases hl : ((strip_sign str).length : Int) ≤ 0
  · rw [if_pos hl]
    have : strip_sign str = [] := List.length_eq_zero.mp (by omega)
    exact ⟨⟨fun _ => Or.inl this, fun _ => rfl⟩, fun _ => rfl⟩
  · rw [if_neg hl]
    have hne : strip_sign str ≠ [] := by
      intro h
      rw [h] at hl
      exact hl (le_refl _)
    have hrej := from_base10_reject
      (g_allocate (Int.tdiv ((strip_sign str).length : Int)
          largest_base10_numerator_fitting_in_limb_size
        + (if Int.tmod ((strip_sign str).length : Int)
            largest_base10_numerator_fitting_in_limb_size > 0 then 1 else 0)))
      (strip_sign str) (strip_sign_range str hr)
    have hres := from_base10_result
      (g_allocate (Int.tdiv ((strip_sign str).length : Int)
          largest_base10_numerator_fitting_in_limb_size
        + (if Int.tmod ((strip_sign str).length : Int)
            largest_base10_numerator_fitting_in_limb_size > 0 then 1 else 0)))
      (strip_sign str) (strip_sign str).length
    generalize (bigint.from_base10 (g_allocate (Int.tdiv ((strip_sign str).length : Int)
          largest_base10_numerator_fitting_in_limb_size
        + (if Int.tmod ((strip_sign str).length : Int)
            largest_base10_numerator_fitting_in_limb_size > 0 then 1 else 0)))
      (strip_sign str) (strip_sign str).length) = r at hrej hres
    by_cases hp : r.2 > 0
    · rw [if_pos hp]
      refine ⟨⟨fun h => by simp at h, ?_⟩, fun h => by simp at h⟩
      rintro (h | h)
      · exact absurd h hne
      · have := hrej.mpr h
        omega
    · rw [if_neg hp]
      refine ⟨⟨fun _ => Or.inr (hrej.mp (by omega)), fun _ => rfl⟩, fun _ => rfl⟩

theorem number_from_base16_spec (g_allocate : Int → List Nat) (self : number)
    (str : List Int) :
    ((number.from_base16 g_allocate self str str.length).1 = false
        ↔ (strip_sign str = [] ∨ ∃ c ∈ strip_sign str, ¬ hex_alphabet c))
      ∧ ((number.from_base16 g_allocate self str str.length).1 = false →
          (number.from_base16 g_allocate self str str.length).2 = self) := by
  obtain ⟨e1, e2⟩ := strip_sign_facts str
  unfold number.from_base16
  simp only [e1, e2]
  by_cases hl : ((strip_sign str).length : Int) ≤ 0
  · rw [if_pos hl]
    have : strip_sign str = [] := List.length_eq_zero.mp (by omega)
    exact ⟨⟨fun _ => Or.inl this, fun _ => rfl⟩, fun _ => rfl⟩
  · rw [if_neg hl]
    have hne : strip_sign str ≠ [] := by
      intro h
      rw [h] at hl
      exact hl (le_refl _)
    have hrej := from_base16_reject
      (g_allocate (Int.tdiv ((strip_sign str).length : Int) 8
        + (if Int.tmod ((strip_sign str).length : Int) 8 > 0 then 1 else 0)))
      (strip_sign str)
    have hres := from_base16_result
      (g_allocate (Int.tdiv ((strip_sign str).length : Int) 8
        + (if Int.tmod ((strip_sign str).length : Int) 8 > 0 then 1 else 0)))
      (strip_sign str) (strip_sign str).length (by omega)
    generalize (bigint.from_base16 (g_allocate (Int.tdiv ((strip_sign str).length : Int) 8
        + (if Int.tmod ((strip_sign str).length : Int) 8 > 0 then 1 else 0)))
      (strip_sign str) (strip_sign str).length) = r at hrej hres
    by_cases hp : r.2 > 0
    · rw [if_pos hp]
      refine ⟨⟨fun h => by simp at h, ?_⟩, fun h => by simp at h⟩
      rintro (h | h)
      · exact absurd h hne
      · have := hrej.mpr h
        omega
    · rw [if_neg hp]
      refine ⟨⟨fun _ => Or.inr (hrej.mp (by omega)), fun _ => rfl⟩, fun _ => rfl⟩

/-- C21: on a text of `char`s, `number::from_base10` returns `false` exactly when the
text without one leading `'-'` is empty or holds a character outside `'0'..'9'`, and
`number::from_base16` exactly when it is empty or holds a character outside `0-9`, `a-f`,
`A-F`; whenever they return `false` the receiving object is what it was before the call
(size, capacity, sign flag and limbs), and on every other text they return `true`. -/
theorem wrapper_parse_atomic (g_allocate : Int → List Nat) (self : number)
    (str : List Int) (hr : ∀ c ∈ str, char_range c) :
    ((number.from_base10 g_allocate self str str.length).1 = false
        ↔ (strip_sign str = [] ∨ ∃ c ∈ strip_sign str, ¬ (48 ≤ c ∧ c ≤ 57)))
      ∧ ((number.from_base10 g_allocate self str str.length).1 = false →
          (number.from_base10 g_allocate self str str.length).2 = self)
      ∧ ((number.from_base16 g_allocate self str str.length).1 = false
        ↔ (strip_sign str = [] ∨ ∃ c ∈ strip_sign str, ¬ hex_alphabet c))
      ∧ ((number.from_base16 g_allocate self str str.length).1 = false →
          (number.from_base16 g_allocate self str str.length).2 = self)
      ∧ ((number.from_base10 g_allocate self str str.length).1 = true
        ↔ ¬ (strip_sign str = [] ∨ ∃ c ∈ strip_sign str, ¬ (48 ≤ c ∧ c ≤ 57)))
      ∧ ((number.from_base16 g_allocate self str str.length).1 = true
        ↔ ¬ (strip_sign str = [] ∨ ∃ c ∈ strip_sign str, ¬ hex_alphabet c)) := by
  obtain ⟨a1, a2⟩ := number_from_base10_spec g_allocate self str hr
  obtain ⟨b1, b2⟩ := number_from_base16_spec g_allocate self str
  refine ⟨a1, a2, b1, b2, ?_, ?_⟩
  · rw [← a1]
    simp
  · rw [← b1]
    simp

theorem wrapper_parse_atomic_witness :
    (∀ c ∈ ([45, 49, 103] : List Int), char_range c)
      ∧ number.from_base10 allocate_zeros ⟨2, 2, true, [7, 9]⟩ [45, 49, 103]
          ([45, 49, 103] : List Int).length = (false, ⟨2, 2, true, [7, 9]⟩)
      ∧ (number.from_base16 allocate_zeros ⟨2, 2, true, [7, 9]⟩ [45, 49, 103]
          ([45, 49, 103] : List Int).length).2 = ⟨2, 2, true, [7, 9]⟩ :=
  ⟨by decide,
    Prod.ext
      ((wrapper_parse_atomic allocate_zeros ⟨2, 2, true, [7, 9]⟩ [45, 49, 103]
        (by decide)).1.mpr (Or.inr ⟨103, by decide, by decide⟩))
      ((wrapper_parse_atomic allocate_zeros ⟨2, 2, true, [7, 9]⟩ [45, 49, 103]
        (by decide)).2.1
        ((wrapper_parse_atomic allocate_zeros ⟨2, 2, true, [7, 9]⟩ [45, 49, 103]
          (by decide)).1.mpr (Or.inr ⟨103, by decide, by decide⟩))),
    (wrapper_parse_atomic allocate_zeros ⟨2, 2, true, [7, 9]⟩ [45, 49, 103]
      (by decide)).2.2.2.1
      ((wrapper_parse_atomic allocate_zeros ⟨2, 2, true, [7, 9]⟩ [45, 49, 103]
        (by decide)).2.2.1.mpr (Or.inr ⟨103, by decide, by decide⟩))⟩

theorem wr_append_left (p q : List Nat) (j v : Nat) (hj : j < p.length) :
    wr (p ++ q) j v = wr p j v ++ q := by
  unfold wr
  exact List.set_append_left _ _ hj

theorem rd_append_left (p q : List Nat) (j : Nat) (hj : j < p.length) :
    rd (p ++ q) j = rd p j := by
  unfold rd
  rw [List.getD_eq_getElem _ _ (by rw [List.length_append]; omega),
    List.getD_eq_getElem _ _ hj, List.getElem_append_left hj]

theorem from_base10_inner_append (q : List Nat) :
    ∀ (n lo : Nat) (t : List Nat × Nat), lo + n ≤ t.1.length →
      for_up (fun j (t : List Nat × Nat) =>
          let dc := from_base10_limb (rd t.1 j) t.2
          (wr t.1 j dc.1, dc.2)) lo n (t.1 ++ q, t.2)
        = ((for_up (fun j (t : List Nat × Nat) =>
            let dc := from_base10_limb (rd t.1 j) t.2
            (wr t.1 j dc.1, dc.2)) lo n t).1 ++ q,
          (for_up (fun j (t : List Nat × Nat) =>
            let dc := from_base10_limb (rd t.1 j) t.2
            (wr t.1 j dc.1, dc.2)) lo n t).2) := by
  intro n
  induction n with
  | zero => intro lo t _; rfl
  | succ k ih =>
    intro lo t h
    simp only [for_up]
    rw [rd_append_left _ _ _ (by omega), wr_append_left _ _ _ _ (by omega)]
    exact ih (lo + 1) (wr t.1 lo (from_base10_limb (rd t.1 lo) t.2).1,
      (from_base10_limb (rd t.1 lo) t.2).2) (by rw [length_wr]; omega)

theorem from_base10_push_append (c : Nat) (p q : List Nat) (n : Nat) (hn : n ≤ p.length)
    (hcap : (from_base10_push c (p, n)).2 ≤ p.length) :
    from_base10_push c (p ++ q, n)
      = ((from_base10_push c (p, n)).1 ++ q, (from_base10_push c (p, n)).2) := by
  have hlen : (for_up (fun j (t : List Nat × Nat) =>
      let dc := from_base10_limb (rd t.1 j) t.2
      (wr t.1 j dc.1, dc.2)) 0 n (p, c)).1.length = p.length := by
    have := for_up_inv (fun _ (t : List Nat × Nat) => t.1.length = p.length)
      (fun j (t : List Nat × Nat) =>
        let dc := from_base10_limb (rd t.1 j) t.2
        (wr t.1 j dc.1, dc.2)) n 0 (p, c) rfl
      (fun j t _ _ ht => by simp only [length_wr]; exact ht)
    exact this
  unfold from_base10_push at hcap ⊢
  simp only at hcap ⊢
  rw [from_base10_inner_append q n 0 (p, c) (by simpa using hn)]
  simp only
  generalize for_up (fun j (t : List Nat × Nat) =>
      let dc := from_base10_limb (rd t.1 j) t.2
      (wr t.1 j dc.1, dc.2)) 0 n (p, c) = t at hcap hlen ⊢
  by_cases h0 : t.2 > 0
  · simp only [if_pos h0] at hcap ⊢
    rw [wr_append_left _ _ _ _ (by omega)]
  · simp only [if_neg h0]

theorem from_base10_loop_append (str : List Int) (hs : decimal_string str) (cap : Nat)
    (hval : ∀ i, i ≤ str.length → decimal_value (str.take i) < base ^ cap) (q : List Nat) :
    ∀ (n i : Nat) (s : List Nat × Nat), i + n ≤ str.length → from_base10_inv str cap i s →
      from_base10_loop str i n (s.1 ++ q, s.2)
        = ((from_base10_loop str i n s).1 ++ q, (from_base10_loop str i n s).2) := by
  intro n
  induction n with
  | zero => intro i s _ _; rfl
  | succ k ih =>
    intro i s hi h
    obtain ⟨h1, h2, h3, h4⟩ := h
    have hc := hs _ (rdc_mem str i (by omega))
    have hcv : ((rdc str i - 48) % 2 ^ 32).toNat = (rdc str i - 48).toNat := by
      rw [Int.emod_eq_of_lt (by omega) (by omega)]
    have hc9 : (rdc str i - 48).toNat ≤ 9 := by omega
    have hdv : decimal_value (str.take (i + 1))
        = (rdc str i - 48).toNat + 10 * value (s.1.take s.2) := by
      rw [take_succ_rdc str i (by omega), decimal_value_snoc, h4]
      ring
    obtain ⟨p1, p2, p3, p4⟩ := from_base10_push_spec (rdc str i - 48).toNat hc9 s
      (by omega) h3 (by
        intro hge
        rw [← hdv] at hge
        have hlt2 : base ^ s.2 < base ^ cap := lt_of_le_of_lt hge (hval (i + 1) (by omega))
        have := (Nat.pow_lt_pow_iff_right (show 1 < base by unfold base; norm_num)).mp hlt2
        omega)
    unfold from_base10_loop
    simp only [hcv]
    rw [if_neg (by omega), if_neg (by omega)]
    rw [from_base10_push_append _ s.1 q s.2 (by omega) p2]
    exact ih (i + 1) (from_base10_push (rdc str i - 48).toNat s) (by omega)
      ⟨by rw [p1, h1], by rw [← h1]; exact p2, p3, by rw [p4, hdv]⟩

theorem decimal_prefix_lt (s : List Int) (hs : decimal_string s) (cap : Nat) (h1 : 1 ≤ cap)
    (h9 : s.length ≤ 9 * cap) :
    ∀ i, i ≤ s.length → decimal_value (s.take i) < base ^ cap := by
  intro i hi
  have hd : decimal_string (s.take i) := fun c hc => hs c (List.mem_of_mem_take hc)
  have h2 := decimal_value_lt (s.take i) hd
  rw [List.length_take, Nat.min_eq_left hi] at h2
  have h3 : 10 ^ i ≤ 10 ^ (9 * cap) := Nat.pow_le_pow_right (by decide) (by omega)
  have h4 := pow_ten_lt_base_pow cap h1
  omega

/-- What `from_base10` does on a buffer longer than one limb for every 9 characters:
the limbs beyond are left as they were. -/
theorem from_base10_frame (digits : List Nat) (s : List Int) (hs : decimal_string s)
    (hl : 1 ≤ s.length) (hcap : (s.length + 8) / 9 ≤ digits.length) :
    ∃ (d : List Nat) (m : Nat), from_base10 digits s s.length = (d, (m : Int))
      ∧ 1 ≤ m ∧ m ≤ (s.length + 8) / 9 ∧ d.length = digits.length
      ∧ d.drop ((s.length + 8) / 9) = digits.drop ((s.length + 8) / 9)
      ∧ normal_form (d.take m) ∧ value (d.take m) = decimal_value s := by
  have hc1 : 1 ≤ (s.length + 8) / 9 := by omega
  have hpl : (digits.take ((s.length + 8) / 9)).length = (s.length + 8) / 9 :=
    length_take_le _ _ hcap
  have hval := decimal_prefix_lt s hs ((s.length + 8) / 9) hc1 (by omega)
  have hinv : from_base10_inv s ((s.length + 8) / 9) 0
      (wr (digits.take ((s.length + 8) / 9)) 0 0, 1) :=
    ⟨by rw [length_wr, hpl], hc1, by
      rw [take_wr _ 0 0 (by omega)]
      simp only [List.take_zero, List.nil_append]
      decide, by
      rw [take_wr _ 0 0 (by omega)]
      simp [value, decimal_value]⟩
  obtain ⟨d, m, e1, e2, e3, e4, e5⟩ := from_base10_loop_spec s hs _ hval
    s.length 0 _ (by omega) hinv
  have ea := from_base10_loop_append s hs _ hval (digits.drop ((s.length + 8) / 9))
    s.length 0 _ (by omega) hinv
  simp only [Nat.zero_add, List.take_length] at e2 e3 e4 e5
  have hm1 : 1 ≤ m := by
    have := e4.1
    rw [length_take_le _ _ (by omega)] at this
    exact this
  refine ⟨d ++ digits.drop ((s.length + 8) / 9), m, ?_, hm1, e3, ?_, ?_, ?_, ?_⟩
  · unfold from_base10
    rw [Int.toNat_ofNat]
    have hw : wr digits 0 0 = wr (digits.take ((s.length + 8) / 9)) 0 0
        ++ digits.drop ((s.length + 8) / 9) := by
      rw [← wr_append_left _ _ _ _ (by omega), List.take_append_drop]
    rw [hw, ea, e1]
  · rw [List.length_append, e2, List.length_drop]
    omega
  · rw [List.drop_append_of_le_length (by omega), List.drop_of_length_le (by omega),
      List.nil_append]
  · rw [List.take_append_of_le_length (by omega)]
    exact e4
  · rw [List.take_append_of_le_length (by omega)]
    exact e5

theorem wrapper_capacity (l : Nat) :
    Int.tdiv (l : Int) largest_base10_numerator_fitting_in_limb_size
        + (if Int.tmod (l : Int) largest_base10_numerator_fitting_in_limb_size > 0 then 1
          else 0) = (((l + 8) / 9 : Nat) : Int) := by
  have h9 : largest_base10_numerator_fitting_in_limb_size = 9 := by decide
  rw [h9, show (9 : Int) = ((9 : Nat) : Int) from rfl, ← Int.ofNat_tdiv, ← Int.ofNat_tmod]
  split <;> omega

/-- C27: the exponent that `largest_base10_numerator_fitting_in_limb_size` computes is 9,
the largest `k` with `10 ^ k < 2 ^ 32`.  On a string of `L >= 1` decimal digits and a
buffer of at least `ceil(L / 9)` limbs, `from_base10` returns a size between 1 and
`ceil(L / 9)` and leaves every limb at an index from `ceil(L / 9)` on as it was; and
`number::from_base10` succeeds on the string with a block of exactly `ceil(L / 9)` limbs
that holds the size returned. -/
theorem from_base10_capacity (g_allocate : Int → List Nat) (hg : allocator_ok g_allocate)
    (self : number) (digits : List Nat) (s : List Int) (hs : decimal_string s)
    (hl : 1 ≤ s.length) (hcap : (s.length + 8) / 9 ≤ digits.length) :
    (largest_base10_numerator_fitting_in_limb_size = 9 ∧ 10 ^ 9 < 2 ^ 32
        ∧ ¬ (10 ^ 10 < 2 ^ 32))
      ∧ 1 ≤ (from_base10 digits s s.length).2
      ∧ (from_base10 digits s s.length).2 ≤ (((s.length + 8) / 9 : Nat) : Int)
      ∧ (from_base10 digits s s.length).1.length = digits.length
      ∧ (from_base10 digits s s.length).1.drop ((s.length + 8) / 9)
          = digits.drop ((s.length + 8) / 9)
      ∧ ∃ x, number.from_base10 g_allocate self s s.length = (true, x)
          ∧ x.m_capacity = (((s.length + 8) / 9 : Nat) : Int)
          ∧ x.m_digits.length = (s.length + 8) / 9
          ∧ 1 ≤ x.m_size ∧ x.m_size ≤ x.m_capacity ∧ normal_form (magnitude x)
          ∧ value (magnitude x) = decimal_value s := by
  obtain ⟨d, m, e, m1, m2, m3, m4, _, _⟩ := from_base10_frame digits s hs hl hcap
  refine ⟨⟨by decide, by norm_num, by norm_num⟩, ?_, ?_, ?_, ?_, ?_⟩
  · rw [e]; show (1 : Int) ≤ (m : Int); exact_mod_cast m1
  · rw [e]; show (m : Int) ≤ _; exact_mod_cast m2
  · rw [e]; exact m3
  · rw [e]; exact m4
  · have hnoneg : ¬ (((s.length : Nat) : Int) > 0 ∧ rdc s 0 = 45) := by
      intro h
      have := hs _ (rdc_mem s 0 (by omega))
      omega
    obtain ⟨ga, gb⟩ := hg (((s.length + 8) / 9 : Nat) : Int)
    rw [Int.toNat_ofNat] at ga
    obtain ⟨d2, n2, f, f1, f2, f3, f4, f5, f6⟩ := from_base10_frame
      (g_allocate (((s.length + 8) / 9 : Nat) : Int)) s hs hl (by rw [ga])
    unfold number.from_base10
    simp only [decide_eq_false hnoneg, Bool.false_eq_true, if_false]
    rw [if_neg (by omega), wrapper_capacity s.length, f]
    simp only
    rw [if_pos (by omega)]
    refine ⟨_, rfl, rfl, by show d2.length = _; rw [f3, ga], by show (1 : Int) ≤ n2; omega,
      by show (n2 : Int) ≤ (((s.length + 8) / 9 : Nat) : Int); exact_mod_cast f2, ?_, ?_⟩
    · unfold magnitude
      simp only [Int.toNat_ofNat]
      exact f5
    · unfold magnitude
      simp only [Int.toNat_ofNat]
      exact f6

theorem from_base10_capacity_witness :
    decimal_string [52, 50, 57, 52, 57, 54, 55, 50, 57, 54]
      ∧ (from_base10 [7, 7, 7] [52, 50, 57, 52, 57, 54, 55, 50, 57, 54]
          ([52, 50, 57, 52, 57, 54, 55, 50, 57, 54] : List Int).length).2 ≤ 2
      ∧ (from_base10 [7, 7, 7] [52, 50, 57, 52, 57, 54, 55, 50, 57, 54]
          ([52, 50, 57, 52, 57, 54, 55, 50, 57, 54] : List Int).length).1.drop 2 = [7] :=
  ⟨by decide,
    (from_base10_capacity allocate_zeros allocate_zeros_ok number_default [7, 7, 7]
      [52, 50, 57, 52, 57, 54, 55, 50, 57, 54] (by decide) (by decide) (by decide)).2.2.1,
    (from_base10_capacity allocate_zeros allocate_zeros_ok number_default [7, 7, 7]
      [52, 50, 57, 52, 57, 54, 55, 50, 57, 54] (by decide) (by decide) (by decide)).2.2.2.2.1⟩

theorem normal_form_take_of_top (p : List Nat) (k : Nat) (hk : 1 ≤ k) (hlen : k ≤ p.length)
    (hl : ∀ x ∈ p.take k, x < base) (htop : k = 1 ∨ rd p (k - 1) ≠ 0) :
    normal_form (p.take k) := by
  have hlk : (p.take k).length = k := length_take_le p k hlen
  refine ⟨by omega, hl, ?_⟩
  rw [hlk]
  rcases htop with h | h
  · exact Or.inl h
  · right
    have := rd_take p k (k - 1) (by omega)
    unfold rd at this h
    rw [this]
    exact h

theorem quotient_lower_bound (a b : List Nat) (ha : normal_form a) (hb : normal_form b)
    (hvb : 0 < value b) (h1 : b.length < a.length) :
    base ^ (a.length - b.length - 1) ≤ value a / value b := by
  have hb1 := hb.1
  have h2 := value_lt b hb.2.1
  have h3 := normal_form_ge a ha (by omega)
  rw [Nat.le_div_iff_mul_le hvb]
  have e : base ^ (a.length - 1) = base ^ (a.length - b.length - 1) * base ^ b.length := by
    rw [← pow_add]
    congr 1
    omega
  calc base ^ (a.length - b.length - 1) * value b
      ≤ base ^ (a.length - b.length - 1) * base ^ b.length :=
        Nat.mul_le_mul_left _ (le_of_lt h2)
    _ = base ^ (a.length - 1) := e.symm
    _ ≤ value a := h3

/-- The sizes `algorithm_d` returns and the normal form of what it writes. -/
theorem algorithm_d_normal (iq ir : Bool) (quot rem a b : List Nat) (rs : Int) (m n : Nat)
    (ha : normal_form a) (hb : normal_form b) (hm : a.length = m) (hnb : b.length = n)
    (hn : 2 ≤ n) (hnm : n ≤ m) (hq : iq = false → m - n + 1 ≤ quot.length)
    (hr : ir = false → n ≤ rem.length) :
    (iq = false →
        ((algorithm_d iq ir quot a b m n rem rs).2.2.2 = ((m - n + 1 : Nat) : Int)
          ∨ ((algorithm_d iq ir quot a b m n rem rs).2.2.2 = ((m - n : Nat) : Int)
            ∧ rd (algorithm_d iq ir quot a b m n rem rs).1 (m - n) = 0))
        ∧ normal_form ((algorithm_d iq ir quot a b m n rem rs).1.take
            (algorithm_d iq ir quot a b m n rem rs).2.2.2.toNat))
      ∧ (ir = false → (algorithm_d iq ir quot a b m n rem rs).2.2.1 ≤ (n : Int)
        ∧ normal_form ((algorithm_d iq ir quot a b m n rem rs).2.1.take
            (algorithm_d iq ir quot a b m n rem rs).2.2.1.toNat)) := by
  have e1 : ((n : Int)).toNat = n := Int.toNat_ofNat n
  have e2 : ((n : Int) - 1).toNat = n - 1 := by omega
  have e3 : ((m : Int) + 1).toNat = m + 1 := by omega
  have e4 : ((m : Int) - 1).toNat = m - 1 := by omega
  have e5 : ((m : Int) - n + 1).toNat = m - n + 1 := by omega
  have e6 : ((m : Int) - n + 1 - 1).toNat = m - n := by omega
  have e7 : ((m : Int)).toNat = m := Int.toNat_ofNat m
  have hvb : 0 < value b := by
    rcases Nat.eq_zero_or_pos (value b) with h0 | h0
    · have := (normal_form_value_zero b hb).mp h0
      rw [this] at hnb
      simp at hnb
      omega
    · exact h0
  have hlow : n < m → base ^ (m - n - 1) ≤ value a / value b := by
    intro h
    have := quotient_lower_bound a b ha hb hvb (by omega)
    rw [hm, hnb] at this
    exact this
  obtain ⟨s1, r1, r2, r3, r4, l1, l2, l3, l4⟩ := algorithm_d_setup a b m n ha hb hm hnb hn hnm
    _ rfl _ rfl _ rfl
  obtain ⟨p1, p2, p3, p4⟩ := algorithm_d_loop_spec iq _ _ quot n (m - n + 1) hn r1 r2 r3 hq l2
    (by rw [l1]; omega) l4
  unfold algorithm_d
  simp only [e1, e2, e3, e4, e5, e6, e7]
  generalize wrap_sub (wrap_sub 32 (de_bruijn (rd b (n - 1)))) 1 = s at *
  generalize normalize (List.replicate n 0) b n s = rn at *
  generalize normalize (wr (List.replicate (m + 1) 0) m (rd a (m - 1) >>> (32 - s))) a m s
    = ln0 at *
  generalize for_down (algorithm_d_step iq rn n) (m - n + 1) (ln0, quot) = st at *
  rw [l3, r4, Nat.mul_mod_mul_right] at p3
  rw [l3, r4, Nat.mul_div_mul_right _ _ (by positivity)] at p4
  constructor
  · intro hf
    obtain ⟨q1, _, q3, q4⟩ := p4 hf
    have hql := hq hf
    subst hf
    simp only [Bool.false_eq_true, if_false]
    split
    · next hc =>
      have hmn : 1 ≤ m - n := by have := hc.2; omega
      have hv := value_take_succ st.2 (m - n) (by omega)
      simp only [hc.1, Nat.mul_zero, Nat.add_zero] at hv
      refine ⟨Or.inr ⟨by show (m : Int) - n + 1 - 1 = _; omega, hc.1⟩, ?_⟩
      show normal_form (st.2.take ((m : Int) - n + 1 - 1).toNat)
      rw [e6]
      apply normal_form_of_value_ge
      · exact fun x hx => q3 x (mem_take_of_le st.2 _ _ (by omega) x hx)
      · rw [length_take_le _ _ (by omega)]; omega
      · right
        rw [length_take_le _ _ (by omega), ← hv, q4]
        exact hlow (by omega)
    · next hc =>
      refine ⟨Or.inl (by show (m : Int) - n + 1 = _; omega), ?_⟩
      show normal_form (st.2.take ((m : Int) - n + 1).toNat)
      rw [e5]
      apply normal_form_take_of_top _ _ (by omega) (by omega) q3
      rw [show m - n + 1 - 1 = m - n by omega]
      by_contra hcon
      push_neg at hcon
      exact hc ⟨hcon.2, by omega⟩
  · intro hf
    subst hf
    have hrl := hr rfl
    obtain ⟨d1, d2, d3⟩ := denormalize_spec st.1 rem n s (by omega) hrl (by rw [p1]; omega) s1
      (rd_lt _ p2)
    generalize wr (for_up (fun i r => wr r i (((rd st.1 i >>> s)
        ||| ((rd st.1 (i + 1) <<< (32 - s)) % 2 ^ 64)) % base)) 0 (n - 1) rem) (n - 1)
        (rd st.1 (n - 1) >>> s) = rem1 at d1 d2 d3 ⊢
    obtain ⟨t1, t2, _, t4⟩ := trim_spec rem1 n (by omega) (by omega)
    have hres : ∀ (x : List Nat × List Nat × Int × Int),
        x.2.1 = rem1 → x.2.2.1 = ((trim rem1 n : Nat) : Int) →
        x.2.2.1 ≤ (n : Int) ∧ normal_form (x.2.1.take x.2.2.1.toNat) := by
      intro x hx1 hx2
      rw [hx1, hx2, Int.toNat_ofNat]
      refine ⟨by exact_mod_cast t2, ?_⟩
      exact normal_form_take_of_top rem1 _ t1 (by omega)
        (fun x hx => d2 x (mem_take_of_le rem1 _ _ t2 x hx)) t4
    simp only [Bool.false_eq_true, if_false]
    cases iq with
    | true => exact hres _ rfl rfl
    | false =>
      simp only [Bool.false_eq_true, if_false]
      split
      · exact hres _ rfl rfl
      · exact hres _ rfl rfl

/-- The quotient `div` writes is in normal form; with a divisor of two limbs or more its
length is `a.length - b.length + 1`, or one less when that top limb is zero. -/
theorem div_normal (result a b : List Nat) (ha : normal_form a) (hb : normal_form b)
    (hb0 : value b ≠ 0) (hcap : a.length ≤ result.length) :
    ∃ q qn, div result a b a.length b.length = some (q, qn)
      ∧ normal_form (q.take qn.toNat)
      ∧ (b.length ≤ a.length →
          qn = ((a.length - b.length + 1 : Nat) : Int)
          ∨ (qn = ((a.length - b.length : Nat) : Int) ∧ rd q (a.length - b.length) = 0)) := by
  have ha1 := ha.1
  have hb1 := hb.1
  unfold div
  rcases Nat.lt_or_ge a.length b.length with hlt | hge
  · rw [if_neg (by
      intro h
      have := h.1
      omega), if_pos (by exact_mod_cast hlt)]
    refine ⟨_, _, rfl, ?_, fun h => by omega⟩
    show normal_form ((wr result 0 0).take 1)
    rw [take_wr result 0 0 (by omega)]
    simp only [List.take_zero, List.nil_append]
    decide
  · rcases Nat.lt_or_ge 1 b.length with hn | hn
    · rw [if_neg (by
        intro h
        have := h.1
        omega), if_neg (by
        intro h
        have : a.length < b.length := by exact_mod_cast h
        omega), if_pos (by
        show (1 : Int) < (b.length : Int)
        exact_mod_cast hn)]
      obtain ⟨h1, _⟩ := algorithm_d_normal false true result [] a b 0 a.length b.length ha hb
        rfl rfl (by omega) hge (fun _ => by omega) (fun h => by simp at h)
      obtain ⟨h2, h3⟩ := h1 rfl
      exact ⟨_, _, rfl, h3, fun _ => h2⟩
    · have hbl : b.length = 1 := by omega
      obtain ⟨hvb, hbb⟩ := normal_form_single b hb hbl
      rw [if_neg (by
        intro h
        rw [← hvb] at h
        exact hb0 h.2), if_neg (by
        intro h
        have : a.length < b.length := by exact_mod_cast h
        omega), if_neg (by
        intro h
        have : (1 : Int) < (b.length : Int) := h
        have : 1 < b.length := by exact_mod_cast this
        omega)]
      obtain ⟨d1, _, d3, d4, d5, d6⟩ := divide_by_one_digit_spec false result a a (rd b 0)
        a.length rfl (by omega) hcap (le_refl _) (by omega) hbb (fun i _ => rd_lt a ha.2.1 i)
      rw [List.take_of_length_le (le_refl _)] at d4
      have hge2 : a.length = 1 ∨ base ^ (a.length - 1) ≤ value a := by
        rcases Nat.lt_or_ge 1 a.length with h | h
        · exact Or.inr (normal_form_ge a ha h)
        · exact Or.inl (by omega)
      obtain ⟨n1, _⟩ := divide_normal (divide_by_one_digit false result a (rd b 0) a.length).1
        a.length (rd b 0) (value a) _ (by omega) (by rw [d1]; exact hcap) d3 d4 d5 hbb hge2
      refine ⟨_, _, rfl, ?_, ?_⟩
      · rw [d6]
        have e : (if 1 < a.length
              ∧ rd (divide_by_one_digit false result a (rd b 0) a.length).1 (a.length - 1) = 0
            then ((a.length - 1 : Nat) : Int) else (a.length : Int)).toNat
            = (if 1 < a.length
              ∧ rd (divide_by_one_digit false result a (rd b 0) a.length).1 (a.length - 1) = 0
            then a.length - 1 else a.length) := by
          split <;> simp
        rw [e]
        exact n1
      · intro _
        rw [d6, hbl]
        split
        · next hc =>
          right
          exact ⟨rfl, hc.2⟩
        · left
          congr 1
          omega

/-- The remainder `mod` writes is in normal form and no longer than the divisor or, with
fewer limbs in `a` than in `b`, than `a`. -/
theorem mod_normal (result a b : List Nat) (ha : normal_form a) (hb : normal_form b)
    (hb0 : value b ≠ 0) (hcap : b.length ≤ result.length) :
    ∃ r rn, mod result a b a.length b.length = some (r, rn)
      ∧ normal_form (r.take rn.toNat) ∧ rn ≤ (b.length : Int) := by
  have ha1 := ha.1
  have hb1 := hb.1
  unfold mod
  rcases Nat.lt_or_ge a.length b.length with hlt | hge
  · rw [if_neg (by
      intro h
      have := h.1
      omega), if_pos (by exact_mod_cast hlt)]
    refine ⟨_, _, rfl, ?_, by omega⟩
    show normal_form ((for_up (fun i r => wr r i (rd a i)) 0 (a.length : Int).toNat result).take
      (a.length : Int).toNat)
    rw [Int.toNat_ofNat, copy_limbs_spec a result a.length (le_refl _) (by omega),
      List.take_of_length_le (le_refl _)]
    exact ha
  · rcases Nat.lt_or_ge 1 b.length with hn | hn
    · rw [if_neg (by
        intro h
        have := h.1
        omega), if_neg (by
        intro h
        have : a.length < b.length := by exact_mod_cast h
        omega), if_pos (by
        show (1 : Int) < (b.length : Int)
        exact_mod_cast hn)]
      obtain ⟨_, h1⟩ := algorithm_d_normal true false [] result a b 0 a.length b.length ha hb
        rfl rfl (by omega) hge (fun h => by simp at h) (fun _ => hcap)
      obtain ⟨h2, h3⟩ := h1 rfl
      exact ⟨_, _, rfl, h3, h2⟩
    · have hbl : b.length = 1 := by omega
      obtain ⟨hvb, hbb⟩ := normal_form_single b hb hbl
      rw [if_neg (by
        intro h
        rw [← hvb] at h
        exact hb0 h.2), if_neg (by
        intro h
        have : a.length < b.length := by exact_mod_cast h
        omega), if_neg (by
        intro h
        have : (1 : Int) < (b.length : Int) := h
        have : 1 < b.length := by exact_mod_cast this
        omega)]
      refine ⟨_, _, rfl, ?_, by omega⟩
      show normal_form ((wr result 0 (mod_by_one_digit a (rd b 0) a.length)).take 1)
      rw [take_wr result 0 _ (by omega)]
      rw [mod_by_one_digit_spec a (rd b 0) a.length (by omega) (le_refl _) (by omega) hbb
        (rd_lt a ha.2.1)]
      have hlt : value (a.take a.length) % rd b 0 < base :=
        lt_trans (Nat.mod_lt _ (by omega)) hbb
      refine ⟨by simp, ?_, Or.inl (by simp)⟩
      intro x hx
      simp only [List.take_zero, List.nil_append, List.mem_singleton] at hx
      rw [hx]
      exact hlt

/-- C28: for magnitudes `a` and `b` in normal form with `b` not zero, `div` and `mod`
return a quotient and a remainder in normal form; when `a` has at least as many limbs as
`b` the quotient has `a.length - b.length + 1` limbs or, its top limb being zero, one
less, so dropping at most one top limb reaches the normal form; the remainder has at most
as many limbs as `b`. -/
theorem division_results_normal (result_q result_r a b : List Nat) (ha : normal_form a)
    (hb : normal_form b) (hb0 : value b ≠ 0) (hq : a.length ≤ result_q.length)
    (hr : b.length ≤ result_r.length) :
    ∃ q qn r rn, div result_q a b a.length b.length = some (q, qn)
      ∧ mod result_r a b a.length b.length = some (r, rn)
      ∧ normal_form (q.take qn.toNat) ∧ normal_form (r.take rn.toNat)
      ∧ (b.length ≤ a.length →
          qn = ((a.length - b.length + 1 : Nat) : Int)
          ∨ (qn = ((a.length - b.length : Nat) : Int) ∧ rd q (a.length - b.length) = 0))
      ∧ rn ≤ (b.length : Int) := by
  obtain ⟨q, qn, e1, n1, s1⟩ := div_normal result_q a b ha hb hb0 hq
  obtain ⟨r, rn, e2, n2, s2⟩ := mod_normal result_r a b ha hb hb0 hr
  exact ⟨q, qn, r, rn, e1, e2, n1, n2, s1, s2⟩

theorem division_results_normal_witness :
    normal_form [0, 0, 1] ∧ normal_form [1, 1] ∧ value [1, 1] ≠ 0
      ∧ ∃ q qn r rn,
        div [0, 0, 0] [0, 0, 1] [1, 1] ([0, 0, 1] : List Nat).length ([1, 1] : List Nat).length
          = some (q, qn)
        ∧ mod [0, 0] [0, 0, 1] [1, 1] ([0, 0, 1] : List Nat).length ([1, 1] : List Nat).length
          = some (r, rn)
        ∧ normal_form (q.take qn.toNat) ∧ normal_form (r.take rn.toNat) :=
  ⟨by decide, by decide, by decide,
    (division_results_normal [0, 0, 0] [0, 0] [0, 0, 1] [1, 1] (by decide) (by decide)
      (by decide) (by decide) (by decide)).imp fun _ h => h.imp fun _ h => h.imp fun _ h =>
        h.imp fun _ h => ⟨h.1, h.2.1, h.2.2.1, h.2.2.2.1⟩⟩

/-- The turn `algorithm_d_step` in terms of its estimate and of the sum it tests. -/
theorem algorithm_d_step_estimate (iq : Bool) (rn : List Nat) (n j : Nat)
    (s : List Nat × List Nat) :
    algorithm_d_step iq rn n j s
      = (let ms := mul_sub rn (corrected_estimate rn s.1 n j) j n (s.1, 0)
        let lhs_normalized := wr ms.1 (j + n) (multiply_subtract_sum rn s.1 n j % 2 ^ 32).toNat
        let quotient := if iq then s.2 else wr s.2 j (corrected_estimate rn s.1 n j % base)
        if multiply_subtract_sum rn s.1 n j < 0 then
          let quotient := if iq then quotient else wr quotient j (wrap_sub (rd quotient j) 1)
          let ab := add_back rn j n (lhs_normalized, 0)
          (wr ab.1 (j + n) ((rd ab.1 (j + n) + (ab.2 % 2 ^ 32).toNat) % base), quotient)
        else (lhs_normalized, quotient)) := rfl

/-- With the top limb of the divisor at least `base / 2`, the first estimate is at most
two above the true digit. -/
theorem estimate_within_two (v1 v2 u t2 p vl wl : Nat) (hv1 : base ≤ 2 * v1)
    (hv2 : v2 < base) (hvl : vl < p)
    (hW : (t2 * base + u) * p + wl < ((v1 * base + v2) * p + vl) * base) :
    t2 / v1 ≤ ((t2 * base + u) * p + wl) / ((v1 * base + v2) * p + vl) + 2 := by
  have hb := base_pos
  have hp : 0 < p := by omega
  have hv1p : 0 < v1 := by omega
  have hV : 0 < (v1 * base + v2) * p + vl := by
    have : 0 < (v1 * base + v2) * p := Nat.mul_pos (by nlinarith) hp
    omega
  have hVle : (v1 * base + v2) * p + vl ≤ ((v1 + 1) * base) * p := by
    have : ((v1 + 1) * base) * p = (v1 * base + v2) * p + (base - v2) * p := by
      have e : (v1 + 1) * base = (v1 * base + v2) + (base - v2) := by
        rw [Nat.add_mul, Nat.one_mul]; omega
      rw [e, Nat.add_mul]
    rw [this]
    have : p ≤ (base - v2) * p := Nat.le_mul_of_pos_left _ (by omega)
    omega
  have ht2 : t2 < (v1 + 1) * base := by
    have h1 : (t2 * base) * p ≤ (t2 * base + u) * p + wl := by
      have : (t2 * base + u) * p = (t2 * base) * p + u * p := by ring
      omega
    have h2 : ((v1 * base + v2) * p + vl) * base ≤ (((v1 + 1) * base) * base) * p := by
      have : (((v1 + 1) * base) * base) * p = (((v1 + 1) * base) * p) * base := by ring
      rw [this]
      exact Nat.mul_le_mul_right _ hVle
    have h3 : (t2 * base) * p < (((v1 + 1) * base) * base) * p := by omega
    have h4 : t2 * base < ((v1 + 1) * base) * base := Nat.lt_of_mul_lt_mul_right h3
    exact Nat.lt_of_mul_lt_mul_right h4
  have hr : t2 / v1 ≤ base + 1 := by
    have : t2 < (base + 2) * v1 := by nlinarith
    have := (Nat.div_lt_iff_lt_mul hv1p).mpr this
    omega
  rcases Nat.lt_or_ge (t2 / v1) 2 with h2 | h2
  · exact le_trans (le_of_lt h2) (Nat.le_add_left _ _)
  · obtain ⟨k, hk⟩ : ∃ k, t2 / v1 = k + 2 := ⟨t2 / v1 - 2, by omega⟩
    rw [hk]
    apply Nat.add_le_add_right
    rw [Nat.le_div_iff_mul_le hV]
    have hkv : (k + 2) * v1 ≤ t2 := by
      rw [← hk]
      exact Nat.div_mul_le_self _ _
    have h5 : k * (v1 + 1) ≤ t2 := by nlinarith
    calc k * ((v1 * base + v2) * p + vl) ≤ k * (((v1 + 1) * base) * p) :=
          Nat.mul_le_mul_left _ hVle
      _ = (k * (v1 + 1)) * (base * p) := by ring
      _ ≤ t2 * (base * p) := Nat.mul_le_mul_right _ h5
      _ = (t2 * base) * p := by ring
      _ ≤ (t2 * base + u) * p + wl := by
          have : (t2 * base + u) * p = (t2 * base) * p + u * p := by ring
          omega

/-- The estimates of one turn of the main loop and the sign of the sum it tests. -/
theorem estimate_spec (rn ln : List Nat) (n j : Nat)
    (hn : 2 ≤ n) (hrl : rn.length = n) (hrn : ∀ x ∈ rn, x < base)
    (hv1 : 2 ^ 31 ≤ rd rn (n - 1)) (hln : ∀ x ∈ ln, x < base) (hlen : j + n < ln.length)
    (hW : value ((ln.drop j).take (n + 1)) < value rn * base) :
    value ((ln.drop j).take (n + 1)) / value rn ≤ first_estimate rn ln n j
      ∧ first_estimate rn ln n j ≤ value ((ln.drop j).take (n + 1)) / value rn + 2
      ∧ corrected_estimate rn ln n j < base
      ∧ (corrected_estimate rn ln n j = value ((ln.drop j).take (n + 1)) / value rn
        ∨ corrected_estimate rn ln n j = value ((ln.drop j).take (n + 1)) / value rn + 1)
      ∧ (multiply_subtract_sum rn ln n j < 0
        ↔ corrected_estimate rn ln n j = value ((ln.drop j).take (n + 1)) / value rn + 1) := by
  obtain ⟨k, rfl⟩ : ∃ k, n = k + 2 := ⟨n - 2, by omega⟩
  have hrd_ln : ∀ i, rd ln i < base := rd_lt ln hln
  have hrd_rn : ∀ i, rd rn i < base := rd_lt rn hrn
  have hdl : ∀ x ∈ ln.drop j, x < base := fun x hx => hln x (List.mem_of_mem_drop hx)
  have hdlen : (ln.drop j).length = ln.length - j := List.length_drop j ln
  have hV : value rn = (rd rn (k + 1) * base + rd rn k) * base ^ k + value (rn.take k) := by
    conv_lhs => rw [← List.take_length rn, hrl]
    rw [value_take_succ rn (k + 1) (by omega), value_take_succ rn k (by omega), pow_succ]
    ring
  have hWs : value ((ln.drop j).take (k + 2 + 1))
      = ((rd ln (j + (k + 2)) * base + rd ln (j + (k + 1))) * base + rd ln (j + k)) * base ^ k
        + value ((ln.drop j).take k) := by
    rw [value_take_succ _ (k + 2) (by omega), value_take_succ _ (k + 1) (by omega),
      value_take_succ _ k (by omega), rd_drop, rd_drop, rd_drop, pow_succ, pow_succ]
    ring
  have hvl : value (rn.take k) < base ^ k := value_take_lt rn hrn k
  have hwl : value ((ln.drop j).take k) < base ^ k := value_take_lt _ hdl k
  have hv1k : 1 ≤ rd rn (k + 1) := le_trans (by norm_num) hv1
  have hv1h : base ≤ 2 * rd rn (k + 1) := by
    have : 2 ^ 31 ≤ rd rn (k + 1) := hv1
    unfold base
    omega
  have hpk : 0 < base ^ k := pow_pos base_pos k
  have hVpos : 0 < value rn := by
    rw [hV]
    have : 0 < (rd rn (k + 1) * base + rd rn k) * base ^ k :=
      Nat.mul_pos (by have := base_pos; nlinarith) hpk
    omega
  have hVB : value rn < base ^ (k + 2) := by
    have := value_lt rn hrn
    rwa [hrl] at this
  have ht2 : (rd ln (j + (k + 2)) * base + rd ln (j + (k + 2) - 1)) % 2 ^ 64
      = rd ln (j + (k + 2)) * base + rd ln (j + (k + 1)) := by
    rw [show j + (k + 2) - 1 = j + (k + 1) by omega]
    apply Nat.mod_eq_of_lt
    have h1 := hrd_ln (j + (k + 2))
    have h2 := hrd_ln (j + (k + 1))
    have : rd ln (j + (k + 2)) * base ≤ (base - 1) * base := Nat.mul_le_mul_right _ (by omega)
    simp only [base] at *
    omega
  have hW2 : ((rd ln (j + (k + 2)) * base + rd ln (j + (k + 1))) * base + rd ln (j + k))
      * base ^ k + value ((ln.drop j).take k)
      < ((rd rn (k + 1) * base + rd rn k) * base ^ k + value (rn.take k)) * base := by
    rw [← hWs, ← hV]; exact hW
  have i1 := estimate_init (rd rn (k + 1)) (rd rn k) (rd ln (j + k))
    (rd ln (j + (k + 2)) * base + rd ln (j + (k + 1))) (base ^ k) (value (rn.take k))
    (value ((ln.drop j).take k)) hv1k (hrd_ln _) hwl
  have i2 := estimate_within_two (rd rn (k + 1)) (rd rn k) (rd ln (j + k))
    (rd ln (j + (k + 2)) * base + rd ln (j + (k + 1))) (base ^ k) (value (rn.take k))
    (value ((ln.drop j).take k)) hv1h (hrd_rn _) hvl hW2
  obtain ⟨e1, e2, e3⟩ := correct_estimate_spec (rd rn (k + 1)) (rd rn k) (rd ln (j + k))
    (rd ln (j + (k + 2)) * base + rd ln (j + (k + 1))) (base ^ k) (value (rn.take k))
    (value ((ln.drop j).take k)) hv1k (hrd_rn _) (hrd_rn _) (hrd_ln _) hvl hwl hW2
    ((rd ln (j + (k + 2)) * base + rd ln (j + (k + 1))) / rd rn (k + 1))
    ((rd ln (j + (k + 2)) * base + rd ln (j + (k + 1))) % rd rn (k + 1))
    (Nat.div_add_mod' _ _) i1
    (lt_trans (Nat.mod_lt _ (by omega)) (hrd_rn _))
  rw [← hWs, ← hV] at e1 e2 i1 i2
  have hfirst : first_estimate rn ln (k + 2) j
      = (rd ln (j + (k + 2)) * base + rd ln (j + (k + 1))) / rd rn (k + 1) := by
    unfold first_estimate
    dsimp only
    rw [ht2]
    rfl
  have hcorr : corrected_estimate rn ln (k + 2) j
      = (correct_estimate (rd rn (k + 1)) (rd rn k) (rd ln (j + k))
        ((rd ln (j + (k + 2)) * base + rd ln (j + (k + 1))) / rd rn (k + 1))
        ((rd ln (j + (k + 2)) * base + rd ln (j + (k + 1))) % rd rn (k + 1))).1 := by
    unfold corrected_estimate
    dsimp only
    rw [ht2]
    simp only [show k + 2 - 1 = k + 1 from rfl, show k + 2 - 2 = k from rfl,
      show j + (k + 2) - 2 = j + k by omega]
  rw [hfirst]
  refine ⟨i1, i2, ?_⟩
  unfold multiply_subtract_sum
  dsimp only
  rw [hcorr]
  generalize (correct_estimate (rd rn (k + 1)) (rd rn k) (rd ln (j + k))
        ((rd ln (j + (k + 2)) * base + rd ln (j + (k + 1))) / rd rn (k + 1))
        ((rd ln (j + (k + 2)) * base + rd ln (j + (k + 1))) % rd rn (k + 1))).1 = qh
    at e1 e2 e3 ⊢
  have hqcase : qh = value ((ln.drop j).take (k + 2 + 1)) / value rn
      ∨ qh = value ((ln.drop j).take (k + 2 + 1)) / value rn + 1 := by omega
  refine ⟨e3, hqcase, ?_⟩
  obtain ⟨m1, m2, m3, m4⟩ := mul_sub_spec rn ln qh j (k + 2) e3 hrd_rn hrd_ln (by omega)
    (by omega)
  have htop : rd (mul_sub rn qh j (k + 2) (ln, 0)).1 (j + (k + 2)) = rd ln (j + (k + 2)) :=
    rd_eq_of_drop_eq _ _ _ m1.2.2.1
  have hmB : value (((mul_sub rn qh j (k + 2) (ln, 0)).1.drop j).take (k + 2))
      < base ^ (k + 2) := by
    have h := value_lt _ m1.2.2.2
    rwa [List.length_take, List.length_drop, m1.1, Nat.min_eq_left (by omega)] at h
  generalize mul_sub rn qh j (k + 2) (ln, 0) = ms at m1 m2 m3 m4 htop hmB ⊢
  rw [htop]
  have hsum : wrap64 ((rd ln (j + (k + 2)) : Int) - ms.2) = (rd ln (j + (k + 2)) : Int) - ms.2 := by
    have := hrd_ln (j + (k + 2))
    unfold wrap64
    simp only [base] at *
    norm_num at *
    omega
  rw [hsum]
  have hWtop : value ((ln.drop j).take (k + 2 + 1))
      = value ((ln.drop j).take (k + 2)) + base ^ (k + 2) * rd ln (j + (k + 2)) := by
    rw [value_take_succ _ (k + 2) (by omega), rd_drop]
  have hdm := Nat.div_add_mod (value ((ln.drop j).take (k + 2 + 1))) (value rn)
  have hrV := Nat.mod_lt (value ((ln.drop j).take (k + 2 + 1))) hVpos
  rw [List.take_of_length_le (by omega : rn.length ≤ k + 2)] at m4
  obtain ⟨A1, A2⟩ := divide_step_arith (value rn)
    ((value ((ln.drop j).take (k + 2 + 1)) % value rn : Nat) : Int)
    (value ((ms.1.drop j).take (k + 2)) : Nat) ((base : Int) ^ (k + 2))
    ((rd ln (j + (k + 2)) : Int) - ms.2) (by exact_mod_cast hVpos) (by exact_mod_cast hVB)
    (by positivity) (by exact_mod_cast hrV) (by positivity) (by exact_mod_cast hmB)
  have hWi : ((value ((ln.drop j).take (k + 2 + 1)) : Nat) : Int)
      = (value rn : Int) * ((value ((ln.drop j).take (k + 2 + 1)) / value rn : Nat) : Int)
        + ((value ((ln.drop j).take (k + 2 + 1)) % value rn : Nat) : Int) := by
    exact_mod_cast hdm.symm
  have hWti : ((value ((ln.drop j).take (k + 2 + 1)) : Nat) : Int)
      = (value ((ln.drop j).take (k + 2)) : Nat) + (base : Int) ^ (k + 2) * rd ln (j + (k + 2)) := by
    exact_mod_cast hWtop
  rcases hqcase with hq0 | hq1
  · have hs := A1 (by rw [hq0] at m4; linear_combination m4 - hWti + hWi)
    rw [hs.1]
    constructor
    · intro h; exact absurd h (by decide)
    · intro h; omega
  · have hs := A2 (by
      rw [hq1, Nat.cast_add, Nat.cast_one] at m4
      linear_combination m4 - hWti + hWi)
    rw [hs.1]
    exact ⟨fun _ => hq1, fun _ => by decide⟩

/-- C25: in a turn of the main loop of `algorithm_d` on a divisor `rn` of `n >= 2` limbs
with top limb at least `2 ^ 31` and a window `ln[j .. j + n]` below `value rn * base`,
with `q` the true digit (window divided by `rn`): the first estimate lies between `q` and
`q + 2`; the estimate after the correction loop is below `base` and is `q` or `q + 1`;
the sum after the multiply-and-subtract is negative exactly when it is `q + 1`; and the
turn leaves the digit `q` in the quotient and a window whose value, the remainder, is
below `value rn`. -/
theorem quotient_estimate (iq : Bool) (rn ln quot : List Nat) (n j : Nat)
    (hn : 2 ≤ n) (hrl : rn.length = n) (hrn : ∀ x ∈ rn, x < base)
    (hv1 : 2 ^ 31 ≤ rd rn (n - 1)) (hln : ∀ x ∈ ln, x < base) (hlen : j + n < ln.length)
    (hq : iq = false → j < quot.length)
    (hW : value ((ln.drop j).take (n + 1)) < value rn * base) :
    value ((ln.drop j).take (n + 1)) / value rn ≤ first_estimate rn ln n j
      ∧ first_estimate rn ln n j ≤ value ((ln.drop j).take (n + 1)) / value rn + 2
      ∧ corrected_estimate rn ln n j < base
      ∧ (corrected_estimate rn ln n j = value ((ln.drop j).take (n + 1)) / value rn
        ∨ corrected_estimate rn ln n j = value ((ln.drop j).take (n + 1)) / value rn + 1)
      ∧ (multiply_subtract_sum rn ln n j < 0
        ↔ corrected_estimate rn ln n j = value ((ln.drop j).take (n + 1)) / value rn + 1)
      ∧ value (((algorithm_d_step iq rn n j (ln, quot)).1.drop j).take (n + 1))
          = value ((ln.drop j).take (n + 1)) % value rn
      ∧ value (((algorithm_d_step iq rn n j (ln, quot)).1.drop j).take (n + 1)) < value rn
      ∧ (iq = false → rd (algorithm_d_step iq rn n j (ln, quot)).2 j
          = value ((ln.drop j).take (n + 1)) / value rn) := by
  obtain ⟨a1, a2, a3, a4, a5⟩ := estimate_spec rn ln n j hn hrl hrn hv1 hln hlen hW
  obtain ⟨_, s2, s3⟩ := algorithm_d_step_spec iq rn ln quot n j hn hrl hrn
    (le_trans (by norm_num) hv1) hln hlen hq hW
  have hVpos : 0 < value rn := by
    rcases Nat.eq_zero_or_pos (value rn) with h | h
    · rw [h] at hW; simp at hW
    · exact h
  refine ⟨a1, a2, a3, a4, a5, s2, by rw [s2]; exact Nat.mod_lt _ hVpos, ?_⟩
  intro hf
  rw [s3, hf]
  simp only [Bool.false_eq_true, if_false]
  exact rd_wr_same _ _ _ (hq hf)

theorem quotient_estimate_witness :
    (∀ x ∈ ([4294967295, 2147483648] : List Nat), x < base)
      ∧ 2 ^ 31 ≤ rd [4294967295, 2147483648] (2 - 1)
      ∧ value (([0, 4294967295, 2147483647] : List Nat).drop 0 |>.take (2 + 1))
          < value [4294967295, 2147483648] * base
      ∧ first_estimate [4294967295, 2147483648] [0, 4294967295, 2147483647] 2 0
          ≤ value (([0, 4294967295, 2147483647] : List Nat).drop 0 |>.take (2 + 1))
            / value [4294967295, 2147483648] + 2
      ∧ corrected_estimate [4294967295, 2147483648] [0, 4294967295, 2147483647] 2 0 < base :=
  ⟨by decide, by decide, by decide,
    (quotient_estimate false [4294967295, 2147483648] [0, 4294967295, 2147483647] [0] 2 0
      (by decide) (by decide) (by decide) (by decide) (by decide) (by decide)
      (fun _ => by decide) (by decide)).2.1,
    (quotient_estimate false [4294967295, 2147483648] [0, 4294967295, 2147483647] [0] 2 0
      (by decide) (by decide) (by decide) (by decide) (by decide) (by decide)
      (fun _ => by decide) (by decide)).2.2.1⟩

/-! ### Multiplication on the memory: schoolbook paths and the Karatsuba crossover -/

theorem rd_append_right (p q : List Nat) (x : Nat) (hx : p.length ≤ x) :
    rd (p ++ q) x = rd q (x - p.length) := by
  unfold rd
  exact List.getD_append_right p q 0 x hx

theorem rd_append_lt (p q : List Nat) (x : Nat) (hx : x < p.length) :
    rd (p ++ q) x = rd p x := by
  unfold rd
  exact List.getD_append p q 0 x hx

theorem wr_append_right (p q : List Nat) (x v : Nat) (hx : p.length ≤ x) :
    wr (p ++ q) x v = p ++ wr q (x - p.length) v := by
  unfold wr
  exact List.set_append_right x v hx

theorem rd_take_drop (h : List Nat) (result x : Nat) (r : List Nat) (k : Nat)
    (hr : result ≤ h.length)
    (hun : ∀ i, k ≤ i → rd r i = rd (h.drop result) i)
    (hx : x < result ∨ result + k ≤ x) :
    rd (h.take result ++ r) x = rd h x := by
  have hl : (h.take result).length = result := length_take_le h result hr
  rcases Nat.lt_or_ge x result with h1 | h1
  · rw [rd_append_lt _ _ _ (by omega), rd_take h result x h1]
  · rw [rd_append_right _ _ _ (by omega), hl, hun _ (by omega), rd_drop]
    congr 1
    omega

/-- A loop that reads two cells and writes one, on a memory and on the block it writes. -/
theorem loop_at_eq (F : Nat → Nat → Nat → Nat × Nat) (h : List Nat) (result p q : Nat)
    (hr : result ≤ h.length) :
    ∀ (n lo : Nat) (r : List Nat) (c : Nat),
      (∀ i, lo ≤ i → rd r i = rd (h.drop result) i) →
      (p + (lo + n) ≤ result ∨ result ≤ p) → (q + (lo + n) ≤ result ∨ result ≤ q) →
      for_up (fun i (s : List Nat × Nat) =>
          (wr s.1 (result + i) (F (rd s.1 (p + i)) (rd s.1 (q + i)) s.2).1,
            (F (rd s.1 (p + i)) (rd s.1 (q + i)) s.2).2)) lo n (h.take result ++ r, c)
        = (h.take result ++ (for_up (fun i (s : List Nat × Nat) =>
              (wr s.1 i (F (rd (h.drop p) i) (rd (h.drop q) i) s.2).1,
                (F (rd (h.drop p) i) (rd (h.drop q) i) s.2).2)) lo n (r, c)).1,
            (for_up (fun i (s : List Nat × Nat) =>
              (wr s.1 i (F (rd (h.drop p) i) (rd (h.drop q) i) s.2).1,
                (F (rd (h.drop p) i) (rd (h.drop q) i) s.2).2)) lo n (r, c)).2)
        ∧ ∀ i, lo + n ≤ i → rd (for_up (fun i (s : List Nat × Nat) =>
              (wr s.1 i (F (rd (h.drop p) i) (rd (h.drop q) i) s.2).1,
                (F (rd (h.drop p) i) (rd (h.drop q) i) s.2).2)) lo n (r, c)).1 i
            = rd (h.drop result) i := by
  have hl : (h.take result).length = result := length_take_le h result hr
  intro n
  induction n with
  | zero =>
    intro lo r c hun _ _
    exact ⟨rfl, fun i hi => hun i (by omega)⟩
  | succ k ih =>
    intro lo r c hun hp hq
    simp only [for_up]
    have e1 : rd (h.take result ++ r) (p + lo) = rd (h.drop p) lo := by
      rw [rd_take_drop h result (p + lo) r lo hr hun (by omega), rd_drop]
    have e2 : rd (h.take result ++ r) (q + lo) = rd (h.drop q) lo := by
      rw [rd_take_drop h result (q + lo) r lo hr hun (by omega), rd_drop]
    rw [e1, e2, wr_append_right _ _ _ _ (by omega), hl,
      show result + lo - result = lo by omega]
    have := ih (lo + 1) (wr r lo (F (rd (h.drop p) lo) (rd (h.drop q) lo) c).1)
      (F (rd (h.drop p) lo) (rd (h.drop q) lo) c).2
      (fun i hi => by rw [rd_wr_ne _ _ _ _ (by omega)]; exact hun i (by omega))
      (by omega) (by omega)
    refine ⟨this.1, fun i hi => this.2 i (by omega)⟩

/-- The loops of `add` on one memory do what `add_loops` does on the block at `result`,
when each operand lies wholly before `result` or starts at or after it. -/
theorem add_loops_at_eq (h : List Nat) (result lhs rhs la lb : Nat) (hr : result ≤ h.length)
    (hle : lb ≤ la)
    (h1 : lhs + la ≤ result ∨ result ≤ lhs) (h2 : rhs + lb ≤ result ∨ result ≤ rhs) :
    (let s1 := for_up (fun size (s : List Nat × Nat) =>
        let dc := add_limb (rd s.1 (lhs + size)) (rd s.1 (rhs + size)) s.2
        (wr s.1 (result + size) dc.1, dc.2)) 0 lb (h, 0)
      let s2 := for_up (fun size (s : List Nat × Nat) =>
        let dc := add_carry (rd s.1 (lhs + size)) s.2
        (wr s.1 (result + size) dc.1, dc.2)) lb (la - lb) s1
      ((if s2.2 > 0 then wr s2.1 (result + (lb + (la - lb))) s2.2 else s2.1),
        ((lb + (la - lb) : Nat) : Int) + s2.2))
      = (h.take result ++ (add_loops (h.drop result) (h.drop lhs) (h.drop rhs) la lb).1,
          (add_loops (h.drop result) (h.drop lhs) (h.drop rhs) la lb).2) := by
  have hl : (h.take result).length = result := length_take_le h result hr
  obtain ⟨L1, U1⟩ := loop_at_eq add_limb h result lhs rhs hr lb 0 (h.drop result) 0
    (fun _ _ => rfl) (by omega) (by omega)
  simp only [Nat.zero_add] at U1
  obtain ⟨L2, _⟩ := loop_at_eq (fun l _ c => add_carry l c) h result lhs lhs hr (la - lb) lb
    (for_up (fun i (s : List Nat × Nat) =>
      (wr s.1 i (add_limb (rd (h.drop lhs) i) (rd (h.drop rhs) i) s.2).1,
        (add_limb (rd (h.drop lhs) i) (rd (h.drop rhs) i) s.2).2)) 0 lb (h.drop result, 0)).1
    (for_up (fun i (s : List Nat × Nat) =>
      (wr s.1 i (add_limb (rd (h.drop lhs) i) (rd (h.drop rhs) i) s.2).1,
        (add_limb (rd (h.drop lhs) i) (rd (h.drop rhs) i) s.2).2)) 0 lb (h.drop result, 0)).2
    U1 (by omega) (by omega)
  rw [List.take_append_drop] at L1
  unfold add_loops
  simp only [Int.toNat_ofNat]
  rw [L1, L2]
  split
  · rw [wr_append_right _ _ _ _ (by omega), hl,
      show result + (lb + (la - lb)) - result = lb + (la - lb) by omega]
  · rfl

/-- The function `add` on one memory does what `add` does on the block at `result`. -/
theorem add_at_eq (h : List Nat) (result lhs rhs la lb : Nat) (hr : result ≤ h.length)
    (h1 : lhs + la ≤ result ∨ result ≤ lhs) (h2 : rhs + lb ≤ result ∨ result ≤ rhs) :
    add_at h result lhs rhs la lb
      = (h.take result ++ (add (h.drop result) (h.drop lhs) (h.drop rhs) la lb).1,
          (add (h.drop result) (h.drop lhs) (h.drop rhs) la lb).2) := by
  unfold add_at add
  by_cases hsw : (la : Int) < (lb : Int)
  · have hlt : la < lb := by exact_mod_cast hsw
    simp only [hsw, if_true, Int.toNat_ofNat]
    exact add_loops_at_eq h result rhs lhs lb la hr (by omega) h2 h1
  · have hge : lb ≤ la := by
      have : ¬ (la < lb) := by exact_mod_cast hsw
      omega
    simp only [hsw, if_false, Int.toNat_ofNat]
    exact add_loops_at_eq h result lhs rhs la lb hr hge h1 h2

theorem trim_at_eq (h : List Nat) (p : Nat) : ∀ n, trim_at h p n = trim (h.drop p) n := by
  intro n
  induction n using Nat.strongRecOn with
  | _ n ih =>
    match n with
    | 0 => rfl
    | 1 => rfl
    | k + 2 =>
      unfold trim_at trim
      rw [rd_drop, ih (k + 1) (by omega)]

theorem drop_take_append (h r : List Nat) (result : Nat) (hr : result ≤ h.length) :
    (h.take result ++ r).drop result = r := by
  have hl : (h.take result).length = result := length_take_le h result hr
  rw [List.drop_append_of_le_length (by omega), List.drop_of_length_le (by omega),
    List.nil_append]

/-- The function `sub` on one memory does what `sub` does on the block at `result`. -/
theorem sub_at_eq (h : List Nat) (result lhs rhs la lb : Nat) (hr : result ≤ h.length)
    (h1 : lhs + la ≤ result ∨ result ≤ lhs) (h2 : rhs + lb ≤ result ∨ result ≤ rhs) :
    sub_at h result lhs rhs la lb
      = (sub (h.drop result) (h.drop lhs) (h.drop rhs) la lb).map
          fun r => (h.take result ++ r.1, r.2) := by
  unfold sub_at sub
  by_cases hge : (la : Int) ≥ (lb : Int)
  · have hle : lb ≤ la := by exact_mod_cast hge
    simp only [hge, not_true_eq_false, if_false, Int.toNat_ofNat]
    obtain ⟨L1, U1⟩ := loop_at_eq sub_limb h result lhs rhs hr lb 0 (h.drop result) 0
      (fun _ _ => rfl) (by omega) (by omega)
    simp only [Nat.zero_add] at U1
    obtain ⟨L2, _⟩ := loop_at_eq (fun l _ c => sub_borrow l c) h result lhs lhs hr (la - lb) lb
      (for_up (fun i (s : List Nat × Nat) =>
        (wr s.1 i (sub_limb (rd (h.drop lhs) i) (rd (h.drop rhs) i) s.2).1,
          (sub_limb (rd (h.drop lhs) i) (rd (h.drop rhs) i) s.2).2)) 0 lb (h.drop result, 0)).1
      (for_up (fun i (s : List Nat × Nat) =>
        (wr s.1 i (sub_limb (rd (h.drop lhs) i) (rd (h.drop rhs) i) s.2).1,
          (sub_limb (rd (h.drop lhs) i) (rd (h.drop rhs) i) s.2).2)) 0 lb (h.drop result, 0)).2
      U1 (by omega) (by omega)
    rw [List.take_append_drop] at L1
    rw [L1, L2]
    split
    · rfl
    · simp only [Option.map_some', trim_at_eq, drop_take_append h _ result hr]
  · simp only [hge, not_false_eq_true, if_true, Option.map_none']

theorem list_ext_rd (a b : List Nat) (hl : a.length = b.length)
    (h : ∀ i, i < a.length → rd a i = rd b i) : a = b := by
  apply List.ext_getElem hl
  intro i h1 h2
  have := h i h1
  unfold rd at this
  rw [List.getD_eq_getElem _ _ h1, List.getD_eq_getElem _ _ h2] at this
  exact this

theorem cells_length (h : List Nat) (p n : Nat) (hp : p + n ≤ h.length) :
    (cells h p n).length = n := by
  unfold cells
  rw [List.length_take, List.length_drop]
  omega

theorem rd_cells (h : List Nat) (p n i : Nat) (hi : i < n) :
    rd (cells h p n) i = rd h (p + i) := by
  unfold cells
  rw [rd_take _ _ _ hi, rd_drop]

theorem cells_eq_of_rd (h h1 : List Nat) (p n : Nat) (hp : p + n ≤ h.length)
    (hp1 : p + n ≤ h1.length) (hrd : ∀ i, i < n → rd h1 (p + i) = rd h (p + i)) :
    cells h1 p n = cells h p n := by
  apply list_ext_rd
  · rw [cells_length _ _ _ hp, cells_length _ _ _ hp1]
  · intro i hi
    rw [cells_length _ _ _ hp1] at hi
    rw [rd_cells _ _ _ _ hi, rd_cells _ _ _ _ hi, hrd i hi]

theorem frame_refl (h : List Nat) (p n : Nat) : frame h h p n := ⟨rfl, fun _ _ => rfl⟩

theorem frame_mono (h h1 : List Nat) (p n q m : Nat) (hf : frame h h1 p n)
    (h1q : q ≤ p) (h2q : p + n ≤ q + m) : frame h h1 q m :=
  ⟨hf.1, fun x hx => hf.2 x (by omega)⟩

theorem cells_frame (h h1 : List Nat) (q m p n : Nat) (hf : frame h h1 q m)
    (hd : p + n ≤ q ∨ q + m ≤ p) (hp : p + n ≤ h.length) :
    cells h1 p n = cells h p n :=
  cells_eq_of_rd h h1 p n hp (by rw [hf.1]; exact hp) (fun i hi => hf.2 _ (by omega))

theorem cells_take (h : List Nat) (p n k : Nat) (hk : k ≤ n) :
    (cells h p n).take k = cells h p k := by
  unfold cells
  rw [List.take_take, Nat.min_eq_left hk]

theorem cells_drop (h : List Nat) (p n k : Nat) :
    (cells h p n).drop k = cells h (p + k) (n - k) := by
  unfold cells
  rw [List.drop_take, List.drop_drop]

theorem cells_append (h : List Nat) (p n m : Nat) :
    cells h p (n + m) = cells h p n ++ cells h (p + n) m := by
  unfold cells
  rw [List.take_add, List.drop_drop]

theorem value_cells_append (h : List Nat) (p n m : Nat) (hp : p + n ≤ h.length) :
    value (cells h p (n + m)) = value (cells h p n) + base ^ n * value (cells h (p + n) m) := by
  rw [cells_append, value_append, cells_length _ _ _ hp]

theorem cells_mem_lt (h : List Nat) (p n : Nat) (hp : p + n ≤ h.length)
    (hrd : ∀ i, i < n → rd h (p + i) < base) : ∀ x ∈ cells h p n, x < base := by
  intro x hx
  obtain ⟨i, hi, rfl⟩ := List.getElem_of_mem hx
  have hi2 : i < n := by rw [cells_length _ _ _ hp] at hi; exact hi
  have := rd_cells h p n i hi2
  unfold rd at this
  rw [List.getD_eq_getElem _ _ hi] at this
  rw [this]
  exact hrd i hi2

theorem take_wr_comm (p : List Nat) (i k v : Nat) :
    (wr p i v).take k = wr (p.take k) i v := by
  unfold wr
  induction p generalizing i k with
  | nil => simp
  | cons x xs ih =>
    cases k with
    | zero => simp
    | succ k =>
      cases i with
      | zero => simp
      | succ i => simp [ih]

/-- A loop that writes one cell of a buffer in each turn, with values that do not depend
on the buffer, commutes with cutting the buffer. -/
theorem loop_take (G : Nat → Nat → Nat × Nat) (k : Nat) :
    ∀ (n lo : Nat) (s t : List Nat × Nat), t.1 = s.1.take k → t.2 = s.2 →
      (for_up (fun i (s : List Nat × Nat) => (wr s.1 i (G i s.2).1, (G i s.2).2)) lo n t).1
        = (for_up (fun i (s : List Nat × Nat) => (wr s.1 i (G i s.2).1, (G i s.2).2)) lo n
          s).1.take k
      ∧ (for_up (fun i (s : List Nat × Nat) => (wr s.1 i (G i s.2).1, (G i s.2).2)) lo n t).2
        = (for_up (fun i (s : List Nat × Nat) => (wr s.1 i (G i s.2).1, (G i s.2).2)) lo n
          s).2 := by
  intro n
  induction n with
  | zero => intro lo s t h1 h2; exact ⟨h1, h2⟩
  | succ m ih =>
    intro lo s t h1 h2
    simp only [for_up]
    apply ih
    · show wr t.1 lo (G lo t.2).1 = (wr s.1 lo (G lo s.2).1).take k
      rw [take_wr_comm, h1, h2]
    · show (G lo t.2).2 = (G lo s.2).2
      rw [h2]

theorem add_loops_cut (result lhs rhs : List Nat) (la lb : Int) (k : Nat) :
    (add_loops (result.take k) lhs rhs la lb).1 = (add_loops result lhs rhs la lb).1.take k
      ∧ (add_loops (result.take k) lhs rhs la lb).2 = (add_loops result lhs rhs la lb).2 := by
  unfold add_loops
  obtain ⟨a1, a2⟩ := loop_take (fun i c => add_limb (rd lhs i) (rd rhs i) c) k lb.toNat 0
    (result, 0) (result.take k, 0) rfl rfl
  obtain ⟨b1, b2⟩ := loop_take (fun i c => add_carry (rd lhs i) c) k (la.toNat - lb.toNat)
    lb.toNat _ _ a1 a2
  dsimp only
  rw [b1, b2]
  constructor
  · split
    · rw [take_wr_comm]
    · rfl
  · rfl

theorem add_cut (result lhs rhs : List Nat) (la lb : Int) (k : Nat) :
    (add (result.take k) lhs rhs la lb).1 = (add result lhs rhs la lb).1.take k
      ∧ (add (result.take k) lhs rhs la lb).2 = (add result lhs rhs la lb).2 := by
  unfold add
  split
  · exact add_loops_cut _ _ _ _ _ k
  · exact add_loops_cut _ _ _ _ _ k

theorem rd_oob (l : List Nat) (i : Nat) (hi : l.length ≤ i) : rd l i = 0 := by
  unfold rd
  exact List.getD_eq_default _ _ hi

theorem frame_trans (h h1 h2 : List Nat) (p n : Nat) (f1 : frame h h1 p n)
    (f2 : frame h1 h2 p n) : frame h h2 p n :=
  ⟨by rw [f2.1, f1.1], fun x hx => by rw [f2.2 x hx, f1.2 x hx]⟩

theorem frame_wr (h hh : List Nat) (p n x v : Nat) (hf : frame h hh p n) (h1 : p ≤ x)
    (h2 : x < p + n) : frame h (wr hh x v) p n :=
  ⟨by rw [length_wr, hf.1], fun y hy => by rw [rd_wr_ne _ _ _ _ (by omega), hf.2 y hy]⟩

theorem cells_wr_snoc (h : List Nat) (p n x : Nat) (hp : p + n < h.length) :
    cells (wr h (p + n) x) p (n + 1) = cells h p n ++ [x] := by
  unfold cells
  rw [Nat.add_comm p n, drop_wr_ge, take_wr _ _ _ (by rw [List.length_drop]; omega)]

theorem cells_succ (h : List Nat) (p n : Nat) (hp : p + n < h.length) :
    cells h p (n + 1) = cells h p n ++ [rd h (p + n)] := by
  unfold cells
  rw [take_succ_rd _ _ (by rw [List.length_drop]; omega), rd_drop]

theorem cells_wr_other (h : List Nat) (p n x v : Nat) (hx : x < p ∨ p + n ≤ x) :
    cells (wr h x v) p n = cells h p n := by
  rcases Nat.lt_or_ge h.length (p + n) with hl | hl
  · -- the block runs past the end of the memory
    apply list_ext_rd
    · unfold cells
      simp only [List.length_take, List.length_drop, length_wr]
    · intro i hi
      have hi2 : i < n := by
        unfold cells at hi
        rw [List.length_take] at hi
        omega
      rw [rd_cells _ _ _ _ hi2, rd_cells _ _ _ _ hi2, rd_wr_ne _ _ _ _ (by omega)]
  · exact cells_eq_of_rd h (wr h x v) p n hl (by rw [length_wr]; exact hl)
      (fun i hi => rd_wr_ne _ _ _ _ (by omega))

theorem cells_of_frame_prefix (h hh : List Nat) (p n m : Nat) (hf : frame h hh (p + n) m)
    (hp : p + n ≤ h.length) : cells hh p n = cells h p n :=
  cells_eq_of_rd h hh p n hp (by rw [hf.1]; exact hp) (fun i hi => hf.2 _ (by omega))

/-- The zero fill of `long_multiplication`. -/
theorem zero_fill_spec (h : List Nat) (result n : Nat) (hn : result + n ≤ h.length) :
    frame h (for_up (fun i h => wr h (result + i) 0) 0 n h) result n
      ∧ ∀ k, k < n → rd (for_up (fun i h => wr h (result + i) 0) 0 n h) (result + k) = 0 := by
  have L := for_up_inv
    (fun i (hh : List Nat) => frame h hh result i ∧ ∀ k, k < i → rd hh (result + k) = 0)
    (fun i h => wr h (result + i) 0) n 0 h ⟨frame_refl _ _ _, fun k hk => by omega⟩
    (by
      intro i t _ hi ⟨f, z⟩
      refine ⟨frame_wr _ _ _ _ _ _ (frame_mono _ _ _ _ _ _ f (le_refl _) (by omega))
        (by omega) (by omega), ?_⟩
      intro k hk
      rcases Nat.lt_or_ge k i with h1 | h1
      · rw [rd_wr_ne _ _ _ _ (by omega)]
        exact z k h1
      · have : k = i := by omega
        rw [this, rd_wr_same _ _ _ (by rw [f.1]; omega)])
  simp only [Nat.zero_add] at L
  exact L

theorem product_bound (u c x y : Nat) (hu : u < base) (hc : c < base) (hx : x < base)
    (hy : y < base) : u + c + x * y < 2 ^ 64 := by
  have h1 : x * y ≤ (base - 1) * (base - 1) := Nat.mul_le_mul (by omega) (by omega)
  unfold base at *
  omega

/-- The inner loop of `long_multiplication` for the limb `x = lhs[i]`: the block of
`rs` cells at `p = result + i` and the carry stand for the old block plus `x * b`. -/
theorem long_multiplication_row (H : List Nat) (p lhsi rhs rs x : Nat) (b : List Nat)
    (hb : ∀ y ∈ b, y < base) (hbl : b.length = rs) (hx : x < base)
    (hp : p + rs < H.length) (hH : ∀ k, k < rs → rd H (p + k) < base)
    (hlhs : lhsi < p ∨ p + rs ≤ lhsi) (hrhs : rhs + rs ≤ p ∨ p + rs ≤ rhs)
    (hxr : rd H lhsi = x) (hbr : ∀ j, j < rs → rd H (rhs + j) = rd b j) :
    frame H (for_up (fun j (s : List Nat × Nat) =>
        let product := (rd s.1 (p + j) + s.2 + rd s.1 lhsi * rd s.1 (rhs + j)) % 2 ^ 64
        (wr s.1 (p + j) (product % base), (product / base) % base)) 0 rs (H, 0)).1 p rs
      ∧ (for_up (fun j (s : List Nat × Nat) =>
        let product := (rd s.1 (p + j) + s.2 + rd s.1 lhsi * rd s.1 (rhs + j)) % 2 ^ 64
        (wr s.1 (p + j) (product % base), (product / base) % base)) 0 rs (H, 0)).2 < base
      ∧ (∀ k, k < rs → rd (for_up (fun j (s : List Nat × Nat) =>
        let product := (rd s.1 (p + j) + s.2 + rd s.1 lhsi * rd s.1 (rhs + j)) % 2 ^ 64
        (wr s.1 (p + j) (product % base), (product / base) % base)) 0 rs (H, 0)).1 (p + k)
          < base)
      ∧ value (cells (for_up (fun j (s : List Nat × Nat) =>
          let product := (rd s.1 (p + j) + s.2 + rd s.1 lhsi * rd s.1 (rhs + j)) % 2 ^ 64
          (wr s.1 (p + j) (product % base), (product / base) % base)) 0 rs (H, 0)).1 p rs)
          + base ^ rs * (for_up (fun j (s : List Nat × Nat) =>
          let product := (rd s.1 (p + j) + s.2 + rd s.1 lhsi * rd s.1 (rhs + j)) % 2 ^ 64
          (wr s.1 (p + j) (product % base), (product / base) % base)) 0 rs (H, 0)).2
        = value (cells H p rs) + x * value b := by
  have L := for_up_inv
    (fun j (s : List Nat × Nat) => frame H s.1 p j ∧ s.2 < base
      ∧ (∀ k, k < j → rd s.1 (p + k) < base)
      ∧ value (cells s.1 p j) + base ^ j * s.2 = value (cells H p j) + x * value (b.take j))
    (fun j (s : List Nat × Nat) =>
        let product := (rd s.1 (p + j) + s.2 + rd s.1 lhsi * rd s.1 (rhs + j)) % 2 ^ 64
        (wr s.1 (p + j) (product % base), (product / base) % base)) rs 0 (H, 0)
    ⟨frame_refl _ _ _, base_pos, fun k hk => by omega, by simp [cells, value]⟩
    (by
      intro j s _ hj ⟨f, hc, hl, hv⟩
      have e1 : rd s.1 (p + j) = rd H (p + j) := f.2 _ (by omega)
      have e2 : rd s.1 lhsi = x := by rw [f.2 _ (by omega), hxr]
      have e3 : rd s.1 (rhs + j) = rd b j := by rw [f.2 _ (by omega), hbr j (by omega)]
      have hu := hH j (by omega)
      have hy : rd b j < base := rd_lt b hb j
      have hpb := product_bound (rd H (p + j)) s.2 x (rd b j) hu hc hx hy
      dsimp only
      rw [e1, e2, e3, Nat.mod_eq_of_lt hpb]
      have hq : (rd H (p + j) + s.2 + x * rd b j) / base < base := by
        rw [Nat.div_lt_iff_lt_mul base_pos, base_sq]
        exact hpb
      rw [Nat.mod_eq_of_lt hq]
      have hm : (rd H (p + j) + s.2 + x * rd b j) % base < base := Nat.mod_lt _ base_pos
      refine ⟨frame_wr _ _ _ _ _ _ (frame_mono _ _ _ _ _ _ f (le_refl _) (by omega))
        (by omega) (by omega), hq, ?_, ?_⟩
      · intro k hk
        rcases Nat.lt_or_ge k j with h1 | h1
        · rw [rd_wr_ne _ _ _ _ (by omega)]
          exact hl k h1
        · have : k = j := by omega
          rw [this, rd_wr_same _ _ _ (by rw [f.1]; omega)]
          exact hm
      · rw [cells_wr_snoc _ _ _ _ (by rw [f.1]; omega), value_snoc,
          cells_length _ _ _ (by rw [f.1]; omega), cells_succ H p j (by omega), value_snoc,
          cells_length _ _ _ (by omega), take_succ_rd b j (by omega), value_snoc,
          length_take_le _ _ (by omega)]
        have hdm := Nat.div_add_mod (rd H (p + j) + s.2 + x * rd b j) base
        have e : base ^ (j + 1) = base ^ j * base := pow_succ _ _
        rw [e]
        have key : base ^ j * ((rd H (p + j) + s.2 + x * rd b j) % base)
            + base ^ j * base * ((rd H (p + j) + s.2 + x * rd b j) / base)
            = base ^ j * (rd H (p + j) + s.2 + x * rd b j) := by
          conv_rhs => rw [← hdm]
          ring
        have : value (cells s.1 p j) + base ^ j * ((rd H (p + j) + s.2 + x * rd b j) % base)
            + base ^ j * base * ((rd H (p + j) + s.2 + x * rd b j) / base)
            = value (cells s.1 p j) + base ^ j * (rd H (p + j) + s.2 + x * rd b j) := by
          rw [Nat.add_assoc, key]
        rw [this]
        have hv2 : value (cells s.1 p j) + base ^ j * (rd H (p + j) + s.2 + x * rd b j)
            = (value (cells s.1 p j) + base ^ j * s.2)
              + base ^ j * rd H (p + j) + base ^ j * (x * rd b j) := by ring
        rw [hv2, hv]
        ring)
  simp only [Nat.zero_add] at L
  obtain ⟨f, hc, hl, hv⟩ := L
  rw [List.take_of_length_le (by omega)] at hv
  exact ⟨f, hc, hl, hv⟩

theorem rd_of_cells (h : List Nat) (p : Nat) (a : List Nat) (ha : cells h p a.length = a)
    (i : Nat) (hi : i < a.length) : rd h (p + i) = rd a i := by
  have := rd_cells h p a.length i hi
  rw [ha] at this
  exact this.symm

theorem cells_inside (h : List Nat) (p : Nat) (a : List Nat) (ha : cells h p a.length = a) :
    a.length = 0 ∨ p + a.length ≤ h.length := by
  have : (cells h p a.length).length = a.length := by rw [ha]
  unfold cells at this
  rw [List.length_take, List.length_drop] at this
  omega

/-- What `long_multiplication` leaves in the memory: the `lhs_size + rhs_size` cells at
`result` hold the product, and no other cell is written. -/
theorem long_multiplication_spec (h : List Nat) (result lhs rhs : Nat) (a b : List Nat)
    (ha : ∀ x ∈ a, x < base) (hb : ∀ x ∈ b, x < base) (hal : 1 ≤ a.length)
    (hbl : 1 ≤ b.length) (hla : cells h lhs a.length = a) (hlb : cells h rhs b.length = b)
    (hres : result + a.length + b.length ≤ h.length)
    (hd1 : lhs + a.length ≤ result ∨ result + a.length + b.length ≤ lhs)
    (hd2 : rhs + b.length ≤ result ∨ result + a.length + b.length ≤ rhs) :
    frame h (long_multiplication h result lhs rhs a.length b.length).1 result
        (a.length + b.length)
      ∧ (∀ k, k < a.length + b.length →
          rd (long_multiplication h result lhs rhs a.length b.length).1 (result + k) < base)
      ∧ value (cells (long_multiplication h result lhs rhs a.length b.length).1 result
          (a.length + b.length)) = value a * value b
      ∧ (long_multiplication h result lhs rhs a.length b.length).2
          = if rd (long_multiplication h result lhs rhs a.length b.length).1
                (result + (a.length + b.length - 1)) = 0
            then ((a.length + b.length - 1 : Nat) : Int)
            else ((a.length + b.length : Nat) : Int) := by
  have e1 : ((a.length : Int) + (b.length : Int)).toNat = a.length + b.length := by omega
  have e2 : ((a.length : Int) + (b.length : Int) - 1).toNat = a.length + b.length - 1 := by
    omega
  obtain ⟨z1, z2⟩ := zero_fill_spec h result (a.length + b.length) (by omega)
  have hra := rd_of_cells h lhs a hla
  have hrb := rd_of_cells h rhs b hlb
  have L := for_up_inv
    (fun i (hh : List Nat) => frame h hh result (a.length + b.length)
      ∧ (∀ k, k < a.length + b.length → rd hh (result + k) < base)
      ∧ value (cells hh result (i + b.length)) = value (a.take i) * value b)
    (fun i h =>
      let s := for_up (fun j (s : List Nat × Nat) =>
          let product := (rd s.1 (result + i + j) + s.2
            + rd s.1 (lhs + i) * rd s.1 (rhs + j)) % 2 ^ 64
          (wr s.1 (result + i + j) (product % base), (product / base) % base))
        0 b.length (h, 0)
      wr s.1 (result + i + b.length) s.2)
    a.length 0 (for_up (fun i h => wr h (result + i) 0) 0 (a.length + b.length) h)
    ⟨z1, fun k hk => by rw [z2 k hk]; exact base_pos, by
      simp only [List.take_zero, value_nil, Nat.zero_mul, Nat.zero_add]
      have hz : ∀ x ∈ cells (for_up (fun i h => wr h (result + i) 0) 0
          (a.length + b.length) h) result b.length, x = 0 := by
        intro x hx
        obtain ⟨i, hi, rfl⟩ := List.getElem_of_mem hx
        have hi2 : i < b.length := by
          rw [cells_length _ _ _ (by rw [z1.1]; omega)] at hi
          exact hi
        have := rd_cells (for_up (fun i h => wr h (result + i) 0) 0
          (a.length + b.length) h) result b.length i hi2
        unfold rd at this
        rw [List.getD_eq_getElem _ _ hi] at this
        rw [this]
        exact z2 i (by omega)
      generalize cells (for_up (fun i h => wr h (result + i) 0) 0
          (a.length + b.length) h) result b.length = l at hz
      induction l with
      | nil => rfl
      | cons y ys ih =>
        rw [value_cons, hz y (by simp), ih (fun x hx => hz x (by simp [hx])), Nat.mul_zero]⟩
    (by
      intro i H _ hi ⟨f, hl, hv⟩
      have hi2 : i < a.length := by omega
      obtain ⟨g, hc, gl, gv⟩ := long_multiplication_row H (result + i) (lhs + i) rhs b.length
        (rd a i) b hb rfl (rd_lt a ha i) (by rw [f.1]; omega)
        (fun k hk => by rw [Nat.add_assoc]; exact hl _ (by omega))
        (by omega) (by omega)
        (by rw [f.2 _ (by omega)]; exact hra i hi2)
        (fun j hj => by rw [f.2 _ (by omega)]; exact hrb j hj)
      dsimp only
      generalize for_up (fun j (s : List Nat × Nat) =>
          let product := (rd s.1 (result + i + j) + s.2
            + rd s.1 (lhs + i) * rd s.1 (rhs + j)) % 2 ^ 64
          (wr s.1 (result + i + j) (product % base), (product / base) % base))
        0 b.length (H, 0) = S at g hc gl gv ⊢
      have gw : frame H (wr S.1 (result + i + b.length) S.2) (result + i) (b.length + 1) :=
        frame_wr _ _ _ _ _ _ (frame_mono _ _ _ _ _ _ g (le_refl _) (by omega))
          (by omega) (by omega)
      refine ⟨frame_trans _ _ _ _ _ f (frame_mono _ _ _ _ _ _ gw (by omega) (by omega)),
        ?_, ?_⟩
      · intro k hk
        rcases Nat.lt_or_ge k i with h1 | h1
        · rw [gw.2 _ (by omega)]
          exact hl k hk
        · rcases Nat.lt_or_ge k (i + b.length) with h2 | h2
          · rw [rd_wr_ne _ _ _ _ (by omega)]
            have := gl (k - i) (by omega)
            rw [show result + i + (k - i) = result + k by omega] at this
            exact this
          · rcases Nat.eq_or_lt_of_le h2 with h3 | h3
            · rw [← h3, ← Nat.add_assoc, rd_wr_same _ _ _ (by rw [g.1, f.1]; omega)]
              exact hc
            · rw [gw.2 _ (by omega)]
              exact hl k hk
      · rw [show i + 1 + b.length = i + (b.length + 1) by omega,
          value_cells_append _ _ _ _ (by rw [gw.1, f.1]; omega),
          cells_of_frame_prefix H _ result i (b.length + 1) gw (by rw [f.1]; omega),
          cells_wr_snoc _ _ _ _ (by rw [g.1, f.1]; omega), value_snoc,
          cells_length _ _ _ (by rw [g.1, f.1]; omega), gv,
          value_take_succ a i hi2]
        rw [value_cells_append _ _ _ _ (by rw [f.1]; omega)] at hv
        have : value (cells H result i)
            + base ^ i * (value (cells H (result + i) b.length) + rd a i * value b)
            = (value (cells H result i) + base ^ i * value (cells H (result + i) b.length))
              + base ^ i * (rd a i * value b) := by ring
        rw [this, hv]
        ring)
  simp only [Nat.zero_add] at L
  obtain ⟨f, hl, hv⟩ := L
  rw [List.take_of_length_le (le_refl _)] at hv
  have hdef : long_multiplication h result lhs rhs a.length b.length
      = (if rd (for_up (fun i h =>
            let s := for_up (fun j (s : List Nat × Nat) =>
                let product := (rd s.1 (result + i + j) + s.2
                  + rd s.1 (lhs + i) * rd s.1 (rhs + j)) % 2 ^ 64
                (wr s.1 (result + i + j) (product % base), (product / base) % base))
              0 b.length (h, 0)
            wr s.1 (result + i + b.length) s.2)
          0 a.length (for_up (fun i h => wr h (result + i) 0) 0 (a.length + b.length) h))
          (result + (a.length + b.length - 1)) = 0
        then (for_up (fun i h =>
            let s := for_up (fun j (s : List Nat × Nat) =>
                let product := (rd s.1 (result + i + j) + s.2
                  + rd s.1 (lhs + i) * rd s.1 (rhs + j)) % 2 ^ 64
                (wr s.1 (result + i + j) (product % base), (product / base) % base))
              0 b.length (h, 0)
            wr s.1 (result + i + b.length) s.2)
          0 a.length (for_up (fun i h => wr h (result + i) 0) 0 (a.length + b.length) h),
          (a.length : Int) + (b.length : Int) - 1)
        else (for_up (fun i h =>
            let s := for_up (fun j (s : List Nat × Nat) =>
                let product := (rd s.1 (result + i + j) + s.2
                  + rd s.1 (lhs + i) * rd s.1 (rhs + j)) % 2 ^ 64
                (wr s.1 (result + i + j) (product % base), (product / base) % base))
              0 b.length (h, 0)
            wr s.1 (result + i + b.length) s.2)
          0 a.length (for_up (fun i h => wr h (result + i) 0) 0 (a.length + b.length) h),
          (a.length : Int) + (b.length : Int))) := by
    unfold long_multiplication
    simp only [e1, e2, Int.toNat_ofNat, Nat.add_assoc]
  rw [hdef]
  generalize for_up (fun i h =>
      let s := for_up (fun j (s : List Nat × Nat) =>
          let product := (rd s.1 (result + i + j) + s.2
            + rd s.1 (lhs + i) * rd s.1 (rhs + j)) % 2 ^ 64
          (wr s.1 (result + i + j) (product % base), (product / base) % base))
        0 b.length (h, 0)
      wr s.1 (result + i + b.length) s.2)
    0 a.length (for_up (fun i h => wr h (result + i) 0) 0 (a.length + b.length) h) = R
    at f hl hv ⊢
  split
  · next hz =>
    refine ⟨f, hl, hv, ?_⟩
    show (a.length : Int) + (b.length : Int) - 1 = ((a.length + b.length - 1 : Nat) : Int)
    omega
  · next hz =>
    refine ⟨f, hl, hv, ?_⟩
    show (a.length : Int) + (b.length : Int) = ((a.length + b.length : Nat) : Int)
    omega

theorem cells_take_append (h r : List Nat) (result n : Nat) (hr : result ≤ h.length) :
    cells (h.take result ++ r) result n = r.take n := by
  unfold cells
  rw [drop_take_append h r result hr]

theorem frame_take_append (h r : List Nat) (result n : Nat) (hr : result ≤ h.length)
    (hlen : r.length = (h.drop result).length)
    (hun : ∀ i, n ≤ i → i < r.length → rd r i = rd (h.drop result) i) :
    frame h (h.take result ++ r) result n := by
  have hl : (h.take result).length = result := length_take_le h result hr
  refine ⟨by rw [List.length_append, hl, hlen, List.length_drop]; omega, ?_⟩
  intro x hx
  apply rd_take_drop h result x r n hr _ hx
  intro i hi
  rcases Nat.lt_or_ge i r.length with h1 | h1
  · exact hun i hi h1
  · rw [rd_oob _ _ h1, rd_oob _ _ (by rw [← hlen]; exact h1)]

/-- What `add` leaves in the memory. -/
theorem add_at_spec (h : List Nat) (result lhs rhs : Nat) (a b : List Nat)
    (ha : normal_form a) (hb : normal_form b)
    (hla : cells h lhs a.length = a) (hlb : cells h rhs b.length = b)
    (h1 : lhs + a.length ≤ result ∨ result ≤ lhs) (h2 : rhs + b.length ≤ result ∨ result ≤ rhs)
    (hcap : result + max a.length b.length ≤ h.length)
    (hcarry : base ^ max a.length b.length ≤ value a + value b →
      result + max a.length b.length + 1 ≤ h.length) :
    ∃ n : Nat, (add_at h result lhs rhs a.length b.length).2 = (n : Int)
      ∧ (n = max a.length b.length ∨ n = max a.length b.length + 1)
      ∧ result + n ≤ h.length
      ∧ frame h (add_at h result lhs rhs a.length b.length).1 result n
      ∧ normal_form (cells (add_at h result lhs rhs a.length b.length).1 result n)
      ∧ value (cells (add_at h result lhs rhs a.length b.length).1 result n)
          = value a + value b := by
  have hr : result ≤ h.length := by omega
  have hRl : (h.drop result).length = h.length - result := List.length_drop _ _
  rw [add_at_eq h result lhs rhs a.length b.length hr h1 h2, add_take]
  have ea : (h.drop lhs).take a.length = a := hla
  have eb : (h.drop rhs).take b.length = b := hlb
  rw [ea, eb]
  obtain ⟨c1, c2⟩ := add_cut (h.drop result ++ [0]) a b a.length b.length (h.drop result).length
  rw [List.take_left] at c1 c2
  obtain ⟨s1, s2, s3, s4, s5⟩ := add_full_spec (h.drop result ++ [0]) a b ha hb
    (by rw [List.length_append, hRl, List.length_singleton]; omega)
  have hXl := add_length (h.drop result ++ [0]) a b a.length b.length
  rw [List.length_append, List.length_singleton] at hXl
  rw [c1, c2]
  generalize add (h.drop result ++ [0]) a b a.length b.length = X at s1 s2 s3 s4 s5 hXl
  obtain ⟨n, hn⟩ : ∃ n : Nat, X.2 = (n : Int) := by
    rcases s1 with e | e
    · exact ⟨_, e⟩
    · exact ⟨max a.length b.length + 1, by rw [e]; push_cast; rfl⟩
  rw [hn, Int.toNat_ofNat] at s2 s3 s5
  have hncase : n = max a.length b.length ∨ n = max a.length b.length + 1 := by
    rcases s1 with e | e
    · left; rw [hn] at e; exact_mod_cast e
    · right; rw [hn] at e; exact_mod_cast e
  have hnle : result + n ≤ h.length := by
    rcases hncase with e | e
    · omega
    · have := hcarry (s4.mp (by rw [hn, e]; push_cast; rfl))
      omega
  refine ⟨n, hn, hncase, hnle, ?_, ?_, ?_⟩
  · apply frame_take_append h _ result n hr
    · rw [List.length_take, hXl, hRl]
      omega
    · intro i hi hi2
      rw [List.length_take, hXl, hRl] at hi2
      rw [rd_take _ _ _ (by omega), rd_eq_of_drop_eq_le _ _ n i s5 hi,
        rd_append_lt _ _ _ (by omega)]
  · rw [cells_take_append h _ result n hr, List.take_take, Nat.min_eq_left (by omega)]
    exact s2
  · rw [cells_take_append h _ result n hr, List.take_take, Nat.min_eq_left (by omega)]
    exact s3

/-- What `sub` leaves in the memory. -/
theorem sub_at_spec (h : List Nat) (result lhs rhs : Nat) (a b : List Nat)
    (ha : ∀ x ∈ a, x < base) (hb : ∀ x ∈ b, x < base) (hal : 1 ≤ a.length)
    (hle : b.length ≤ a.length)
    (hla : cells h lhs a.length = a) (hlb : cells h rhs b.length = b)
    (h1 : lhs + a.length ≤ result ∨ result ≤ lhs) (h2 : rhs + b.length ≤ result ∨ result ≤ rhs)
    (hge : value b ≤ value a) (hcap : result + a.length ≤ h.length) :
    ∃ (h1 : List Nat) (n : Nat),
      sub_at h result lhs rhs a.length b.length = some (h1, (n : Int))
      ∧ 1 ≤ n ∧ n ≤ a.length ∧ frame h h1 result a.length
      ∧ normal_form (cells h1 result n) ∧ value (cells h1 result n) = value a - value b := by
  have hr : result ≤ h.length := by omega
  have hRl : (h.drop result).length = h.length - result := List.length_drop _ _
  have ea : (h.drop lhs).take a.length = a := hla
  have eb : (h.drop rhs).take b.length = b := hlb
  have hia := cells_inside h lhs a hla
  have hib := cells_inside h rhs b hlb
  rw [sub_at_eq h result lhs rhs a.length b.length hr h1 h2]
  obtain ⟨r, n, e, n1, n2, n3, n4, n5, n6⟩ := sub_normal (h.drop result) (h.drop lhs)
    (h.drop rhs) a.length b.length hal hle
    (by rw [List.length_drop]; omega) (by rw [List.length_drop]; omega)
    (fun i hi => by
      rw [← rd_take _ a.length i hi, ea]
      exact rd_lt a ha i)
    (fun i hi => by
      rw [← rd_take _ b.length i hi, eb]
      exact rd_lt b hb i)
    (by rw [ea, eb]; exact hge) (by rw [hRl]; omega)
  rw [e, ea, eb] at *
  refine ⟨_, n, rfl, n1, n2, ?_, ?_, ?_⟩
  · apply frame_take_append h _ result a.length hr n5
    intro i hi _
    exact rd_eq_of_drop_eq_le _ _ a.length i n6 hi
  · rw [cells_take_append h _ result n hr]
    exact n3
  · rw [cells_take_append h _ result n hr]
    exact n4

theorem cells_one (h : List Nat) (p : Nat) (hp : p < h.length) : cells h p 1 = [rd h p] := by
  have := cells_succ h p 0 (by omega)
  simpa [cells] using this

theorem cells_two (h : List Nat) (p : Nat) (hp : p + 1 < h.length) :
    cells h p 2 = [rd h p, rd h (p + 1)] := by
  rw [cells_succ h p 1 hp, cells_one h p (by omega)]
  rfl

theorem normal_form_pos_ge (a : List Nat) (ha : normal_form a) (h0 : value a ≠ 0) :
    base ^ (a.length - 1) ≤ value a := by
  rcases Nat.lt_or_ge 1 a.length with h | h
  · exact normal_form_ge a ha h
  · have : a.length - 1 = 0 := by omega
    rw [this, pow_zero]
    omega

theorem normal_form_zero_iff (h : List Nat) (p : Nat) (a : List Nat) (ha : normal_form a)
    (hla : cells h p a.length = a) :
    (((a.length : Int) = 1 ∧ rd h p = 0) ↔ value a = 0) := by
  have h1 := ha.1
  have hr := rd_of_cells h p a hla 0 (by omega)
  rw [Nat.add_zero] at hr
  rw [hr, normal_form_value_zero a ha]
  constructor
  · rintro ⟨e1, e2⟩
    have e3 : a.length = 1 := by exact_mod_cast e1
    obtain ⟨x, rfl⟩ := List.length_eq_one.mp e3
    simp [rd] at e2
    rw [e2]
  · intro e
    rw [e]
    exact ⟨rfl, rfl⟩

/-- What `mul_with_scratch_memory` leaves in the memory when it does not call
`karatsuba`. -/
theorem mul_small_spec (fuel : Nat) (h : List Nat) (result lhs rhs memory : Nat)
    (a b : List Nat) (ha : normal_form a) (hb : normal_form b)
    (hla : cells h lhs a.length = a) (hlb : cells h rhs b.length = b)
    (hsmall : a.length ≤ 30 ∨ b.length ≤ 30)
    (hres : result + a.length + b.length ≤ h.length)
    (hd1 : lhs + a.length ≤ result ∨ result + a.length + b.length ≤ lhs)
    (hd2 : rhs + b.length ≤ result ∨ result + a.length + b.length ≤ rhs) :
    ∃ (h1 : List Nat) (n : Nat),
      mul_with_scratch_memory (fuel + 1) h result lhs rhs a.length b.length memory
          = some (h1, (n : Int))
      ∧ 1 ≤ n ∧ n ≤ a.length + b.length ∧ frame h h1 result (a.length + b.length)
      ∧ normal_form (cells h1 result n) ∧ value (cells h1 result n) = value a * value b
      ∧ ((value a = 0 ∨ value b = 0) → n = 1 ∧ h1 = wr h result 0)
      ∧ (value a ≠ 0 → value b ≠ 0 →
          (∀ k, k < a.length + b.length → rd h1 (result + k) < base)
          ∧ value (cells h1 result (a.length + b.length)) = value a * value b
          ∧ (n = a.length + b.length
            ∨ (n = a.length + b.length - 1 ∧ rd h1 (result + (a.length + b.length - 1)) = 0)))
      ∧ (value a ≠ 0 → value b ≠ 0 → a.length = 1 → b.length = 1 →
          rd h1 result = (rd a 0 * rd b 0) % base
          ∧ rd h1 (result + 1) = (rd a 0 * rd b 0) / base)
      ∧ (value a ≠ 0 → value b ≠ 0 → ¬ (a.length = 1 ∧ b.length = 1) →
          h1 = (long_multiplication h result lhs rhs a.length b.length).1) := by
  have ha1 := ha.1
  have hb1 := hb.1
  have za := normal_form_zero_iff h lhs a ha hla
  have zb := normal_form_zero_iff h rhs b hb hlb
  have hra := rd_of_cells h lhs a hla
  have hrb := rd_of_cells h rhs b hlb
  unfold mul_with_scratch_memory
  by_cases hz : value a = 0 ∨ value b = 0
  · -- an operand is zero
    rw [if_pos (by
      rcases hz with e | e
      · exact Or.inl (za.mpr e)
      · exact Or.inr (zb.mpr e))]
    have hc : cells (wr h result 0) result 1 = [0] := by
      rw [cells_one _ _ (by rw [length_wr]; omega), rd_wr_same _ _ _ (by omega)]
    refine ⟨_, 1, rfl, le_refl _, by omega, ?_, ?_, ?_, fun _ => ⟨rfl, rfl⟩, ?_, ?_, ?_⟩
    · exact frame_wr _ _ _ _ _ _ (frame_refl _ _ _) (le_refl _) (by omega)
    · rw [hc]; decide
    · rw [hc]
      rcases hz with e | e
      · rw [e]; simp [value]
      · rw [e]; simp [value]
    · intro h0 h0'
      rcases hz with e | e
      · exact absurd e h0
      · exact absurd e h0'
    · intro h0 h0'
      rcases hz with e | e
      · exact absurd e h0
      · exact absurd e h0'
    · intro h0 h0'
      rcases hz with e | e
      · exact absurd e h0
      · exact absurd e h0'
  · push_neg at hz
    obtain ⟨hza, hzb⟩ := hz
    rw [if_neg (by
      rintro (e | e)
      · exact hza (za.mp e)
      · exact hzb (zb.mp e))]
    by_cases hone : a.length = 1 ∧ b.length = 1
    · -- two single limbs
      obtain ⟨ea, eb⟩ := hone
      rw [if_pos ⟨by exact_mod_cast ea, by exact_mod_cast eb⟩]
      obtain ⟨va, la⟩ := normal_form_single a ha ea
      obtain ⟨vb, lb⟩ := normal_form_single b hb eb
      have e0 : rd h lhs = rd a 0 := by have := hra 0 (by omega); rwa [Nat.add_zero] at this
      have e1 : rd h rhs = rd b 0 := by have := hrb 0 (by omega); rwa [Nat.add_zero] at this
      have hp : rd a 0 * rd b 0 < base * base := Nat.mul_lt_mul'' la lb
      have hhi : (rd a 0 * rd b 0) >>> 32 % base = rd a 0 * rd b 0 / base := by
        rw [Nat.shiftRight_eq_div_pow, show (2 : Nat) ^ 32 = base from rfl,
          Nat.mod_eq_of_lt ((Nat.div_lt_iff_lt_mul base_pos).mpr hp)]
      have hdm := Nat.div_add_mod (rd a 0 * rd b 0) base
      have hlo : rd a 0 * rd b 0 % base < base := Nat.mod_lt _ base_pos
      have hhb : rd a 0 * rd b 0 / base < base := (Nat.div_lt_iff_lt_mul base_pos).mpr hp
      dsimp only
      rw [e0, e1, hhi]
      have hr1 : rd (wr (wr h result (rd a 0 * rd b 0 % base)) (result + 1)
          (rd a 0 * rd b 0 / base)) (result + 1) = rd a 0 * rd b 0 / base :=
        rd_wr_same _ _ _ (by rw [length_wr]; omega)
      have hr0 : rd (wr (wr h result (rd a 0 * rd b 0 % base)) (result + 1)
          (rd a 0 * rd b 0 / base)) result = rd a 0 * rd b 0 % base := by
        rw [rd_wr_ne _ _ _ _ (by omega), rd_wr_same _ _ _ (by omega)]
      have hf : frame h (wr (wr h result (rd a 0 * rd b 0 % base)) (result + 1)
          (rd a 0 * rd b 0 / base)) result (a.length + b.length) :=
        frame_wr _ _ _ _ _ _ (frame_wr _ _ _ _ _ _ (frame_refl _ _ _) (le_refl _) (by omega))
          (by omega) (by omega)
      have hc2 := cells_two (wr (wr h result (rd a 0 * rd b 0 % base)) (result + 1)
          (rd a 0 * rd b 0 / base)) result (by rw [length_wr, length_wr]; omega)
      have hc1 := cells_one (wr (wr h result (rd a 0 * rd b 0 % base)) (result + 1)
          (rd a 0 * rd b 0 / base)) result (by rw [length_wr, length_wr]; omega)
      rw [hr0, hr1] at hc2
      rw [hr0] at hc1
      rw [hr1]
      generalize wr (wr h result (rd a 0 * rd b 0 % base)) (result + 1)
          (rd a 0 * rd b 0 / base) = H2 at hr0 hr1 hf hc1 hc2 ⊢
      have hfull : (∀ k, k < a.length + b.length → rd H2 (result + k) < base)
          ∧ value (cells H2 result (a.length + b.length)) = value a * value b := by
        refine ⟨?_, ?_⟩
        · intro k hk
          rcases Nat.eq_zero_or_pos k with h0 | h0
          · rw [h0, Nat.add_zero, hr0]; exact hlo
          · have : k = 1 := by omega
            rw [this, hr1]; exact hhb
        · rw [ea, eb, hc2, va, vb]
          simp only [value, Nat.mul_zero, Nat.add_zero]
          rw [Nat.add_comm]
          exact hdm
      by_cases hh0 : rd a 0 * rd b 0 / base = 0
      · rw [if_pos hh0]
        refine ⟨H2, 1, rfl, le_refl _, by omega, hf, ?_, ?_, ?_, ?_, ?_, ?_⟩
        · rw [hc1]
          exact ⟨by simp, fun x hx => by simp at hx; rw [hx]; exact hlo, Or.inl rfl⟩
        · rw [hc1, va, vb]
          simp only [value, Nat.mul_zero, Nat.add_zero]
          rw [hh0] at hdm
          omega
        · rintro (e | e)
          · exact absurd e hza
          · exact absurd e hzb
        · intro _ _
          refine ⟨hfull.1, hfull.2, Or.inr ⟨by omega, ?_⟩⟩
          rw [ea, eb, hr1, hh0]
        · intro _ _ _ _
          exact ⟨hr0, hr1⟩
        · intro _ _ hne
          exact absurd ⟨ea, eb⟩ hne
      · rw [if_neg hh0]
        refine ⟨H2, 2, rfl, by omega, by omega, hf, ?_, ?_, ?_, ?_, ?_, ?_⟩
        · rw [hc2]
          refine ⟨by simp, ?_, Or.inr ?_⟩
          · intro x hx
            simp only [List.mem_cons, List.mem_singleton, List.not_mem_nil, or_false] at hx
            rcases hx with e | e
            · rw [e]; exact hlo
            · rw [e]; exact hhb
          · exact hh0
        · rw [hc2, va, vb]
          simp only [value, Nat.mul_zero, Nat.add_zero]
          rw [Nat.add_comm]
          exact hdm
        · rintro (e | e)
          · exact absurd e hza
          · exact absurd e hzb
        · intro _ _
          exact ⟨hfull.1, hfull.2, Or.inl (by omega)⟩
        · intro _ _ _ _
          exact ⟨hr0, hr1⟩
        · intro _ _ hne
          exact absurd ⟨ea, eb⟩ hne
    · -- the schoolbook multiplication
      rw [if_neg (by
        rintro ⟨e1, e2⟩
        have e3 : a.length = 1 := by exact_mod_cast e1
        have e4 : b.length = 1 := by exact_mod_cast e2
        exact hone ⟨e3, e4⟩), if_neg (by
        unfold KARATSUBA_THRESHOLD
        rintro ⟨e1, e2⟩
        omega)]
      obtain ⟨f, hl, hv, hs⟩ := long_multiplication_spec h result lhs rhs a b ha.2.1 hb.2.1
        (by omega) (by omega) hla hlb hres hd1 hd2
      have hsum : 3 ≤ a.length + b.length := by
        by_contra hcon
        exact hone ⟨by omega, by omega⟩
      have hga := normal_form_pos_ge a ha hza
      have hgb := normal_form_pos_ge b hb hzb
      have hprod : base ^ (a.length + b.length - 2) ≤ value a * value b := by
        have : base ^ (a.length + b.length - 2)
            = base ^ (a.length - 1) * base ^ (b.length - 1) := by
          rw [← pow_add]
          congr 1
          omega
        rw [this]
        exact Nat.mul_le_mul hga hgb
      generalize long_multiplication h result lhs rhs a.length b.length = LM at f hl hv hs ⊢
      have hcl : ∀ k, k ≤ a.length + b.length → ∀ x ∈ cells LM.1 result k, x < base := by
        intro k hk
        exact cells_mem_lt _ _ _ (by rw [f.1]; omega) (fun i hi => hl i (by omega))
      by_cases ht : rd LM.1 (result + (a.length + b.length - 1)) = 0
      · rw [if_pos ht] at hs
        have hv1 : value (cells LM.1 result (a.length + b.length - 1)) = value a * value b := by
          rw [← hv, show a.length + b.length = (a.length + b.length - 1) + 1 by omega,
            cells_succ _ _ _ (by rw [f.1]; omega), value_snoc,
            show a.length + b.length - 1 + 1 - 1 = a.length + b.length - 1 by omega, ht,
            Nat.mul_zero, Nat.add_zero]
        refine ⟨LM.1, a.length + b.length - 1, by rw [← hs], by omega, by omega, f, ?_, hv1,
          ?_, ?_, ?_, ?_⟩
        · apply normal_form_of_value_ge _ (hcl _ (by omega))
          · rw [cells_length _ _ _ (by rw [f.1]; omega)]; omega
          · right
            rw [cells_length _ _ _ (by rw [f.1]; omega), hv1,
              show a.length + b.length - 1 - 1 = a.length + b.length - 2 by omega]
            exact hprod
        · rintro (e | e)
          · exact absurd e hza
          · exact absurd e hzb
        · intro _ _
          exact ⟨hl, hv, Or.inr ⟨rfl, ht⟩⟩
        · intro _ _ e1 e2
          exact absurd ⟨e1, e2⟩ hone
        · intro _ _ _
          rfl
      · rw [if_neg ht] at hs
        refine ⟨LM.1, a.length + b.length, by rw [← hs], by omega, le_refl _, f, ?_, hv,
          ?_, ?_, ?_, ?_⟩
        · have hlen := cells_length LM.1 result (a.length + b.length) (by rw [f.1]; omega)
          refine ⟨by rw [hlen]; omega, hcl _ (le_refl _), Or.inr ?_⟩
          rw [hlen]
          have := rd_cells LM.1 result (a.length + b.length) (a.length + b.length - 1)
            (by omega)
          unfold rd at this ht
          rw [this]
          exact ht
        · rintro (e | e)
          · exact absurd e hza
          · exact absurd e hzb
        · intro _ _
          exact ⟨hl, hv, Or.inl rfl⟩
        · intro _ _ e1 e2
          exact absurd ⟨e1, e2⟩ hone
        · intro _ _ _
          rfl

theorem normal_form_top (h : List Nat) (p n : Nat) (hp : p + n ≤ h.length) (hn : 2 ≤ n)
    (hnf : normal_form (cells h p n)) : rd h (p + (n - 1)) ≠ 0 := by
  have hlen := cells_length h p n hp
  have h3 := hnf.2.2
  rw [hlen] at h3
  rcases h3 with e | e
  · omega
  · have := rd_cells h p n (n - 1) (by omega)
    unfold rd at this ⊢
    rw [← this]
    exact e

/-- C22: for magnitudes `a` and `b` in normal form, at least one of them of at most 30
limbs, held in a memory with the `a.length + b.length` cells of `result` apart from them,
`mul` returns a size `n` and leaves in `result` the normal form of
`value a * value b`, writing no cell outside `result`: the single limb 0 when an operand
is the single limb 0; the two limbs of the 64-bit product, with `n` 1 or 2, when both
are single limbs; and otherwise what `long_multiplication` writes, with
`n = a.length + b.length`, or one less when the top limb is zero. -/
theorem mul_schoolbook_paths (fuel : Nat) (h : List Nat) (result lhs rhs memory : Nat)
    (a b : List Nat) (ha : normal_form a) (hb : normal_form b)
    (hla : cells h lhs a.length = a) (hlb : cells h rhs b.length = b)
    (hsmall : a.length ≤ 30 ∨ b.length ≤ 30)
    (hres : result + a.length + b.length ≤ h.length)
    (hd1 : lhs + a.length ≤ result ∨ result + a.length + b.length ≤ lhs)
    (hd2 : rhs + b.length ≤ result ∨ result + a.length + b.length ≤ rhs) :
    ∃ (h1 : List Nat) (n : Nat),
      mul (fuel + 1) h result lhs rhs a.length b.length memory = some (h1, (n : Int))
      ∧ 1 ≤ n ∧ n ≤ a.length + b.length ∧ frame h h1 result (a.length + b.length)
      ∧ normal_form (cells h1 result n) ∧ value (cells h1 result n) = value a * value b
      ∧ ((a = [0] ∨ b = [0]) → n = 1 ∧ cells h1 result 1 = [0])
      ∧ (a ≠ [0] → b ≠ [0] → a.length = 1 → b.length = 1 →
          rd h1 result = (rd a 0 * rd b 0) % base
          ∧ rd h1 (result + 1) = (rd a 0 * rd b 0) / base
          ∧ (n = 1 ∨ n = 2) ∧ (n = 1 ↔ (rd a 0 * rd b 0) / base = 0))
      ∧ (a ≠ [0] → b ≠ [0] → ¬ (a.length = 1 ∧ b.length = 1) →
          h1 = (long_multiplication h result lhs rhs a.length b.length).1
          ∧ (n = a.length + b.length ∨ n = a.length + b.length - 1)
          ∧ (n = a.length + b.length - 1
              ↔ rd h1 (result + (a.length + b.length - 1)) = 0)) := by
  have ha1 := ha.1
  have hb1 := hb.1
  have hm : mul (fuel + 1) h result lhs rhs a.length b.length memory
      = mul_with_scratch_memory (fuel + 1) h result lhs rhs a.length b.length 0 := by
    unfold mul
    rw [if_neg (by
      unfold KARATSUBA_THRESHOLD
      rintro ⟨e1, e2⟩
      omega)]
  rw [hm]
  obtain ⟨h1, n, e, n1, n2, f, nf, v, c0, c1, c2, c3⟩ := mul_small_spec fuel h result lhs rhs 0
    a b ha hb hla hlb hsmall hres hd1 hd2
  have za := normal_form_value_zero a ha
  have zb := normal_form_value_zero b hb
  refine ⟨h1, n, e, n1, n2, f, nf, v, ?_, ?_, ?_⟩
  · intro hz
    obtain ⟨e1, e2⟩ := c0 (by
      rcases hz with e | e
      · exact Or.inl (za.mpr e)
      · exact Or.inr (zb.mpr e))
    refine ⟨e1, ?_⟩
    rw [e2, cells_one _ _ (by rw [length_wr]; omega), rd_wr_same _ _ _ (by omega)]
  · intro h0 h0' ea eb
    have hza : value a ≠ 0 := fun e => h0 (za.mp e)
    have hzb : value b ≠ 0 := fun e => h0' (zb.mp e)
    obtain ⟨r0, r1⟩ := c2 hza hzb ea eb
    obtain ⟨_, _, cs⟩ := c1 hza hzb
    rw [ea, eb] at cs
    refine ⟨r0, r1, by omega, ?_⟩
    rcases cs with e2 | ⟨e1, t⟩
    · have := normal_form_top h1 result n (by rw [f.1]; omega) (by omega) nf
      rw [e2] at this
      rw [← r1]
      constructor
      · intro e3; omega
      · intro e3; exact absurd e3 this
    · rw [← r1]
      exact ⟨fun _ => t, fun _ => e1⟩
  · intro h0 h0' hne
    have hza : value a ≠ 0 := fun e => h0 (za.mp e)
    have hzb : value b ≠ 0 := fun e => h0' (zb.mp e)
    obtain ⟨_, _, cs⟩ := c1 hza hzb
    have hsum : 3 ≤ a.length + b.length := by
      by_contra hcon
      exact hne ⟨by omega, by omega⟩
    refine ⟨c3 hza hzb hne, by omega, ?_⟩
    rcases cs with e2 | ⟨e1, t⟩
    · have := normal_form_top h1 result n (by rw [f.1]; omega) (by omega) nf
      rw [e2] at this
      constructor
      · intro e3; omega
      · intro e3; exact absurd e3 this
    · exact ⟨fun _ => t, fun _ => e1⟩

theorem mul_schoolbook_paths_witness :
    normal_form [4294967295, 1] ∧ normal_form [2, 3]
      ∧ cells [0, 7, 7, 7, 7, 4294967295, 1, 2, 3] 5 2 = [4294967295, 1]
      ∧ cells [0, 7, 7, 7, 7, 4294967295, 1, 2, 3] 7 2 = [2, 3]
      ∧ ∃ (h1 : List Nat) (n : Nat),
        mul (0 + 1) [0, 7, 7, 7, 7, 4294967295, 1, 2, 3] 1 5 7
            (([4294967295, 1] : List Nat).length : Int) (([2, 3] : List Nat).length : Int) 0
          = some (h1, (n : Int))
        ∧ normal_form (cells h1 1 n)
        ∧ value (cells h1 1 n) = value [4294967295, 1] * value [2, 3] :=
  ⟨by decide, by decide, by decide, by decide,
    (mul_schoolbook_paths 0 [0, 7, 7, 7, 7, 4294967295, 1, 2, 3] 1 5 7 0 [4294967295, 1] [2, 3]
      (by decide) (by decide) (by decide) (by decide) (by decide) (by decide) (by decide)
      (by decide)).imp fun _ h => h.imp fun _ h => ⟨h.1, h.2.2.2.2.1, h.2.2.2.2.2.1⟩⟩

theorem apart_sub (p n q m x k y l : Nat) (h : apart p n q m) (hx : p ≤ x)
    (hk : x + k ≤ p + n) (hy : q ≤ y) (hl : y + l ≤ q + m) : x + k ≤ y ∨ y + l ≤ x := by
  unfold apart at h
  omega

theorem frame2_refl (h : List Nat) (p n q m : Nat) : frame2 h h p n q m :=
  ⟨rfl, fun _ _ _ => rfl⟩

theorem frame2_left (h h1 h2 : List Nat) (p n q m p1 n1 : Nat) (f : frame2 h h1 p n q m)
    (g : frame h1 h2 p1 n1) (hp : p ≤ p1) (hn : p1 + n1 ≤ p + n) : frame2 h h2 p n q m :=
  ⟨by rw [g.1, f.1], fun x hx hy => by rw [g.2 x (by omega), f.2 x hx hy]⟩

theorem frame2_right (h h1 h2 : List Nat) (p n q m q1 m1 : Nat) (f : frame2 h h1 p n q m)
    (g : frame h1 h2 q1 m1) (hq : q ≤ q1) (hm : q1 + m1 ≤ q + m) : frame2 h h2 p n q m :=
  ⟨by rw [g.1, f.1], fun x hx hy => by rw [g.2 x (by omega), f.2 x hx hy]⟩

theorem cells_frame2 (h h1 : List Nat) (p n q m x k : Nat) (f : frame2 h h1 p n q m)
    (h1x : x + k ≤ p ∨ p + n ≤ x) (h2x : x + k ≤ q ∨ q + m ≤ x) (hx : x + k ≤ h.length) :
    cells h1 x k = cells h x k :=
  cells_eq_of_rd h h1 x k hx (by rw [f.1]; exact hx)
    (fun i hi => f.2 _ (by omega) (by omega))

theorem trim_congr (p q : List Nat) : ∀ n, (∀ i, i < n → rd p i = rd q i) →
    trim p n = trim q n := by
  intro n
  induction n using Nat.strongRecOn with
  | _ n ih =>
    intro hrd
    match n with
    | 0 => rfl
    | 1 => rfl
    | k + 2 =>
      unfold trim
      rw [hrd (k + 1) (by omega), ih (k + 1) (by omega) (fun i hi => hrd i (by omega))]

/-- The two halves `karatsuba` cuts an operand into. -/
theorem operand_split (h : List Nat) (lhs : Nat) (a : List Nat) (m2n : Nat)
    (ha : normal_form a) (hla : cells h lhs a.length = a) (hm1 : 1 ≤ m2n)
    (hs : m2n + 2 ≤ a.length) :
    1 ≤ trim_at h lhs m2n ∧ trim_at h lhs m2n ≤ m2n
      ∧ normal_form (a.take (trim_at h lhs m2n))
      ∧ (a.take (trim_at h lhs m2n)).length = trim_at h lhs m2n
      ∧ cells h lhs (trim_at h lhs m2n) = a.take (trim_at h lhs m2n)
      ∧ normal_form (a.drop m2n) ∧ (a.drop m2n).length = a.length - m2n
      ∧ cells h (lhs + m2n) (a.length - m2n) = a.drop m2n
      ∧ value a = value (a.take (trim_at h lhs m2n)) + base ^ m2n * value (a.drop m2n)
      ∧ value (a.take (trim_at h lhs m2n)) < base ^ m2n
      ∧ base ^ (a.length - m2n - 1) ≤ value (a.drop m2n)
      ∧ value (a.drop m2n) < base ^ (a.length - m2n) := by
  have hra := rd_of_cells h lhs a hla
  have et : trim_at h lhs m2n = trim a m2n := by
    rw [trim_at_eq]
    apply trim_congr
    intro i hi
    rw [rd_drop]
    exact hra i (by omega)
  rw [et]
  obtain ⟨t1, t2, t3, t4⟩ := trim_spec a m2n hm1 (by omega)
  have hlt : (a.take (trim a m2n)).length = trim a m2n := length_take_le _ _ (by omega)
  have hld : (a.drop m2n).length = a.length - m2n := List.length_drop _ _
  have hdl : ∀ x ∈ a.drop m2n, x < base := fun x hx => ha.2.1 x (List.mem_of_mem_drop hx)
  have hnd : normal_form (a.drop m2n) := by
    refine ⟨by omega, hdl, Or.inr ?_⟩
    rw [hld]
    have h3 := ha.2.2
    rcases h3 with e | e
    · omega
    · have e2 : (a.drop m2n).getD (a.length - m2n - 1) 0 = a.getD (a.length - 1) 0 := by
        have := rd_drop a m2n (a.length - m2n - 1)
        unfold rd at this
        rw [this]
        congr 1
        omega
      rw [e2]
      exact e
  have hva : value a = value (a.take m2n) + base ^ m2n * value (a.drop m2n) := by
    conv_lhs => rw [← List.take_append_drop m2n a]
    rw [value_append, length_take_le _ _ (by omega)]
  refine ⟨t1, t2, ?_, hlt, ?_, hnd, hld, ?_, ?_, ?_, ?_, ?_⟩
  · refine ⟨by omega, limbs_take a ha.2.1 _, ?_⟩
    rw [hlt]
    rcases t4 with e | e
    · exact Or.inl e
    · right
      have := rd_take a (trim a m2n) (trim a m2n - 1) (by omega)
      unfold rd at this e
      rw [this]
      exact e
  · rw [← cells_take h lhs a.length _ (by omega), hla]
  · have := cells_drop h lhs a.length m2n
    rw [hla] at this
    exact this.symm
  · rw [hva, t3]
  · rw [t3]
    exact value_take_lt a ha.2.1 m2n
  · have := normal_form_ge _ hnd (by omega)
    rw [hld] at this
    exact this
  · have := value_lt _ hdl
    rw [hld] at this
    exact this

/-- The identity behind `karatsuba`. -/
theorem karatsuba_identity (l1 h1 l2 h2 B : Nat) :
    (l1 + B * h1) * (l2 + B * h2)
      = l1 * l2 + B * ((l1 + h1) * (l2 + h2) - h1 * h2 - l1 * l2) + B * B * (h1 * h2) := by
  have e : (l1 + h1) * (l2 + h2) - h1 * h2 - l1 * l2 = l1 * h2 + h1 * l2 := by
    have : (l1 + h1) * (l2 + h2) = l1 * h2 + h1 * l2 + h1 * h2 + l1 * l2 := by ring
    omega
  rw [e]
  ring

/-- The zero fill of `karatsuba`, whose loop variable is the address. -/
theorem zero_span_spec (h : List Nat) (lo n : Nat) (hn : lo + n ≤ h.length) :
    frame h (for_up (fun z h => wr h z 0) lo n h) lo n
      ∧ ∀ z, lo ≤ z → z < lo + n → rd (for_up (fun z h => wr h z 0) lo n h) z = 0 := by
  have L := for_up_inv
    (fun i (hh : List Nat) => frame h hh lo (i - lo) ∧ ∀ z, lo ≤ z → z < i → rd hh z = 0)
    (fun z h => wr h z 0) n lo h ⟨frame_refl _ _ _, fun z h1 h2 => by omega⟩
    (by
      intro i t h1 h2 ⟨f, z⟩
      refine ⟨frame_wr _ _ _ _ _ _ (frame_mono _ _ _ _ _ _ f (le_refl _) (by omega))
        (by omega) (by omega), ?_⟩
      intro k hk1 hk2
      rcases Nat.lt_or_ge k i with h3 | h3
      · rw [rd_wr_ne _ _ _ _ (by omega)]
        exact z k hk1 h3
      · have : k = i := by omega
        rw [this, rd_wr_same _ _ _ (by rw [f.1]; omega)])
  simp only [show lo + n - lo = n by omega] at L
  exact L

theorem value_cells_zero (h : List Nat) (p n : Nat) (hp : p + n ≤ h.length)
    (hz : ∀ i, i < n → rd h (p + i) = 0) : value (cells h p n) = 0 := by
  induction n with
  | zero => simp [cells, value]
  | succ k ih =>
    rw [cells_succ h p k (by omega), value_snoc, ih (by omega) (fun i hi => hz i (by omega)),
      hz k (by omega)]
    simp

theorem normal_form_size_le (x : List Nat) (hx : normal_form x) (k : Nat)
    (hv : value x < base ^ k) (hk : 1 ≤ k) : x.length ≤ k := by
  rcases Nat.lt_or_ge 1 x.length with h | h
  · have h1 := normal_form_ge x hx h
    have h2 : base ^ (x.length - 1) < base ^ k := lt_of_le_of_lt h1 hv
    have := (Nat.pow_lt_pow_iff_right (show 1 < base by unfold base; norm_num)).mp h2
    omega
  · omega

theorem normal_form_cells_zero (h : List Nat) (p n : Nat) (hp : p + n ≤ h.length)
    (hnf : normal_form (cells h p n)) :
    (((n : Int) = 1 ∧ rd h p = 0) ↔ value (cells h p n) = 0) := by
  have hlen := cells_length h p n hp
  have := normal_form_zero_iff h p (cells h p n) hnf (by rw [hlen])
  rw [hlen] at this
  exact this

set_option maxHeartbeats 4000000 in
theorem karatsuba_unfold
    (recur : List Nat → Nat → Nat → Nat → Int → Int → Nat → Option (List Nat × Int))
    (h : List Nat) (result lhs rhs memory la lb mn m2n T1 T2 : Nat)
    (h1 h2 R1 R0 R2 S1 S2 HZ : List Nat) (n1 n2 z1n z0n z2n s1n s2n : Nat)
    (hmn : mn = max la lb) (hm2n : m2n = mn / 2)
    (hs1 : m2n + 2 ≤ la) (hs2 : m2n + 2 ≤ lb)
    (hT1 : trim_at h lhs m2n = T1) (hT2 : trim_at h rhs m2n = T2)
    (e1 : add_at h result lhs (lhs + m2n) (T1 : Int) ((la - m2n : Nat) : Int) = (h1, (n1 : Int)))
    (c1 : n1 ≤ m2n + 2)
    (e2 : add_at h1 (result + (m2n + 2)) rhs (rhs + m2n) (T2 : Int) ((lb - m2n : Nat) : Int)
      = (h2, (n2 : Int)))
    (c2 : m2n + 2 + n2 ≤ la + lb)
    (e3 : recur h2 memory result (result + (m2n + 2)) (n1 : Int) (n2 : Int)
      (memory + ((n1 : Int) + (n2 : Int)).toNat) = some (R1, (z1n : Int)))
    (e4 : recur R1 result lhs rhs (T1 : Int) (T2 : Int) (memory + z1n) = some (R0, (z0n : Int)))
    (c3 : z0n ≤ m2n * 2)
    (e5 : recur R0 (result + m2n * 2) (lhs + m2n) (rhs + m2n) ((la - m2n : Nat) : Int)
      ((lb - m2n : Nat) : Int) (memory + z1n) = some (R2, (z2n : Int)))
    (e6 : sub_at R2 memory memory (result + m2n * 2) (z1n : Int) (z2n : Int)
      = some (S1, (s1n : Int)))
    (e7 : sub_at S1 memory memory result (s1n : Int) (z0n : Int) = some (S2, (s2n : Int)))
    (c4 : ¬ (z2n = 1 ∧ rd S2 (result + m2n * 2) = 0))
    (e8 : for_up (fun z h => wr h z 0) (result + z0n) (result + m2n * 2 - (result + z0n)) S2
      = HZ)
    (c5 : m2n * 2 + z2n ≤ la + lb) :
    karatsuba recur h result lhs rhs (la : Int) (lb : Int) memory
      = if ¬ (s2n = 1 ∧ rd HZ memory = 0) then
          some ((add_at HZ (result + m2n) (result + m2n) memory
                  ((m2n : Int) * 2 + (z2n : Int) - (m2n : Int)) (s2n : Int)).1,
                (add_at HZ (result + m2n) (result + m2n) memory
                  ((m2n : Int) * 2 + (z2n : Int) - (m2n : Int)) (s2n : Int)).2 + (m2n : Int))
        else some (HZ, (m2n : Int) * 2 + (z2n : Int)) := by
  have hm1 : 1 ≤ m2n := by omega
  have e_m : max (la : Int) (lb : Int) = (mn : Int) := by
    rw [hmn, Nat.cast_max]
  have e_m2 : Int.tdiv (mn : Int) 2 = (m2n : Int) := by
    rw [hm2n, show (2 : Int) = ((2 : Nat) : Int) from rfl, Int.ofNat_tdiv]
  have e_l1 : min (m2n : Int) (la : Int) = (m2n : Int) := by omega
  have e_l2 : min (m2n : Int) (lb : Int) = (m2n : Int) := by omega
  have e_h1 : min ((mn : Int) - m2n) ((la : Int) - m2n)
      = ((la - m2n : Nat) : Int) := by omega
  have e_h2 : min ((mn : Int) - m2n) ((lb : Int) - m2n)
      = ((lb - m2n : Nat) : Int) := by omega
  have e_t1 : (if (m2n : Int) > 1 then ((T1 : Nat) : Int) else (m2n : Int))
      = ((T1 : Nat) : Int) := by
    split
    · rfl
    · have : m2n = 1 := by omega
      rw [← hT1, this]; rfl
  have e_t2 : (if (m2n : Int) > 1 then ((T2 : Nat) : Int) else (m2n : Int))
      = ((T2 : Nat) : Int) := by
    split
    · rfl
    · have : m2n = 1 := by omega
      rw [← hT2, this]; rfl
  have e_p1 : ¬ (((la - m2n : Nat) : Int) ≤ 0) := by omega
  have e_p2 : ¬ (((lb - m2n : Nat) : Int) ≤ 0) := by omega
  have e_n1 : ((m2n : Int) + 2).toNat = m2n + 2 := by omega
  have e_n2 : ((m2n : Int) * 2).toNat = m2n * 2 := by omega
  have d1 : (n1 : Int) ≤ (m2n : Int) + 2 := by omega
  have d2 : (m2n : Int) + 2 + (n2 : Int) ≤ (la : Int) + (lb : Int) := by omega
  have d3 : (z0n : Int) ≤ (m2n : Int) * 2 := by omega
  have d4 : ¬ ((z2n : Int) = 1 ∧ rd S2 (result + m2n * 2) = 0) := by
    intro hc
    exact c4 ⟨by omega, hc.2⟩
  have d5 : (m2n : Int) * 2 + (z2n : Int) ≤ (la : Int) + (lb : Int) := by omega
  have d6 : ((s2n : Int) = 1) = (s2n = 1) := by
    apply propext
    constructor <;> intro hh <;> omega
  unfold karatsuba
  simp only [e_m, e_m2, e_l1, e_l2, e_h1, e_h2, Int.toNat_ofNat, hT1, hT2, e_t1, e_t2, e_p1,
    if_false, e_p2, e_n1, e_n2, e1, d1, not_true_eq_false, e2, d2, e3, Option.some_bind, e4, d3,
    e5, e6, e7, d4, not_false_eq_true, if_true, e8, d5, d6]

theorem normal_form_top_ne (h : List Nat) (p n : Nat) (hp : p + n ≤ h.length)
    (hnf : normal_form (cells h p n)) (hv : value (cells h p n) ≠ 0) :
    rd h (p + (n - 1)) ≠ 0 := by
  have hlen := cells_length h p n hp
  have h1 := hnf.1
  rw [hlen] at h1
  rcases Nat.lt_or_ge n 2 with h2 | h2
  · have e : n = 1 := by omega
    subst e
    rw [cells_one h p (by omega)] at hv
    simpa [value] using hv
  · exact normal_form_top h p n hp h2 hnf

theorem normal_form_cells_of (h : List Nat) (p n : Nat) (hp : p + n ≤ h.length) (hn : 1 ≤ n)
    (hlt : ∀ i, i < n → rd h (p + i) < base) (htop : rd h (p + (n - 1)) ≠ 0) :
    normal_form (cells h p n) := by
  have hlen := cells_length h p n hp
  refine ⟨by omega, cells_mem_lt h p n hp hlt, Or.inr ?_⟩
  rw [hlen]
  have := rd_cells h p n (n - 1) (by omega)
  unfold rd at this htop
  rw [this]
  exact htop

theorem value_cells_pad (h : List Nat) (p n N : Nat) (hN : p + N ≤ h.length) (hn : n ≤ N)
    (hz : ∀ k, n ≤ k → k < N → rd h (p + k) = 0) :
    value (cells h p N) = value (cells h p n) := by
  have e : N = n + (N - n) := by omega
  rw [e, value_cells_append h p n (N - n) (by omega),
    value_cells_zero h (p + n) (N - n) (by omega)
      (fun i hi => by rw [Nat.add_assoc]; exact hz (n + i) (by omega) (by omega))]
  simp

theorem cross_ge (x y u v : Nat) : x * u ≤ (x + y) * (u + v) - y * v := by
  have : (x + y) * (u + v) = x * u + x * v + y * u + y * v := by ring
  have h2 : 0 ≤ x * v + y * u := Nat.zero_le _
  omega

theorem cross_ge2 (x y u v : Nat) : y * v ≤ (x + y) * (u + v) :=
  Nat.mul_le_mul (Nat.le_add_left _ _) (Nat.le_add_left _ _)

theorem frame2_trans (h h1 h2 : List Nat) (p n q m : Nat) (f : frame2 h h1 p n q m)
    (g : frame2 h1 h2 p n q m) : frame2 h h2 p n q m :=
  ⟨by rw [g.1, f.1], fun x hx hy => by rw [g.2 x hx hy, f.2 x hx hy]⟩

/-- The second half of `karatsuba`: with the three products in place (`z0` and `z2` in the
result buffer, `z1` in the scratch memory), the two subtractions, the zero fill and the final
addition leave the product in the result buffer. -/
theorem karatsuba_assemble (R2 : List Nat) (result memory m2n N sc z1n z0n z2n x y u v T : Nat)
    (hm1 : 1 ≤ m2n) (hres : result + N ≤ R2.length) (hmem : memory + sc ≤ R2.length)
    (hRM : apart result N memory sc) (hT : T < base ^ N)
    (hprod : T = x * u + base ^ m2n * ((x + y) * (u + v) - y * v - x * u)
      + base ^ m2n * base ^ m2n * (y * v))
    (hP2 : y * v ≠ 0)
    (m12 : 1 ≤ z1n) (b3 : z1n ≤ sc) (m15 : normal_form (cells R2 memory z1n))
    (m16 : value (cells R2 memory z1n) = (x + y) * (u + v))
    (m02 : 1 ≤ z0n) (c3 : z0n ≤ m2n * 2) (m05 : normal_form (cells R2 result z0n))
    (m06 : value (cells R2 result z0n) = x * u)
    (m22 : 1 ≤ z2n) (c5 : m2n * 2 + z2n ≤ N)
    (m25 : normal_form (cells R2 (result + m2n * 2) z2n))
    (m26 : value (cells R2 (result + m2n * 2) z2n) = y * v)
    (m281 : ∀ k, m2n * 2 ≤ k → k < N → rd R2 (result + k) < base)
    (m282 : value (cells R2 (result + m2n * 2) (N - m2n * 2)) = y * v)
    (ztop : ∀ k, m2n * 2 + z2n ≤ k → k < N → rd R2 (result + k) = 0) :
    ∃ (S1 S2 : List Nat) (s1n s2n : Nat),
      sub_at R2 memory memory (result + m2n * 2) (z1n : Int) (z2n : Int) = some (S1, (s1n : Int))
      ∧ sub_at S1 memory memory result (s1n : Int) (z0n : Int) = some (S2, (s2n : Int))
      ∧ ¬ (z2n = 1 ∧ rd S2 (result + m2n * 2) = 0)
      ∧ ∃ (hk : List Nat) (n : Nat),
        (if ¬ (s2n = 1 ∧ rd (for_up (fun z h => wr h z 0) (result + z0n)
              (result + m2n * 2 - (result + z0n)) S2) memory = 0) then
          some ((add_at (for_up (fun z h => wr h z 0) (result + z0n)
                    (result + m2n * 2 - (result + z0n)) S2) (result + m2n) (result + m2n)
                  memory ((m2n : Int) * 2 + (z2n : Int) - (m2n : Int)) (s2n : Int)).1,
                (add_at (for_up (fun z h => wr h z 0) (result + z0n)
                    (result + m2n * 2 - (result + z0n)) S2) (result + m2n) (result + m2n)
                  memory ((m2n : Int) * 2 + (z2n : Int) - (m2n : Int)) (s2n : Int)).2
                  + (m2n : Int))
        else some (for_up (fun z h => wr h z 0) (result + z0n)
              (result + m2n * 2 - (result + z0n)) S2, (m2n : Int) * 2 + (z2n : Int)))
          = some (hk, (n : Int))
        ∧ frame2 R2 hk result N memory sc
        ∧ (∀ k, k < N → rd hk (result + k) < base)
        ∧ value (cells hk result N) = T
        ∧ normal_form (cells hk result n) ∧ value (cells hk result n) = T ∧ n ≤ N := by
  have hb1 : 1 < base := by unfold base; norm_num
  obtain ⟨D, hD⟩ : ∃ D, N = m2n * 2 + D := ⟨N - m2n * 2, by omega⟩
  have eD : N - m2n * 2 = D := by omega
  rw [eD] at m282
  clear eD
  -- z1 -= z2
  have hle := cross_ge2 x y u v
  rw [← m16, ← m26] at hle
  have k1 := cells_length R2 memory z1n (by omega)
  have k2 := cells_length R2 (result + m2n * 2) z2n (by omega)
  have hlen := normal_form_length_le _ _ m25 m15 hle
  rw [k1, k2] at hlen
  obtain ⟨S1, s1n, s11, s12, s13, s14, s15, s16⟩ := sub_at_spec R2 memory memory
    (result + m2n * 2) (cells R2 memory z1n) (cells R2 (result + m2n * 2) z2n) m15.2.1 m25.2.1
    (by rw [k1]; exact m12) (by rw [k1, k2]; exact hlen) (by rw [k1]) (by rw [k2])
    (Or.inr (le_refl _))
    (by rw [k2]
        have := apart_sub _ _ _ _ (result + m2n * 2) z2n memory 0 hRM (by omega)
          (by omega) (le_refl _) (by omega)
        omega)
    hle (by rw [k1]; omega)
  rw [k1, k2] at s11
  rw [k1] at s13 s14
  rw [m16, m26] at s16
  have lenS1 : S1.length = R2.length := s14.1
  clear hle k1 k2 hlen m15 m16
  -- z1 -= z0
  have e71 : cells S1 result z0n = cells R2 result z0n :=
    cells_frame R2 S1 memory z1n result z0n s14
      (by have := apart_sub _ _ _ _ result z0n memory z1n hRM (le_refl _)
            (by omega) (le_refl _) (by omega)
          omega) (by omega)
  have m05s : normal_form (cells S1 result z0n) := by rw [e71]; exact m05
  have hle2 := cross_ge x y u v
  rw [← m06, ← e71, ← s16] at hle2
  have k3 := cells_length S1 memory s1n (by rw [lenS1]; omega)
  have k4 := cells_length S1 result z0n (by rw [lenS1]; omega)
  have hlen2 := normal_form_length_le _ _ m05s s15 hle2
  rw [k3, k4] at hlen2
  obtain ⟨S2, s2n, s21, s22, s23, s24, s25, s26⟩ := sub_at_spec S1 memory memory
    result (cells S1 memory s1n) (cells S1 result z0n) s15.2.1 m05s.2.1
    (by rw [k3]; exact s12) (by rw [k3, k4]; exact hlen2) (by rw [k3]) (by rw [k4])
    (Or.inr (le_refl _))
    (by rw [k4]
        have := apart_sub _ _ _ _ result z0n memory 0 hRM (le_refl _)
          (by omega) (le_refl _) (by omega)
        omega)
    hle2 (by rw [k3, lenS1]; omega)
  rw [k3, k4] at s21
  rw [k3] at s23 s24
  rw [s16, e71, m06] at s26
  have lenS2 : S2.length = R2.length := by rw [s24.1, lenS1]
  have F7 : frame2 R2 S2 result N memory sc :=
    frame2_right _ _ _ _ _ _ _ _ _ (frame2_right _ _ _ _ _ _ _ _ _ (frame2_refl _ _ _ _ _) s14
      (le_refl _) (by omega)) s24 (le_refl _) (by omega)
  have FM : frame R2 S2 memory z1n :=
    frame_trans R2 S1 S2 memory z1n s14
      (frame_mono S1 S2 memory s1n memory z1n s24 (le_refl _) (by omega))
  have b4 : s2n ≤ sc := by omega
  clear e71 m05s hle2 k3 k4 hlen2 s15 s16
  -- the gap between z0 and z2 is cleared
  have e81 : cells S2 (result + m2n * 2) z2n = cells R2 (result + m2n * 2) z2n :=
    cells_frame R2 S2 memory z1n (result + m2n * 2) z2n FM
      (by have := apart_sub _ _ _ _ (result + m2n * 2) z2n memory z1n hRM (by omega)
            (by omega) (le_refl _) (by omega)
          omega) (by omega)
  have c4 : ¬ (z2n = 1 ∧ rd S2 (result + m2n * 2) = 0) := by
    intro hc
    have := (normal_form_cells_zero S2 (result + m2n * 2) z2n (by rw [lenS2]; omega)
      (by rw [e81]; exact m25)).mp ⟨by omega, hc.2⟩
    rw [e81, m26] at this
    exact hP2 this
  refine ⟨S1, S2, s1n, s2n, s11, s21, c4, ?_⟩
  clear s11 s21 c4 e81
  obtain ⟨zf, zz⟩ := zero_span_spec S2 (result + z0n) (result + m2n * 2 - (result + z0n))
    (by rw [lenS2]; omega)
  generalize for_up (fun z h => wr h z 0) (result + z0n)
    (result + m2n * 2 - (result + z0n)) S2 = HZ at zf zz ⊢
  have lenHZ : HZ.length = R2.length := by rw [zf.1, lenS2]
  have FZ : frame2 R2 HZ result N memory sc :=
    frame2_left _ _ _ _ _ _ _ _ _ F7 zf (by omega) (by omega)
  have hz_lo : ∀ k, k < z0n → rd HZ (result + k) = rd R2 (result + k) := by
    intro k hk
    rw [zf.2 _ (by omega)]
    exact FM.2 _ (by
      have := apart_sub _ _ _ _ (result + k) 1 memory z1n hRM (by omega) (by omega)
        (le_refl _) (by omega)
      omega)
  have hz_mid : ∀ k, z0n ≤ k → k < m2n * 2 → rd HZ (result + k) = 0 := by
    intro k hk1 hk2
    exact zz _ (by omega) (by omega)
  have hz_hi : ∀ k, m2n * 2 ≤ k → k < N → rd HZ (result + k) = rd R2 (result + k) := by
    intro k hk1 hk2
    rw [zf.2 _ (by omega)]
    exact FM.2 _ (by
      have := apart_sub _ _ _ _ (result + k) 1 memory z1n hRM (by omega) (by omega)
        (le_refl _) (by omega)
      omega)
  have eC : cells HZ memory s2n = cells S2 memory s2n :=
    cells_frame S2 HZ (result + z0n) (result + m2n * 2 - (result + z0n)) memory s2n zf
      (by have := apart_sub _ _ _ _ (result + z0n) (m2n * 2 - z0n) memory s2n hRM (by omega)
            (by omega) (le_refl _) (by omega)
          omega) (by rw [lenS2]; omega)
  rw [← eC] at s25 s26
  clear eC zf zz F7 FM s14 s24 s13 s23 s12 lenS1 lenS2 b3 m12
  -- what the result buffer holds before the middle term is added
  have hlt : ∀ k, k < N → rd HZ (result + k) < base := by
    intro k hk
    rcases Nat.lt_or_ge k z0n with h1 | h1
    · rw [hz_lo k h1, ← rd_cells R2 result z0n k h1]
      exact rd_lt _ m05.2.1 k
    · rcases Nat.lt_or_ge k (m2n * 2) with h2 | h2
      · rw [hz_mid k h1 h2]
        exact base_pos
      · rw [hz_hi k h2 hk]
        exact m281 k h2 hk
  have vZ0 : value (cells HZ result z0n) = x * u := by
    rw [cells_eq_of_rd R2 HZ result z0n (by omega) (by rw [lenHZ]; omega)
      (fun i hi => hz_lo i hi)]
    exact m06
  have vlow : value (cells HZ result (m2n * 2)) = x * u := by
    rw [value_cells_pad HZ result z0n (m2n * 2) (by rw [lenHZ]; omega) c3
      (fun k h1 h2 => hz_mid k h1 h2), vZ0]
  have vhigh : value (cells HZ (result + m2n * 2) D) = y * v := by
    rw [cells_eq_of_rd R2 HZ (result + m2n * 2) D (by omega) (by rw [lenHZ]; omega)
      (fun i hi => by rw [Nat.add_assoc]; exact hz_hi (m2n * 2 + i) (by omega) (by omega))]
    exact m282
  have vfull : value (cells HZ result N)
      = x * u + base ^ m2n * base ^ m2n * (y * v) := by
    rw [hD, value_cells_append HZ result (m2n * 2) D (by rw [lenHZ]; omega), vlow, vhigh,
      Nat.mul_two, pow_add]
  have ztopZ : ∀ k, m2n * 2 + z2n ≤ k → k < N → rd HZ (result + k) = 0 := by
    intro k hk1 hk2
    rw [hz_hi k (by omega) hk2]
    exact ztop k hk1 hk2
  have vZ : value (cells HZ result (m2n * 2 + z2n))
      = x * u + base ^ m2n * base ^ m2n * (y * v) := by
    rw [← value_cells_pad HZ result (m2n * 2 + z2n) N (by rw [lenHZ]; omega) c5 ztopZ]
    exact vfull
  have topnz : rd HZ (result + (m2n * 2 + z2n - 1)) ≠ 0 := by
    rw [hz_hi _ (by omega) (by omega)]
    have := normal_form_top_ne R2 (result + m2n * 2) z2n (by omega) m25
      (by rw [m26]; exact hP2)
    rw [show result + m2n * 2 + (z2n - 1) = result + (m2n * 2 + z2n - 1) by omega] at this
    exact this
  have vsplit : value (cells HZ result (m2n * 2 + z2n)) = value (cells HZ result m2n)
      + base ^ m2n * value (cells HZ (result + m2n) (m2n + z2n)) := by
    rw [show m2n * 2 + z2n = m2n + (m2n + z2n) by omega,
      value_cells_append HZ result m2n (m2n + z2n) (by rw [lenHZ]; omega)]
  rw [vZ] at vsplit
  have hcz := normal_form_cells_zero HZ memory s2n (by rw [lenHZ]; omega) s25
  clear hz_lo hz_mid hz_hi ztop m281 m282 vZ0 vlow vhigh m05 m06 m25 m26 m02 m22 c3
  generalize x * u = P0 at hprod s26 vfull vZ vsplit
  generalize y * v = P2 at hprod s26 vfull vZ hP2 vsplit
  generalize (x + y) * (u + v) - P2 - P0 = Cr at hprod s26
  generalize hBdef : base ^ m2n = B at hprod vfull vZ vsplit
  subst hprod
  by_cases hc : s2n = 1 ∧ rd HZ memory = 0
  · -- the middle term is zero
    have hCr : Cr = 0 := by
      rw [← s26]
      exact hcz.mp ⟨by omega, hc.2⟩
    rw [hCr, Nat.mul_zero, Nat.add_zero] at *
    refine ⟨HZ, m2n * 2 + z2n, ?_, FZ, hlt, vfull, ?_, vZ, c5⟩
    · rw [if_neg (not_not.mpr hc)]
      push_cast
      rfl
    · exact normal_form_cells_of HZ result (m2n * 2 + z2n) (by rw [lenHZ]; omega) (by omega)
        (fun i hi => hlt i (by omega)) topnz
  · -- the middle term is added in place
    have hCr : Cr ≠ 0 := by
      intro h0
      rw [← s26] at h0
      have := hcz.mpr h0
      exact hc ⟨by omega, this.2⟩
    have nfX : normal_form (cells HZ (result + m2n) (m2n + z2n)) :=
      normal_form_cells_of HZ (result + m2n) (m2n + z2n) (by rw [lenHZ]; omega) (by omega)
        (fun i hi => by rw [Nat.add_assoc]; exact hlt (m2n + i) (by omega))
        (by rw [show result + m2n + (m2n + z2n - 1) = result + (m2n * 2 + z2n - 1) by omega]
            exact topnz)
    have kX := cells_length HZ (result + m2n) (m2n + z2n) (by rw [lenHZ]; omega)
    have kC := cells_length HZ memory s2n (by rw [lenHZ]; omega)
    generalize hvX : value (cells HZ (result + m2n) (m2n + z2n)) = vX at vsplit
    have hTe : P0 + B * Cr + B * B * P2 = value (cells HZ result m2n) + B * (vX + Cr) := by
      rw [Nat.mul_add]
      omega
    have hT2 : B * (vX + Cr) < B * base ^ (m2n + D) := by
      have : N = m2n + (m2n + D) := by omega
      rw [this, pow_add, hBdef] at hT
      omega
    have hsum : vX + Cr < base ^ (m2n + D) := Nat.lt_of_mul_lt_mul_left hT2
    clear hT2 vsplit
    subst hvX
    have hs2n : s2n ≤ m2n + D := by
      have := normal_form_size_le _ s25 (m2n + D) (by rw [s26]; omega) (by omega)
      rw [kC] at this
      exact this
    obtain ⟨n3, a31, a32, a33, a34, a35, a36⟩ := add_at_spec HZ (result + m2n) (result + m2n)
      memory (cells HZ (result + m2n) (m2n + z2n)) (cells HZ memory s2n) nfX s25
      (by rw [kX]) (by rw [kC]) (Or.inr (le_refl _))
      (by rw [kC]
          have := apart_sub _ _ _ _ (result + m2n) 0 memory s2n hRM (by omega) (by omega)
            (le_refl _) (by omega)
          omega)
      (by rw [kX, kC, lenHZ]; omega)
      (by rw [kX, kC, lenHZ, s26]
          intro hge
          have h3 := lt_of_le_of_lt hge hsum
          have := (Nat.pow_lt_pow_iff_right hb1).mp h3
          omega)
    rw [kX, kC] at a31 a32 a34 a35 a36
    rw [s26] at a36
    have eX : ((m2n + z2n : Nat) : Int) = (m2n : Int) * 2 + (z2n : Int) - (m2n : Int) := by
      push_cast
      ring
    rw [eX] at a31 a34 a35 a36
    rw [if_pos hc]
    generalize add_at HZ (result + m2n) (result + m2n) memory
      ((m2n : Int) * 2 + (z2n : Int) - (m2n : Int)) (s2n : Int) = A3 at a31 a34 a35 a36 ⊢
    obtain ⟨hk, k3⟩ := A3
    dsimp only at a31 a34 a35 a36 ⊢
    subst a31
    have g31 : m2n + z2n ≤ n3 := by omega
    have lenhk : hk.length = R2.length := by rw [a34.1, lenHZ]
    have kS := cells_length hk (result + m2n) n3 (by rw [lenhk]; omega)
    have g32 : n3 ≤ m2n + D := by
      have := normal_form_size_le _ a35 (m2n + D) (by rw [a36]; exact hsum) (by omega)
      rw [kS] at this
      exact this
    clear a32 kX kC kS eX
    have hlow : cells hk result m2n = cells HZ result m2n :=
      cells_frame HZ hk (result + m2n) n3 result m2n a34 (by omega) (by rw [lenHZ]; omega)
    have hltk : ∀ k, k < N → rd hk (result + k) < base := by
      intro k hk0
      by_cases hin : m2n ≤ k ∧ k < m2n + n3
      · have := rd_cells hk (result + m2n) n3 (k - m2n) (by omega)
        rw [show result + m2n + (k - m2n) = result + k by omega] at this
        rw [← this]
        exact rd_lt _ a35.2.1 _
      · rw [a34.2 _ (by omega)]
        exact hlt k hk0
    have hzk : ∀ k, m2n + n3 ≤ k → k < N → rd hk (result + k) = 0 := by
      intro k hk1 hk2
      rw [a34.2 _ (by omega)]
      exact ztopZ k (by omega) hk2
    have vn : value (cells hk result (m2n + n3)) = P0 + B * Cr + B * B * P2 := by
      rw [value_cells_append hk result m2n n3 (by rw [lenhk]; omega), hlow, a36, hBdef, hTe]
    have htop : rd hk (result + (m2n + n3 - 1)) ≠ 0 := by
      have := normal_form_top_ne hk (result + m2n) n3 (by rw [lenhk]; omega) a35
        (by rw [a36]; omega)
      rw [show result + m2n + (n3 - 1) = result + (m2n + n3 - 1) by omega] at this
      exact this
    refine ⟨hk, n3 + m2n, ?_, frame2_left _ _ _ _ _ _ _ _ _ FZ a34 (by omega) (by omega), hltk,
      ?_, ?_, ?_, by omega⟩
    · push_cast
      rfl
    · rw [value_cells_pad hk result (m2n + n3) N (by rw [lenhk]; omega) (by omega) hzk]
      exact vn
    · rw [Nat.add_comm n3 m2n]
      exact normal_form_cells_of hk result (m2n + n3) (by rw [lenhk]; omega) (by omega)
        (fun i hi => hltk i (by omega)) htop
    · rw [Nat.add_comm n3 m2n]
      exact vn

/-- The first half of `karatsuba`: the two sums and the three products. On exit `z1` is in
the scratch memory and `z0`, `z2` are in the result buffer, and the rest of the routine is
determined by the two subtractions. -/
theorem karatsuba_products (fuel : Nat) (h : List Nat) (result lhs rhs memory : Nat)
    (a b : List Nat) (mn m2n sc : Nat) (ha : normal_form a) (hb : normal_form b)
    (hla : cells h lhs a.length = a) (hlb : cells h rhs b.length = b)
    (hmn : mn = max a.length b.length) (hm2n : m2n = mn / 2)
    (hs1 : m2n + 2 ≤ a.length) (hs2 : m2n + 2 ≤ b.length) (hs3 : mn - m2n + 1 ≤ 30)
    (hsc : 2 * (mn - m2n + 1) ≤ sc)
    (hres : result + a.length + b.length ≤ h.length) (hmem : memory + sc ≤ h.length)
    (hRM : apart result (a.length + b.length) memory sc)
    (hRA : apart lhs a.length result (a.length + b.length))
    (hRB : apart rhs b.length result (a.length + b.length))
    (hMA : apart lhs a.length memory sc) (hMB : apart rhs b.length memory sc) :
    ∃ (R2 : List Nat) (z1n z0n z2n x y u v : Nat),
      frame2 h R2 result (a.length + b.length) memory sc
      ∧ value a * value b = x * u + base ^ m2n * ((x + y) * (u + v) - y * v - x * u)
          + base ^ m2n * base ^ m2n * (y * v)
      ∧ y * v ≠ 0
      ∧ 1 ≤ z1n ∧ z1n ≤ sc ∧ normal_form (cells R2 memory z1n)
      ∧ value (cells R2 memory z1n) = (x + y) * (u + v)
      ∧ 1 ≤ z0n ∧ z0n ≤ m2n * 2 ∧ normal_form (cells R2 result z0n)
      ∧ value (cells R2 result z0n) = x * u
      ∧ 1 ≤ z2n ∧ m2n * 2 + z2n ≤ a.length + b.length
      ∧ normal_form (cells R2 (result + m2n * 2) z2n)
      ∧ value (cells R2 (result + m2n * 2) z2n) = y * v
      ∧ (∀ k, m2n * 2 ≤ k → k < a.length + b.length → rd R2 (result + k) < base)
      ∧ value (cells R2 (result + m2n * 2) (a.length + b.length - m2n * 2)) = y * v
      ∧ (∀ k, m2n * 2 + z2n ≤ k → k < a.length + b.length → rd R2 (result + k) = 0)
      ∧ ∀ (S1 S2 : List Nat) (s1n s2n : Nat),
          sub_at R2 memory memory (result + m2n * 2) (z1n : Int) (z2n : Int)
            = some (S1, (s1n : Int)) →
          sub_at S1 memory memory result (s1n : Int) (z0n : Int) = some (S2, (s2n : Int)) →
          ¬ (z2n = 1 ∧ rd S2 (result + m2n * 2) = 0) →
          karatsuba (mul_with_scratch_memory (fuel + 1)) h result lhs rhs a.length b.length
              memory
            = if ¬ (s2n = 1 ∧ rd (for_up (fun z h => wr h z 0) (result + z0n)
                  (result + m2n * 2 - (result + z0n)) S2) memory = 0) then
                some ((add_at (for_up (fun z h => wr h z 0) (result + z0n)
                          (result + m2n * 2 - (result + z0n)) S2) (result + m2n)
                        (result + m2n) memory ((m2n : Int) * 2 + (z2n : Int) - (m2n : Int))
                        (s2n : Int)).1,
                      (add_at (for_up (fun z h => wr h z 0) (result + z0n)
                          (result + m2n * 2 - (result + z0n)) S2) (result + m2n)
                        (result + m2n) memory ((m2n : Int) * 2 + (z2n : Int) - (m2n : Int))
                        (s2n : Int)).2 + (m2n : Int))
              else some (for_up (fun z h => wr h z 0) (result + z0n)
                    (result + m2n * 2 - (result + z0n)) S2, (m2n : Int) * 2 + (z2n : Int)) := by
  have hm1 : 1 ≤ m2n := by omega
  have hA : lhs + a.length ≤ h.length := by
    have := cells_inside h lhs a hla
    omega
  have hB : rhs + b.length ≤ h.length := by
    have := cells_inside h rhs b hlb
    omega
  obtain ⟨dA, hdA⟩ : ∃ dA, a.length = m2n + dA := ⟨a.length - m2n, by omega⟩
  obtain ⟨dB, hdB⟩ : ∃ dB, b.length = m2n + dB := ⟨b.length - m2n, by omega⟩
  obtain ⟨dM, hdM⟩ : ∃ dM, mn = m2n + dM := ⟨mn - m2n, by omega⟩
  have eA : a.length - m2n = dA := by omega
  have eB : b.length - m2n = dB := by omega
  have g1 : 2 ≤ dA := by omega
  have g2 : 2 ≤ dB := by omega
  have g3 : dA ≤ dM := by omega
  have g4 : dB ≤ dM := by omega
  have g5 : dM ≤ m2n + 1 := by omega
  have g6 : m2n ≤ dM := by omega
  have g7 : dM + 1 ≤ 30 := by omega
  have g8 : 2 * (dM + 1) ≤ sc := by
    have : mn - m2n = dM := by omega
    rw [this] at hsc
    exact hsc
  obtain ⟨p1, p2, p3, p4, p5, p6, p7, p8, p9, p10, p11, p12⟩ :=
    operand_split h lhs a m2n ha hla hm1 hs1
  obtain ⟨q1, q2, q3, q4, q5, q6, q7, q8, q9, q10, q11, q12⟩ :=
    operand_split h rhs b m2n hb hlb hm1 hs2
  have KU := fun T1 T2 h1 h2 R1 R0 R2 S1 S2 HZ n1 n2 z1n z0n z2n s1n s2n =>
    karatsuba_unfold (mul_with_scratch_memory (fuel + 1)) h result lhs rhs memory a.length
      b.length mn m2n T1 T2 h1 h2 R1 R0 R2 S1 S2 HZ n1 n2 z1n z0n z2n s1n s2n hmn hm2n hs1 hs2
  simp only [eA, eB] at KU
  rw [eA] at p7 p8 p11 p12
  rw [eB] at q7 q8 q11 q12
  clear hmn hm2n ha hb hla hlb hs1 hs2 hs3 hsc hdM eA eB
  generalize hT1 : trim_at h lhs m2n = T1 at p1 p2 p3 p4 p5 p9 p10
  generalize hT2 : trim_at h rhs m2n = T2 at q1 q2 q3 q4 q5 q9 q10
  generalize a.take T1 = L1 at p3 p4 p5 p9 p10
  generalize a.drop m2n = H1 at p6 p7 p8 p9 p11 p12
  generalize b.take T2 = L2 at q3 q4 q5 q9 q10
  generalize b.drop m2n = H2 at q6 q7 q8 q9 q11 q12
  have hH1 : value H1 ≠ 0 := Nat.pos_iff_ne_zero.mp (lt_of_lt_of_le (pow_pos base_pos _) p11)
  have hH2 : value H2 ≠ 0 := Nat.pos_iff_ne_zero.mp (lt_of_lt_of_le (pow_pos base_pos _) q11)
  have hprod := karatsuba_identity (value L1) (value H1) (value L2) (value H2) (base ^ m2n)
  rw [← p9, ← q9] at hprod
  clear p11 q11 p9 q9 p10 q10 p12 q12
  -- z1_lhs = low1 + high1
  obtain ⟨n1, a11, a12, a13, a14, a15, a16⟩ := add_at_spec h result lhs (lhs + m2n) L1 H1 p3 p6
    (by rw [p4]; exact p5) (by rw [p7]; exact p8)
    (by have := apart_sub _ _ _ _ lhs L1.length result 0 hRA (by omega) (by omega) (by omega)
          (by omega); omega)
    (by have := apart_sub _ _ _ _ (lhs + m2n) H1.length result 0 hRA (by omega) (by omega)
          (by omega) (by omega); omega)
    (by omega) (fun _ => by omega)
  rw [p4, p7] at a11 a12 a14 a15 a16
  generalize hA1 : add_at h result lhs (lhs + m2n) (T1 : Int) (dA : Int) = A1 at a11 a14 a15 a16
  obtain ⟨h1, k1⟩ := A1
  dsimp only at a11 a14 a15 a16
  subst a11
  have len1 : h1.length = h.length := a14.1
  have c1 : n1 ≤ m2n + 2 := by omega
  have b1 : n1 ≤ dM + 1 := by omega
  clear a12 a13
  -- z1_rhs = low2 + high2
  have e1 : cells h1 rhs T2 = L2 := by
    rw [cells_frame h h1 result n1 rhs T2 a14
      (apart_sub _ _ _ _ rhs T2 result n1 hRB (by omega) (by omega) (by omega) (by omega))
      (by omega)]
    exact q5
  have e2 : cells h1 (rhs + m2n) dB = H2 := by
    rw [cells_frame h h1 result n1 (rhs + m2n) dB a14
      (apart_sub _ _ _ _ (rhs + m2n) dB result n1 hRB (by omega) (by omega)
        (by omega) (by omega)) (by omega)]
    exact q8
  obtain ⟨n2, a21, a22, a23, a24, a25, a26⟩ := add_at_spec h1 (result + (m2n + 2)) rhs
    (rhs + m2n) L2 H2 q3 q6 (by rw [q4]; exact e1) (by rw [q7]; exact e2)
    (by have := apart_sub _ _ _ _ rhs L2.length (result + (m2n + 2)) 0 hRB (by omega) (by omega)
          (by omega) (by omega); omega)
    (by have := apart_sub _ _ _ _ (rhs + m2n) H2.length (result + (m2n + 2)) 0 hRB (by omega)
          (by omega) (by omega) (by omega); omega)
    (by rw [len1]; omega) (fun _ => by rw [len1]; omega)
  rw [q4, q7] at a21 a22 a24 a25 a26
  generalize hA2 : add_at h1 (result + (m2n + 2)) rhs (rhs + m2n) (T2 : Int) (dB : Int) = A2
    at a21 a24 a25 a26
  obtain ⟨h2, k2⟩ := A2
  dsimp only at a21 a24 a25 a26
  subst a21
  have len2 : h2.length = h.length := by rw [a24.1, len1]
  have c2 : m2n + 2 + n2 ≤ a.length + b.length := by omega
  have b2 : n2 ≤ dM + 1 := by omega
  clear a22 e1 e2 a23
  have F2 : frame2 h h2 result (a.length + b.length) memory sc :=
    frame2_left _ _ _ _ _ _ _ _ _ (frame2_left _ _ _ _ _ _ _ _ _ (frame2_refl _ _ _ _ _) a14
      (le_refl _) (by omega)) a24 (by omega) (by omega)
  have e3 : cells h2 result n1 = cells h1 result n1 :=
    cells_frame h1 h2 (result + (m2n + 2)) n2 result n1 a24 (by omega) (by rw [len1]; omega)
  rw [← e3] at a15 a16
  clear e3 a14 a24
  -- z1 = z1_lhs * z1_rhs
  have hl1 := cells_length h2 result n1 (by rw [len2]; omega)
  have hl2 := cells_length h2 (result + (m2n + 2)) n2 (by rw [len2]; omega)
  obtain ⟨R1, z1n, m11, m12, m13, m14, m15, m16, _⟩ := mul_small_spec fuel h2 memory result
    (result + (m2n + 2)) (memory + ((n1 : Int) + (n2 : Int)).toNat) (cells h2 result n1)
    (cells h2 (result + (m2n + 2)) n2) a15 a25 (by rw [hl1]) (by rw [hl2])
    (by rw [hl1]; omega) (by rw [hl1, hl2, len2]; omega)
    (by rw [hl1, hl2]
        have := apart_sub _ _ _ _ result n1 memory (n1 + n2) hRM (by omega) (by omega)
          (by omega) (by omega)
        omega)
    (by rw [hl1, hl2]
        have := apart_sub _ _ _ _ (result + (m2n + 2)) n2 memory (n1 + n2) hRM (by omega)
          (by omega) (by omega) (by omega)
        omega)
  rw [hl1, hl2] at m11 m13 m14
  rw [a16, a26] at m16
  clear hl1 hl2 a15 a25 a16 a26
  have lenR1 : R1.length = h.length := by rw [m14.1, len2]
  have F3 : frame2 h R1 result (a.length + b.length) memory sc :=
    frame2_right _ _ _ _ _ _ _ _ _ F2 m14 (le_refl _) (by omega)
  have b3 : z1n ≤ sc := by omega
  clear F2 m14 m13 b1 b2 len1 len2
  -- z0 = low1 * low2
  obtain ⟨R0, z0n, m01, m02, m03, m04, m05, m06, _⟩ := mul_small_spec fuel R1 result lhs rhs
    (memory + z1n) L1 L2 p3 q3
    (by rw [p4, cells_frame2 h R1 _ _ _ _ lhs T1 F3
          (apart_sub _ _ _ _ lhs T1 result (a.length + b.length) hRA (by omega) (by omega)
            (by omega) (by omega))
          (apart_sub _ _ _ _ lhs T1 memory sc hMA (by omega) (by omega) (by omega) (by omega))
          (by omega)]
        exact p5)
    (by rw [q4, cells_frame2 h R1 _ _ _ _ rhs T2 F3
          (apart_sub _ _ _ _ rhs T2 result (a.length + b.length) hRB (by omega) (by omega)
            (by omega) (by omega))
          (apart_sub _ _ _ _ rhs T2 memory sc hMB (by omega) (by omega) (by omega) (by omega))
          (by omega)]
        exact q5)
    (by rw [p4]; omega) (by rw [p4, q4, lenR1]; omega)
    (by rw [p4, q4]
        have := apart_sub _ _ _ _ lhs T1 result (T1 + T2) hRA (by omega) (by omega)
          (by omega) (by omega)
        omega)
    (by rw [p4, q4]
        have := apart_sub _ _ _ _ rhs T2 result (T1 + T2) hRB (by omega) (by omega)
          (by omega) (by omega)
        omega)
  rw [p4, q4] at m01 m03 m04
  have c3 : z0n ≤ m2n * 2 := by omega
  have lenR0 : R0.length = h.length := by rw [m04.1, lenR1]
  have F4 : frame2 h R0 result (a.length + b.length) memory sc :=
    frame2_left _ _ _ _ _ _ _ _ _ F3 m04 (le_refl _) (by omega)
  clear F3 p3 q3 p4 q4 p5 q5 p1 q1
  -- z2 = high1 * high2
  obtain ⟨R2, z2n, m21, m22, m23, m24, m25, m26, _, m28, _⟩ := mul_small_spec fuel R0
    (result + m2n * 2) (lhs + m2n) (rhs + m2n) (memory + z1n) H1 H2 p6 q6
    (by rw [p7, cells_frame2 h R0 _ _ _ _ (lhs + m2n) dA F4
          (apart_sub _ _ _ _ (lhs + m2n) dA result (a.length + b.length) hRA
            (by omega) (by omega) (by omega) (by omega))
          (apart_sub _ _ _ _ (lhs + m2n) dA memory sc hMA (by omega) (by omega)
            (by omega) (by omega))
          (by omega)]
        exact p8)
    (by rw [q7, cells_frame2 h R0 _ _ _ _ (rhs + m2n) dB F4
          (apart_sub _ _ _ _ (rhs + m2n) dB result (a.length + b.length) hRB
            (by omega) (by omega) (by omega) (by omega))
          (apart_sub _ _ _ _ (rhs + m2n) dB memory sc hMB (by omega) (by omega)
            (by omega) (by omega))
          (by omega)]
        exact q8)
    (by rw [p7]; omega) (by rw [p7, q7, lenR0]; omega)
    (by rw [p7, q7]
        have := apart_sub _ _ _ _ (lhs + m2n) dA (result + m2n * 2) (dA + dB) hRA (by omega)
          (by omega) (by omega) (by omega)
        omega)
    (by rw [p7, q7]
        have := apart_sub _ _ _ _ (rhs + m2n) dB (result + m2n * 2) (dA + dB) hRB (by omega)
          (by omega) (by omega) (by omega)
        omega)
  obtain ⟨m281, m282, m283⟩ := m28 hH1 hH2
  rw [p7, q7] at m21 m23 m24 m281 m282 m283
  have lenR2 : R2.length = h.length := by rw [m24.1, lenR0]
  have c5 : m2n * 2 + z2n ≤ a.length + b.length := by omega
  have ztop : ∀ k, m2n * 2 + z2n ≤ k → k < a.length + b.length → rd R2 (result + k) = 0 := by
    intro k hk1 hk2
    rcases m283 with e | ⟨e1, e2⟩
    · omega
    · have : k = m2n * 2 + (dA + dB - 1) := by omega
      rw [this, ← Nat.add_assoc]
      exact e2
  have F5 : frame2 h R2 result (a.length + b.length) memory sc :=
    frame2_left _ _ _ _ _ _ _ _ _ F4 m24 (by omega) (by omega)
  clear m283 F4 p6 q6 p7 q7 p8 q8 hRA hRB hMA hMB hA hB
  have e61 : cells R2 memory z1n = cells R1 memory z1n := by
    rw [cells_frame R0 R2 (result + m2n * 2) (dA + dB) memory z1n m24
        (by have := apart_sub _ _ _ _ (result + m2n * 2) (dA + dB) memory z1n hRM (by omega)
              (by omega) (le_refl _) (by omega)
            omega) (by rw [lenR0]; omega),
      cells_frame R1 R0 result (T1 + T2) memory z1n m04
        (by have := apart_sub _ _ _ _ result (T1 + T2) memory z1n hRM (le_refl _)
              (by omega) (le_refl _) (by omega)
            omega) (by rw [lenR1]; omega)]
  have e62 : cells R2 result z0n = cells R0 result z0n :=
    cells_frame R0 R2 (result + m2n * 2) (dA + dB) result z0n m24 (by omega)
      (by rw [lenR0]; omega)
  refine ⟨R2, z1n, z0n, z2n, value L1, value H1, value L2, value H2, F5, hprod,
    Nat.mul_ne_zero hH1 hH2, m12, b3, by rw [e61]; exact m15, by rw [e61]; exact m16, m02, c3,
    by rw [e62]; exact m05, by rw [e62]; exact m06, m22, c5, m25, m26, ?_, ?_, ztop, ?_⟩
  · intro k hk1 hk2
    have := m281 (k - m2n * 2) (by omega)
    rw [show result + m2n * 2 + (k - m2n * 2) = result + k by omega] at this
    exact this
  · rw [show a.length + b.length - m2n * 2 = dA + dB by omega]
    exact m282
  · intro S1 S2 s1n s2n e6 e7 c4
    exact KU T1 T2 h1 h2 R1 R0 R2 S1 S2 _ n1 n2 z1n z0n z2n s1n s2n hT1 hT2 hA1 c1 hA2 c2
      m11 m01 c3 m21 e6 e7 c4 rfl c5

/-- What `karatsuba` leaves in the memory when both operands are longer than half the
longer one by two limbs and the halves are below the threshold: the product, in normal
form, in the result buffer, whose `a.length + b.length` cells all hold limbs, and no cell
written outside the result buffer and the scratch memory. -/
theorem karatsuba_spec (fuel : Nat) (h : List Nat) (result lhs rhs memory : Nat)
    (a b : List Nat) (mn m2n sc : Nat) (ha : normal_form a) (hb : normal_form b)
    (hla : cells h lhs a.length = a) (hlb : cells h rhs b.length = b)
    (hmn : mn = max a.length b.length) (hm2n : m2n = mn / 2)
    (hs1 : m2n + 2 ≤ a.length) (hs2 : m2n + 2 ≤ b.length) (hs3 : mn - m2n + 1 ≤ 30)
    (hsc : 2 * (mn - m2n + 1) ≤ sc)
    (hres : result + a.length + b.length ≤ h.length) (hmem : memory + sc ≤ h.length)
    (hRM : apart result (a.length + b.length) memory sc)
    (hRA : apart lhs a.length result (a.length + b.length))
    (hRB : apart rhs b.length result (a.length + b.length))
    (hMA : apart lhs a.length memory sc) (hMB : apart rhs b.length memory sc) :
    ∃ (hk : List Nat) (n : Nat),
      karatsuba (mul_with_scratch_memory (fuel + 1)) h result lhs rhs a.length b.length memory
          = some (hk, (n : Int))
      ∧ frame2 h hk result (a.length + b.length) memory sc
      ∧ (∀ k, k < a.length + b.length → rd hk (result + k) < base)
      ∧ value (cells hk result (a.length + b.length)) = value a * value b
      ∧ normal_form (cells hk result n) ∧ value (cells hk result n) = value a * value b
      ∧ n ≤ a.length + b.length := by
  have hm1 : 1 ≤ m2n := by omega
  obtain ⟨R2, z1n, z0n, z2n, x, y, u, v, F, hprod, hP2, m12, b3, m15, m16, m02, c3, m05, m06,
    m22, c5, m25, m26, m281, m282, ztop, KU⟩ := karatsuba_products fuel h result lhs rhs memory
      a b mn m2n sc ha hb hla hlb hmn hm2n hs1 hs2 hs3 hsc hres hmem hRM hRA hRB hMA hMB
  have hT : value a * value b < base ^ (a.length + b.length) := by
    rw [pow_add]
    exact Nat.mul_lt_mul'' (value_lt a ha.2.1) (value_lt b hb.2.1)
  obtain ⟨S1, S2, s1n, s2n, e6, e7, c4, hk, n, e, r1, r2, r3, r4, r5, r6⟩ :=
    karatsuba_assemble R2 result memory m2n (a.length + b.length) sc z1n z0n z2n x y u v
      (value a * value b) hm1 (by rw [F.1]; omega) (by rw [F.1]; exact hmem) hRM hT hprod hP2
      m12 b3 m15 m16 m02 c3 m05 m06 m22 c5 m25 m26 m281 m282 ztop
  exact ⟨hk, n, by rw [KU S1 S2 s1n s2n e6 e7 c4]; exact e,
    frame2_trans _ _ _ _ _ _ _ F r1, r2, r3, r4, r5, r6⟩

/-- The size a product in normal form has in a buffer of `N` limbs whose top limb may be
zero. -/
theorem product_size (hk : List Nat) (result N n T : Nat) (hp : result + N ≤ hk.length)
    (hN : 2 ≤ N) (hlim : ∀ k, k < N → rd hk (result + k) < base)
    (hfull : value (cells hk result N) = T) (hnf : normal_form (cells hk result n))
    (hv : value (cells hk result n) = T) (hn : n ≤ N) (hlow : base ^ (N - 2) ≤ T) :
    (n : Int) = if rd hk (result + (N - 1)) = 0 then ((N - 1 : Nat) : Int) else (N : Int) := by
  have hb1 : 1 < base := by unfold base; norm_num
  have hlen := cells_length hk result n (by omega)
  have hn1 : N - 1 ≤ n := by
    by_contra hcon
    have h1 := value_lt _ hnf.2.1
    rw [hlen, hv] at h1
    have h2 : base ^ n ≤ base ^ (N - 2) := Nat.pow_le_pow_right base_pos (by omega)
    omega
  have hsplit := value_cells_append hk result (N - 1) 1 (by omega)
  rw [show N - 1 + 1 = N by omega, hfull, cells_one hk (result + (N - 1)) (by omega)] at hsplit
  simp only [value, Nat.mul_zero, Nat.add_zero] at hsplit
  have hpre := value_lt _ (cells_mem_lt hk result (N - 1) (by omega)
    (fun i hi => hlim i (by omega)))
  rw [cells_length hk result (N - 1) (by omega)] at hpre
  have hpos : 0 < base ^ (N - 1) := pow_pos base_pos _
  split
  · rename_i h0
    rcases Nat.lt_or_ge n N with h1 | h1
    · have : n = N - 1 := by omega
      rw [this]
    · exfalso
      have : n = N := by omega
      rw [this] at hnf
      exact normal_form_top hk result N hp hN hnf h0
  · rename_i h0
    rcases Nat.lt_or_ge n N with h1 | h1
    · exfalso
      have e : n = N - 1 := by omega
      rw [e] at hv
      rw [hv] at hsplit
      have h3 : base ^ (N - 1) * rd hk (result + (N - 1)) = 0 := by omega
      rcases Nat.mul_eq_zero.mp h3 with h4 | h4
      · omega
      · exact h0 h4
    · have : n = N := by omega
      rw [this]

theorem karatsuba_crossover_full (fuel : Nat) (h : List Nat) (result lhs rhs memory : Nat)
    (a b : List Nat) (ha : normal_form a) (hb : normal_form b)
    (hla : cells h lhs a.length = a) (hlb : cells h rhs b.length = b)
    (hal : a.length = 30 ∨ a.length = 31 ∨ a.length = 32)
    (hbl : b.length = 30 ∨ b.length = 31 ∨ b.length = 32)
    (hres : result + (a.length + b.length) ≤ h.length)
    (hmem : memory + 2 * (a.length + b.length) ≤ h.length)
    (hRM : result + (a.length + b.length) ≤ memory
      ∨ memory + 2 * (a.length + b.length) ≤ result)
    (hRA : lhs + a.length ≤ result ∨ result + (a.length + b.length) ≤ lhs)
    (hRB : rhs + b.length ≤ result ∨ result + (a.length + b.length) ≤ rhs)
    (hMA : lhs + a.length ≤ memory ∨ memory + 2 * (a.length + b.length) ≤ lhs)
    (hMB : rhs + b.length ≤ memory ∨ memory + 2 * (a.length + b.length) ≤ rhs) :
    ∃ (hk : List Nat) (n : Nat),
      karatsuba (mul_with_scratch_memory (fuel + 1)) h result lhs rhs a.length b.length memory
          = some (hk, (n : Int))
      ∧ (n : Int) = (long_multiplication h result lhs rhs a.length b.length).2
      ∧ cells hk result (a.length + b.length)
          = cells (long_multiplication h result lhs rhs a.length b.length).1 result
              (a.length + b.length)
      ∧ normal_form (cells hk result n) ∧ value (cells hk result n) = value a * value b
      ∧ (n = a.length + b.length ∨ n = a.length + b.length - 1)
      ∧ hk.length = h.length
      ∧ ∀ x, (x < result ∨ result + (a.length + b.length) ≤ x) →
          (x < memory ∨ memory + 2 * (a.length + b.length) ≤ x) → rd hk x = rd h x := by
  obtain ⟨mn, hmn⟩ : ∃ mn, mn = max a.length b.length := ⟨_, rfl⟩
  obtain ⟨m2n, hm2n⟩ : ∃ m2n, m2n = mn / 2 := ⟨_, rfl⟩
  obtain ⟨sc, hsc⟩ : ∃ sc, sc = 2 * (a.length + b.length) := ⟨_, rfl⟩
  rw [← hsc] at hmem hRM hMA hMB ⊢
  have g1 : m2n + 2 ≤ a.length := by omega
  have g2 : m2n + 2 ≤ b.length := by omega
  have g3 : mn - m2n + 1 ≤ 30 := by omega
  have g4 : 2 * (mn - m2n + 1) ≤ sc := by omega
  have g5 : result + a.length + b.length ≤ h.length := by omega
  have a1 : apart result (a.length + b.length) memory sc := hRM
  have a2 : apart lhs a.length result (a.length + b.length) := hRA
  have a3 : apart rhs b.length result (a.length + b.length) := hRB
  have a4 : apart lhs a.length memory sc := hMA
  have a5 : apart rhs b.length memory sc := hMB
  obtain ⟨hk, n, e, F, lim, vfull, nf, vn, hn⟩ := karatsuba_spec fuel h result lhs rhs memory
    a b mn m2n sc ha hb hla hlb hmn hm2n g1 g2 g3 g4 g5 hmem a1 a2 a3 a4 a5
  clear hmn hm2n g1 g2 g3 g4 a1 a2 a3 a4 a5 hRM hMA hMB
  obtain ⟨lf, ll, lv, ls⟩ := long_multiplication_spec h result lhs rhs a b ha.2.1 hb.2.1
    (by omega) (by omega) hla hlb (by omega) (by omega) (by omega)
  have hcells : cells hk result (a.length + b.length)
      = cells (long_multiplication h result lhs rhs a.length b.length).1 result
          (a.length + b.length) :=
    value_inj_of_length _ _
      (cells_mem_lt hk result _ (by rw [F.1]; omega) lim)
      (cells_mem_lt _ result _ (by rw [lf.1]; omega) ll)
      (by rw [cells_length _ _ _ (by rw [F.1]; omega), cells_length _ _ _ (by rw [lf.1]; omega)])
      (by rw [vfull, lv])
  have htop : rd hk (result + (a.length + b.length - 1))
      = rd (long_multiplication h result lhs rhs a.length b.length).1
          (result + (a.length + b.length - 1)) := by
    rw [← rd_cells hk result (a.length + b.length) (a.length + b.length - 1) (by omega),
      ← rd_cells _ result (a.length + b.length) (a.length + b.length - 1) (by omega), hcells]
  have hlow : base ^ (a.length + b.length - 2) ≤ value a * value b := by
    have h1 := normal_form_ge a ha (by omega)
    have h2 := normal_form_ge b hb (by omega)
    rw [show a.length + b.length - 2 = (a.length - 1) + (b.length - 1) by omega, pow_add]
    exact Nat.mul_le_mul h1 h2
  have hsz := product_size hk result (a.length + b.length) n (value a * value b)
    (by rw [F.1]; omega) (by omega) lim vfull nf vn hn hlow
  refine ⟨hk, n, e, ?_, hcells, nf, vn, ?_, F.1, F.2⟩
  · rw [ls, ← htop]
    exact hsz
  · split at hsz <;> omega

/-- C23: for magnitudes `a` and `b` in normal form whose lengths are each 30, 31 or 32,
held in a memory where the result buffer of `a.length + b.length` limbs, the scratch
buffer of `2 * (a.length + b.length)` limbs and the operands do not overlap, `karatsuba`
called directly returns a size `n` and a memory `hk` such that `n` is the size
`long_multiplication` returns on the same inputs and the `a.length + b.length` limbs of
the result buffer are those `long_multiplication` writes; the first `n` of them are the
normal form of `value a * value b`, and no cell outside the two buffers is written. -/
theorem karatsuba_crossover (fuel : Nat) (h : List Nat) (result lhs rhs memory : Nat)
    (a b : List Nat) (ha : normal_form a) (hb : normal_form b)
    (hla : cells h lhs a.length = a) (hlb : cells h rhs b.length = b)
    (hal : a.length = 30 ∨ a.length = 31 ∨ a.length = 32)
    (hbl : b.length = 30 ∨ b.length = 31 ∨ b.length = 32)
    (hres : result + (a.length + b.length) ≤ h.length)
    (hmem : memory + 2 * (a.length + b.length) ≤ h.length)
    (hRM : result + (a.length + b.length) ≤ memory
      ∨ memory + 2 * (a.length + b.length) ≤ result)
    (hRA : lhs + a.length ≤ result ∨ result + (a.length + b.length) ≤ lhs)
    (hRB : rhs + b.length ≤ result ∨ result + (a.length + b.length) ≤ rhs)
    (hMA : lhs + a.length ≤ memory ∨ memory + 2 * (a.length + b.length) ≤ lhs)
    (hMB : rhs + b.length ≤ memory ∨ memory + 2 * (a.length + b.length) ≤ rhs) :
    ∃ (hk : List Nat) (n : Nat),
      karatsuba (mul_with_scratch_memory (fuel + 1)) h result lhs rhs a.length b.length memory
          = some (hk, (n : Int))
      ∧ (n : Int) = (long_multiplication h result lhs rhs a.length b.length).2
      ∧ cells hk result (a.length + b.length)
          = cells (long_multiplication h result lhs rhs a.length b.length).1 result
              (a.length + b.length)
      ∧ normal_form (cells hk result n) ∧ value (cells hk result n) = value a * value b
      ∧ (n = a.length + b.length ∨ n = a.length + b.length - 1)
      ∧ hk.length = h.length
      ∧ ∀ x, (x < result ∨ result + (a.length + b.length) ≤ x) →
          (x < memory ∨ memory + 2 * (a.length + b.length) ≤ x) → rd hk x = rd h x :=
  karatsuba_crossover_full fuel h result lhs rhs memory a b ha hb hla hlb hal hbl hres hmem
    hRM hRA hRB hMA hMB

set_option maxRecDepth 100000 in
theorem karatsuba_crossover_witness :
    normal_form (List.replicate 30 4294967295) ∧ normal_form (List.replicate 31 7)
      ∧ cells (mul_memory (List.replicate 30 4294967295) (List.replicate 31 7) 0) 184
          (List.replicate 30 4294967295).length = List.replicate 30 4294967295
      ∧ cells (mul_memory (List.replicate 30 4294967295) (List.replicate 31 7) 0) 214
          (List.replicate 31 7).length = List.replicate 31 7
      ∧ ∃ (hk : List Nat) (n : Nat),
        karatsuba (mul_with_scratch_memory (0 + 1))
            (mul_memory (List.replicate 30 4294967295) (List.replicate 31 7) 0) 123 184 214
            ((List.replicate 30 4294967295).length : Int) ((List.replicate 31 7).length : Int) 1
          = some (hk, (n : Int))
        ∧ (n : Int) = (long_multiplication
            (mul_memory (List.replicate 30 4294967295) (List.replicate 31 7) 0) 123 184 214
            ((List.replicate 30 4294967295).length : Int)
            ((List.replicate 31 7).length : Int)).2
        ∧ cells hk 123 ((List.replicate 30 4294967295).length + (List.replicate 31 7).length)
          = cells (long_multiplication
              (mul_memory (List.replicate 30 4294967295) (List.replicate 31 7) 0) 123 184 214
              ((List.replicate 30 4294967295).length : Int)
              ((List.replicate 31 7).length : Int)).1 123
              ((List.replicate 30 4294967295).length + (List.replicate 31 7).length) :=
  ⟨by decide, by decide, by decide, by decide,
    (karatsuba_crossover 0 (mul_memory (List.replicate 30 4294967295) (List.replicate 31 7) 0)
      123 184 214 1 (List.replicate 30 4294967295) (List.replicate 31 7)
      (by decide) (by decide) (by decide) (by decide) (by decide) (by decide) (by decide)
      (by decide) (by decide) (by decide) (by decide) (by decide) (by decide)).imp
      fun _ h => h.imp fun _ h => ⟨h.1, h.2.1, h.2.2.1⟩⟩

end bigint
